import Mathlib

/-!
# Parallel BAIJ matrix-vector multiply support (`src/mat/impls/baij/mpi/mmbaij.c`)

A shallow embedding of `MatSetUpMultiply_MPIBAIJ`, `DisAssemble_MPIBAIJ` and the diagonal
scaling routines of that file, and of the functions of `src/vec/interface/vector.c` that set
the block size, set values through a local-to-global mapping and hand out the array of a
vector.

Conventions of the embedding.

* C arrays are lists.  A read `p[k]` is `p.getD k 0` and a write `p[k] = v` is `p.set k v`;
  an access outside the allocated cells (undefined behaviour in C) reads the default and
  writes nothing.  The theorems carry the range hypotheses under which no such access occurs.
* `PetscInt` values are natural numbers standing for 32-bit two's-complement bit patterns;
  the products and quotients the code computes are reduced explicitly (`PetscInt_mul`,
  `PetscInt_div`).  Counters that only count array cells (`ec++`) are not reduced.
* `PetscMalloc` returns cells whose contents are unspecified; they are modelled as `0`
  and no theorem about the code depends on their value.
* Scalars (`MatScalar`, `PetscScalar`) are only ever copied by the code modelled here, so
  they are an arbitrary type `α`.
* Allocation and communication failures of the collaborators (`CHKERRQ` paths) are not
  modelled: the functions below describe the successful path.
-/

namespace MMBAIJ

/-! ## Machine integers -/

/-- Largest `PetscInt` (a 32-bit `int`). -/
def PETSC_MAX_INT : Nat := 2147483647

/-- Signed reading of a 32-bit pattern. -/
def PetscInt_toInt (x : Nat) : Int :=
  if x % 2 ^ 32 < 2 ^ 31 then ((x % 2 ^ 32 : Nat) : Int) else ((x % 2 ^ 32 : Nat) : Int) - 2 ^ 32

/-- Bit pattern of a (possibly negative) integer. -/
def PetscInt_ofInt (z : Int) : Nat := (z % 2 ^ 32).toNat

/-- The C product `a*b` on `PetscInt`: wraps modulo `2^32`. -/
def PetscInt_mul (a b : Nat) : Nat := (a * b) % 2 ^ 32

/-- The C quotient `a/b` on `PetscInt`: signed division truncating towards zero. -/
def PetscInt_div (a b : Nat) : Nat :=
  PetscInt_ofInt (Int.tdiv (PetscInt_toInt a) (PetscInt_toInt b))

/-! ## Control structure -/

/-- The loop `for (i=0; i<n; i++) body` whose bound `n` is not changed by the body. -/
def forLoop {σ : Type} (n : Nat) (body : Nat → σ → σ) (s : σ) : σ :=
  (List.range n).foldl (fun s i => body i s) s

/-- The loop `for (j=lo; j<hi; j++) body`. -/
def forLoopFrom {σ : Type} (lo hi : Nat) (body : Nat → σ → σ) (s : σ) : σ :=
  ((List.range (hi - lo)).map (fun d => lo + d)).foldl (fun s j => body j s) s

/-! ## Data model -/

/-- `InsertMode` of the PETSc headers. -/
inductive InsertMode where
  | NOT_SET_VALUES
  | INSERT_VALUES
  | ADD_VALUES
  deriving DecidableEq, Repr

/-- The fields of a sequential BAIJ matrix (`Mat` header and `Mat_SeqBAIJ` data) that
`mmbaij.c` reads or writes.  `i` holds the `mbs+1` row offsets into `j`, `ilen[r]` the number
of used slots of row `r`, `imax[r]` the number of slots of row `r`, `j` the block column of
every slot and `a` the `bs2` scalars of every slot. -/
structure Mat_SeqBAIJ (α : Type) where
  bs : Nat
  bs2 : Nat
  mbs : Nat
  nbs : Nat
  m : Nat
  n : Nat
  i : List Nat
  ilen : List Nat
  imax : List Nat
  j : List Nat
  a : List α
  roworiented : Bool
  insertmode : InsertMode

/-- Storage positions `B->i[i] + j`, `j < B->ilen[i]`, in the order the double loops of
`MatSetUpMultiply_MPIBAIJ` visit them. -/
def slots {α : Type} (B : Mat_SeqBAIJ α) : List Nat :=
  (List.range B.mbs).flatMap
    (fun r => (List.range (B.ilen.getD r 0)).map (fun jj => B.i.getD r 0 + jj))

/-- The column references stored in the block, in visiting order (with repetitions). -/
def colRefs {α : Type} (B : Mat_SeqBAIJ α) : List Nat :=
  (slots B).map (fun k => B.j.getD k 0)

/-- Row slots lie inside the column array and the rows do not overlap: the layout invariant
`ilen[r] <= imax[r] = i[r+1] - i[r]` of every `Mat_SeqBAIJ`. -/
def RowsOK {α : Type} (B : Mat_SeqBAIJ α) : Prop :=
  (∀ r, r < B.mbs → B.i.getD r 0 + B.ilen.getD r 0 ≤ B.i.getD (r + 1) 0) ∧
    B.i.getD B.mbs 0 ≤ B.j.length

instance {α : Type} (B : Mat_SeqBAIJ α) : Decidable (RowsOK B) := by
  unfold RowsOK; infer_instance

/-- The used slots of every row hold strictly increasing block columns: the order invariant
of every `Mat_SeqBAIJ` row. -/
def RowsSorted {α : Type} (B : Mat_SeqBAIJ α) : Prop :=
  ∀ r, r < B.mbs → ∀ t2, t2 < B.ilen.getD r 0 → ∀ t1, t1 < t2 →
    B.j.getD (B.i.getD r 0 + t1) 0 < B.j.getD (B.i.getD r 0 + t2) 0

instance {α : Type} (B : Mat_SeqBAIJ α) : Decidable (RowsSorted B) := by
  unfold RowsSorted; infer_instance

/-! ## Compaction, dense-marker strategy (`#else` branch, lines 69-102) -/

/-- Result of the compaction step: the count `ec`, the array `garray` (of `ec+1` cells) and
the block with its column indices rewritten, `nbs` and `n` updated. -/
structure Compaction (α : Type) where
  ec : Nat
  garray : List Nat
  B : Mat_SeqBAIJ α

/-- Body of the marking loop for a column `c`: `if (!indices[c]) ec++; indices[c] = 1;`. -/
def markStep (s : List Nat × Nat) (c : Nat) : List Nat × Nat :=
  (s.1.set c 1, if s.1.getD c 0 = 0 then s.2 + 1 else s.2)

/-- Lines 73-78: mark the referenced columns and count the distinct ones. -/
def markColumns {α : Type} (B : Mat_SeqBAIJ α) (indices : List Nat) : List Nat × Nat :=
  forLoop B.mbs (fun i s =>
    forLoop (B.ilen.getD i 0) (fun j s => markStep s (B.j.getD (B.i.getD i 0 + j) 0)) s)
    (indices, 0)

/-- Lines 82-87: `ec = 0; for (i<Nbs) if (indices[i]) garray[ec++] = i;`. -/
def formGarray (Nbs : Nat) (indices garray : List Nat) : List Nat × Nat :=
  forLoop Nbs (fun i s =>
    if indices.getD i 0 ≠ 0 then (s.1.set s.2 i, s.2 + 1) else s) (garray, 0)

/-- Lines 90-92: `for (i<ec) indices[garray[i]] = i;`. -/
def pointIndices (ec : Nat) (garray indices : List Nat) : List Nat :=
  forLoop ec (fun i ind => ind.set (garray.getD i 0) i) indices

/-- Lines 95-99: `aj[B->i[i]+j] = indices[aj[B->i[i]+j]]` for every used slot. -/
def compactColumns {α : Type} (B : Mat_SeqBAIJ α) (indices aj : List Nat) : List Nat :=
  forLoop B.mbs (fun i aj =>
    forLoop (B.ilen.getD i 0) (fun j aj =>
      aj.set (B.i.getD i 0 + j) (indices.getD (aj.getD (B.i.getD i 0 + j) 0) 0)) aj) aj

/-- The array `indices` of the dense-marker branch as it stands after line 92, when the
column indices are rewritten through it: the Column Remap.  It has `Nbs+1` cells of which the
first `Nbs` are zeroed; `garray` has `ec+1` cells for the `ec` counted by the marking loop. -/
def denseIndices {α : Type} (Nbs : Nat) (B : Mat_SeqBAIJ α) : List Nat :=
  let marked := markColumns B (List.replicate Nbs 0 ++ [0])
  let formed := formGarray Nbs marked.1 (List.replicate (marked.2 + 1) 0)
  pointIndices formed.2 formed.1 marked.1

/-- The dense-marker compaction of `MatSetUpMultiply_MPIBAIJ` (lines 71-102). -/
def compactDense {α : Type} (Nbs : Nat) (B : Mat_SeqBAIJ α) : Compaction α :=
  let marked := markColumns B (List.replicate Nbs 0 ++ [0])
  let formed := formGarray Nbs marked.1 (List.replicate (marked.2 + 1) 0)
  let ec := formed.2
  let indices := pointIndices ec formed.1 marked.1
  let aj := compactColumns B indices B.j
  { ec := ec
    garray := formed.1
    B := { B with j := aj, nbs := ec, n := PetscInt_mul ec B.bs } }

/-- The Ghost Array of a compaction: the cells `garray[0..ec)`. -/
def Compaction.ghost {α : Type} (c : Compaction α) : List Nat := c.garray.take c.ec

/-- A block holding only column structure: `rows` lists, per row, its used column ids; every
row is allocated exactly its used slots. -/
def blockOfRows (bs : Nat) (rows : List (List Nat)) : Mat_SeqBAIJ Int :=
  { bs := bs
    bs2 := bs * bs
    mbs := rows.length
    nbs := 0
    m := rows.length * bs
    n := 0
    i := (List.range (rows.length + 1)).map (fun r => ((rows.take r).map List.length).sum)
    ilen := rows.map List.length
    imax := rows.map List.length
    j := rows.flatten
    a := List.replicate (rows.flatten.length * (bs * bs)) 0
    roworiented := true
    insertmode := InsertMode.NOT_SET_VALUES }

/-! ## Compaction, sparse-table strategy (`PETSC_USE_CTABLE` branch, lines 30-66) -/

/-- Modelled from the spec: `PetscTable` (`ctable.c`, not under `src/`), the
"associative structure keyed by global column id".  Keys and data are positive; a table is
the list of its bindings, at most one per key. -/
abbrev PetscTable := List (Nat × Nat)

/-- Modelled from the spec: `PetscTableCreate`, an empty table (its size hint is not kept). -/
def PetscTableCreate (_n : Nat) : PetscTable := []

/-- Modelled from the spec: `PetscTableFind`, the data bound to `key`, or `0` when the key is
absent (the reason the table is used one-based). -/
def PetscTableFind (ta : PetscTable) (key : Nat) : Nat := (ta.lookup key).getD 0

/-- Modelled from the spec: `PetscTableAdd`, bind `key` to `data`, replacing an earlier
binding of the key. -/
def PetscTableAdd (ta : PetscTable) (key data : Nat) : PetscTable :=
  (key, data) :: ta.filter (fun e => e.1 ≠ key)

/-- Modelled from the spec: `PetscTableRemoveAll`. -/
def PetscTableRemoveAll (_ta : PetscTable) : PetscTable := []

/-- Modelled from the spec: `PetscSortInt(n, v)` (`sorti.c`, not under `src/`), "sort the
collected keys": the first `n` cells of `v` in ascending order. -/
def PetscSortInt (n : Nat) (v : List Nat) : List Nat :=
  (v.take n).insertionSort (· ≤ ·) ++ v.drop n

/-- Body of the first table loop for a column `c` (lines 34-39): `gid1 = c + 1`, and
`PetscTableAdd(gid1_lid1, gid1, ++ec)` when the table does not hold `gid1`. -/
def tableStep (s : PetscTable × Nat) (c : Nat) : PetscTable × Nat :=
  if PetscTableFind s.1 (c + 1) = 0 then (PetscTableAdd s.1 (c + 1) (s.2 + 1), s.2 + 1) else s

/-- Lines 32-41: give every referenced column a one-based local id on first sight. -/
def tableColumns {α : Type} (B : Mat_SeqBAIJ α) : PetscTable × Nat :=
  forLoop B.mbs (fun i s =>
    forLoop (B.ilen.getD i 0) (fun j s => tableStep s (B.j.getD (B.i.getD i 0 + j) 0)) s)
    (PetscTableCreate B.mbs, 0)

/-- Lines 44-49: walk the table (`PetscTableGetHeadPosition`/`PetscTableGetNext`) storing
`garray[lid-1] = gid-1` for every binding; the bindings are walked in list order. -/
def tableKeys (ta : PetscTable) (garray : List Nat) : List Nat :=
  ta.foldl (fun g e => g.set (e.2 - 1) (e.1 - 1)) garray

/-- Lines 51-54: empty the table and re-insert `garray[i]+1 -> i+1`. -/
def tableRefill (ec : Nat) (garray : List Nat) (ta : PetscTable) : PetscTable :=
  forLoop ec (fun i ta => PetscTableAdd ta (garray.getD i 0 + 1) (i + 1)) (PetscTableRemoveAll ta)

/-- Lines 56-63: `aj[B->i[i]+j] = PetscTableFind(gid1_lid1, aj[B->i[i]+j] + 1) - 1`. -/
def tableCompactColumns {α : Type} (B : Mat_SeqBAIJ α) (ta : PetscTable) (aj : List Nat) :
    List Nat :=
  forLoop B.mbs (fun i aj =>
    forLoop (B.ilen.getD i 0) (fun j aj =>
      aj.set (B.i.getD i 0 + j) (PetscTableFind ta (aj.getD (B.i.getD i 0 + j) 0 + 1) - 1)) aj) aj

/-- The sparse-table compaction of `MatSetUpMultiply_MPIBAIJ` (lines 31-66). -/
def compactCTable {α : Type} (B : Mat_SeqBAIJ α) : Compaction α :=
  let tabled := tableColumns B
  let ec := tabled.2
  let garray := PetscSortInt ec (tableKeys tabled.1 (List.replicate (ec + 1) 0))
  let gid1_lid1 := tableRefill ec garray tabled.1
  let aj := tableCompactColumns B gid1_lid1 B.j
  { ec := ec
    garray := garray
    B := { B with j := aj, nbs := ec, n := PetscInt_mul ec B.bs } }

/-- The compaction step under the build option `PETSC_USE_CTABLE` (`#if ... #else ... #endif`,
lines 29-103). -/
def compactBlock {α : Type} (useCTable : Bool) (Nbs : Nat) (B : Mat_SeqBAIJ α) : Compaction α :=
  if useCTable then compactCTable B else compactDense Nbs B

/-! ## Vectors, index sets and the scatter plan -/

/-- Modelled from the spec: a sequential vector (`VecCreateSeq`, not under `src/`), "a vector
of length `ec * blockSize`": its local values. -/
structure Vec (α : Type) where
  array : List α

/-- Modelled from the spec: `VecCreateSeq(comm, n, &v)`, a vector of `n` cells. -/
def VecCreateSeq {α : Type} [Inhabited α] (n : Nat) : Vec α := { array := List.replicate n default }

/-- Modelled from the spec: `VecGetSize`. -/
def VecGetSize {α : Type} (v : Vec α) : Nat := v.array.length

/-- Modelled from the spec: `ISCreateBlock(comm, bs, n, idx, &is)` (not under `src/`):
every one of the first `n` entries of `idx` is the first element address of a block and is
"expanded by block size into `blockSize` consecutive element addresses".  The index set is
kept at element granularity. -/
def ISCreateBlock (bs n : Nat) (idx : List Nat) : List Nat :=
  (idx.take n).flatMap (fun b => (List.range bs).map (fun k => b + k))

/-- Modelled from the spec: the Scatter Plan (`VecScatterCreate`, not under `src/`), "built
from two paired index sets (source addresses into the distributed vector, destination
offsets into the Local Ghost Buffer)". -/
structure VecScatter where
  ix_from : List Nat
  ix_to : List Nat

/-- Modelled from the spec: `VecScatterCreate(gvec, from, lvec, to, &ctx)`. -/
def VecScatterCreate (ix_from ix_to : List Nat) : VecScatter :=
  { ix_from := ix_from, ix_to := ix_to }

/-- Modelled from the spec: one forward gather with `INSERT_VALUES`: for each position `p` of
the paired index sets, the element of the distributed vector `x` at the `p`-th source address
is copied into the buffer at the `p`-th destination offset.  `x` is the distributed vector
read by global element address. -/
def VecScatterGather {α : Type} (ctx : VecScatter) (x : Nat → α) (y : Vec α) : Vec α :=
  { array := (List.zip ctx.ix_from ctx.ix_to).foldl (fun y p => y.set p.2 (x p.1)) y.array }

/-! ## The parallel matrix -/

/-- The blocked local-to-global mapping `inA->bmapping` of a matrix: `n` local block
indices and the global block index of each. -/
structure ISLocalToGlobalMapping where
  n : Nat
  indices : List Nat

/-- The fields of a parallel BAIJ matrix (`Mat` header `m`, `n`, `N`, `was_assembled`,
`bmapping` and `Mat_MPIBAIJ` data) that `mmbaij.c` reads or writes.  A null pointer is `none`.
`A` is the diagonal block, `B` the off-diagonal block; `rstart_bs` and `rend_bs` are the
first owned global element row and one past the last, the pair that
`MatGetOwnershipRange` hands out. -/
structure Mat_MPIBAIJ (α : Type) where
  bs : Nat
  bs2 : Nat
  Nbs : Nat
  m : Nat
  n : Nat
  N : Nat
  B : Mat_SeqBAIJ α
  garray : Option (List Nat)
  lvec : Option (Vec α)
  Mvctx : Option VecScatter
  colmap : Option (List Nat)
  was_assembled : Bool
  A : Mat_SeqBAIJ α
  rstart_bs : Nat
  rend_bs : Nat
  bmapping : ISLocalToGlobalMapping

/-- Lines 109-111: `garray[i] = bs*garray[i]`. -/
def scaleGarray (bs ec : Nat) (garray : List Nat) : List Nat :=
  forLoop ec (fun i g => g.set i (PetscInt_mul bs (g.getD i 0))) garray

/-- Lines 113-115: `garray[i] = garray[i]/bs`. -/
def unscaleGarray (bs ec : Nat) (garray : List Nat) : List Nat :=
  forLoop ec (fun i g => g.set i (PetscInt_div (g.getD i 0) bs)) garray

/-- Lines 117-118: `stmp[i] = bs*i` in a fresh array of `ec+1` cells. -/
def fillStmp (bs ec : Nat) : List Nat :=
  forLoop ec (fun i s => s.set i (PetscInt_mul bs i)) (List.replicate (ec + 1) 0)

/-- `MatSetUpMultiply_MPIBAIJ`.  `useCTable` is the build option `PETSC_USE_CTABLE`.  The
receive posting and the barrier (lines 136-137) change none of the fields modelled. -/
def MatSetUpMultiply_MPIBAIJ {α : Type} [Inhabited α] (useCTable : Bool)
    (mat : Mat_MPIBAIJ α) : Mat_MPIBAIJ α :=
  let c := compactBlock useCTable mat.Nbs mat.B
  let ec := c.ec
  let lvec : Vec α := VecCreateSeq (PetscInt_mul ec mat.bs)
  let garray1 := scaleGarray mat.bs ec c.garray
  let ix_from := ISCreateBlock mat.bs ec garray1
  let garray2 := unscaleGarray mat.bs ec garray1
  let ix_to := ISCreateBlock mat.bs ec (fillStmp mat.bs ec)
  { mat with
    B := c.B
    lvec := some lvec
    Mvctx := some (VecScatterCreate ix_from ix_to)
    garray := some garray2 }

/-! ## Disassembly -/

/-- Offset of row `r` when the rows have `len 0`, `len 1`, ... slots and are stored one after
the other: `len 0 + ... + len (r-1)`. -/
def rowOffset (len : Nat → Nat) (r : Nat) : Nat := ((List.range r).map len).sum

/-- Modelled from the spec: `MatAssemblyBegin/End` on the sequential block (`baij.c`, not
under `src/`), which makes "row boundaries, per-row nonzero counts" describe exactly the
stored entries: the unused slots of every row are squeezed out, the stored entries keep their
order and values. -/
def MatAssemblyEnd_SeqBAIJ {α : Type} [Inhabited α] (B : Mat_SeqBAIJ α) : Mat_SeqBAIJ α :=
  { B with
    i := (List.range (B.mbs + 1)).map (rowOffset (fun q => B.ilen.getD q 0))
    ilen := (List.range B.mbs).map (fun q => B.ilen.getD q 0)
    imax := (List.range B.mbs).map (fun q => B.ilen.getD q 0)
    j := (slots B).map (fun k => B.j.getD k 0)
    a := (slots B).flatMap
      (fun k => (List.range B.bs2).map (fun t => B.a.getD (k * B.bs2 + t) default)) }

/-- Modelled from the spec: `MatCreate`, `MatSetType` and `MatSeqBAIJSetPreallocation(Bnew,
bs, 0, nz)` (not under `src/`): an empty block of `m/bs` block rows and `n/bs` block columns
whose row `r` has `nz[r]` free slots. -/
def MatSeqBAIJSetPreallocation {α : Type} [Inhabited α] (m n bs : Nat) (nz : List Nat) :
    Mat_SeqBAIJ α :=
  let mbs := m / bs
  let total := rowOffset (fun q => nz.getD q 0) mbs
  { bs := bs
    bs2 := bs * bs
    mbs := mbs
    nbs := n / bs
    m := m
    n := n
    i := (List.range (mbs + 1)).map (rowOffset (fun q => nz.getD q 0))
    ilen := List.replicate mbs 0
    imax := (List.range mbs).map (fun q => nz.getD q 0)
    j := List.replicate total 0
    a := List.replicate (total * (bs * bs)) default
    roworiented := true
    insertmode := InsertMode.NOT_SET_VALUES }

/-- The options `MAT_ROW_ORIENTED` / `MAT_COLUMN_ORIENTED` of `MatSetOption`. -/
inductive MatOption where
  | MAT_ROW_ORIENTED
  | MAT_COLUMN_ORIENTED
  deriving DecidableEq, Repr

/-- Modelled from the spec: `MatSetOption` for the two orientation options. -/
def MatSetOption {α : Type} (B : Mat_SeqBAIJ α) (op : MatOption) : Mat_SeqBAIJ α :=
  { B with roworiented := decide (op = MatOption.MAT_ROW_ORIENTED) }

/-- Number of slots by which the routine enlarges a full row. -/
def CHUNKSIZE : Nat := 10

/-- Write the `bs2` scalars of `v` into slot `k` of the value array. -/
def writeBlock {α : Type} [Inhabited α] (bs2 k : Nat) (v : Nat → α) (a : List α) : List α :=
  forLoop bs2 (fun t a => a.set (k * bs2 + t) (v t)) a

/-- Modelled from the spec: `MatSetValuesBlocked_SeqBAIJ(A, 1, &row, 1, &col, v, is)` (declared
at line 6, defined in `baij.c`, not under `src/`) for one block.  The used slots of a row are
kept in increasing column order.  When the row already holds `col` its block is overwritten
(added to under `ADD_VALUES`); otherwise the later entries of the row move up one slot and the
block is stored at the freed slot, after the row has been enlarged by `CHUNKSIZE` slots when
it had no free slot.  With `roworiented` the caller's block is read row by row, otherwise
in storage order. -/
def MatSetValuesBlocked_SeqBAIJ {α : Type} [Inhabited α] [Add α] (A : Mat_SeqBAIJ α)
    (row col : Nat) (v : List α) (is : InsertMode) : Mat_SeqBAIJ α :=
  let start := A.i.getD row 0
  let nrow := A.ilen.getD row 0
  let value : Nat → α := fun t =>
    if A.roworiented then v.getD ((t % A.bs) * A.bs + t / A.bs) default else v.getD t default
  let pos := ((List.range nrow).map (fun t => A.j.getD (start + t) 0)).findIdx (fun c => col ≤ c)
  if pos < nrow ∧ A.j.getD (start + pos) 0 = col then
    let sum : Nat → α := fun t =>
      if is = InsertMode.ADD_VALUES then A.a.getD ((start + pos) * A.bs2 + t) default + value t
      else value t
    { A with a := writeBlock A.bs2 (start + pos) sum A.a }
  else
    let full := decide (A.imax.getD row 0 ≤ nrow)
    let i1 := if full then
        (List.range A.i.length).map (fun r => if row < r then A.i.getD r 0 + CHUNKSIZE
          else A.i.getD r 0)
      else A.i
    let imax1 := if full then A.imax.set row (A.imax.getD row 0 + CHUNKSIZE) else A.imax
    let j1 := if full then
        A.j.take (start + nrow) ++ List.replicate CHUNKSIZE 0 ++ A.j.drop (start + nrow)
      else A.j
    let a1 := if full then
        A.a.take ((start + nrow) * A.bs2) ++ List.replicate (CHUNKSIZE * A.bs2) default
          ++ A.a.drop ((start + nrow) * A.bs2)
      else A.a
    let j2 := forLoop (nrow - pos) (fun d j =>
      j.set (start + nrow - d) (j.getD (start + nrow - 1 - d) 0)) j1
    let a2 := forLoop (nrow - pos) (fun d a =>
      writeBlock A.bs2 (start + nrow - d)
        (fun t => a.getD ((start + nrow - 1 - d) * A.bs2 + t) default) a) a1
    { A with
      i := i1
      imax := imax1
      ilen := A.ilen.set row (nrow + 1)
      j := j2.set (start + pos) col
      a := writeBlock A.bs2 (start + pos) value a2 }

/-- `DisAssemble_MPIBAIJ` (built without `PETSC_USE_MAT_SINGLE`).  A null `garray` is read
as an empty array. -/
def DisAssemble_MPIBAIJ {α : Type} [Inhabited α] [Add α] (A : Mat_MPIBAIJ α) : Mat_MPIBAIJ α :=
  let mbs := A.B.mbs
  let garray := A.garray.getD []
  let Bbaij := MatAssemblyEnd_SeqBAIJ A.B
  let nz := forLoop mbs (fun i nz => nz.set i (Bbaij.i.getD (i + 1) 0 - Bbaij.i.getD i 0))
    (List.replicate mbs 0)
  let Bnew0 : Mat_SeqBAIJ α := MatSeqBAIJSetPreallocation A.m A.N A.bs nz
  let Bnew1 := MatSetOption Bnew0 MatOption.MAT_COLUMN_ORIENTED
  let Bnew2 := forLoop mbs (fun i Bnew =>
    forLoopFrom (Bbaij.i.getD i 0) (Bbaij.i.getD (i + 1) 0) (fun j Bnew =>
      let col := garray.getD (Bbaij.j.getD j 0) 0
      let atmp := (List.range A.bs2).map (fun t => Bbaij.a.getD (j * A.bs2 + t) default)
      MatSetValuesBlocked_SeqBAIJ Bnew i col atmp Bbaij.insertmode) Bnew) Bnew1
  let Bnew3 := MatSetOption Bnew2 MatOption.MAT_ROW_ORIENTED
  { A with
    lvec := none
    Mvctx := none
    colmap := none
    garray := none
    B := Bnew3
    was_assembled := false }

/-- The block stored at block row `row`, block column `col`, if the row holds that column:
its `bs2` scalars in storage order. -/
def blockAt {α : Type} [Inhabited α] (B : Mat_SeqBAIJ α) (row col : Nat) : Option (List α) :=
  match (List.range (B.ilen.getD row 0)).find? (fun t => B.j.getD (B.i.getD row 0 + t) 0 = col) with
  | some t => some ((List.range B.bs2).map
      (fun q => B.a.getD ((B.i.getD row 0 + t) * B.bs2 + q) default))
  | none => none

/-! ## Invariant of the rebuilding loop of `DisAssemble_MPIBAIJ` -/

/-- What the rebuilding loop needs of the freshly allocated block `B0` and of the entries it
is fed: rows of `len r` slots stored one after the other, column-oriented input, columns
`col k` strictly increasing inside every row, and `vf k` holding the scalars `val` of entry
`k`. -/
def BuildCtx {α : Type} [Inhabited α] (len : Nat → Nat) (mbs : Nat) (col : Nat → Nat)
    (val : Nat → α) (vf : Nat → List α) (B0 : Mat_SeqBAIJ α) : Prop :=
  B0.roworiented = false ∧
  (∀ r, r ≤ mbs → B0.i.getD r 0 = rowOffset len r) ∧
  (∀ r, r < mbs → B0.imax.getD r 0 = len r) ∧
  (∀ r, r < mbs → ∀ k2, k2 < rowOffset len (r + 1) → ∀ k1, k1 < k2 → rowOffset len r ≤ k1 →
    col k1 < col k2) ∧
  (∀ k t, t < B0.bs2 → (vf k).getD t default = val (k * B0.bs2 + t))

/-- State of the new block when the entries `0 .. K-1` of the old block have been stored:
only `ilen`, `j` and `a` differ from the fresh block `B0`; row `q` holds its first
`min (len q) (K - offset q)` entries; slot `k < K` holds column `col k` and scalars `val`. -/
def BuildInv {α : Type} [Inhabited α] (len : Nat → Nat) (mbs : Nat) (col : Nat → Nat)
    (val : Nat → α) (B0 Bn : Mat_SeqBAIJ α) (K : Nat) : Prop :=
  Bn = { B0 with ilen := Bn.ilen, j := Bn.j, a := Bn.a } ∧
  Bn.ilen.length = mbs ∧
  (∀ q, q < mbs → Bn.ilen.getD q 0 = min (len q) (K - rowOffset len q)) ∧
  Bn.j.length = rowOffset len mbs ∧
  (∀ k, k < K → Bn.j.getD k 0 = col k) ∧
  Bn.a.length = rowOffset len mbs * B0.bs2 ∧
  (∀ x, x < K * B0.bs2 → Bn.a.getD x default = val x)

/-- State of the new block when the entries `0 .. K-1` of the old block have been stored and
their columns `col k` are only known to be distinct inside every row: the rows keep their
offsets and capacities, row `q` holds `min (len q) (K - offset q)` entries, and each of them is
the column of an entry of that row stored so far. -/
def FillInv {α : Type} (len : Nat → Nat) (mbs : Nat) (col : Nat → Nat) (Bn : Mat_SeqBAIJ α)
    (K : Nat) : Prop :=
  (∀ r, r ≤ mbs → Bn.i.getD r 0 = rowOffset len r) ∧
  (∀ r, r < mbs → Bn.imax.getD r 0 = len r) ∧
  Bn.ilen.length = mbs ∧
  (∀ q, q < mbs → Bn.ilen.getD q 0 = min (len q) (K - rowOffset len q)) ∧
  Bn.j.length = rowOffset len mbs ∧
  (∀ q, q < mbs → ∀ t, t < Bn.ilen.getD q 0 → ∃ k, rowOffset len q ≤ k ∧ k < K ∧
    k < rowOffset len (q + 1) ∧ Bn.j.getD (rowOffset len q + t) 0 = col k)

/-! ## The Diagonal Scale Cache (lines 236-361) -/

/-- The error codes that the modelled routines return. -/
inductive PetscErrorCode where
  | PETSC_ERR_PLIB
  | PETSC_ERR_ARG_SIZ
  | PETSC_ERR_ARG_NULL
  | PETSC_ERR_ARG_OUTOFRANGE
  | PETSC_ERR_ARG_WRONGSTATE
  | PETSC_ERR_ARG_WRONG
  deriving DecidableEq, Repr

/-- The file-scope variables of lines 238-240: `uglyrmapd`, `uglyrmapo` (index maps) and
`uglydd`, `uglyoo` (work vectors).  They belong to the process, not to a matrix; `none` is
the null pointer they are initialised with. -/
structure UglyStatics (α : Type) where
  uglyrmapd : Option (List Nat)
  uglyrmapo : Option (List Nat)
  uglydd : Option (Vec α)
  uglyoo : Option (Vec α)

/-- The file-scope variables at program start: all null. -/
def UglyStatics.initial {α : Type} : UglyStatics α :=
  { uglyrmapd := none, uglyrmapo := none, uglydd := none, uglyoo := none }

/-- Modelled from the spec: `MatGetOwnershipRange` (not under `src/`), "ownership ranges are
given, not computed here": the pair stored with the matrix. -/
def MatGetOwnershipRange {α : Type} (mat : Mat_MPIBAIJ α) : Nat × Nat :=
  (mat.rstart_bs, mat.rend_bs)

/-- Modelled from the spec: `MatGetSize` on a sequential block (not under `src/`): its row and
column counts. -/
def MatGetSize {α : Type} (M : Mat_SeqBAIJ α) : Nat × Nat := (M.m, M.n)

/-- Modelled from the spec: `VecGetLocalSize` on a sequential vector. -/
def VecGetLocalSize {α : Type} (v : Vec α) : Nat := v.array.length

/-- Lines 259-265: count the local block indices whose first element column lies in
`[cstart, cend)` and store `indices[i] + 1` for them in `r_rmapd` (zeroed before). -/
def ownedPass (bs cstart cend : Nat) (bmapping : ISLocalToGlobalMapping) : Nat × List Nat :=
  forLoop bmapping.n (fun i s =>
    if cstart ≤ PetscInt_mul (bmapping.indices.getD i 0) bs ∧
        PetscInt_mul (bmapping.indices.getD i 0) bs < cend then
      (s.1 + 1, s.2.set i (bmapping.indices.getD i 0 + 1))
    else s) (0, List.replicate (bmapping.n + 1) 0)

/-- Lines 268-274: `uglyrmapd[(r_rmapd[i]-1)*bs+j-cstart] = i*bs + j` for every `i` with
`r_rmapd[i]` nonzero, in a fresh array of `n+1` cells. -/
def fillRmapd (bs cstart n bn : Nat) (r_rmapd : List Nat) : List Nat :=
  forLoop bn (fun i u =>
    if r_rmapd.getD i 0 ≠ 0 then
      forLoop bs (fun j u =>
        u.set (PetscInt_mul (r_rmapd.getD i 0 - 1) bs + j - cstart) (PetscInt_mul i bs + j)) u
    else u) (List.replicate (n + 1) 0)

/-- Lines 278-282: `lindices[garray[i]] = i+1` for `i < B->nbs`, in an array of `Nbs+1` cells
of which the first `Nbs` are zeroed. -/
def ghostPositions (Nbs nbs : Nat) (garray : List Nat) : List Nat :=
  forLoop nbs (fun i l => l.set (garray.getD i 0) (i + 1)) (List.replicate (Nbs + 1) 0)

/-- Lines 286-292: count the local block indices that `lindices` knows and store their
one-based ghost position in `r_rmapo` (zeroed before). -/
def ghostPass (lindices : List Nat) (bmapping : ISLocalToGlobalMapping) : Nat × List Nat :=
  forLoop bmapping.n (fun i s =>
    if lindices.getD (bmapping.indices.getD i 0) 0 ≠ 0 then
      (s.1 + 1, s.2.set i (lindices.getD (bmapping.indices.getD i 0) 0))
    else s) (0, List.replicate (bmapping.n + 1) 0)

/-- Lines 295-302: `uglyrmapo[(r_rmapo[i]-1)*bs+j] = i*bs + j` for every `i` with
`r_rmapo[i]` nonzero, in a fresh array of `nt*bs+1` cells. -/
def fillRmapo (bs nt bn : Nat) (r_rmapo : List Nat) : List Nat :=
  forLoop bn (fun i u =>
    if r_rmapo.getD i 0 ≠ 0 then
      forLoop bs (fun j u =>
        u.set (PetscInt_mul (r_rmapo.getD i 0 - 1) bs + j) (PetscInt_mul i bs + j)) u
    else u) (List.replicate (PetscInt_mul nt bs + 1) 0)

/-- `MatMPIBAIJDiagonalScaleLocalSetUp` on the file-scope variables `st`: the error code
(`ok` is 0) and the variables as the routine leaves them.  A failure of the first check
returns before any of them is assigned; a failure of the second returns after `uglyrmapd`
and `uglydd` were assigned.  A null `garray` is read as an empty array. -/
def MatMPIBAIJDiagonalScaleLocalSetUp {α : Type} [Inhabited α] (inA : Mat_MPIBAIJ α)
    (_scale : Vec α) (st : UglyStatics α) : Except PetscErrorCode Unit × UglyStatics α :=
  let bs := inA.A.bs
  let garray := inA.garray.getD []
  let cstart := (MatGetOwnershipRange inA).1
  let cend := (MatGetOwnershipRange inA).2
  let n := (MatGetSize inA.A).2
  let owned := ownedPass bs cstart cend inA.bmapping
  if PetscInt_mul owned.1 bs ≠ n then (Except.error PetscErrorCode.PETSC_ERR_PLIB, st)
  else
    let st1 : UglyStatics α :=
      { st with
        uglyrmapd := some (fillRmapd bs cstart n inA.bmapping.n owned.2)
        uglydd := some (VecCreateSeq n) }
    let lindices := ghostPositions inA.Nbs inA.B.nbs garray
    let no := inA.bmapping.n - owned.1
    let ghosts := ghostPass lindices inA.bmapping
    if no < ghosts.1 then (Except.error PetscErrorCode.PETSC_ERR_PLIB, st1)
    else
      (Except.ok (),
        { st1 with
          uglyrmapo := some (fillRmapo bs ghosts.1 inA.bmapping.n ghosts.2)
          uglyoo := some (VecCreateSeq (PetscInt_mul ghosts.1 bs)) })

/-- Modelled from the spec: `MatDiagonalScale(M, PETSC_NULL, rr)` on a sequential block
(`baij2.c`, not under `src/`), the "column-scaling operation": a right vector whose length is
not the column count of the block is refused; otherwise every stored block at a slot `p`
has the scalars of its element column `k` multiplied by `rr[bs*j[p] + k]` (a block is stored
column by column, scalar `t` of a block lies in element column `t / bs`). -/
def MatDiagonalScale {α : Type} [Inhabited α] [Mul α] (M : Mat_SeqBAIJ α) (rr : Vec α) :
    Except PetscErrorCode (Mat_SeqBAIJ α) :=
  if VecGetLocalSize rr ≠ M.n then Except.error PetscErrorCode.PETSC_ERR_ARG_SIZ
  else
    let scaled := (slots M).foldl (fun a p =>
      forLoop M.bs2 (fun t a =>
        a.set (p * M.bs2 + t)
          (a.getD (p * M.bs2 + t) default * rr.array.getD (M.bs * M.j.getD p 0 + t / M.bs) default))
        a) M.a
    Except.ok { M with a := scaled }

/-- Lines 341-346 and 350-355: `w[i] = s[rmap[i]]` for every cell of a work vector. -/
def fillWork {α : Type} [Inhabited α] (s : List α) (rmap : List Nat) (w : Vec α) : Vec α :=
  { array := forLoop (VecGetLocalSize w)
      (fun i d => d.set i (s.getD (rmap.getD i 0) default)) w.array }

/-- Lines 339-359 of `MatDiagonalScaleLocal_MPIBAIJ`, entered with the result `r` of the
lazy set-up: fill `uglydd` and scale the diagonal block, fill `uglyoo` and scale the
off-diagonal block.  A null work vector is refused by the header check of `VecGetLocalSize`
(modelled from the spec: the checking macro is not under `src/`); a null index map is read
as an empty array. -/
def scaleBlocks {α : Type} [Inhabited α] [Mul α] (A : Mat_MPIBAIJ α) (scale : Vec α)
    (r : Except PetscErrorCode Unit × UglyStatics α) :
    Except PetscErrorCode Unit × Mat_MPIBAIJ α × UglyStatics α :=
  match r.1 with
  | Except.error e => (Except.error e, A, r.2)
  | Except.ok _ =>
    match r.2.uglydd with
    | none => (Except.error PetscErrorCode.PETSC_ERR_ARG_NULL, A, r.2)
    | some dd =>
      let d := fillWork scale.array (r.2.uglyrmapd.getD []) dd
      let st2 : UglyStatics α := { r.2 with uglydd := some d }
      match MatDiagonalScale A.A d with
      | Except.error e => (Except.error e, A, st2)
      | Except.ok A1 =>
        match r.2.uglyoo with
        | none => (Except.error PetscErrorCode.PETSC_ERR_ARG_NULL, { A with A := A1 }, st2)
        | some oo =>
          let o := fillWork scale.array (r.2.uglyrmapo.getD []) oo
          let st3 : UglyStatics α := { st2 with uglyoo := some o }
          match MatDiagonalScale A.B o with
          | Except.error e => (Except.error e, { A with A := A1 }, st3)
          | Except.ok B1 => (Except.ok (), { A with A := A1, B := B1 }, st3)

/-- `MatDiagonalScaleLocal_MPIBAIJ` on the file-scope variables `st`: the error code, the
matrix and the variables as the routine leaves them.  Lines 335-337: the set-up runs when
`uglyrmapd` is null. -/
def MatDiagonalScaleLocal_MPIBAIJ {α : Type} [Inhabited α] [Mul α] (A : Mat_MPIBAIJ α)
    (scale : Vec α) (st : UglyStatics α) :
    Except PetscErrorCode Unit × Mat_MPIBAIJ α × UglyStatics α :=
  scaleBlocks A scale
    (if st.uglyrmapd.isNone then MatMPIBAIJDiagonalScaleLocalSetUp A scale st
      else (Except.ok (), st))

/-- A structural epoch change: `DisAssemble_MPIBAIJ`, any change `change` of the uncompacted
off-diagonal block (the inserts that made the disassembly necessary), and
`MatSetUpMultiply_MPIBAIJ` again. -/
def reassemble {α : Type} [Inhabited α] [Add α] (useCTable : Bool)
    (change : Mat_SeqBAIJ α → Mat_SeqBAIJ α) (M : Mat_MPIBAIJ α) : Mat_MPIBAIJ α :=
  MatSetUpMultiply_MPIBAIJ useCTable
    { DisAssemble_MPIBAIJ M with B := change (DisAssemble_MPIBAIJ M).B }

/-- The local block indices whose first element column lies in the ownership range have
pairwise distinct global indices. -/
def OwnedDistinct {α : Type} (inA : Mat_MPIBAIJ α) : Prop :=
  ∀ i, i < inA.bmapping.n → ∀ k, k < inA.bmapping.n →
    (inA.rstart_bs ≤ inA.bmapping.indices.getD i 0 * inA.A.bs ∧
      inA.bmapping.indices.getD i 0 * inA.A.bs < inA.rend_bs) →
    (inA.rstart_bs ≤ inA.bmapping.indices.getD k 0 * inA.A.bs ∧
      inA.bmapping.indices.getD k 0 * inA.A.bs < inA.rend_bs) →
    inA.bmapping.indices.getD i 0 = inA.bmapping.indices.getD k 0 → i = k

instance {α : Type} (inA : Mat_MPIBAIJ α) : Decidable (OwnedDistinct inA) := by
  unfold OwnedDistinct; infer_instance

/-- The products formed by the set-up stay in the range of `PetscInt`. -/
def ProductsOK {α : Type} (inA : Mat_MPIBAIJ α) : Prop :=
  (∀ i, i < inA.bmapping.n → inA.bmapping.indices.getD i 0 * inA.A.bs ≤ PETSC_MAX_INT) ∧
    inA.bmapping.n * inA.A.bs ≤ PETSC_MAX_INT ∧ inA.B.nbs * inA.A.bs ≤ PETSC_MAX_INT

instance {α : Type} (inA : Mat_MPIBAIJ α) : Decidable (ProductsOK inA) := by
  unfold ProductsOK; infer_instance

/-- Well-formedness of the ownership range for the scaling routines, for the block row `rs`
at which the process's ownership starts: the range is block aligned and spans the columns of
the diagonal block, the products formed by the set-up stay in the range of `PetscInt`, and
the local block indices inside the range have pairwise distinct global indices. -/
def OwnershipOK {α : Type} (inA : Mat_MPIBAIJ α) (rs : Nat) : Prop :=
  (inA.rstart_bs = rs * inA.A.bs ∧ inA.rend_bs = inA.rstart_bs + inA.A.n) ∧
    ProductsOK inA ∧ OwnedDistinct inA

instance {α : Type} (inA : Mat_MPIBAIJ α) (rs : Nat) : Decidable (OwnershipOK inA rs) := by
  unfold OwnershipOK; infer_instance

/-- The Ghost Array cells `garray[0..nbs)` are pairwise distinct columns `<= Nbs`. -/
def GhostArrayOK {α : Type} (inA : Mat_MPIBAIJ α) : Prop :=
  (∀ p, p < inA.B.nbs → ∀ q, q < inA.B.nbs →
      (inA.garray.getD []).getD p 0 = (inA.garray.getD []).getD q 0 → p = q) ∧
    (∀ p, p < inA.B.nbs → (inA.garray.getD []).getD p 0 ≤ inA.Nbs)

instance {α : Type} (inA : Mat_MPIBAIJ α) : Decidable (GhostArrayOK inA) := by
  unfold GhostArrayOK; infer_instance

/-- The local block indices mapped to ghost columns have pairwise distinct global indices. -/
def GhostDistinct {α : Type} (inA : Mat_MPIBAIJ α) : Prop :=
  ∀ i, i < inA.bmapping.n → ∀ k, k < inA.bmapping.n →
    (∃ q, q < inA.B.nbs ∧ (inA.garray.getD []).getD q 0 = inA.bmapping.indices.getD i 0) →
    inA.bmapping.indices.getD i 0 = inA.bmapping.indices.getD k 0 → i = k

instance {α : Type} (inA : Mat_MPIBAIJ α) : Decidable (GhostDistinct inA) := by
  unfold GhostDistinct; infer_instance

/-- Every ghost column is the image of a local block index. -/
def GhostCovered {α : Type} (inA : Mat_MPIBAIJ α) : Prop :=
  ∀ p, p < inA.B.nbs → ∃ i, i < inA.bmapping.n ∧
    inA.bmapping.indices.getD i 0 = (inA.garray.getD []).getD p 0

instance {α : Type} (inA : Mat_MPIBAIJ α) : Decidable (GhostCovered inA) := by
  unfold GhostCovered; infer_instance

/-- Well-formedness of the ghost part of the local-to-global mapping. -/
def GhostMappingOK {α : Type} (inA : Mat_MPIBAIJ α) : Prop :=
  GhostArrayOK inA ∧ GhostDistinct inA ∧ GhostCovered inA

instance {α : Type} (inA : Mat_MPIBAIJ α) : Decidable (GhostMappingOK inA) := by
  unfold GhostMappingOK; infer_instance

/-- Well-formedness of a sequential block for column scaling: square blocks, `n = nbs*bs`
columns and stored column indices below `nbs`. -/
def ColumnsOK {α : Type} (M : Mat_SeqBAIJ α) : Prop :=
  M.bs2 = M.bs * M.bs ∧ M.n = M.nbs * M.bs ∧ (∀ k, k ∈ slots M → M.j.getD k 0 < M.nbs)

instance {α : Type} (M : Mat_SeqBAIJ α) : Decidable (ColumnsOK M) := by
  unfold ColumnsOK; infer_instance

/-- Well-formedness of a matrix handed to the scaling routines. -/
def ScaleLayoutOK {α : Type} (inA : Mat_MPIBAIJ α) (rs : Nat) : Prop :=
  OwnershipOK inA rs ∧ GhostMappingOK inA ∧ ColumnsOK inA.A ∧ ColumnsOK inA.B ∧
    inA.B.bs = inA.A.bs

instance {α : Type} (inA : Mat_MPIBAIJ α) (rs : Nat) : Decidable (ScaleLayoutOK inA rs) := by
  unfold ScaleLayoutOK; infer_instance

/-! ## The writes and the checks of the cache set-up, for the claims about them -/

/-- The writes of lines 296-302 in the order the loops perform them: the offset
`(r_rmapo[i]-1)*bs + j` into `uglyrmapo` and the value `i*bs + j` stored there, for every `i`
with `r_rmapo[i]` nonzero and every `j < bs`. -/
def rmapoWrites (bs bn : Nat) (r_rmapo : List Nat) : List (Nat × Nat) :=
  (List.range bn).flatMap (fun i =>
    if r_rmapo.getD i 0 ≠ 0 then
      (List.range bs).map
        (fun j => (PetscInt_mul (r_rmapo.getD i 0 - 1) bs + j, PetscInt_mul i bs + j))
    else [])

/-- The count `nt` of lines 286-292 in a call of `MatMPIBAIJDiagonalScaleLocalSetUp`. -/
def setUpGhostCount {α : Type} (inA : Mat_MPIBAIJ α) : Nat :=
  (ghostPass (ghostPositions inA.Nbs inA.B.nbs (inA.garray.getD [])) inA.bmapping).1

/-- The writes to `uglyrmapo` in a call of `MatMPIBAIJDiagonalScaleLocalSetUp` that reaches
lines 296-302. -/
def setUpRmapoWrites {α : Type} (inA : Mat_MPIBAIJ α) : List (Nat × Nat) :=
  rmapoWrites inA.A.bs inA.bmapping.n
    (ghostPass (ghostPositions inA.Nbs inA.B.nbs (inA.garray.getD [])) inA.bmapping).2

/-- In the words of the specification: the number of local block indices `i` with
`cstart <= bmapping.indices[i]*bs < cend`. -/
def specOwnedCount {α : Type} (inA : Mat_MPIBAIJ α) : Nat :=
  ((List.range inA.bmapping.n).filter (fun i =>
    decide (inA.rstart_bs ≤ inA.bmapping.indices.getD i 0 * inA.A.bs ∧
      inA.bmapping.indices.getD i 0 * inA.A.bs < inA.rend_bs))).length

/-- In the words of the specification: the number of local block indices that are ghost
columns, the cells `garray[0..B->nbs)` of the Ghost Array. -/
def specGhostCount {α : Type} (inA : Mat_MPIBAIJ α) : Nat :=
  ((List.range inA.bmapping.n).filter (fun i =>
    decide (∃ q, q < inA.B.nbs ∧
      (inA.garray.getD []).getD q 0 = inA.bmapping.indices.getD i 0))).length

/-- In the words of the specification: a dimension check fails, either `nt*bs != n` for the
column count `n` of the diagonal block, or the ghost columns among the local block indices
are more than the local block indices outside the ownership range. -/
def specDimensionCheckFails {α : Type} (inA : Mat_MPIBAIJ α) : Prop :=
  specOwnedCount inA * inA.A.bs ≠ inA.A.n ∨
    inA.bmapping.n - specOwnedCount inA < specGhostCount inA

instance {α : Type} (inA : Mat_MPIBAIJ α) : Decidable (specDimensionCheckFails inA) := by
  unfold specDimensionCheckFails; infer_instance

/-- Range conditions under which the set-up reads and writes only initialised cells of its
arrays and forms no product outside the range of `PetscInt`: the Ghost Array cells and the
global indices of the mapping are block columns below `Nbs`. -/
def SetUpInputOK {α : Type} (inA : Mat_MPIBAIJ α) : Prop :=
  (∀ i, i < inA.bmapping.n → inA.bmapping.indices.getD i 0 * inA.A.bs ≤ PETSC_MAX_INT) ∧
    inA.bmapping.n * inA.A.bs ≤ PETSC_MAX_INT ∧
    (∀ p, p < inA.B.nbs → (inA.garray.getD []).getD p 0 < inA.Nbs) ∧
    (∀ i, i < inA.bmapping.n → inA.bmapping.indices.getD i 0 < inA.Nbs)

instance {α : Type} (inA : Mat_MPIBAIJ α) : Decidable (SetUpInputOK inA) := by
  unfold SetUpInputOK; infer_instance

/-! ## The vector interface (`src/vec/interface/vector.c`) -/

/-- The class tags that the header of a PETSc object carries in its `cookie` field, as far
as `vector.c` names them. -/
inductive Cookie where
  | VEC_COOKIE
  | IS_LTOGM_COOKIE
  deriving DecidableEq, Repr

/-- The fields of a vector object (`struct _p_Vec`, declared in `vecimpl.h`, not under
`src/`) that the modelled functions read or write: the class tag, the global length `N`, the
local length `n`, the block size `bs` (C `int`s), the two local-to-global mappings (a null
pointer is `none`) and the data `data` of the vector implementation. -/
structure _p_Vec (σ : Type) where
  cookie : Cookie
  N : Int
  n : Int
  bs : Int
  mapping : Option ISLocalToGlobalMapping
  bmapping : Option ISLocalToGlobalMapping
  data : σ

/-- The entries of the function table `x->ops` of a vector implementation that the modelled
functions call or test; a null entry is `none`.  An operation returns an error code or the
vector as it leaves it; `getarray` and `restorearray` also return the array `*a`.  The table
is passed next to the vector. -/
structure VecOps (σ α : Type) where
  setvaluesblocked : _p_Vec σ → Nat → List Nat → List α → InsertMode →
    Except PetscErrorCode (_p_Vec σ)
  getarray : _p_Vec σ → Except PetscErrorCode (_p_Vec σ × List α)
  restorearray : Option (_p_Vec σ → List α → Except PetscErrorCode (_p_Vec σ × List α))

/-- Modelled from the spec: the argument check `PetscValidHeaderSpecific(h, ck)` (a macro of
the PETSc headers, not under `src/`): the calling function returns with an error unless the
object carries the class tag `ck`, the test that `VecValid` (lines 58-66) makes.  The pointer
checks `PetscValidIntPointer`, `PetscValidScalarPointer` and `PetscValidPointer` have no
counterpart here: arrays are values. -/
def PetscValidHeaderSpecific (cookie ck : Cookie) : Except PetscErrorCode Unit :=
  if cookie = ck then Except.ok () else Except.error PetscErrorCode.PETSC_ERR_ARG_WRONG

/-- `VecValid` (lines 58-66) for a non-null vector. -/
def VecValid {σ : Type} (v : _p_Vec σ) : Bool := decide (v.cookie = Cookie.VEC_COOKIE)

/-- `VecSetBlockSize` (lines 30-39): the error code and the vector as the routine leaves it.
`%` is the remainder of C, truncating towards zero. -/
def VecSetBlockSize {σ : Type} (v : _p_Vec σ) (bs : Int) :
    Except PetscErrorCode Unit × _p_Vec σ :=
  match PetscValidHeaderSpecific v.cookie Cookie.VEC_COOKIE with
  | Except.error e => (Except.error e, v)
  | Except.ok _ =>
    if Int.tmod v.N bs ≠ 0 then (Except.error PetscErrorCode.PETSC_ERR_ARG_OUTOFRANGE, v)
    else if Int.tmod v.n bs ≠ 0 then (Except.error PetscErrorCode.PETSC_ERR_ARG_OUTOFRANGE, v)
    else (Except.ok (), { v with bs := bs })

/-- `VecSetLocalToGlobalMapping` (lines 882-895): the error code and the vector as the
routine leaves it.  The mapping is a valid object (its header check passes); its reference
count is not modelled. -/
def VecSetLocalToGlobalMapping {σ : Type} (x : _p_Vec σ) (mapping : ISLocalToGlobalMapping) :
    Except PetscErrorCode Unit × _p_Vec σ :=
  match PetscValidHeaderSpecific x.cookie Cookie.VEC_COOKIE with
  | Except.error e => (Except.error e, x)
  | Except.ok _ =>
    if x.mapping.isSome then (Except.error PetscErrorCode.PETSC_ERR_ARG_WRONGSTATE, x)
    else (Except.ok (), { x with mapping := some mapping })

/-- `VecSetLocalToGlobalMappingBlocked` (lines 918-930): the error code and the vector as
the routine leaves it.  The mapping is a valid object (its header check passes); its
reference count is not modelled. -/
def VecSetLocalToGlobalMappingBlocked {σ : Type} (x : _p_Vec σ)
    (mapping : ISLocalToGlobalMapping) : Except PetscErrorCode Unit × _p_Vec σ :=
  match PetscValidHeaderSpecific x.cookie Cookie.VEC_COOKIE with
  | Except.error e => (Except.error e, x)
  | Except.ok _ =>
    if x.bmapping.isSome then (Except.error PetscErrorCode.PETSC_ERR_ARG_WRONGSTATE, x)
    else (Except.ok (), { x with bmapping := some mapping })

/-- Modelled from the spec: `ISLocalToGlobalMappingApply(mapping, N, in, out)` (not under
`src/`), the translation of `N` local indices into global ones: `out[i] =
mapping->indices[in[i]]`.  A null mapping is read as an empty array. -/
def ISLocalToGlobalMappingApply (mapping : Option ISLocalToGlobalMapping) (N : Nat)
    (ix : List Nat) : List Nat :=
  (List.range N).map (fun i => ((mapping.map (fun m => m.indices)).getD []).getD (ix.getD i 0) 0)

/-- `VecSetValuesBlockedLocal` (lines 1024-1047) with the function table `ops` of the
vector.  The buffer `lix` is the stack array `lixp` or, for `ni > 128`, a fresh allocation;
both hold the `ni` translated indices.  Event logging is not modelled. -/
def VecSetValuesBlockedLocal {σ α : Type} (ops : VecOps σ α) (x : _p_Vec σ) (ni : Nat)
    (ix : List Nat) (y : List α) (iora : InsertMode) : Except PetscErrorCode (_p_Vec σ) :=
  match PetscValidHeaderSpecific x.cookie Cookie.VEC_COOKIE with
  | Except.error e => Except.error e
  | Except.ok _ =>
    if x.bmapping.isNone then Except.error PetscErrorCode.PETSC_ERR_ARG_WRONGSTATE
    else
      let lix := ISLocalToGlobalMappingApply x.mapping ni ix
      ops.setvaluesblocked x ni lix y iora

/-- `VecGetArray` (lines 1275-1284) with the function table `ops` of the vector: the vector
as the implementation leaves it and the array handed out in `*a`. -/
def VecGetArray {σ α : Type} (ops : VecOps σ α) (x : _p_Vec σ) :
    Except PetscErrorCode (_p_Vec σ × List α) :=
  match PetscValidHeaderSpecific x.cookie Cookie.VEC_COOKIE with
  | Except.error e => Except.error e
  | Except.ok _ => ops.getarray x

/-- `VecRestoreArray` (lines 1381-1392) with the function table `ops` of the vector and the
array `a` the caller holds in `*a`: the vector as the call leaves it and the content of `*a`
after the call. -/
def VecRestoreArray {σ α : Type} (ops : VecOps σ α) (x : _p_Vec σ) (a : List α) :
    Except PetscErrorCode (_p_Vec σ × List α) :=
  match PetscValidHeaderSpecific x.cookie Cookie.VEC_COOKIE with
  | Except.error e => Except.error e
  | Except.ok _ =>
    if ops.restorearray.isSome then ops.getarray x
    else Except.ok (x, a)

/-! ## Sample inputs -/

/-- Scenario B of the specification: block size 1, three rows referencing the global columns
5, 2, 2 and 7. -/
def scenarioB : Mat_SeqBAIJ Int := blockOfRows 1 [[5], [2], [2, 7]]

/-- The same column set as `scenarioB`, met in another order and with other multiplicities. -/
def scenarioB_reordered : Mat_SeqBAIJ Int := blockOfRows 1 [[2, 7], [5, 7], [2, 5, 7]]

/-- A parallel matrix of block size 2 with 8 global block columns whose off-diagonal
block has three block rows referencing the block columns 5; 2; 2 and 7.  Row 0 and row 2 each
keep one unused slot.  Cell `t` of the value array holds the scalar `100 + t`.  The process
owns the block rows 3, 4, 5 (element rows 6 to 11); the diagonal block holds four blocks with
the scalars `200 + t`; the local block indices 0, 1, 2 are the owned block columns. -/
def sampleMat : Mat_MPIBAIJ Int :=
  { bs := 2
    bs2 := 4
    Nbs := 8
    m := 6
    n := 6
    N := 16
    B :=
      { bs := 2
        bs2 := 4
        mbs := 3
        nbs := 8
        m := 6
        n := 16
        i := [0, 2, 3, 6]
        ilen := [1, 1, 2]
        imax := [2, 1, 3]
        j := [5, 0, 2, 2, 7, 0]
        a := (List.range 24).map (fun t => (100 + t : Int))
        roworiented := true
        insertmode := InsertMode.NOT_SET_VALUES }
    garray := none
    lvec := none
    Mvctx := none
    colmap := none
    was_assembled := false
    A :=
      { bs := 2
        bs2 := 4
        mbs := 3
        nbs := 3
        m := 6
        n := 6
        i := [0, 1, 3, 4]
        ilen := [1, 2, 1]
        imax := [1, 2, 1]
        j := [0, 0, 1, 2]
        a := (List.range 16).map (fun t => (200 + t : Int))
        roworiented := true
        insertmode := InsertMode.NOT_SET_VALUES }
    rstart_bs := 6
    rend_bs := 12
    bmapping := { n := 3, indices := [3, 4, 5] } }

/-- The distributed vector whose element at global address `p` is `10 * p`. -/
def sampleVec : Nat → Int := fun p => 10 * (p : Int)

/-- The sample matrix after `MatSetUpMultiply_MPIBAIJ` (dense-marker strategy): Ghost Array
2, 5, 7 and column indices 1; 0; 0 and 2. -/
def sampleAssembled : Mat_MPIBAIJ Int := MatSetUpMultiply_MPIBAIJ false sampleMat

/-- A parallel matrix of block size 2 whose off-diagonal block has two block rows with
three preallocated slots and no stored entry (Scenario A); the free slots hold 9. -/
def emptyBlockMat : Mat_MPIBAIJ Int :=
  { sampleMat with
    m := 4
    B :=
      { bs := 2
        bs2 := 4
        mbs := 2
        nbs := 8
        m := 4
        n := 16
        i := [0, 2, 3]
        ilen := [0, 0]
        imax := [2, 1]
        j := [9, 9, 9]
        a := List.replicate 12 0
        roworiented := true
        insertmode := InsertMode.NOT_SET_VALUES } }

/-- A square parallel matrix of block size 2 with 6 global block rows and columns, seen
from the process that owns the block rows and columns 2 and 3 (elements 4 to 7).  The
off-diagonal block references the block columns 0 and 5 in row 0 and 5 in row 1; the diagonal
block is full.  The local block indices 0, 1 are the owned columns 2, 3; the local indices 2,
3, 4 are the global block columns 0, 5 and 1. -/
def scaleMat : Mat_MPIBAIJ Int :=
  { bs := 2
    bs2 := 4
    Nbs := 6
    m := 4
    n := 4
    N := 12
    B :=
      { bs := 2
        bs2 := 4
        mbs := 2
        nbs := 6
        m := 4
        n := 12
        i := [0, 2, 3]
        ilen := [2, 1]
        imax := [2, 1]
        j := [0, 5, 5]
        a := (List.range 12).map (fun t => (100 + t : Int))
        roworiented := true
        insertmode := InsertMode.NOT_SET_VALUES }
    garray := none
    lvec := none
    Mvctx := none
    colmap := none
    was_assembled := false
    A :=
      { bs := 2
        bs2 := 4
        mbs := 2
        nbs := 2
        m := 4
        n := 4
        i := [0, 2, 4]
        ilen := [2, 2]
        imax := [2, 2]
        j := [0, 1, 0, 1]
        a := (List.range 16).map (fun t => (200 + t : Int))
        roworiented := true
        insertmode := InsertMode.NOT_SET_VALUES }
    rstart_bs := 4
    rend_bs := 8
    bmapping := { n := 5, indices := [2, 3, 0, 5, 1] } }

/-- The matrix `scaleMat` after `MatSetUpMultiply_MPIBAIJ`: Ghost Array 0, 5. -/
def scaleAssembled : Mat_MPIBAIJ Int := MatSetUpMultiply_MPIBAIJ false scaleMat

/-- A scale vector over the 10 local positions of `scaleMat`: position `p` holds `p + 2`. -/
def scaleVec : Vec Int := { array := (List.range 10).map (fun p => (p : Int) + 2) }

/-- The matrix `scaleAssembled` after a structural change: disassembled, one block stored at
block row 1 and global block column 1, and set up again: Ghost Array 0, 1, 5. -/
def scaleReassembled : Mat_MPIBAIJ Int :=
  reassemble false
    (fun B => MatSetValuesBlocked_SeqBAIJ B 1 1 [7, 7, 7, 7] InsertMode.INSERT_VALUES)
    scaleAssembled

/-- A second square matrix on the same process layout as `scaleMat` whose local-to-global
mapping lists the owned block columns in the other order. -/
def scaleMatOther : Mat_MPIBAIJ Int :=
  MatSetUpMultiply_MPIBAIJ false
    { scaleMat with bmapping := { n := 5, indices := [3, 2, 5, 0, 1] } }

/-- A rectangular parallel matrix of block size 1 seen from a process that owns the rows 0,
1, 2 while its diagonal block has 2 columns; the off-diagonal block is empty and the two
local indices are the global columns 0 and 2. -/
def rectMat : Mat_MPIBAIJ Int :=
  { bs := 1
    bs2 := 1
    Nbs := 3
    m := 3
    n := 2
    N := 3
    B :=
      { bs := 1
        bs2 := 1
        mbs := 3
        nbs := 0
        m := 3
        n := 0
        i := [0, 0, 0, 0]
        ilen := [0, 0, 0]
        imax := [0, 0, 0]
        j := []
        a := []
        roworiented := true
        insertmode := InsertMode.NOT_SET_VALUES }
    garray := some [0]
    lvec := none
    Mvctx := none
    colmap := none
    was_assembled := true
    A :=
      { bs := 1
        bs2 := 1
        mbs := 3
        nbs := 2
        m := 3
        n := 2
        i := [0, 1, 2, 3]
        ilen := [1, 1, 1]
        imax := [1, 1, 1]
        j := [0, 1, 0]
        a := [1, 2, 3]
        roworiented := true
        insertmode := InsertMode.NOT_SET_VALUES }
    rstart_bs := 0
    rend_bs := 3
    bmapping := { n := 2, indices := [0, 2] } }

/-- A parallel matrix of block size 1 with 8 global columns seen from the process that owns
column 0; its Ghost Array holds the single column 7, and the local indices 1 and 2 are both
mapped to the global column 7. -/
def dupMat : Mat_MPIBAIJ Int :=
  { bs := 1
    bs2 := 1
    Nbs := 8
    m := 1
    n := 1
    N := 8
    B :=
      { bs := 1
        bs2 := 1
        mbs := 1
        nbs := 1
        m := 1
        n := 1
        i := [0, 1]
        ilen := [1]
        imax := [1]
        j := [0]
        a := [5]
        roworiented := true
        insertmode := InsertMode.NOT_SET_VALUES }
    garray := some [7, 0]
    lvec := none
    Mvctx := none
    colmap := none
    was_assembled := true
    A :=
      { bs := 1
        bs2 := 1
        mbs := 1
        nbs := 1
        m := 1
        n := 1
        i := [0, 1]
        ilen := [1]
        imax := [1]
        j := [0]
        a := [3]
        roworiented := true
        insertmode := InsertMode.NOT_SET_VALUES }
    rstart_bs := 0
    rend_bs := 1
    bmapping := { n := 3, indices := [0, 7, 7] } }

/-- A scale vector over the 10 local positions of `scaleMat` whose entries are all 1. -/
def onesVec : Vec Int := { array := List.replicate 10 1 }

/-- The off-diagonal block of `partialMat`: block columns 2 and 5 in its one block row. -/
def partialBlock : Mat_SeqBAIJ Int :=
  { scaleMat.B with
    mbs := 1
    m := 2
    i := [0, 2]
    ilen := [2]
    imax := [2]
    j := [2, 5]
    a := (List.range 8).map (fun t => (100 + t : Int)) }

/-- A corrupted matrix: block size 2, the process owns the block columns 2 and 3, and the
off-diagonal block also references the owned block column 2, so that the Ghost Array is 2, 5.
The three local block indices are the global block columns 2, 3, 5. -/
def partialMat : Mat_MPIBAIJ Int :=
  MatSetUpMultiply_MPIBAIJ false
    { scaleMat with B := partialBlock, bmapping := { n := 3, indices := [2, 3, 5] } }

/-- The matrix `scaleAssembled` (Ghost Array 0, 5) with a local-to-global mapping that holds
the owned block columns 2, 3 and the ghost column 5 but not the ghost column 0. -/
def gapMat : Mat_MPIBAIJ Int :=
  { scaleAssembled with bmapping := { n := 3, indices := [2, 3, 5] } }

/-- The matrix `scaleAssembled` with a local-to-global mapping of one local block index, the
owned block column 2, where the diagonal block has two block columns. -/
def shortMapMat : Mat_MPIBAIJ Int :=
  { scaleAssembled with bmapping := { n := 1, indices := [2] } }

/-- The data of a sample vector implementation: the local values, the number of array
accesses handed out and not yet restored, and the global block indices and values that the
last `setvaluesblocked` call received. -/
structure SampleVecData where
  array : List Int
  outstanding : Nat
  received : List (Nat × List Int)
  deriving DecidableEq, Repr

/-- A sample function table: `getarray` hands out the local values and counts the access,
`restorearray` takes the access back and clears the caller's pointer, `setvaluesblocked`
records the block indices it is given, each with the values of its block. -/
def sampleOps : VecOps SampleVecData Int :=
  { getarray := fun x =>
      Except.ok ({ x with data := { x.data with outstanding := x.data.outstanding + 1 } },
        x.data.array)
    restorearray := some (fun x _ =>
      Except.ok ({ x with data := { x.data with outstanding := x.data.outstanding - 1 } }, []))
    setvaluesblocked := fun x ni lix y _ =>
      Except.ok { x with
        data := { x.data with
          received := (List.range ni).map (fun i =>
            (lix.getD i 0,
              (List.range x.bs.toNat).map (fun k => y.getD (x.bs.toNat * i + k) 0))) } } }

/-- A sample function table without a `restorearray` entry. -/
def sampleOpsNoRestore : VecOps SampleVecData Int :=
  { sampleOps with restorearray := none }

/-- A valid vector of 8 values in blocks of 2, without local-to-global mappings. -/
def sampleVector : _p_Vec SampleVecData :=
  { cookie := Cookie.VEC_COOKIE
    N := 8
    n := 8
    bs := 2
    mapping := none
    bmapping := none
    data := { array := [10, 11, 12, 13, 14, 15, 16, 17], outstanding := 0, received := [] } }

/-- The vector `sampleVector` after `VecSetLocalToGlobalMapping` with the element mapping
`0,1,2,3 -> 4,5,6,7` and `VecSetLocalToGlobalMappingBlocked` with the block mapping
`0,1 -> 3,1`. -/
def mappedVector : _p_Vec SampleVecData :=
  (VecSetLocalToGlobalMappingBlocked
    (VecSetLocalToGlobalMapping sampleVector { n := 4, indices := [4, 5, 6, 7] }).2
    { n := 2, indices := [3, 1] }).2

/-- The matrix `sampleAssembled` with the column indices of the two entries of its last row
exchanged: the row holds the local columns 2, 0 in this order, distinct but not increasing. -/
def unsortedRowMat : Mat_MPIBAIJ Int :=
  { sampleAssembled with B := { sampleAssembled.B with j := [1, 0, 0, 2, 0, 0] } }

/-- The matrix `scaleAssembled` seen through a local-to-global mapping of six local block
indices, in which the owned block columns 2 and 3 are the local blocks 4 and 5. -/
def bigMapMat : Mat_MPIBAIJ Int :=
  { scaleAssembled with bmapping := { n := 6, indices := [0, 5, 1, 4, 2, 3] } }

/-- A scale vector of twelve ones, the local size of `bigMapMat`. -/
def onesVec12 : Vec Int := { array := List.replicate 12 1 }

/-! ## Auxiliary facts about lists used as arrays -/

theorem getD_set_gen {β : Type} (l : List β) (k x : Nat) (v d : β) :
    (l.set k v).getD x d = if k = x ∧ k < l.length then v else l.getD x d := by
  simp only [List.getD_eq_getElem?_getD, List.getElem?_set]
  by_cases h : k = x
  · subst h
    by_cases h2 : k < l.length
    · simp [h2]
    · simp [h2, List.getElem?_eq_none (by omega : l.length ≤ k)]
  · simp [h]

theorem getD_set (l : List Nat) (k x v : Nat) :
    (l.set k v).getD x 0 = if k = x ∧ k < l.length then v else l.getD x 0 :=
  getD_set_gen l k x v 0

theorem foldl_flatMap_eq {β γ σ : Type} (f : σ → γ → σ) (g : β → List γ) (l : List β) (s : σ) :
    (l.flatMap g).foldl f s = l.foldl (fun s x => (g x).foldl f s) s := by
  induction l generalizing s with
  | nil => rfl
  | cons x xs ih => simp [List.flatMap_cons, List.foldl_append, ih]

/-- A double loop over rows and used slots is a single pass over `slots`. -/
theorem rowLoop_eq_foldl {α σ : Type} (B : Mat_SeqBAIJ α) (f : Nat → σ → σ) (s : σ) :
    forLoop B.mbs (fun i s => forLoop (B.ilen.getD i 0) (fun j s => f (B.i.getD i 0 + j) s) s) s
      = (slots B).foldl (fun s k => f k s) s := by
  unfold forLoop slots
  rw [foldl_flatMap_eq]
  congr 1
  funext s r
  rw [List.foldl_map]

/-- Rewriting distinct cells in place: each visited cell gets `f` of its old content. -/
theorem foldl_set_nodup (f : Nat → Nat) (ps : List Nat) (hnd : ps.Nodup) (l : List Nat) :
    (ps.foldl (fun l k => l.set k (f (l.getD k 0))) l).length = l.length ∧
    ∀ x, (ps.foldl (fun l k => l.set k (f (l.getD k 0))) l).getD x 0
      = if x ∈ ps ∧ x < l.length then f (l.getD x 0) else l.getD x 0 := by
  induction ps generalizing l with
  | nil => simp
  | cons k ps ih =>
    have hk : k ∉ ps := (List.nodup_cons.1 hnd).1
    obtain ⟨h1, h2⟩ := ih (List.nodup_cons.1 hnd).2 (l.set k (f (l.getD k 0)))
    refine ⟨by simpa using h1, fun x => ?_⟩
    simp only [List.foldl_cons, h2, List.length_set, getD_set, List.mem_cons]
    by_cases hx : k = x
    · subst hx
      by_cases hl : k < l.length <;> simp [hk, hl]
    · have hx' : ¬ x = k := fun h => hx h.symm
      by_cases hp : x ∈ ps <;> simp [hx, hx', hp]

/-! ## The passes of the dense-marker compaction -/

theorem markColumns_eq {α : Type} (B : Mat_SeqBAIJ α) (ind : List Nat) :
    markColumns B ind = (colRefs B).foldl markStep (ind, 0) := by
  unfold markColumns colRefs
  rw [rowLoop_eq_foldl B (fun k s => markStep s (B.j.getD k 0)), List.foldl_map]

theorem mark_foldl (L seen ind : List Nat) (e : Nat)
    (hL : ∀ c ∈ L, c < ind.length)
    (hseen : ∀ c, ind.getD c 0 ≠ 0 ↔ c ∈ seen) (he : e = seen.toFinset.card) :
    (L.foldl markStep (ind, e)).1.length = ind.length ∧
    (∀ c, (L.foldl markStep (ind, e)).1.getD c 0 ≠ 0 ↔ c ∈ seen ∨ c ∈ L) ∧
    (L.foldl markStep (ind, e)).2 = (seen ++ L).toFinset.card := by
  induction L generalizing seen ind e with
  | nil => exact ⟨rfl, fun c => by simpa using hseen c, by simpa using he⟩
  | cons c L ih =>
    have hc : c < ind.length := hL c (List.mem_cons_self _ _)
    have hseen' : ∀ x, (ind.set c 1).getD x 0 ≠ 0 ↔ x ∈ seen ++ [c] := by
      intro x
      rw [getD_set]
      by_cases hx : c = x
      · subst hx; simp [hc]
      · have hx' : ¬ x = c := fun h => hx h.symm
        rw [if_neg (fun h => hx h.1), hseen x]
        simp [hx']
    have he' : (if ind.getD c 0 = 0 then e + 1 else e) = (seen ++ [c]).toFinset.card := by
      have hins : (seen ++ [c]).toFinset = insert c seen.toFinset := by
        ext x; simp [or_comm]
      rw [hins]
      by_cases h0 : ind.getD c 0 = 0
      · have : c ∉ seen.toFinset := by
          rw [List.mem_toFinset, ← hseen c]; exact fun h => h h0
        rw [Finset.card_insert_of_not_mem this, if_pos h0, he]
      · have : c ∈ seen.toFinset := by
          rw [List.mem_toFinset, ← hseen c]; exact h0
        rw [Finset.card_insert_of_mem this, if_neg h0, he]
    have hL' : ∀ x ∈ L, x < (ind.set c 1).length := by
      intro x hx; simpa using hL x (List.mem_cons_of_mem _ hx)
    obtain ⟨h1, h2, h3⟩ := ih (seen ++ [c]) (ind.set c 1) _ hL' hseen' he'
    simp only [List.foldl_cons, markStep] at h1 h2 h3 ⊢
    refine ⟨by simpa using h1, fun x => ?_, ?_⟩
    · rw [h2 x]; simp [or_assoc]
    · rw [h3]; simp

theorem take_set_succ (g : List Nat) (e v : Nat) (h : e < g.length) :
    (g.set e v).take (e + 1) = g.take e ++ [v] := by
  have h1 : (g.set e v).take e = g.take e := by
    rw [List.set_take]
    exact List.set_eq_of_length_le (by simp)
  rw [List.take_succ, h1]
  simp [h]

theorem scan_foldl (p : Nat → Prop) [DecidablePred p] (L g : List Nat) (e : Nat)
    (h : e + (L.filter (fun i => decide (p i))).length ≤ g.length) :
    (L.foldl (fun s i => if p i then (s.1.set s.2 i, s.2 + 1) else s) (g, e)).2
        = e + (L.filter (fun i => decide (p i))).length ∧
    (L.foldl (fun s i => if p i then (s.1.set s.2 i, s.2 + 1) else s) (g, e)).1.length
        = g.length ∧
    (L.foldl (fun s i => if p i then (s.1.set s.2 i, s.2 + 1) else s) (g, e)).1.take
        (e + (L.filter (fun i => decide (p i))).length)
        = g.take e ++ L.filter (fun i => decide (p i)) := by
  induction L generalizing g e with
  | nil => simp
  | cons x L ih =>
    by_cases hx : p x
    · have hlen : e + 1 + (L.filter (fun i => decide (p i))).length ≤ (g.set e x).length := by
        simp [List.filter_cons, hx] at h ⊢; omega
      obtain ⟨h1, h2, h3⟩ := ih (g.set e x) (e + 1) hlen
      have he : e < g.length := by simp [List.filter_cons, hx] at h; omega
      simp only [List.foldl_cons, if_pos hx, List.filter_cons, decide_eq_true hx, if_true,
        List.length_cons]
      refine ⟨by rw [h1]; omega, by rw [h2]; simp, ?_⟩
      have : e + ((L.filter (fun i => decide (p i))).length + 1)
          = e + 1 + (L.filter (fun i => decide (p i))).length := by omega
      rw [this, h3, take_set_succ g e x he]
      simp
    · have hlen : e + (L.filter (fun i => decide (p i))).length ≤ g.length := by
        simpa [List.filter_cons, hx] using h
      obtain ⟨h1, h2, h3⟩ := ih g e hlen
      simp only [List.foldl_cons, if_neg hx, List.filter_cons, decide_eq_false hx]
      exact ⟨h1, h2, h3⟩

/-- The pointing pass `indices[garray[i]] = i` over an array whose first `n` cells are
pairwise distinct. -/
theorem pointIndices_spec (n : Nat) (garray ind : List Nat)
    (hinj : ∀ p q, p < n → q < n → garray.getD p 0 = garray.getD q 0 → p = q)
    (hlt : ∀ p, p < n → garray.getD p 0 < ind.length) :
    (pointIndices n garray ind).length = ind.length ∧
    (∀ p, p < n → (pointIndices n garray ind).getD (garray.getD p 0) 0 = p) ∧
    (∀ c, (∀ p, p < n → garray.getD p 0 ≠ c) →
      (pointIndices n garray ind).getD c 0 = ind.getD c 0) := by
  unfold pointIndices forLoop
  induction n with
  | zero => simp
  | succ n ih =>
    obtain ⟨h1, h2, h3⟩ := ih (fun p q hp hq => hinj p q (by omega) (by omega))
      (fun p hp => hlt p (by omega))
    rw [List.range_succ, List.foldl_append]
    simp only [List.foldl_cons, List.foldl_nil]
    refine ⟨by rw [List.length_set, h1], fun p hp => ?_, fun c hc => ?_⟩
    · rw [getD_set]
      by_cases hpn : p = n
      · subst hpn
        rw [if_pos ⟨rfl, by rw [h1]; exact hlt p (by omega)⟩]
      · have hne : garray.getD n 0 ≠ garray.getD p 0 := fun h =>
          hpn (hinj n p (by omega) hp h).symm
        rw [if_neg (fun h => hne h.1)]
        exact h2 p (by omega)
    · rw [getD_set, if_neg (fun h => hc n (by omega) h.1)]
      exact h3 c (fun p hp => hc p (by omega))

/-- Row offsets never decrease when every row fits before the next one. -/
theorem rowStart_mono {α : Type} (B : Mat_SeqBAIJ α) (h : RowsOK B) (r s : Nat)
    (hrs : r ≤ s) (hs : s ≤ B.mbs) : B.i.getD r 0 ≤ B.i.getD s 0 := by
  induction s with
  | zero =>
    have : r = 0 := by omega
    subst this; exact le_refl _
  | succ s ih =>
    by_cases hr : r = s + 1
    · subst hr; exact le_refl _
    · have h1 := ih (by omega) (by omega)
      have h2 := h.1 s (by omega)
      omega

theorem mem_slots {α : Type} (B : Mat_SeqBAIJ α) (k : Nat) :
    k ∈ slots B ↔ ∃ r, r < B.mbs ∧ B.i.getD r 0 ≤ k ∧ k < B.i.getD r 0 + B.ilen.getD r 0 := by
  unfold slots
  simp only [List.mem_flatMap, List.mem_range, List.mem_map]
  constructor
  · rintro ⟨r, hr, jj, hjj, rfl⟩
    exact ⟨r, hr, by omega, by omega⟩
  · rintro ⟨r, hr, h1, h2⟩
    exact ⟨r, hr, k - B.i.getD r 0, by omega, by omega⟩

theorem slots_lt {α : Type} (B : Mat_SeqBAIJ α) (h : RowsOK B) (k : Nat) (hk : k ∈ slots B) :
    k < B.j.length := by
  obtain ⟨r, hr, _, h2⟩ := (mem_slots B k).1 hk
  have h3 := h.1 r hr
  have h4 := rowStart_mono B h (r + 1) B.mbs (by omega) (le_refl _)
  have h5 := h.2
  omega

theorem slots_nodup {α : Type} (B : Mat_SeqBAIJ α) (h : RowsOK B) : (slots B).Nodup := by
  unfold slots
  rw [List.nodup_flatMap]
  refine ⟨fun r _ => ?_, ?_⟩
  · exact (List.nodup_range _).map (fun a b hab => by simpa using hab)
  · refine (List.pairwise_lt_range B.mbs).imp_of_mem ?_
    intro r s hr hs hrs x hxr hxs
    simp only [List.mem_range] at hr hs
    simp only [List.mem_map, List.mem_range] at hxr hxs
    obtain ⟨a, ha, rfl⟩ := hxr
    obtain ⟨b, _, hb⟩ := hxs
    have h1 := h.1 r hr
    have h2 := rowStart_mono B h (r + 1) s (by omega) (by omega)
    omega

theorem getD_take_lt (l : List Nat) (n p : Nat) (h : p < n) :
    (l.take n).getD p 0 = l.getD p 0 := by
  simp only [List.getD_eq_getElem?_getD, List.getElem?_take_of_lt h]

theorem getD_zeros (n x : Nat) : (List.replicate n 0 ++ [0]).getD x 0 = 0 := by
  have h : List.replicate n 0 ++ [0] = List.replicate (n + 1) 0 := by
    rw [List.replicate_succ']
  rw [h, List.getD_eq_getElem?_getD, List.getElem?_replicate]
  split <;> rfl

/-- The columns below `Nbs` that the block references, in increasing order. -/
theorem mem_range_filter_refs {α : Type} (Nbs : Nat) (B : Mat_SeqBAIJ α)
    (h : ∀ c ∈ colRefs B, c < Nbs) (c : Nat) :
    c ∈ (List.range Nbs).filter (fun c => decide (c ∈ colRefs B)) ↔ c ∈ colRefs B := by
  simp only [List.mem_filter, List.mem_range, decide_eq_true_eq]
  exact ⟨fun hc => hc.2, fun hc => ⟨h c hc, hc⟩⟩

theorem range_filter_refs_sorted {α : Type} (Nbs : Nat) (B : Mat_SeqBAIJ α) :
    ((List.range Nbs).filter (fun c => decide (c ∈ colRefs B))).Sorted (· < ·) :=
  (List.sorted_lt_range Nbs).filter _

theorem range_filter_refs_length {α : Type} (Nbs : Nat) (B : Mat_SeqBAIJ α)
    (h : ∀ c ∈ colRefs B, c < Nbs) :
    ((List.range Nbs).filter (fun c => decide (c ∈ colRefs B))).length
      = (colRefs B).toFinset.card := by
  rw [← List.toFinset_card_of_nodup (range_filter_refs_sorted Nbs B).nodup]
  congr 1
  ext c
  simp only [List.mem_toFinset]
  exact mem_range_filter_refs Nbs B h c

/-- What the dense-marker compaction computes, pass by pass. -/
theorem compactDense_facts {α : Type} (Nbs : Nat) (B : Mat_SeqBAIJ α)
    (h : ∀ c ∈ colRefs B, c < Nbs) :
    (compactDense Nbs B).ghost = (List.range Nbs).filter (fun c => decide (c ∈ colRefs B)) ∧
    (compactDense Nbs B).ec = (compactDense Nbs B).ghost.length ∧
    (compactDense Nbs B).garray.length = (compactDense Nbs B).ec + 1 ∧
    (denseIndices Nbs B).length = Nbs + 1 ∧
    (∀ p, p < (compactDense Nbs B).ec →
      (denseIndices Nbs B).getD ((compactDense Nbs B).garray.getD p 0) 0 = p) ∧
    (compactDense Nbs B).B.j
      = compactColumns B (denseIndices Nbs B) B.j := by
  obtain ⟨m1, m2, m3⟩ := mark_foldl (colRefs B) [] (List.replicate Nbs 0 ++ [0]) 0
    (fun c hc => by have := h c hc; simp; omega)
    (fun c => by rw [getD_zeros]; simp) (by simp)
  rw [← markColumns_eq] at m1 m2 m3
  have hfilt : (List.range Nbs).filter
      (fun i => decide ((markColumns B (List.replicate Nbs 0 ++ [0])).1.getD i 0 ≠ 0))
      = (List.range Nbs).filter (fun c => decide (c ∈ colRefs B)) := by
    apply List.filter_congr
    intro x _
    simp only [decide_eq_decide]
    rw [m2 x]; simp
  have hcard := range_filter_refs_length Nbs B h
  simp only [List.nil_append] at m3
  obtain ⟨s1, s2, s3⟩ := scan_foldl
    (fun i => (markColumns B (List.replicate Nbs 0 ++ [0])).1.getD i 0 ≠ 0) (List.range Nbs)
    (List.replicate ((markColumns B (List.replicate Nbs 0 ++ [0])).2 + 1) 0) 0
    (by rw [hfilt, hcard, m3]; simp)
  rw [hfilt] at s1 s3
  simp only [Nat.zero_add, List.take_zero, List.nil_append, List.length_replicate] at s1 s2 s3
  have hec : (compactDense Nbs B).ec
      = ((List.range Nbs).filter (fun c => decide (c ∈ colRefs B))).length := s1
  have hgar : (compactDense Nbs B).garray.length = (compactDense Nbs B).ec + 1 := by
    rw [hec, hcard, ← m3]; exact s2
  have hghost : (compactDense Nbs B).ghost
      = (List.range Nbs).filter (fun c => decide (c ∈ colRefs B)) := by
    unfold Compaction.ghost; rw [hec]; exact s3
  have hget : ∀ p, p < (compactDense Nbs B).ec → (compactDense Nbs B).garray.getD p 0
      = ((List.range Nbs).filter (fun c => decide (c ∈ colRefs B))).getD p 0 := by
    intro p hp
    rw [← hghost]; unfold Compaction.ghost
    exact (getD_take_lt _ _ _ hp).symm
  have hmemG : ∀ p, p < (compactDense Nbs B).ec →
      (compactDense Nbs B).garray.getD p 0 ∈ colRefs B := by
    intro p hp
    rw [hget p hp, ← mem_range_filter_refs Nbs B h, List.getD_eq_getElem?_getD,
      List.getElem?_eq_getElem (by rw [← hec]; exact hp)]
    simp only [Option.getD_some]
    exact List.getElem_mem _
  have hinj : ∀ p q, p < (compactDense Nbs B).ec → q < (compactDense Nbs B).ec →
      (compactDense Nbs B).garray.getD p 0 = (compactDense Nbs B).garray.getD q 0 → p = q := by
    intro p q hp hq hpq
    rw [hget p hp, hget q hq, List.getD_eq_getElem?_getD, List.getD_eq_getElem?_getD,
      List.getElem?_eq_getElem (by rw [← hec]; exact hp),
      List.getElem?_eq_getElem (by rw [← hec]; exact hq)] at hpq
    simp only [Option.getD_some] at hpq
    exact ((range_filter_refs_sorted Nbs B).nodup.getElem_inj_iff).1 hpq
  obtain ⟨p1, p2, _⟩ := pointIndices_spec (compactDense Nbs B).ec (compactDense Nbs B).garray
    (markColumns B (List.replicate Nbs 0 ++ [0])).1 hinj
    (fun p hp => by
      rw [m1]; have := h _ (hmemG p hp)
      simp only [List.length_append, List.length_replicate, List.length_singleton]; omega)
  refine ⟨hghost, by rw [hghost]; exact hec, hgar, ?_, p2, rfl⟩
  have : (denseIndices Nbs B).length
      = (markColumns B (List.replicate Nbs 0 ++ [0])).1.length := p1
  rw [this, m1]; simp

theorem compactColumns_spec {α : Type} (B : Mat_SeqBAIJ α) (h : RowsOK B) (ind : List Nat) :
    (compactColumns B ind B.j).length = B.j.length ∧
    ∀ k, (compactColumns B ind B.j).getD k 0
      = if k ∈ slots B then ind.getD (B.j.getD k 0) 0 else B.j.getD k 0 := by
  have e : compactColumns B ind B.j
      = (slots B).foldl (fun aj k => aj.set k (ind.getD (aj.getD k 0) 0)) B.j :=
    rowLoop_eq_foldl B (fun (k : Nat) (aj : List Nat) => aj.set k (ind.getD (aj.getD k 0) 0)) B.j
  rw [e]
  obtain ⟨h1, h2⟩ := foldl_set_nodup (fun c => ind.getD c 0) (slots B) (slots_nodup B h) B.j
  refine ⟨h1, fun k => ?_⟩
  rw [h2 k]
  by_cases hk : k ∈ slots B
  · rw [if_pos ⟨hk, slots_lt B h k hk⟩, if_pos hk]
  · rw [if_neg (fun hh => hk hh.1), if_neg hk]

theorem mem_take_iff_getD (l : List Nat) (n c : Nat) (hn : n ≤ l.length) :
    c ∈ l.take n ↔ ∃ p, p < n ∧ l.getD p 0 = c := by
  constructor
  · intro hc
    obtain ⟨p, hp, rfl⟩ := List.mem_iff_getElem.1 hc
    have hp' : p < n := by simpa [Nat.min_eq_left hn] using hp
    refine ⟨p, hp', ?_⟩
    rw [← getD_take_lt l n p hp', List.getD_eq_getElem?_getD, List.getElem?_eq_getElem hp]
    rfl
  · rintro ⟨p, hp, rfl⟩
    rw [← getD_take_lt l n p hp, List.getD_eq_getElem?_getD,
      List.getElem?_eq_getElem (by simpa [Nat.min_eq_left hn] using hp)]
    exact List.getElem_mem _

/-- Membership in the Ghost Array of the dense compaction, by position. -/
theorem dense_ref_iff_pos {α : Type} (Nbs : Nat) (B : Mat_SeqBAIJ α)
    (h : ∀ c ∈ colRefs B, c < Nbs) (c : Nat) :
    c ∈ colRefs B ↔ ∃ p, p < (compactDense Nbs B).ec ∧ (compactDense Nbs B).garray.getD p 0 = c := by
  obtain ⟨f1, _, f3, _, _, _⟩ := compactDense_facts Nbs B h
  rw [← mem_range_filter_refs Nbs B h c, ← f1]
  unfold Compaction.ghost
  exact mem_take_iff_getD _ _ _ (by omega)

theorem dense_ghost_eq_sort {α : Type} (Nbs : Nat) (B : Mat_SeqBAIJ α)
    (h : ∀ c ∈ colRefs B, c < Nbs) :
    (compactDense Nbs B).ghost = (colRefs B).toFinset.sort (· ≤ ·) := by
  obtain ⟨f1, _⟩ := compactDense_facts Nbs B h
  rw [f1]
  refine List.eq_of_perm_of_sorted (r := (· ≤ ·)) ?_
    ((range_filter_refs_sorted Nbs B).imp (fun hab => Nat.le_of_lt hab)) (Finset.sort_sorted _ _)
  rw [List.perm_ext_iff_of_nodup (range_filter_refs_sorted Nbs B).nodup (Finset.sort_nodup _ _)]
  intro c
  rw [mem_range_filter_refs Nbs B h c, Finset.mem_sort, List.mem_toFinset]

/-! ## Claims C1-C4: the Ghost Array and the Column Remap of the dense-marker compaction -/

/-- C1: for a block whose stored column references all lie in `[0, Nbs)`, the dense-marker
compaction yields a Ghost Array `garray[0..ec)` that is the sorted duplicate-free list of the
referenced columns: it is strictly increasing, holds exactly the referenced columns, and
`ec` is the number of distinct referenced columns. -/
theorem C1_dense_ghost_array {α : Type} (Nbs : Nat) (B : Mat_SeqBAIJ α)
    (h : ∀ c ∈ colRefs B, c < Nbs) :
    (compactDense Nbs B).ghost = (colRefs B).toFinset.sort (· ≤ ·) ∧
    (compactDense Nbs B).ghost.Sorted (· < ·) ∧
    (∀ c, c ∈ (compactDense Nbs B).ghost ↔ c ∈ colRefs B) ∧
    (compactDense Nbs B).ghost.length = (compactDense Nbs B).ec ∧
    (compactDense Nbs B).ec = (colRefs B).toFinset.card ∧
    (compactDense Nbs B).B.nbs = (compactDense Nbs B).ec := by
  obtain ⟨f1, f2, _⟩ := compactDense_facts Nbs B h
  refine ⟨dense_ghost_eq_sort Nbs B h, ?_, ?_, f2.symm, ?_, rfl⟩
  · rw [f1]; exact range_filter_refs_sorted Nbs B
  · intro c; rw [f1]; exact mem_range_filter_refs Nbs B h c
  · rw [f2, f1]; exact range_filter_refs_length Nbs B h

/-- C1 at Scenario B: references 5, 2, 2, 7 give the Ghost Array `[2, 5, 7]` and `ec = 3`. -/
theorem C1_dense_ghost_array_witness :
    (∀ c ∈ colRefs scenarioB, c < 8) ∧
    (compactDense 8 scenarioB).ghost = [2, 5, 7] ∧ (compactDense 8 scenarioB).ec = 3 ∧
    ((compactDense 8 scenarioB).ghost = (colRefs scenarioB).toFinset.sort (· ≤ ·) ∧
    (compactDense 8 scenarioB).ghost.Sorted (· < ·) ∧
    (∀ c, c ∈ (compactDense 8 scenarioB).ghost ↔ c ∈ colRefs scenarioB) ∧
    (compactDense 8 scenarioB).ghost.length = (compactDense 8 scenarioB).ec ∧
    (compactDense 8 scenarioB).ec = (colRefs scenarioB).toFinset.card ∧
    (compactDense 8 scenarioB).B.nbs = (compactDense 8 scenarioB).ec) :=
  ⟨by decide, by decide, by decide, C1_dense_ghost_array 8 scenarioB (by decide)⟩

/-- The in-place rewriting pass of the dense-marker compaction. -/
theorem dense_rewrite_facts {α : Type} (Nbs : Nat) (B : Mat_SeqBAIJ α)
    (h : ∀ c ∈ colRefs B, c < Nbs) (hrows : RowsOK B) :
    (∀ k, k ∈ slots B →
      (compactDense Nbs B).B.j.getD k 0 < (compactDense Nbs B).ec ∧
      (compactDense Nbs B).garray.getD ((compactDense Nbs B).B.j.getD k 0) 0 = B.j.getD k 0) ∧
    (∀ k, k ∉ slots B → (compactDense Nbs B).B.j.getD k 0 = B.j.getD k 0) ∧
    (compactDense Nbs B).B.j.length = B.j.length := by
  obtain ⟨_, _, _, _, f5, f6⟩ := compactDense_facts Nbs B h
  obtain ⟨c1, c2⟩ := compactColumns_spec B hrows (denseIndices Nbs B)
  rw [← f6] at c1 c2
  refine ⟨fun k hk => ?_, fun k hk => by rw [c2 k, if_neg hk], c1⟩
  have hmem : B.j.getD k 0 ∈ colRefs B := List.mem_map.2 ⟨k, hk, rfl⟩
  obtain ⟨p, hp, hpc⟩ := (dense_ref_iff_pos Nbs B h _).1 hmem
  have hrew : (compactDense Nbs B).B.j.getD k 0 = p := by
    rw [c2 k, if_pos hk, ← hpc]; exact f5 p hp
  rw [hrew]
  exact ⟨hp, hpc⟩

/-- C2: after the dense-marker compaction every stored column index has been rewritten in
place to the position of its original global column in the Ghost Array: the rewritten index
`c'` of a stored entry with original column `c` satisfies `c' < ec` and `garray[c'] = c`;
cells of the column array that are not stored entries are left as they were. -/
theorem C2_rewritten_index_points_back {α : Type} (Nbs : Nat) (B : Mat_SeqBAIJ α)
    (h : ∀ c ∈ colRefs B, c < Nbs) (hrows : RowsOK B) :
    (∀ k, k ∈ slots B →
      (compactDense Nbs B).B.j.getD k 0 < (compactDense Nbs B).ec ∧
      (compactDense Nbs B).garray.getD ((compactDense Nbs B).B.j.getD k 0) 0 = B.j.getD k 0) ∧
    (∀ k, k ∉ slots B → (compactDense Nbs B).B.j.getD k 0 = B.j.getD k 0) ∧
    (compactDense Nbs B).B.j.length = B.j.length :=
  dense_rewrite_facts Nbs B h hrows

/-- C2 at Scenario B: the remap is 5→1, 2→0, 2→0, 7→2. -/
theorem C2_rewritten_index_points_back_witness :
    ((∀ c ∈ colRefs scenarioB, c < 8) ∧ RowsOK scenarioB) ∧
    (compactDense 8 scenarioB).B.j = [1, 0, 0, 2] ∧
    ((∀ k, k ∈ slots scenarioB →
      (compactDense 8 scenarioB).B.j.getD k 0 < (compactDense 8 scenarioB).ec ∧
      (compactDense 8 scenarioB).garray.getD ((compactDense 8 scenarioB).B.j.getD k 0) 0
        = scenarioB.j.getD k 0) ∧
    (∀ k, k ∉ slots scenarioB → (compactDense 8 scenarioB).B.j.getD k 0 = scenarioB.j.getD k 0) ∧
    (compactDense 8 scenarioB).B.j.length = scenarioB.j.length) :=
  ⟨⟨by decide, by decide⟩, by decide,
    C2_rewritten_index_points_back 8 scenarioB (by decide) (by decide)⟩

/-- C3: the Column Remap of the dense-marker compaction (the array `indices` through which the
column indices are rewritten) is a bijection from the set of referenced global columns onto
`{0, ..., ec-1}`, and every stored column index is rewritten to the image of its column. -/
theorem C3_column_remap_bijective {α : Type} (Nbs : Nat) (B : Mat_SeqBAIJ α)
    (h : ∀ c ∈ colRefs B, c < Nbs) (hrows : RowsOK B) :
    Set.BijOn (fun c => (denseIndices Nbs B).getD c 0) {c | c ∈ colRefs B}
      {p | p < (compactDense Nbs B).ec} ∧
    (∀ k, k ∈ slots B →
      (compactDense Nbs B).B.j.getD k 0 = (denseIndices Nbs B).getD (B.j.getD k 0) 0) := by
  obtain ⟨_, _, _, _, f5, f6⟩ := compactDense_facts Nbs B h
  obtain ⟨_, c2⟩ := compactColumns_spec B hrows (denseIndices Nbs B)
  rw [← f6] at c2
  refine ⟨⟨?_, ?_, ?_⟩, fun k hk => by rw [c2 k, if_pos hk]⟩
  · intro c hc
    obtain ⟨p, hp, rfl⟩ := (dense_ref_iff_pos Nbs B h c).1 hc
    simp only [Set.mem_setOf_eq]
    rw [f5 p hp]; exact hp
  · intro c1 hc1 c2' hc2 heq
    obtain ⟨p, hp, rfl⟩ := (dense_ref_iff_pos Nbs B h c1).1 hc1
    obtain ⟨q, hq, rfl⟩ := (dense_ref_iff_pos Nbs B h c2').1 hc2
    simp only at heq
    rw [f5 p hp, f5 q hq] at heq
    rw [heq]
  · intro p hp
    refine ⟨(compactDense Nbs B).garray.getD p 0, ?_, f5 p hp⟩
    exact (dense_ref_iff_pos Nbs B h _).2 ⟨p, hp, rfl⟩

/-- C3 at Scenario B. -/
theorem C3_column_remap_bijective_witness :
    ((∀ c ∈ colRefs scenarioB, c < 8) ∧ RowsOK scenarioB) ∧
    (Set.BijOn (fun c => (denseIndices 8 scenarioB).getD c 0) {c | c ∈ colRefs scenarioB}
      {p | p < (compactDense 8 scenarioB).ec} ∧
    (∀ k, k ∈ slots scenarioB →
      (compactDense 8 scenarioB).B.j.getD k 0
        = (denseIndices 8 scenarioB).getD (scenarioB.j.getD k 0) 0)) :=
  ⟨⟨by decide, by decide⟩, C3_column_remap_bijective 8 scenarioB (by decide) (by decide)⟩

/-- C4: two blocks (of possibly different matrices) whose sets of referenced global columns
are equal get identical Ghost Arrays from the dense-marker compaction, whatever the order,
multiplicity or row placement of the references. -/
theorem C4_ghost_array_depends_on_set {α β : Type} (Nbs1 Nbs2 : Nat) (B1 : Mat_SeqBAIJ α)
    (B2 : Mat_SeqBAIJ β) (h1 : ∀ c ∈ colRefs B1, c < Nbs1) (h2 : ∀ c ∈ colRefs B2, c < Nbs2)
    (hset : ∀ c, c ∈ colRefs B1 ↔ c ∈ colRefs B2) :
    (compactDense Nbs1 B1).ghost = (compactDense Nbs2 B2).ghost ∧
    (compactDense Nbs1 B1).ec = (compactDense Nbs2 B2).ec := by
  have hfin : (colRefs B1).toFinset = (colRefs B2).toFinset := by
    ext c; simp only [List.mem_toFinset]; exact hset c
  have hg : (compactDense Nbs1 B1).ghost = (compactDense Nbs2 B2).ghost := by
    rw [dense_ghost_eq_sort Nbs1 B1 h1, dense_ghost_eq_sort Nbs2 B2 h2, hfin]
  refine ⟨hg, ?_⟩
  rw [(compactDense_facts Nbs1 B1 h1).2.1, (compactDense_facts Nbs2 B2 h2).2.1, hg]

/-- C4 on two blocks referencing the columns 2, 5, 7 in different orders and rows. -/
theorem C4_ghost_array_depends_on_set_witness :
    ((∀ c ∈ colRefs scenarioB, c < 8) ∧ (∀ c ∈ colRefs scenarioB_reordered, c < 9) ∧
      (∀ c, c ∈ colRefs scenarioB ↔ c ∈ colRefs scenarioB_reordered)) ∧
    ((compactDense 8 scenarioB).ghost = (compactDense 9 scenarioB_reordered).ghost ∧
    (compactDense 8 scenarioB).ec = (compactDense 9 scenarioB_reordered).ec) :=
  ⟨⟨by decide, by decide, fun c => by
      have e1 : colRefs scenarioB = [5, 2, 2, 7] := by decide
      have e2 : colRefs scenarioB_reordered = [2, 7, 5, 7, 2, 5, 7] := by decide
      rw [e1, e2]; simp; tauto⟩,
    C4_ghost_array_depends_on_set 8 9 scenarioB scenarioB_reordered (by decide) (by decide)
      (fun c => by
        have e1 : colRefs scenarioB = [5, 2, 2, 7] := by decide
        have e2 : colRefs scenarioB_reordered = [2, 7, 5, 7, 2, 5, 7] := by decide
        rw [e1, e2]; simp; tauto)⟩

/-! ## The sparse-table compaction -/

theorem lookup_filter_ne (ta : PetscTable) (k k' : Nat) (h : k' ≠ k) :
    List.lookup k' (ta.filter (fun e => decide (e.1 ≠ k))) = List.lookup k' ta := by
  induction ta with
  | nil => rfl
  | cons x ta ih =>
    obtain ⟨xk, xd⟩ := x
    by_cases hx : xk = k
    · subst hx
      have hb' : (k' == xk) = false := by simpa using h
      rw [List.filter_cons, if_neg (by simp), List.lookup_cons, hb']
      exact ih
    · rw [List.filter_cons, if_pos (by simpa using hx), List.lookup_cons, List.lookup_cons, ih]

theorem find_add (ta : PetscTable) (k d k' : Nat) :
    PetscTableFind (PetscTableAdd ta k d) k' = if k' = k then d else PetscTableFind ta k' := by
  unfold PetscTableFind PetscTableAdd
  rw [List.lookup_cons]
  by_cases h : k' = k
  · subst h; simp
  · have hb : (k' == k) = false := by simpa using h
    rw [hb, if_neg h]
    simp only
    rw [lookup_filter_ne ta k k' h]

theorem find_eq_zero_iff (ta : PetscTable) (hpos : ∀ x ∈ ta, 1 ≤ x.2) (key : Nat) :
    PetscTableFind ta key = 0 ↔ ∀ x ∈ ta, x.1 ≠ key := by
  unfold PetscTableFind
  induction ta with
  | nil => simp
  | cons x ta ih =>
    obtain ⟨xk, xd⟩ := x
    have hxd : 1 ≤ xd := hpos (xk, xd) (List.mem_cons_self _ _)
    have ih' := ih (fun y hy => hpos y (List.mem_cons_of_mem _ hy))
    rw [List.lookup_cons]
    by_cases h : key = xk
    · subst h
      simp only [beq_self_eq_true, Option.getD_some, List.mem_cons, forall_eq_or_imp, ne_eq,
        not_true_eq_false, false_and, iff_false]
      omega
    · have hb : (key == xk) = false := by simpa using h
      rw [hb]
      simp only [List.mem_cons, forall_eq_or_imp, ne_eq]
      rw [ih']
      constructor
      · intro h'; exact ⟨fun e => h e.symm, h'⟩
      · intro h'; exact h'.2

/-- State of the first table loop after the references `seen` have been visited. -/
theorem table_foldl (L seen : List Nat) (ta : PetscTable) (e : Nat)
    (hK : (ta.map Prod.fst).Nodup) (hL : (ta.map Prod.snd).Nodup) (hN : ta.length = e)
    (hR : ∀ x ∈ ta, 1 ≤ x.2 ∧ x.2 ≤ e ∧ ∃ c ∈ seen, x.1 = c + 1)
    (hS : ∀ c ∈ seen, ∃ x ∈ ta, x.1 = c + 1) :
    ((L.foldl tableStep (ta, e)).1.map Prod.fst).Nodup ∧
    ((L.foldl tableStep (ta, e)).1.map Prod.snd).Nodup ∧
    (L.foldl tableStep (ta, e)).1.length = (L.foldl tableStep (ta, e)).2 ∧
    (∀ x ∈ (L.foldl tableStep (ta, e)).1, 1 ≤ x.2 ∧ x.2 ≤ (L.foldl tableStep (ta, e)).2 ∧
      ∃ c ∈ seen ++ L, x.1 = c + 1) ∧
    (∀ c ∈ seen ++ L, ∃ x ∈ (L.foldl tableStep (ta, e)).1, x.1 = c + 1) := by
  induction L generalizing seen ta e with
  | nil =>
    simp only [List.foldl_nil, List.append_nil]
    exact ⟨hK, hL, hN, hR, hS⟩
  | cons c L ih =>
    have hpos : ∀ x ∈ ta, 1 ≤ x.2 := fun x hx => (hR x hx).1
    have key : ∀ (ta' : PetscTable) (e' : Nat), tableStep (ta, e) c = (ta', e') →
        (ta'.map Prod.fst).Nodup ∧ (ta'.map Prod.snd).Nodup ∧ ta'.length = e' ∧
        (∀ x ∈ ta', 1 ≤ x.2 ∧ x.2 ≤ e' ∧ ∃ c' ∈ seen ++ [c], x.1 = c' + 1) ∧
        (∀ c' ∈ seen ++ [c], ∃ x ∈ ta', x.1 = c' + 1) := by
      intro ta' e' hstep
      unfold tableStep at hstep
      by_cases h0 : PetscTableFind ta (c + 1) = 0
      · rw [if_pos h0] at hstep
        have habs : ∀ x ∈ ta, x.1 ≠ c + 1 := (find_eq_zero_iff ta hpos (c + 1)).1 h0
        have hfil : ta.filter (fun e => decide (e.1 ≠ c + 1)) = ta :=
          List.filter_eq_self.2 (fun x hx => by simpa using habs x hx)
        have hta : ta' = (c + 1, e + 1) :: ta := by
          have := (Prod.mk.inj hstep).1
          unfold PetscTableAdd at this
          rw [hfil] at this; exact this.symm
        have he : e' = e + 1 := (Prod.mk.inj hstep).2.symm
        subst hta he
        refine ⟨?_, ?_, by simp [hN], ?_, ?_⟩
        · simp only [List.map_cons, List.nodup_cons]
          refine ⟨?_, hK⟩
          intro hmem
          obtain ⟨x, hx, hx1⟩ := List.mem_map.1 hmem
          exact habs x hx hx1
        · simp only [List.map_cons, List.nodup_cons]
          refine ⟨?_, hL⟩
          intro hmem
          obtain ⟨x, hx, hx1⟩ := List.mem_map.1 hmem
          have := (hR x hx).2.1
          omega
        · intro x hx
          rcases List.mem_cons.1 hx with rfl | hx
          · exact ⟨by simp, by simp, c, by simp, rfl⟩
          · obtain ⟨r1, r2, c', hc', r3⟩ := hR x hx
            exact ⟨r1, by omega, c', by simp [hc'], r3⟩
        · intro c' hc'
          rcases List.mem_append.1 hc' with hc' | hc'
          · obtain ⟨x, hx, hx1⟩ := hS c' hc'
            exact ⟨x, List.mem_cons_of_mem _ hx, hx1⟩
          · have : c' = c := by simpa using hc'
            subst this
            exact ⟨(c' + 1, e + 1), List.mem_cons_self _ _, rfl⟩
      · rw [if_neg h0] at hstep
        have hta : ta' = ta := (Prod.mk.inj hstep).1.symm
        have he : e' = e := (Prod.mk.inj hstep).2.symm
        subst hta he
        have hex : ∃ x ∈ ta', x.1 = c + 1 := by
          by_contra hne
          exact h0 ((find_eq_zero_iff ta' hpos (c + 1)).2
            (fun x hx hx1 => hne ⟨x, hx, hx1⟩))
        refine ⟨hK, hL, hN, ?_, ?_⟩
        · intro x hx
          obtain ⟨r1, r2, c', hc', r3⟩ := hR x hx
          exact ⟨r1, r2, c', by simp [hc'], r3⟩
        · intro c' hc'
          rcases List.mem_append.1 hc' with hc' | hc'
          · exact hS c' hc'
          · have : c' = c := by simpa using hc'
            subst this; exact hex
    obtain ⟨k1, k2, k3, k4, k5⟩ := key (tableStep (ta, e) c).1 (tableStep (ta, e) c).2 rfl
    have := ih (seen ++ [c]) (tableStep (ta, e) c).1 (tableStep (ta, e) c).2 k1 k2 k3 k4 k5
    simpa only [List.foldl_cons, List.append_assoc, List.singleton_append] using this

theorem tableColumns_eq {α : Type} (B : Mat_SeqBAIJ α) :
    tableColumns B = (colRefs B).foldl tableStep ([], 0) := by
  unfold tableColumns colRefs PetscTableCreate
  rw [rowLoop_eq_foldl B (fun k s => tableStep s (B.j.getD k 0)), List.foldl_map]

theorem tableKeys_spec (ta : PetscTable) (g : List Nat)
    (hL : (ta.map Prod.snd).Nodup) (hpos : ∀ x ∈ ta, 1 ≤ x.2)
    (hlt : ∀ x ∈ ta, x.2 - 1 < g.length) :
    (tableKeys ta g).length = g.length ∧
    (∀ x ∈ ta, (tableKeys ta g).getD (x.2 - 1) 0 = x.1 - 1) ∧
    (∀ q, (∀ x ∈ ta, x.2 - 1 ≠ q) → (tableKeys ta g).getD q 0 = g.getD q 0) := by
  unfold tableKeys
  induction ta generalizing g with
  | nil => simp
  | cons x ta ih =>
    have hnd := List.nodup_cons.1 (by simpa using hL : (x.2 :: ta.map Prod.snd).Nodup)
    have hx1 : 1 ≤ x.2 := hpos x (List.mem_cons_self _ _)
    have hfresh : ∀ y ∈ ta, y.2 - 1 ≠ x.2 - 1 := by
      intro y hy heq
      have hy1 := hpos y (List.mem_cons_of_mem _ hy)
      exact hnd.1 (List.mem_map.2 ⟨y, hy, by omega⟩)
    obtain ⟨h1, h2, h3⟩ := ih (g.set (x.2 - 1) (x.1 - 1)) hnd.2
      (fun y hy => hpos y (List.mem_cons_of_mem _ hy))
      (fun y hy => by simpa using hlt y (List.mem_cons_of_mem _ hy))
    simp only [List.foldl_cons]
    refine ⟨by simpa using h1, ?_, ?_⟩
    · intro y hy
      rcases List.mem_cons.1 hy with rfl | hy
      · rw [h3 _ hfresh, getD_set, if_pos ⟨rfl, hlt y (List.mem_cons_self _ _)⟩]
      · exact h2 y hy
    · intro q hq
      rw [h3 q (fun y hy => hq y (List.mem_cons_of_mem _ hy)), getD_set,
        if_neg (fun h => hq x (List.mem_cons_self _ _) h.1)]

theorem take_eq_map_range (l : List Nat) (n : Nat) (hn : n ≤ l.length) :
    l.take n = (List.range n).map (fun p => l.getD p 0) := by
  apply List.ext_getElem
  · simp [Nat.min_eq_left hn]
  · intro i h1 h2
    have hi : i < n := by simpa [Nat.min_eq_left hn] using h1
    simp only [List.getElem_take, List.getElem_map, List.getElem_range,
      List.getD_eq_getElem?_getD]
    rw [List.getElem?_eq_getElem (by omega)]
    rfl

theorem perm_range_of_nodup (P : List Nat) (e : Nat) (hnd : P.Nodup)
    (hlt : ∀ p ∈ P, p < e) (hlen : P.length = e) : P.Perm (List.range e) := by
  apply List.perm_of_nodup_nodup_toFinset_eq hnd (List.nodup_range e)
  apply Finset.eq_of_subset_of_card_le
  · intro p hp
    rw [List.mem_toFinset] at hp ⊢
    exact List.mem_range.2 (hlt p hp)
  · rw [List.toFinset_card_of_nodup hnd, List.toFinset_card_of_nodup (List.nodup_range e)]
    simp [hlen]

/-- Walking a table whose local ids are `1..e`, each once, fills `garray[0..e)` with a
rearrangement of the keys. -/
theorem tableKeys_perm (ta : PetscTable) (g : List Nat)
    (hL : (ta.map Prod.snd).Nodup) (hR : ∀ x ∈ ta, 1 ≤ x.2 ∧ x.2 ≤ ta.length)
    (hg : ta.length ≤ g.length) :
    ((tableKeys ta g).take ta.length).Perm (ta.map (fun x => x.1 - 1)) := by
  obtain ⟨h1, h2, _⟩ := tableKeys_spec ta g hL (fun x hx => (hR x hx).1)
    (fun x hx => by have := hR x hx; omega)
  rw [take_eq_map_range _ _ (by omega)]
  have hP : (ta.map (fun x => x.2 - 1)).Perm (List.range ta.length) := by
    apply perm_range_of_nodup
    · refine List.Nodup.map_on ?_ (List.Nodup.of_map _ hL)
      intro x hx y hy hxy
      have hx1 := (hR x hx).1
      have hy1 := (hR y hy).1
      have : x.2 = y.2 := by omega
      exact (List.inj_on_of_nodup_map hL) hx hy this
    · intro p hp
      obtain ⟨x, hx, rfl⟩ := List.mem_map.1 hp
      have := hR x hx; omega
    · simp
  have hmap := hP.map (fun p => (tableKeys ta g).getD p 0)
  rw [List.map_map] at hmap
  refine hmap.symm.trans (List.Perm.of_eq ?_)
  apply List.map_congr_left
  intro x hx
  exact h2 x hx

theorem PetscSortInt_take (n : Nat) (v : List Nat) (hn : n ≤ v.length) :
    (PetscSortInt n v).take n = (v.take n).insertionSort (· ≤ ·) ∧
    (PetscSortInt n v).length = v.length := by
  unfold PetscSortInt
  constructor
  · apply List.take_left'
    rw [List.length_insertionSort]; simp [Nat.min_eq_left hn]
  · rw [List.length_append, List.length_insertionSort]; simp; omega

theorem tableRefill_spec (n : Nat) (garray : List Nat) (ta : PetscTable)
    (hinj : ∀ p q, p < n → q < n → garray.getD p 0 = garray.getD q 0 → p = q) :
    ∀ p, p < n → PetscTableFind (tableRefill n garray ta) (garray.getD p 0 + 1) = p + 1 := by
  unfold tableRefill forLoop PetscTableRemoveAll
  induction n with
  | zero => intro p hp; omega
  | succ n ih =>
    intro p hp
    rw [List.range_succ, List.foldl_append]
    simp only [List.foldl_cons, List.foldl_nil]
    rw [find_add]
    by_cases hpn : p = n
    · subst hpn; simp
    · have hne : garray.getD p 0 ≠ garray.getD n 0 := fun h =>
        hpn (hinj p n hp (by omega) h)
      rw [if_neg (by omega)]
      exact ih (fun a b ha hb => hinj a b (by omega) (by omega)) p (by omega)

theorem tableCompactColumns_spec {α : Type} (B : Mat_SeqBAIJ α) (h : RowsOK B)
    (ta : PetscTable) :
    (tableCompactColumns B ta B.j).length = B.j.length ∧
    ∀ k, (tableCompactColumns B ta B.j).getD k 0
      = if k ∈ slots B then PetscTableFind ta (B.j.getD k 0 + 1) - 1 else B.j.getD k 0 := by
  have e : tableCompactColumns B ta B.j
      = (slots B).foldl (fun aj k => aj.set k (PetscTableFind ta (aj.getD k 0 + 1) - 1)) B.j :=
    rowLoop_eq_foldl B
      (fun (k : Nat) (aj : List Nat) => aj.set k (PetscTableFind ta (aj.getD k 0 + 1) - 1)) B.j
  rw [e]
  obtain ⟨h1, h2⟩ := foldl_set_nodup (fun c => PetscTableFind ta (c + 1) - 1) (slots B)
    (slots_nodup B h) B.j
  refine ⟨h1, fun k => ?_⟩
  rw [h2 k]
  by_cases hk : k ∈ slots B
  · rw [if_pos ⟨hk, slots_lt B h k hk⟩, if_pos hk]
  · rw [if_neg (fun hh => hk hh.1), if_neg hk]

theorem list_ext_getD (l1 l2 : List Nat) (hlen : l1.length = l2.length)
    (h : ∀ k, l1.getD k 0 = l2.getD k 0) : l1 = l2 := by
  apply List.ext_getElem hlen
  intro n h1 h2
  have := h n
  rw [List.getD_eq_getElem?_getD, List.getD_eq_getElem?_getD, List.getElem?_eq_getElem h1,
    List.getElem?_eq_getElem h2] at this
  exact this

/-- What the sparse-table compaction computes. -/
theorem compactCTable_facts {α : Type} (B : Mat_SeqBAIJ α) :
    (compactCTable B).ghost = (colRefs B).toFinset.sort (· ≤ ·) ∧
    (compactCTable B).ec = (compactCTable B).ghost.length ∧
    (compactCTable B).garray.length = (compactCTable B).ec + 1 ∧
    (∀ p, p < (compactCTable B).ec →
      PetscTableFind (tableRefill (compactCTable B).ec (compactCTable B).garray (tableColumns B).1)
        ((compactCTable B).garray.getD p 0 + 1) = p + 1) ∧
    (compactCTable B).B.j = tableCompactColumns B
      (tableRefill (compactCTable B).ec (compactCTable B).garray (tableColumns B).1) B.j := by
  obtain ⟨hK, hL, hN, hR, hS⟩ := table_foldl (colRefs B) [] [] 0 (by simp) (by simp) rfl
    (by simp) (by simp)
  rw [← tableColumns_eq] at hK hL hN hR hS
  simp only [List.nil_append] at hR hS
  have hec : (compactCTable B).ec = (tableColumns B).1.length := hN.symm
  have hperm := tableKeys_perm (tableColumns B).1
    (List.replicate ((tableColumns B).2 + 1) 0) hL
    (fun x hx => ⟨(hR x hx).1, by rw [hN]; exact (hR x hx).2.1⟩) (by simp [hN])
  obtain ⟨_, tk1, _⟩ := tableKeys_spec (tableColumns B).1
    (List.replicate ((tableColumns B).2 + 1) 0) hL (fun x hx => (hR x hx).1)
    (fun x hx => by have := (hR x hx); simp; omega)
  have hlenK : (tableKeys (tableColumns B).1 (List.replicate ((tableColumns B).2 + 1) 0)).length
      = (tableColumns B).2 + 1 := by
    rw [(tableKeys_spec (tableColumns B).1 (List.replicate ((tableColumns B).2 + 1) 0) hL
      (fun x hx => (hR x hx).1) (fun x hx => by have := (hR x hx); simp; omega)).1]
    simp
  obtain ⟨st, sl⟩ := PetscSortInt_take (tableColumns B).2
    (tableKeys (tableColumns B).1 (List.replicate ((tableColumns B).2 + 1) 0)) (by omega)
  have hghost : (compactCTable B).ghost
      = ((tableKeys (tableColumns B).1 (List.replicate ((tableColumns B).2 + 1) 0)).take
          (tableColumns B).2).insertionSort (· ≤ ·) := st
  have hpermG : (compactCTable B).ghost.Perm ((tableColumns B).1.map (fun x => x.1 - 1)) := by
    rw [hghost]
    refine (List.perm_insertionSort _ _).trans ?_
    rw [hN] at hperm; exact hperm
  have hndK : ((tableColumns B).1.map (fun x => x.1 - 1)).Nodup := by
    refine List.Nodup.map_on ?_ (List.Nodup.of_map _ hK)
    intro x hx y hy hxy
    obtain ⟨_, _, c, _, hc⟩ := hR x hx
    obtain ⟨_, _, d, _, hd⟩ := hR y hy
    exact (List.inj_on_of_nodup_map hK) hx hy (by omega)
  have hmem : ∀ c, c ∈ (compactCTable B).ghost ↔ c ∈ colRefs B := by
    intro c
    rw [hpermG.mem_iff, List.mem_map]
    constructor
    · rintro ⟨x, hx, rfl⟩
      obtain ⟨_, _, c, hc, hxc⟩ := hR x hx
      rw [hxc]; simpa using hc
    · intro hc
      obtain ⟨x, hx, hxc⟩ := hS c hc
      exact ⟨x, hx, by rw [hxc]; simp⟩
  have hsort : (compactCTable B).ghost = (colRefs B).toFinset.sort (· ≤ ·) := by
    refine List.eq_of_perm_of_sorted (r := (· ≤ ·)) ?_
      (by rw [hghost]; exact List.sorted_insertionSort _ _) (Finset.sort_sorted _ _)
    rw [List.perm_ext_iff_of_nodup ((hpermG.nodup_iff).2 hndK) (Finset.sort_nodup _ _)]
    intro c
    rw [hmem c, Finset.mem_sort, List.mem_toFinset]
  have hlen : (compactCTable B).ec = (compactCTable B).ghost.length := by
    rw [hpermG.length_eq, List.length_map]; exact hec
  have hgar : (compactCTable B).garray.length = (compactCTable B).ec + 1 := by
    have : (compactCTable B).garray.length = _ := sl
    rw [this, hlenK]; rfl
  have hsorted : (compactCTable B).ghost.Sorted (· < ·) := by
    rw [hsort]; exact Finset.sort_sorted_lt _
  have hinj : ∀ p q, p < (compactCTable B).ec → q < (compactCTable B).ec →
      (compactCTable B).garray.getD p 0 = (compactCTable B).garray.getD q 0 → p = q := by
    intro p q hp hq hpq
    have e1 := getD_take_lt (compactCTable B).garray (compactCTable B).ec p hp
    have e2 := getD_take_lt (compactCTable B).garray (compactCTable B).ec q hq
    rw [← e1, ← e2] at hpq
    have hp' : p < (compactCTable B).ghost.length := by rw [← hlen]; exact hp
    have hq' : q < (compactCTable B).ghost.length := by rw [← hlen]; exact hq
    change (compactCTable B).ghost.getD p 0 = (compactCTable B).ghost.getD q 0 at hpq
    rw [List.getD_eq_getElem?_getD, List.getD_eq_getElem?_getD, List.getElem?_eq_getElem hp',
      List.getElem?_eq_getElem hq'] at hpq
    exact (hsorted.nodup.getElem_inj_iff).1 hpq
  exact ⟨hsort, hlen, hgar,
    tableRefill_spec (compactCTable B).ec (compactCTable B).garray (tableColumns B).1 hinj, rfl⟩

theorem rewritten_block_congr {α : Type} (B : Mat_SeqBAIJ α) (j1 j2 : List Nat) (e1 e2 : Nat)
    (hj : j1 = j2) (he : e1 = e2) :
    ({ B with j := j1, nbs := e1, n := PetscInt_mul e1 B.bs } : Mat_SeqBAIJ α)
      = { B with j := j2, nbs := e2, n := PetscInt_mul e2 B.bs } := by
  subst hj he; rfl

/-! ## Claim C5: the two compaction strategies agree -/

/-- C5: for a block with column references in `[0, Nbs)` the sparse-table strategy and the
dense-marker strategy of `MatSetUpMultiply_MPIBAIJ` yield the same `ec`, the same Ghost Array
and the same rewritten column indices (hence the same rewritten block). -/
theorem C5_ctable_agrees_with_dense {α : Type} (Nbs : Nat) (B : Mat_SeqBAIJ α)
    (h : ∀ c ∈ colRefs B, c < Nbs) (hrows : RowsOK B) :
    (compactCTable B).ec = (compactDense Nbs B).ec ∧
    (compactCTable B).ghost = (compactDense Nbs B).ghost ∧
    (compactCTable B).B.j = (compactDense Nbs B).B.j ∧
    (compactCTable B).B = (compactDense Nbs B).B := by
  obtain ⟨t1, t2, _, t4, t5⟩ := compactCTable_facts B
  obtain ⟨_, d2, _⟩ := compactDense_facts Nbs B h
  have hg : (compactCTable B).ghost = (compactDense Nbs B).ghost := by
    rw [t1, dense_ghost_eq_sort Nbs B h]
  have hec : (compactCTable B).ec = (compactDense Nbs B).ec := by rw [t2, d2, hg]
  obtain ⟨r1, _, r3⟩ := dense_rewrite_facts Nbs B h hrows
  obtain ⟨c1, c2⟩ := tableCompactColumns_spec B hrows
    (tableRefill (compactCTable B).ec (compactCTable B).garray (tableColumns B).1)
  rw [← t5] at c1 c2
  have hj : (compactCTable B).B.j = (compactDense Nbs B).B.j := by
    apply list_ext_getD _ _ (by rw [c1, r3])
    intro k
    by_cases hk : k ∈ slots B
    · obtain ⟨hlt, hback⟩ := (dense_rewrite_facts Nbs B h hrows).1 k hk
      have hp : (compactDense Nbs B).B.j.getD k 0 < (compactCTable B).ec := by
        rw [hec]; exact hlt
      have hcell : (compactCTable B).garray.getD ((compactDense Nbs B).B.j.getD k 0) 0
          = B.j.getD k 0 := by
        rw [← getD_take_lt _ _ _ hp]
        change (compactCTable B).ghost.getD _ 0 = _
        rw [hg]
        unfold Compaction.ghost
        rw [getD_take_lt _ _ _ hlt]; exact hback
      rw [c2 k, if_pos hk, ← hcell, t4 _ hp]
      simp
    · rw [c2 k, if_neg hk, (dense_rewrite_facts Nbs B h hrows).2.1 k hk]
  refine ⟨hec, hg, hj, ?_⟩
  exact rewritten_block_congr B _ _ _ _ hj hec

/-- C5 at Scenario B. -/
theorem C5_ctable_agrees_with_dense_witness :
    ((∀ c ∈ colRefs scenarioB, c < 8) ∧ RowsOK scenarioB) ∧
    (compactCTable scenarioB).ghost = [2, 5, 7] ∧
    ((compactCTable scenarioB).ec = (compactDense 8 scenarioB).ec ∧
    (compactCTable scenarioB).ghost = (compactDense 8 scenarioB).ghost ∧
    (compactCTable scenarioB).B.j = (compactDense 8 scenarioB).B.j ∧
    (compactCTable scenarioB).B = (compactDense 8 scenarioB).B) :=
  ⟨⟨by decide, by decide⟩, by decide,
    C5_ctable_agrees_with_dense 8 scenarioB (by decide) (by decide)⟩

/-! ## Machine arithmetic without overflow -/

theorem PetscInt_mul_eq (a b : Nat) (h : a * b ≤ PETSC_MAX_INT) : PetscInt_mul a b = a * b := by
  unfold PetscInt_mul
  unfold PETSC_MAX_INT at h
  exact Nat.mod_eq_of_lt (by omega)

theorem PetscInt_toInt_eq (x : Nat) (h : x ≤ PETSC_MAX_INT) : PetscInt_toInt x = (x : Int) := by
  unfold PetscInt_toInt
  unfold PETSC_MAX_INT at h
  have h1 : x % 2 ^ 32 = x := Nat.mod_eq_of_lt (by omega)
  rw [h1, if_pos (by omega)]

theorem PetscInt_div_mul (bs g : Nat) (hbs : 1 ≤ bs) (hbs' : bs ≤ PETSC_MAX_INT)
    (h : bs * g ≤ PETSC_MAX_INT) : PetscInt_div (PetscInt_mul bs g) bs = g := by
  unfold PetscInt_div
  rw [PetscInt_mul_eq bs g h, PetscInt_toInt_eq _ h, PetscInt_toInt_eq _ hbs']
  have hq : Int.tdiv ((bs * g : Nat) : Int) (bs : Int) = ((bs * g / bs : Nat) : Int) := rfl
  rw [hq, Nat.mul_div_cancel_left g (by omega)]
  unfold PetscInt_ofInt
  have hg : g ≤ bs * g := Nat.le_mul_of_pos_left g (by omega)
  unfold PETSC_MAX_INT at h
  have : ((g : Int) % 2 ^ 32) = (g : Int) := Int.emod_eq_of_lt (by omega) (by omega)
  rw [this]; simp

/-! ## The passes that build the scatter plan -/

theorem forLoop_set_content (f : Nat → Nat) (n : Nat) (g : List Nat) :
    (forLoop n (fun i g => g.set i (f (g.getD i 0))) g).length = g.length ∧
    ∀ x, (forLoop n (fun i g => g.set i (f (g.getD i 0))) g).getD x 0
      = if x < n ∧ x < g.length then f (g.getD x 0) else g.getD x 0 := by
  obtain ⟨h1, h2⟩ := foldl_set_nodup f (List.range n) (List.nodup_range n) g
  refine ⟨h1, fun x => ?_⟩
  have := h2 x
  simp only [List.mem_range] at this
  exact this

theorem forLoop_set_index (f : Nat → Nat) (n : Nat) (g : List Nat) :
    (forLoop n (fun i g => g.set i (f i)) g).length = g.length ∧
    ∀ x, (forLoop n (fun i g => g.set i (f i)) g).getD x 0
      = if x < n ∧ x < g.length then f x else g.getD x 0 := by
  unfold forLoop
  induction n with
  | zero => simp
  | succ n ih =>
    obtain ⟨h1, h2⟩ := ih
    rw [List.range_succ, List.foldl_append]
    simp only [List.foldl_cons, List.foldl_nil]
    refine ⟨by rw [List.length_set, h1], fun x => ?_⟩
    rw [getD_set, h1, h2 x]
    by_cases hx : n = x
    · subst hx
      by_cases hl : n < g.length
      · simp [hl]
      · simp [hl]
    · by_cases hl : x < g.length
      · by_cases hn : x < n
        · simp [hx, hl, hn, Nat.lt_succ_of_lt hn]
        · have : ¬ x < n + 1 := by omega
          simp [hx, hl, hn, this]
      · simp [hx, hl]

theorem getD_append_left (l1 l2 : List Nat) (x : Nat) (h : x < l1.length) :
    (l1 ++ l2).getD x 0 = l1.getD x 0 := by
  simp only [List.getD_eq_getElem?_getD, List.getElem?_append_left h]

theorem getD_append_right (l1 l2 : List Nat) (x : Nat) (h : l1.length ≤ x) :
    (l1 ++ l2).getD x 0 = l2.getD (x - l1.length) 0 := by
  simp only [List.getD_eq_getElem?_getD, List.getElem?_append_right h]

/-- Element `i*bs + k` of a block index set is the `k`-th address of block `i`. -/
theorem expand_getD (bs : Nat) (L : List Nat) (i k : Nat) (hi : i < L.length) (hk : k < bs) :
    (L.flatMap (fun b => (List.range bs).map (fun k => b + k))).getD (i * bs + k) 0
      = L.getD i 0 + k := by
  induction L generalizing i with
  | nil => simp at hi
  | cons b L ih =>
    rw [List.flatMap_cons]
    cases i with
    | zero =>
      rw [getD_append_left _ _ _ (by simpa using hk)]
      simp only [Nat.zero_mul, Nat.zero_add, List.getD_eq_getElem?_getD]
      rw [List.getElem?_eq_getElem (by simpa using hk)]
      simp
    | succ i =>
      have hge : ((List.range bs).map (fun k => b + k)).length ≤ (i + 1) * bs + k := by
        simp only [List.length_map, List.length_range, Nat.succ_mul]; omega
      rw [getD_append_right _ _ _ hge]
      have hidx : (i + 1) * bs + k - ((List.range bs).map (fun k => b + k)).length
          = i * bs + k := by
        simp only [List.length_map, List.length_range, Nat.succ_mul]; omega
      rw [hidx, ih i (by simpa using hi)]
      simp

theorem expand_length (bs : Nat) (L : List Nat) :
    (L.flatMap (fun b => (List.range bs).map (fun k => b + k))).length = L.length * bs := by
  induction L with
  | nil => simp
  | cons b L ih =>
    rw [List.flatMap_cons, List.length_append, ih]
    simp only [List.length_map, List.length_range, List.length_cons, Nat.succ_mul]; omega

theorem ISCreateBlock_spec (bs n : Nat) (idx : List Nat) (hn : n ≤ idx.length) :
    (ISCreateBlock bs n idx).length = n * bs ∧
    ∀ i k, i < n → k < bs → (ISCreateBlock bs n idx).getD (i * bs + k) 0 = idx.getD i 0 + k := by
  unfold ISCreateBlock
  refine ⟨by rw [expand_length]; simp [Nat.min_eq_left hn], fun i k hi hk => ?_⟩
  rw [expand_getD bs _ i k (by simpa [Nat.min_eq_left hn] using hi) hk, getD_take_lt _ _ _ hi]

/-! ## Facts shared by the two compaction strategies -/

theorem compactBlock_facts {α : Type} (useCTable : Bool) (Nbs : Nat) (B : Mat_SeqBAIJ α)
    (h : ∀ c ∈ colRefs B, c < Nbs) :
    (compactBlock useCTable Nbs B).ghost = (colRefs B).toFinset.sort (· ≤ ·) ∧
    (compactBlock useCTable Nbs B).ec = (compactBlock useCTable Nbs B).ghost.length ∧
    (compactBlock useCTable Nbs B).garray.length = (compactBlock useCTable Nbs B).ec + 1 ∧
    (compactBlock useCTable Nbs B).ec ≤ Nbs ∧
    (∀ p, p < (compactBlock useCTable Nbs B).ec →
      (compactBlock useCTable Nbs B).garray.getD p 0 < Nbs) := by
  have base : (compactBlock useCTable Nbs B).ghost = (colRefs B).toFinset.sort (· ≤ ·) ∧
      (compactBlock useCTable Nbs B).ec = (compactBlock useCTable Nbs B).ghost.length ∧
      (compactBlock useCTable Nbs B).garray.length = (compactBlock useCTable Nbs B).ec + 1 := by
    cases useCTable with
    | true =>
      obtain ⟨t1, t2, t3, _⟩ := compactCTable_facts B
      exact ⟨t1, t2, t3⟩
    | false =>
      obtain ⟨_, d2, d3, _⟩ := compactDense_facts Nbs B h
      exact ⟨dense_ghost_eq_sort Nbs B h, d2, d3⟩
  obtain ⟨b1, b2, b3⟩ := base
  have hsub : (colRefs B).toFinset ⊆ Finset.range Nbs := by
    intro c hc
    rw [List.mem_toFinset] at hc
    exact Finset.mem_range.2 (h c hc)
  refine ⟨b1, b2, b3, ?_, ?_⟩
  · rw [b2, b1, Finset.length_sort]
    simpa using Finset.card_le_card hsub
  · intro p hp
    have hmem : (compactBlock useCTable Nbs B).garray.getD p 0
        ∈ (compactBlock useCTable Nbs B).ghost := by
      unfold Compaction.ghost
      exact (mem_take_iff_getD _ _ _ (by omega)).2 ⟨p, hp, rfl⟩
    rw [b1, Finset.mem_sort, List.mem_toFinset] at hmem
    exact h _ hmem

theorem compactBlock_rewrite {α : Type} (useCTable : Bool) (Nbs : Nat) (B : Mat_SeqBAIJ α)
    (h : ∀ c ∈ colRefs B, c < Nbs) (hrows : RowsOK B) :
    (∀ k, k ∈ slots B →
      (compactBlock useCTable Nbs B).B.j.getD k 0 < (compactBlock useCTable Nbs B).ec ∧
      (compactBlock useCTable Nbs B).garray.getD ((compactBlock useCTable Nbs B).B.j.getD k 0) 0
        = B.j.getD k 0) ∧
    (∀ k, k ∉ slots B → (compactBlock useCTable Nbs B).B.j.getD k 0 = B.j.getD k 0) ∧
    (compactBlock useCTable Nbs B).B.j.length = B.j.length := by
  obtain ⟨r1, r2, r3⟩ := dense_rewrite_facts Nbs B h hrows
  cases useCTable with
  | false => exact ⟨r1, r2, r3⟩
  | true =>
    obtain ⟨t1, t2, _, t4, t5⟩ := compactCTable_facts B
    obtain ⟨_, d2, _⟩ := compactDense_facts Nbs B h
    have hg : (compactCTable B).ghost = (compactDense Nbs B).ghost := by
      rw [t1, dense_ghost_eq_sort Nbs B h]
    have hec : (compactCTable B).ec = (compactDense Nbs B).ec := by rw [t2, d2, hg]
    obtain ⟨c1, c2⟩ := tableCompactColumns_spec B hrows
      (tableRefill (compactCTable B).ec (compactCTable B).garray (tableColumns B).1)
    rw [← t5] at c1 c2
    have hcell : ∀ p, p < (compactDense Nbs B).ec →
        (compactCTable B).garray.getD p 0 = (compactDense Nbs B).garray.getD p 0 := by
      intro p hp
      rw [← getD_take_lt _ (compactCTable B).ec p (by rw [hec]; exact hp),
        ← getD_take_lt (compactDense Nbs B).garray (compactDense Nbs B).ec p hp]
      change (compactCTable B).ghost.getD p 0 = (compactDense Nbs B).ghost.getD p 0
      rw [hg]
    have hj : ∀ k, k ∈ slots B →
        (compactCTable B).B.j.getD k 0 = (compactDense Nbs B).B.j.getD k 0 := by
      intro k hk
      obtain ⟨hlt, hback⟩ := r1 k hk
      rw [c2 k, if_pos hk, ← hback, ← hcell _ hlt, t4 _ (by rw [hec]; exact hlt)]
      simp
    refine ⟨fun k hk => ?_, fun k hk => (c2 k).trans (if_neg hk), c1⟩
    change (compactCTable B).B.j.getD k 0 < (compactCTable B).ec ∧
      (compactCTable B).garray.getD ((compactCTable B).B.j.getD k 0) 0 = B.j.getD k 0
    obtain ⟨hlt, hback⟩ := r1 k hk
    rw [hj k hk, hec, hcell _ hlt]
    exact ⟨hlt, hback⟩

/-! ## The set-up of the Local Ghost Buffer and of the Scatter Plan -/

theorem scale_unscale {α : Type} (useCTable : Bool) (mat : Mat_MPIBAIJ α)
    (h : ∀ c ∈ colRefs mat.B, c < mat.Nbs) (hN : mat.Nbs * mat.bs ≤ PETSC_MAX_INT) :
    (scaleGarray mat.bs (compactBlock useCTable mat.Nbs mat.B).ec
      (compactBlock useCTable mat.Nbs mat.B).garray).length
        = (compactBlock useCTable mat.Nbs mat.B).ec + 1 ∧
    (∀ i, i < (compactBlock useCTable mat.Nbs mat.B).ec →
      (scaleGarray mat.bs (compactBlock useCTable mat.Nbs mat.B).ec
        (compactBlock useCTable mat.Nbs mat.B).garray).getD i 0
        = mat.bs * (compactBlock useCTable mat.Nbs mat.B).garray.getD i 0) ∧
    (1 ≤ mat.bs →
      unscaleGarray mat.bs (compactBlock useCTable mat.Nbs mat.B).ec
        (scaleGarray mat.bs (compactBlock useCTable mat.Nbs mat.B).ec
          (compactBlock useCTable mat.Nbs mat.B).garray)
        = (compactBlock useCTable mat.Nbs mat.B).garray) := by
  obtain ⟨_, _, b3, _, b5⟩ := compactBlock_facts useCTable mat.Nbs mat.B h
  obtain ⟨s1, s2⟩ := forLoop_set_content (fun g => PetscInt_mul mat.bs g)
    (compactBlock useCTable mat.Nbs mat.B).ec (compactBlock useCTable mat.Nbs mat.B).garray
  have hprod : ∀ i, i < (compactBlock useCTable mat.Nbs mat.B).ec →
      mat.bs * (compactBlock useCTable mat.Nbs mat.B).garray.getD i 0 ≤ PETSC_MAX_INT := by
    intro i hi
    have := b5 i hi
    calc mat.bs * (compactBlock useCTable mat.Nbs mat.B).garray.getD i 0
        ≤ mat.bs * mat.Nbs := Nat.mul_le_mul_left _ (Nat.le_of_lt this)
      _ = mat.Nbs * mat.bs := Nat.mul_comm _ _
      _ ≤ PETSC_MAX_INT := hN
  have hsc : ∀ i, i < (compactBlock useCTable mat.Nbs mat.B).ec →
      (scaleGarray mat.bs (compactBlock useCTable mat.Nbs mat.B).ec
        (compactBlock useCTable mat.Nbs mat.B).garray).getD i 0
        = mat.bs * (compactBlock useCTable mat.Nbs mat.B).garray.getD i 0 := by
    intro i hi
    unfold scaleGarray
    rw [s2 i, if_pos ⟨hi, by omega⟩, PetscInt_mul_eq _ _ (hprod i hi)]
  refine ⟨by unfold scaleGarray; rw [s1, b3], hsc, fun hbs => ?_⟩
  obtain ⟨u1, u2⟩ := forLoop_set_content (fun g => PetscInt_div g mat.bs)
    (compactBlock useCTable mat.Nbs mat.B).ec
    (scaleGarray mat.bs (compactBlock useCTable mat.Nbs mat.B).ec
      (compactBlock useCTable mat.Nbs mat.B).garray)
  have hlen : (scaleGarray mat.bs (compactBlock useCTable mat.Nbs mat.B).ec
      (compactBlock useCTable mat.Nbs mat.B).garray).length
      = (compactBlock useCTable mat.Nbs mat.B).garray.length := by
    unfold scaleGarray; exact s1
  apply list_ext_getD
  · unfold unscaleGarray; rw [u1, hlen]
  · intro x
    unfold unscaleGarray
    rw [u2 x]
    by_cases hx : x < (compactBlock useCTable mat.Nbs mat.B).ec
    · have hbs' : mat.bs ≤ PETSC_MAX_INT := by
        have h1 : 1 ≤ mat.Nbs := by have := b5 x hx; omega
        calc mat.bs = 1 * mat.bs := (Nat.one_mul _).symm
          _ ≤ mat.Nbs * mat.bs := Nat.mul_le_mul_right _ h1
          _ ≤ PETSC_MAX_INT := hN
      rw [if_pos ⟨hx, by rw [hlen]; omega⟩, hsc x hx, ← PetscInt_mul_eq _ _ (hprod x hx)]
      exact PetscInt_div_mul _ _ hbs hbs' (hprod x hx)
    · rw [if_neg (fun hh => hx hh.1)]
      unfold scaleGarray
      rw [s2 x, if_neg (fun hh => hx hh.1)]

theorem ix_to_eq_range (bs ec : Nat) (h : ec * bs ≤ PETSC_MAX_INT) :
    ISCreateBlock bs ec (fillStmp bs ec) = List.range (ec * bs) := by
  obtain ⟨f1, f2⟩ := forLoop_set_index (fun i => PetscInt_mul bs i) ec (List.replicate (ec + 1) 0)
  have hlen : (fillStmp bs ec).length = ec + 1 := by
    unfold fillStmp; rw [f1]; simp
  obtain ⟨i1, i2⟩ := ISCreateBlock_spec bs ec (fillStmp bs ec) (by omega)
  apply List.ext_getElem (by rw [i1]; simp)
  intro p h1 h2
  have hp : p < ec * bs := by rw [i1] at h1; exact h1
  have hbs : 0 < bs := by
    rcases Nat.eq_zero_or_pos bs with h0 | h0
    · subst h0; simp at hp
    · exact h0
  have hq : p / bs < ec := (Nat.div_lt_iff_lt_mul hbs).2 hp
  have hdecomp : p / bs * bs + p % bs = p := by
    rw [Nat.mul_comm]; exact Nat.div_add_mod p bs
  have hcell := i2 (p / bs) (p % bs) hq (Nat.mod_lt p hbs)
  rw [hdecomp] at hcell
  have hst : (fillStmp bs ec).getD (p / bs) 0 = bs * (p / bs) := by
    unfold fillStmp
    rw [f2 (p / bs), if_pos ⟨hq, by simp; omega⟩]
    apply PetscInt_mul_eq
    calc bs * (p / bs) ≤ p := Nat.mul_div_le p bs
      _ ≤ ec * bs := Nat.le_of_lt hp
      _ ≤ PETSC_MAX_INT := h
  rw [hst, Nat.div_add_mod] at hcell
  rw [List.getD_eq_getElem?_getD, List.getElem?_eq_getElem h1] at hcell
  simp only [Option.getD_some] at hcell
  rw [hcell, List.getElem_range]

/-- The state `MatSetUpMultiply_MPIBAIJ` leaves, field by field. -/
theorem setUp_facts {α : Type} [Inhabited α] (useCTable : Bool) (mat : Mat_MPIBAIJ α)
    (h : ∀ c ∈ colRefs mat.B, c < mat.Nbs) (hN : mat.Nbs * mat.bs ≤ PETSC_MAX_INT) :
    (MatSetUpMultiply_MPIBAIJ useCTable mat).B = (compactBlock useCTable mat.Nbs mat.B).B ∧
    (MatSetUpMultiply_MPIBAIJ useCTable mat).lvec
      = some (VecCreateSeq ((compactBlock useCTable mat.Nbs mat.B).ec * mat.bs)) ∧
    (∃ ix_from : List Nat,
      (MatSetUpMultiply_MPIBAIJ useCTable mat).Mvctx
        = some { ix_from := ix_from
                 ix_to := List.range ((compactBlock useCTable mat.Nbs mat.B).ec * mat.bs) } ∧
      ix_from.length = (compactBlock useCTable mat.Nbs mat.B).ec * mat.bs ∧
      ∀ i k, i < (compactBlock useCTable mat.Nbs mat.B).ec → k < mat.bs →
        ix_from.getD (i * mat.bs + k) 0
          = mat.bs * (compactBlock useCTable mat.Nbs mat.B).garray.getD i 0 + k) ∧
    (1 ≤ mat.bs → (MatSetUpMultiply_MPIBAIJ useCTable mat).garray
      = some (compactBlock useCTable mat.Nbs mat.B).garray) := by
  obtain ⟨_, _, _, b4, _⟩ := compactBlock_facts useCTable mat.Nbs mat.B h
  obtain ⟨s1, s2, s3⟩ := scale_unscale useCTable mat h hN
  have hprod : (compactBlock useCTable mat.Nbs mat.B).ec * mat.bs ≤ PETSC_MAX_INT :=
    le_trans (Nat.mul_le_mul_right _ b4) hN
  obtain ⟨i1, i2⟩ := ISCreateBlock_spec mat.bs (compactBlock useCTable mat.Nbs mat.B).ec
    (scaleGarray mat.bs (compactBlock useCTable mat.Nbs mat.B).ec
      (compactBlock useCTable mat.Nbs mat.B).garray) (by omega)
  refine ⟨rfl, ?_, ⟨_, ?_, i1, fun i k hi hk => ?_⟩, fun hbs => ?_⟩
  · show some (VecCreateSeq (PetscInt_mul _ _)) = _
    rw [PetscInt_mul_eq _ _ hprod]
  · show some (VecScatterCreate _ (ISCreateBlock mat.bs _ (fillStmp mat.bs _))) = _
    rw [ix_to_eq_range _ _ hprod]; rfl
  · rw [i2 i k hi hk, s2 i hi]
  · show some (unscaleGarray _ _ (scaleGarray _ _ _)) = _
    rw [s3 hbs]

theorem compactBlock_nbs {α : Type} (useCTable : Bool) (Nbs : Nat) (B : Mat_SeqBAIJ α) :
    (compactBlock useCTable Nbs B).B.nbs = (compactBlock useCTable Nbs B).ec ∧
    (compactBlock useCTable Nbs B).B.n = PetscInt_mul (compactBlock useCTable Nbs B).ec B.bs := by
  cases useCTable <;> exact ⟨rfl, rfl⟩

/-- A gather writes, at every destination offset, the source element paired with it. -/
theorem gather_pairs {α : Type} (x : Nat → α) (d : α) (Z : List (Nat × Nat)) (y : List α)
    (hnd : (Z.map Prod.snd).Nodup) :
    (Z.foldl (fun y p => y.set p.2 (x p.1)) y).length = y.length ∧
    (∀ z ∈ Z, z.2 < y.length → (Z.foldl (fun y p => y.set p.2 (x p.1)) y).getD z.2 d = x z.1) ∧
    (∀ q, (∀ z ∈ Z, z.2 ≠ q) → (Z.foldl (fun y p => y.set p.2 (x p.1)) y).getD q d = y.getD q d) := by
  induction Z generalizing y with
  | nil => simp
  | cons z Z ih =>
    have hnd' := List.nodup_cons.1 (by simpa using hnd : (z.2 :: Z.map Prod.snd).Nodup)
    have hfresh : ∀ w ∈ Z, w.2 ≠ z.2 := fun w hw heq =>
      hnd'.1 (List.mem_map.2 ⟨w, hw, heq⟩)
    obtain ⟨h1, h2, h3⟩ := ih (y.set z.2 (x z.1)) hnd'.2
    simp only [List.foldl_cons]
    refine ⟨by simpa using h1, ?_, ?_⟩
    · intro w hw hlt
      rcases List.mem_cons.1 hw with rfl | hw
      · rw [h3 _ hfresh, getD_set_gen, if_pos ⟨rfl, hlt⟩]
      · exact h2 w hw (by simpa using hlt)
    · intro q hq
      rw [h3 q (fun w hw => hq w (List.mem_cons_of_mem _ hw)), getD_set_gen,
        if_neg (fun hh => hq z (List.mem_cons_self _ _) hh.1)]

theorem gather_range {α : Type} (x : Nat → α) (d : α) (F : List Nat) (n : Nat) (y : List α)
    (hF : F.length = n) (hy : y.length = n) (p : Nat) (hp : p < n) :
    ((List.zip F (List.range n)).foldl (fun y z => y.set z.2 (x z.1)) y).getD p d
      = x (F.getD p 0) := by
  have hsnd : (List.zip F (List.range n)).map Prod.snd = List.range n :=
    List.map_snd_zip _ _ (by simp [hF])
  obtain ⟨_, g2, _⟩ := gather_pairs x d (List.zip F (List.range n)) y
    (by rw [hsnd]; exact List.nodup_range n)
  have hlen : p < (List.zip F (List.range n)).length := by simp [hF, hp]
  have hmem : (F.getD p 0, p) ∈ List.zip F (List.range n) := by
    refine List.mem_iff_getElem.2 ⟨p, hlen, ?_⟩
    rw [List.getElem_zip, List.getElem_range, List.getD_eq_getElem?_getD,
      List.getElem?_eq_getElem (by omega)]
    rfl
  exact g2 _ hmem (by simpa [hy] using hp)

/-! ## Claims C6-C8: the Local Ghost Buffer, the paired index sets and the gather -/

/-- C6: after `MatSetUpMultiply_MPIBAIJ` the Local Ghost Buffer `lvec` has length `ec*bs`,
where `ec` (stored in `B->nbs`) is the length of the Ghost Array and `bs` the block size, and
the column dimension of the off-diagonal block has been set to the same size: `nbs = ec`,
`n = ec*bs`. -/
theorem C6_ghost_buffer_length {α : Type} [Inhabited α] (useCTable : Bool)
    (mat : Mat_MPIBAIJ α) (h : ∀ c ∈ colRefs mat.B, c < mat.Nbs)
    (hN : mat.Nbs * mat.bs ≤ PETSC_MAX_INT) (hbs : 1 ≤ mat.bs) (hB : mat.B.bs = mat.bs) :
    ∃ lvec g, (MatSetUpMultiply_MPIBAIJ useCTable mat).lvec = some lvec ∧
      (MatSetUpMultiply_MPIBAIJ useCTable mat).garray = some g ∧
      (g.take (MatSetUpMultiply_MPIBAIJ useCTable mat).B.nbs).length
        = (MatSetUpMultiply_MPIBAIJ useCTable mat).B.nbs ∧
      g.take (MatSetUpMultiply_MPIBAIJ useCTable mat).B.nbs
        = (colRefs mat.B).toFinset.sort (· ≤ ·) ∧
      VecGetSize lvec = (MatSetUpMultiply_MPIBAIJ useCTable mat).B.nbs * mat.bs ∧
      (MatSetUpMultiply_MPIBAIJ useCTable mat).B.n
        = (MatSetUpMultiply_MPIBAIJ useCTable mat).B.nbs * mat.bs := by
  obtain ⟨b1, b2, _, b4, _⟩ := compactBlock_facts useCTable mat.Nbs mat.B h
  obtain ⟨f1, f2, _, f4⟩ := setUp_facts useCTable mat h hN
  obtain ⟨n1, n2⟩ := compactBlock_nbs useCTable mat.Nbs mat.B
  have hprod : (compactBlock useCTable mat.Nbs mat.B).ec * mat.bs ≤ PETSC_MAX_INT :=
    le_trans (Nat.mul_le_mul_right _ b4) hN
  refine ⟨_, _, f2, f4 hbs, ?_, ?_, ?_, ?_⟩
  · rw [f1, n1]
    change (compactBlock useCTable mat.Nbs mat.B).ghost.length = _
    exact b2.symm
  · rw [f1, n1]; exact b1
  · rw [f1, n1]; simp [VecGetSize, VecCreateSeq]
  · rw [f1, n1, n2, hB, PetscInt_mul_eq _ _ hprod]

/-- C6 on the sample matrix: three ghost columns of block size 2 give a buffer of 6 cells. -/
theorem C6_ghost_buffer_length_witness :
    ((∀ c ∈ colRefs sampleMat.B, c < sampleMat.Nbs) ∧
      sampleMat.Nbs * sampleMat.bs ≤ PETSC_MAX_INT ∧ 1 ≤ sampleMat.bs ∧
      sampleMat.B.bs = sampleMat.bs) ∧
    (∃ lvec g, (MatSetUpMultiply_MPIBAIJ false sampleMat).lvec = some lvec ∧
      (MatSetUpMultiply_MPIBAIJ false sampleMat).garray = some g ∧
      (g.take (MatSetUpMultiply_MPIBAIJ false sampleMat).B.nbs).length
        = (MatSetUpMultiply_MPIBAIJ false sampleMat).B.nbs ∧
      g.take (MatSetUpMultiply_MPIBAIJ false sampleMat).B.nbs
        = (colRefs sampleMat.B).toFinset.sort (· ≤ ·) ∧
      VecGetSize lvec = (MatSetUpMultiply_MPIBAIJ false sampleMat).B.nbs * sampleMat.bs ∧
      (MatSetUpMultiply_MPIBAIJ false sampleMat).B.n
        = (MatSetUpMultiply_MPIBAIJ false sampleMat).B.nbs * sampleMat.bs) :=
  ⟨⟨by decide, by decide, by decide, by decide⟩,
    C6_ghost_buffer_length false sampleMat (by decide) (by decide) (by decide) (by decide)⟩

/-- C7: the two paired index sets of the Scatter Plan, at element granularity: for `i < ec`
and `k < bs` the source element at position `i*bs+k` is `bs*garray[i]+k` and the destination
element at that position is `i*bs+k`; the destination set is `0, 1, ..., ec*bs-1`, each offset
once, and the source set has the same length. -/
theorem C7_paired_index_sets {α : Type} [Inhabited α] (useCTable : Bool)
    (mat : Mat_MPIBAIJ α) (h : ∀ c ∈ colRefs mat.B, c < mat.Nbs)
    (hN : mat.Nbs * mat.bs ≤ PETSC_MAX_INT) (hbs : 1 ≤ mat.bs) :
    ∃ ctx g, (MatSetUpMultiply_MPIBAIJ useCTable mat).Mvctx = some ctx ∧
      (MatSetUpMultiply_MPIBAIJ useCTable mat).garray = some g ∧
      (∀ i k, i < (MatSetUpMultiply_MPIBAIJ useCTable mat).B.nbs → k < mat.bs →
        ctx.ix_from.getD (i * mat.bs + k) 0 = mat.bs * g.getD i 0 + k ∧
        ctx.ix_to.getD (i * mat.bs + k) 0 = i * mat.bs + k) ∧
      ctx.ix_to = List.range ((MatSetUpMultiply_MPIBAIJ useCTable mat).B.nbs * mat.bs) ∧
      ctx.ix_from.length = (MatSetUpMultiply_MPIBAIJ useCTable mat).B.nbs * mat.bs := by
  obtain ⟨f1, _, ⟨ixf, f3, f3l, f3g⟩, f4⟩ := setUp_facts useCTable mat h hN
  obtain ⟨n1, _⟩ := compactBlock_nbs useCTable mat.Nbs mat.B
  refine ⟨_, _, f3, f4 hbs, ?_, by rw [f1, n1], by rw [f1, n1]; exact f3l⟩
  intro i k hi hk
  rw [f1, n1] at hi
  refine ⟨f3g i k hi hk, ?_⟩
  have hlt : i * mat.bs + k < (compactBlock useCTable mat.Nbs mat.B).ec * mat.bs := by
    calc i * mat.bs + k < i * mat.bs + mat.bs := by omega
      _ = (i + 1) * mat.bs := by rw [Nat.succ_mul]
      _ ≤ (compactBlock useCTable mat.Nbs mat.B).ec * mat.bs := Nat.mul_le_mul_right _ hi
  show (List.range _).getD _ 0 = _
  rw [List.getD_eq_getElem?_getD, List.getElem?_range hlt]
  rfl

/-- C7 on the sample matrix: ghost columns 2, 5, 7 of block size 2 give the source
addresses 4, 5, 10, 11, 14, 15 and the destination offsets 0..5. -/
theorem C7_paired_index_sets_witness :
    ((∀ c ∈ colRefs sampleMat.B, c < sampleMat.Nbs) ∧
      sampleMat.Nbs * sampleMat.bs ≤ PETSC_MAX_INT ∧ 1 ≤ sampleMat.bs) ∧
    (MatSetUpMultiply_MPIBAIJ false sampleMat).Mvctx.map (fun c => (c.ix_from, c.ix_to))
      = some ([4, 5, 10, 11, 14, 15], [0, 1, 2, 3, 4, 5]) ∧
    (∃ ctx g, (MatSetUpMultiply_MPIBAIJ false sampleMat).Mvctx = some ctx ∧
      (MatSetUpMultiply_MPIBAIJ false sampleMat).garray = some g ∧
      (∀ i k, i < (MatSetUpMultiply_MPIBAIJ false sampleMat).B.nbs → k < sampleMat.bs →
        ctx.ix_from.getD (i * sampleMat.bs + k) 0 = sampleMat.bs * g.getD i 0 + k ∧
        ctx.ix_to.getD (i * sampleMat.bs + k) 0 = i * sampleMat.bs + k) ∧
      ctx.ix_to = List.range ((MatSetUpMultiply_MPIBAIJ false sampleMat).B.nbs * sampleMat.bs) ∧
      ctx.ix_from.length = (MatSetUpMultiply_MPIBAIJ false sampleMat).B.nbs * sampleMat.bs) :=
  ⟨⟨by decide, by decide, by decide⟩, by decide,
    C7_paired_index_sets false sampleMat (by decide) (by decide) (by decide)⟩

/-- C8: with the execution of the Scatter Plan modelled as copying, position by position of
the paired index sets, the source element into the destination offset: after set-up and one
gather from a vector `x`, every stored off-diagonal entry with original global block column
`c` and rewritten column index `c'` finds `lvec[c'*bs + k] = x[c*bs + k]` for every `k < bs`. -/
theorem C8_gather_fills_ghost_buffer {α : Type} [Inhabited α] (useCTable : Bool)
    (mat : Mat_MPIBAIJ α) (x : Nat → α) (h : ∀ c ∈ colRefs mat.B, c < mat.Nbs)
    (hrows : RowsOK mat.B) (hN : mat.Nbs * mat.bs ≤ PETSC_MAX_INT) :
    ∃ ctx lvec, (MatSetUpMultiply_MPIBAIJ useCTable mat).Mvctx = some ctx ∧
      (MatSetUpMultiply_MPIBAIJ useCTable mat).lvec = some lvec ∧
      ∀ k, k ∈ slots mat.B → ∀ t, t < mat.bs →
        (VecScatterGather ctx x lvec).array.getD
            ((MatSetUpMultiply_MPIBAIJ useCTable mat).B.j.getD k 0 * mat.bs + t) default
          = x (mat.B.j.getD k 0 * mat.bs + t) := by
  obtain ⟨f1, f2, ⟨ixf, f3, f3l, f3g⟩, _⟩ := setUp_facts useCTable mat h hN
  obtain ⟨r1, _, _⟩ := compactBlock_rewrite useCTable mat.Nbs mat.B h hrows
  refine ⟨_, _, f3, f2, fun k hk t ht => ?_⟩
  obtain ⟨hlt, hback⟩ := r1 k hk
  rw [f1]
  have hp : (compactBlock useCTable mat.Nbs mat.B).B.j.getD k 0 * mat.bs + t
      < (compactBlock useCTable mat.Nbs mat.B).ec * mat.bs := by
    calc (compactBlock useCTable mat.Nbs mat.B).B.j.getD k 0 * mat.bs + t
        < (compactBlock useCTable mat.Nbs mat.B).B.j.getD k 0 * mat.bs + mat.bs := by omega
      _ = ((compactBlock useCTable mat.Nbs mat.B).B.j.getD k 0 + 1) * mat.bs := by
          rw [Nat.succ_mul]
      _ ≤ (compactBlock useCTable mat.Nbs mat.B).ec * mat.bs := Nat.mul_le_mul_right _ hlt
  have hg := gather_range x default ixf ((compactBlock useCTable mat.Nbs mat.B).ec * mat.bs)
    (VecCreateSeq ((compactBlock useCTable mat.Nbs mat.B).ec * mat.bs) : Vec α).array f3l
    (by simp [VecCreateSeq]) _ hp
  show List.getD (List.foldl _ _ (List.zip ixf (List.range _))) _ default = _
  rw [hg, f3g _ t hlt ht, hback, Nat.mul_comm]

/-- C8 on the sample matrix and the vector `x[p] = 10*p`. -/
theorem C8_gather_fills_ghost_buffer_witness :
    ((∀ c ∈ colRefs sampleMat.B, c < sampleMat.Nbs) ∧ RowsOK sampleMat.B ∧
      sampleMat.Nbs * sampleMat.bs ≤ PETSC_MAX_INT) ∧
    (∃ ctx lvec, (MatSetUpMultiply_MPIBAIJ false sampleMat).Mvctx = some ctx ∧
      (MatSetUpMultiply_MPIBAIJ false sampleMat).lvec = some lvec ∧
      ∀ k, k ∈ slots sampleMat.B → ∀ t, t < sampleMat.bs →
        (VecScatterGather ctx sampleVec lvec).array.getD
            ((MatSetUpMultiply_MPIBAIJ false sampleMat).B.j.getD k 0 * sampleMat.bs + t) default
          = sampleVec (sampleMat.B.j.getD k 0 * sampleMat.bs + t)) :=
  ⟨⟨by decide, by decide, by decide⟩,
    C8_gather_fills_ghost_buffer false sampleMat sampleVec (by decide) (by decide) (by decide)⟩

/-! ## Rows stored one after the other -/

theorem rowOffset_succ (len : Nat → Nat) (r : Nat) :
    rowOffset len (r + 1) = rowOffset len r + len r := by
  unfold rowOffset
  rw [List.range_succ, List.map_append, List.sum_append]
  simp

theorem rowOffset_mono (len : Nat → Nat) (r s : Nat) (h : r ≤ s) :
    rowOffset len r ≤ rowOffset len s := by
  induction s with
  | zero =>
    have : r = 0 := by omega
    subst this; exact le_refl _
  | succ s ih =>
    by_cases hr : r = s + 1
    · subst hr; exact le_refl _
    · have := ih (by omega)
      rw [rowOffset_succ]; omega

theorem rowOffset_end_le (len : Nat → Nat) (r s : Nat) (h : r < s) :
    rowOffset len r + len r ≤ rowOffset len s := by
  rw [← rowOffset_succ]
  exact rowOffset_mono len (r + 1) s h

theorem getD_map_range {β : Type} (f : Nat → β) (n x : Nat) (d : β) (h : x < n) :
    ((List.range n).map f).getD x d = f x := by
  rw [List.getD_eq_getElem?_getD, List.getElem?_map, List.getElem?_range h]
  rfl

theorem flatRows_length {β : Type} (len : Nat → Nat) (f : Nat → Nat → β) (n : Nat) :
    ((List.range n).flatMap (fun r => (List.range (len r)).map (f r))).length
      = rowOffset len n := by
  induction n with
  | zero => rfl
  | succ n ih =>
    rw [List.range_succ, List.flatMap_append, List.length_append, ih, rowOffset_succ]
    simp

/-- Slot `t` of row `r` in rows stored one after the other. -/
theorem flatRows_getD {β : Type} (len : Nat → Nat) (f : Nat → Nat → β) (d : β) (n r t : Nat)
    (hr : r < n) (ht : t < len r) :
    ((List.range n).flatMap (fun r => (List.range (len r)).map (f r))).getD
      (rowOffset len r + t) d = f r t := by
  induction n with
  | zero => omega
  | succ n ih =>
    rw [List.range_succ, List.flatMap_append]
    simp only [List.flatMap_cons, List.flatMap_nil, List.append_nil]
    by_cases hrn : r = n
    · subst hrn
      rw [List.getD_eq_getElem?_getD, List.getElem?_append_right
        (by rw [flatRows_length]; omega), flatRows_length, Nat.add_sub_cancel_left,
        ← List.getD_eq_getElem?_getD]
      exact getD_map_range (f r) (len r) t d ht
    · have hlt : r < n := by omega
      have hend := rowOffset_end_le len r n hlt
      rw [List.getD_eq_getElem?_getD, List.getElem?_append_left
        (by rw [flatRows_length]; omega), ← List.getD_eq_getElem?_getD]
      exact ih hlt

theorem slots_eq_flatRows {α : Type} (B : Mat_SeqBAIJ α) :
    slots B = (List.range B.mbs).flatMap
      (fun r => (List.range (B.ilen.getD r 0)).map (fun t => B.i.getD r 0 + t)) := rfl

theorem colRefs_eq_flatRows {α : Type} (B : Mat_SeqBAIJ α) :
    colRefs B = (List.range B.mbs).flatMap
      (fun r => (List.range (B.ilen.getD r 0)).map (fun t => B.j.getD (B.i.getD r 0 + t) 0)) := by
  unfold colRefs slots
  rw [List.map_flatMap]
  congr 1
  funext r
  rw [List.map_map]
  rfl

/-- Two blocks with the same number of rows, the same row lengths and the same column in every
used slot hold the same column references in the same order. -/
theorem colRefs_congr {α β : Type} (B1 : Mat_SeqBAIJ α) (B2 : Mat_SeqBAIJ β)
    (hm : B1.mbs = B2.mbs)
    (hl : ∀ r, r < B1.mbs → B1.ilen.getD r 0 = B2.ilen.getD r 0)
    (hj : ∀ r, r < B1.mbs → ∀ t, t < B1.ilen.getD r 0 →
      B1.j.getD (B1.i.getD r 0 + t) 0 = B2.j.getD (B2.i.getD r 0 + t) 0) :
    colRefs B1 = colRefs B2 := by
  rw [colRefs_eq_flatRows, colRefs_eq_flatRows, ← hm]
  have key : ∀ r, r ∈ List.range B1.mbs →
      (List.range (B1.ilen.getD r 0)).map (fun t => B1.j.getD (B1.i.getD r 0 + t) 0)
      = (List.range (B2.ilen.getD r 0)).map (fun t => B2.j.getD (B2.i.getD r 0 + t) 0) := by
    intro r hr
    have hr' : r < B1.mbs := List.mem_range.1 hr
    rw [← hl r hr']
    apply List.map_congr_left
    intro t ht
    exact hj r hr' t (List.mem_range.1 ht)
  generalize List.range B1.mbs = L at key
  induction L with
  | nil => rfl
  | cons x L ih =>
    rw [List.flatMap_cons, List.flatMap_cons, key x (List.mem_cons_self _ _),
      ih (fun r hr => key r (List.mem_cons_of_mem _ hr))]

/-- The block after `MatAssemblyEnd_SeqBAIJ`: rows stored one after the other, every slot
used, columns in the same order. -/
theorem assembled_facts {α : Type} [Inhabited α] (B : Mat_SeqBAIJ α) :
    (MatAssemblyEnd_SeqBAIJ B).mbs = B.mbs ∧
    (∀ r, r ≤ B.mbs → (MatAssemblyEnd_SeqBAIJ B).i.getD r 0
      = rowOffset (fun q => B.ilen.getD q 0) r) ∧
    (∀ r, r < B.mbs → (MatAssemblyEnd_SeqBAIJ B).ilen.getD r 0 = B.ilen.getD r 0) ∧
    (MatAssemblyEnd_SeqBAIJ B).j.length = rowOffset (fun q => B.ilen.getD q 0) B.mbs ∧
    (∀ r, r < B.mbs → ∀ t, t < B.ilen.getD r 0 →
      (MatAssemblyEnd_SeqBAIJ B).j.getD (rowOffset (fun q => B.ilen.getD q 0) r + t) 0
        = B.j.getD (B.i.getD r 0 + t) 0) := by
  refine ⟨rfl, fun r hr => ?_, fun r hr => ?_, ?_, fun r hr t ht => ?_⟩
  · exact getD_map_range _ _ _ _ (by omega)
  · exact getD_map_range _ _ _ _ hr
  · show ((slots B).map _).length = _
    rw [List.length_map, slots_eq_flatRows, flatRows_length]
  · show (colRefs B).getD _ 0 = _
    rw [colRefs_eq_flatRows]
    exact flatRows_getD (fun q => B.ilen.getD q 0)
      (fun r t => B.j.getD (B.i.getD r 0 + t) 0) 0 B.mbs r t hr ht

/-! ## Storing blocks into the new matrix -/

theorem forLoop_zero {σ : Type} (body : Nat → σ → σ) (s : σ) : forLoop 0 body s = s := rfl

theorem setBlock_spec {β : Type} (o n : Nat) (v : Nat → β) (a : List β) (d : β) :
    (forLoop n (fun t a => a.set (o + t) (v t)) a).length = a.length ∧
    ∀ x, (forLoop n (fun t a => a.set (o + t) (v t)) a).getD x d
      = if o ≤ x ∧ x < o + n ∧ x < a.length then v (x - o) else a.getD x d := by
  unfold forLoop
  induction n with
  | zero =>
    refine ⟨rfl, fun x => ?_⟩
    rw [if_neg (by omega)]; rfl
  | succ n ih =>
    obtain ⟨h1, h2⟩ := ih
    rw [List.range_succ, List.foldl_append]
    simp only [List.foldl_cons, List.foldl_nil]
    refine ⟨by rw [List.length_set, h1], fun x => ?_⟩
    rw [getD_set_gen, h1, h2 x]
    by_cases hx : o + n = x
    · subst hx
      by_cases hl : o + n < a.length
      · rw [if_pos ⟨rfl, hl⟩, if_pos ⟨by omega, by omega, hl⟩, Nat.add_sub_cancel_left]
      · rw [if_neg (fun hh => hl hh.2), if_neg (fun hh => hl hh.2.2), if_neg (fun hh => hl hh.2.2)]
    · rw [if_neg (fun hh => hx hh.1)]
      by_cases hc : o ≤ x ∧ x < o + n ∧ x < a.length
      · rw [if_pos hc, if_pos ⟨hc.1, by omega, hc.2.2⟩]
      · rw [if_neg hc, if_neg (fun hh => hc ⟨hh.1, by omega, hh.2.2⟩)]

theorem writeBlock_spec {β : Type} [Inhabited β] (bs2 k : Nat) (v : Nat → β) (a : List β) (d : β) :
    (writeBlock bs2 k v a).length = a.length ∧
    ∀ x, (writeBlock bs2 k v a).getD x d
      = if k * bs2 ≤ x ∧ x < k * bs2 + bs2 ∧ x < a.length then v (x - k * bs2)
        else a.getD x d :=
  setBlock_spec (k * bs2) bs2 v a d

/-- Storing a block whose column exceeds every column the row holds, in a row with a free
slot: the block goes to the first free slot of the row and nothing moves. -/
theorem setValues_append {α : Type} [Inhabited α] [Add α] (A : Mat_SeqBAIJ α)
    (row col : Nat) (v : List α) (is : InsertMode) (hcol : A.roworiented = false)
    (hlt : ∀ t, t < A.ilen.getD row 0 → A.j.getD (A.i.getD row 0 + t) 0 < col)
    (hroom : A.ilen.getD row 0 < A.imax.getD row 0) :
    MatSetValuesBlocked_SeqBAIJ A row col v is =
      { A with
        ilen := A.ilen.set row (A.ilen.getD row 0 + 1)
        j := A.j.set (A.i.getD row 0 + A.ilen.getD row 0) col
        a := writeBlock A.bs2 (A.i.getD row 0 + A.ilen.getD row 0)
          (fun t => v.getD t default) A.a } := by
  have hpos : ((List.range (A.ilen.getD row 0)).map
      (fun t => A.j.getD (A.i.getD row 0 + t) 0)).findIdx (fun c => decide (col ≤ c))
      = A.ilen.getD row 0 := by
    rw [List.findIdx_eq_length_of_false]
    · simp
    · intro c hc
      obtain ⟨t, ht, rfl⟩ := List.mem_map.1 hc
      have := hlt t (List.mem_range.1 ht)
      simp only [decide_eq_false_iff_not, not_le]; exact this
  unfold MatSetValuesBlocked_SeqBAIJ
  simp only [hpos, hcol, lt_irrefl, false_and, if_false, Nat.sub_self, forLoop_zero,
    decide_eq_false (Nat.not_le.2 hroom), Bool.false_eq_true]


theorem with_fields_congr {α : Type} (B0 Bn : Mat_SeqBAIJ α)
    (e : Bn = { B0 with ilen := Bn.ilen, j := Bn.j, a := Bn.a })
    (X Y : List Nat) (Z : List α) :
    ({ Bn with ilen := X, j := Y, a := Z } : Mat_SeqBAIJ α)
      = { B0 with ilen := X, j := Y, a := Z } := by
  rw [e]

/-- One pass of the body of the rebuilding loop: entry `K` of row `r` is stored. -/
theorem build_step {α : Type} [Inhabited α] [Add α] (len : Nat → Nat) (mbs : Nat)
    (col : Nat → Nat) (val : Nat → α) (vf : Nat → List α) (B0 Bn : Mat_SeqBAIJ α)
    (is : InsertMode) (hctx : BuildCtx len mbs col val vf B0) (r K : Nat) (hr : r < mbs)
    (hK1 : rowOffset len r ≤ K) (hK2 : K < rowOffset len (r + 1))
    (hinv : BuildInv len mbs col val B0 Bn K) :
    BuildInv len mbs col val B0 (MatSetValuesBlocked_SeqBAIJ Bn r (col K) (vf K) is) (K + 1) := by
  obtain ⟨c1, c2, c3, c4, c5⟩ := hctx
  obtain ⟨e, v1, v2, v3, v4, v5, v6⟩ := hinv
  have hsucc := rowOffset_succ len r
  have hi : Bn.i = B0.i := by rw [e]
  have himax : Bn.imax = B0.imax := by rw [e]
  have hro : Bn.roworiented = B0.roworiented := by rw [e]
  have hbs2 : Bn.bs2 = B0.bs2 := by rw [e]
  have hstart : Bn.i.getD r 0 = rowOffset len r := by rw [hi]; exact c2 r (by omega)
  have hnrow : Bn.ilen.getD r 0 = K - rowOffset len r := by
    rw [v2 r hr]; omega
  have hslot : Bn.i.getD r 0 + Bn.ilen.getD r 0 = K := by rw [hstart, hnrow]; omega
  have happ := setValues_append Bn r (col K) (vf K) is (by rw [hro]; exact c1)
    (fun t ht => by
      rw [hstart, v4 _ (by rw [hnrow] at ht; omega)]
      exact c4 r hr K hK2 _ (by rw [hnrow] at ht; omega) (by omega))
    (by rw [himax, c3 r hr, hnrow]; omega)
  rw [happ]
  obtain ⟨w1, w2⟩ := writeBlock_spec B0.bs2 K (fun t => (vf K).getD t default) Bn.a default
  refine ⟨with_fields_congr B0 Bn e _ _ _, ?_, ?_, ?_, ?_, ?_, ?_⟩
  · show (Bn.ilen.set _ _).length = mbs
    rw [List.length_set, v1]
  · intro q hq
    show (Bn.ilen.set r (Bn.ilen.getD r 0 + 1)).getD q 0 = _
    rw [getD_set, v1, hnrow]
    by_cases hqr : r = q
    · subst hqr
      rw [if_pos ⟨rfl, hr⟩]; omega
    · rw [if_neg (fun hh => hqr hh.1), v2 q hq]
      rcases Nat.lt_or_gt_of_ne hqr with hlt | hgt
      · have := rowOffset_mono len (r + 1) q hlt
        omega
      · have := rowOffset_end_le len q r hgt
        omega
  · show (Bn.j.set _ _).length = _
    rw [List.length_set, v3]
  · intro k hk
    show (Bn.j.set (Bn.i.getD r 0 + Bn.ilen.getD r 0) (col K)).getD k 0 = _
    rw [hslot, getD_set]
    by_cases hkK : K = k
    · subst hkK
      have hlen : K < Bn.j.length := by
        rw [v3]
        have := rowOffset_mono len (r + 1) mbs hr
        omega
      rw [if_pos ⟨rfl, hlen⟩]
    · rw [if_neg (fun hh => hkK hh.1)]
      exact v4 k (by omega)
  · show (writeBlock Bn.bs2 (Bn.i.getD r 0 + Bn.ilen.getD r 0) _ Bn.a).length = _
    rw [hslot, hbs2, w1, v5]
  · intro x hx
    show (writeBlock Bn.bs2 (Bn.i.getD r 0 + Bn.ilen.getD r 0) _ Bn.a).getD x default = _
    rw [hslot, hbs2, w2 x]
    have hKlen : (K + 1) * B0.bs2 ≤ Bn.a.length := by
      rw [v5]
      have := rowOffset_mono len (r + 1) mbs hr
      exact Nat.mul_le_mul_right _ (by omega)
    by_cases hc : K * B0.bs2 ≤ x
    · have hx2 : x < K * B0.bs2 + B0.bs2 := by rw [Nat.succ_mul] at hx; exact hx
      rw [if_pos ⟨hc, hx2, by omega⟩, c5 K _ (by omega)]
      congr 1; omega
    · rw [if_neg (fun hh => hc hh.1)]
      exact v6 x (by omega)

theorem build_row {α : Type} [Inhabited α] [Add α] (len : Nat → Nat) (mbs : Nat)
    (col : Nat → Nat) (val : Nat → α) (vf : Nat → List α) (B0 Bn : Mat_SeqBAIJ α)
    (is : InsertMode) (hctx : BuildCtx len mbs col val vf B0) (r : Nat) (hr : r < mbs)
    (hinv : BuildInv len mbs col val B0 Bn (rowOffset len r)) :
    BuildInv len mbs col val B0
      (forLoopFrom (rowOffset len r) (rowOffset len (r + 1))
        (fun j Bn => MatSetValuesBlocked_SeqBAIJ Bn r (col j) (vf j) is) Bn)
      (rowOffset len (r + 1)) := by
  have hsucc := rowOffset_succ len r
  have key : ∀ n, n ≤ len r → BuildInv len mbs col val B0
      (((List.range n).map (fun d => rowOffset len r + d)).foldl
        (fun s j => MatSetValuesBlocked_SeqBAIJ s r (col j) (vf j) is) Bn)
      (rowOffset len r + n) := by
    intro n
    induction n with
    | zero => intro _; exact hinv
    | succ n ih =>
      intro hn
      rw [List.range_succ, List.map_append, List.foldl_append]
      simp only [List.map_cons, List.map_nil, List.foldl_cons, List.foldl_nil]
      exact build_step len mbs col val vf B0 _ is hctx r (rowOffset len r + n) hr (by omega)
        (by omega) (ih (by omega))
  unfold forLoopFrom
  have hd : rowOffset len (r + 1) - rowOffset len r = len r := by omega
  rw [hd, hsucc]
  exact key (len r) (le_refl _)

theorem build_rows {α : Type} [Inhabited α] [Add α] (len : Nat → Nat) (mbs : Nat)
    (col : Nat → Nat) (val : Nat → α) (vf : Nat → List α) (B0 : Mat_SeqBAIJ α)
    (is : InsertMode) (hctx : BuildCtx len mbs col val vf B0)
    (hinv : BuildInv len mbs col val B0 B0 0) :
    BuildInv len mbs col val B0
      (forLoop mbs (fun i Bn =>
        forLoopFrom (rowOffset len i) (rowOffset len (i + 1))
          (fun j Bn => MatSetValuesBlocked_SeqBAIJ Bn i (col j) (vf j) is) Bn) B0)
      (rowOffset len mbs) := by
  have key : ∀ n, n ≤ mbs → BuildInv len mbs col val B0
      ((List.range n).foldl (fun s i =>
        forLoopFrom (rowOffset len i) (rowOffset len (i + 1))
          (fun j Bn => MatSetValuesBlocked_SeqBAIJ Bn i (col j) (vf j) is) s) B0)
      (rowOffset len n) := by
    intro n
    induction n with
    | zero => intro _; exact hinv
    | succ n ih =>
      intro hn
      rw [List.range_succ, List.foldl_append]
      simp only [List.foldl_cons, List.foldl_nil]
      exact build_row len mbs col val vf B0 _ is hctx n (by omega) (ih (by omega))
  exact key mbs (le_refl _)

theorem forLoop_congr {σ : Type} (n : Nat) (f g : Nat → σ → σ) (s : σ)
    (h : ∀ i, i < n → ∀ s, f i s = g i s) : forLoop n f s = forLoop n g s := by
  unfold forLoop
  induction n with
  | zero => rfl
  | succ n ih =>
    rw [List.range_succ, List.foldl_append, List.foldl_append, ih (fun i hi => h i (by omega))]
    simp only [List.foldl_cons, List.foldl_nil]
    exact h n (by omega) _

theorem rowOffset_congr (f g : Nat → Nat) (r : Nat) (h : ∀ q, q < r → f q = g q) :
    rowOffset f r = rowOffset g r := by
  induction r with
  | zero => rfl
  | succ r ih =>
    rw [rowOffset_succ, rowOffset_succ, ih (fun q hq => h q (by omega)), h r (by omega)]

theorem sorted_take_getD_lt (g : List Nat) (n : Nat) (hs : (g.take n).Sorted (· < ·))
    (hn : n ≤ g.length) (p q : Nat) (hpq : p < q) (hq : q < n) :
    g.getD p 0 < g.getD q 0 := by
  have hp' : p < (g.take n).length := by simp [Nat.min_eq_left hn]; omega
  have hq' : q < (g.take n).length := by simp [Nat.min_eq_left hn]; omega
  have := (List.pairwise_iff_getElem.1 hs) p q hp' hq' hpq
  rw [List.getElem_take, List.getElem_take] at this
  rw [List.getD_eq_getElem?_getD, List.getD_eq_getElem?_getD,
    List.getElem?_eq_getElem (by omega), List.getElem?_eq_getElem (by omega)]
  exact this

theorem ref_mem_colRefs {α : Type} (B : Mat_SeqBAIJ α) (r t : Nat) (hr : r < B.mbs)
    (ht : t < B.ilen.getD r 0) : B.j.getD (B.i.getD r 0 + t) 0 ∈ colRefs B :=
  List.mem_map.2 ⟨B.i.getD r 0 + t, (mem_slots B _).2 ⟨r, hr, by omega, by omega⟩, rfl⟩

/-- The block `DisAssemble_MPIBAIJ` builds, for a matrix whose translated columns increase
strictly inside every row: the rows of the assembled old block one after the other, every
column index translated through `garray`, every scalar copied. -/
theorem disassemble_facts_ext {α : Type} [Inhabited α] [Add α] (A : Mat_MPIBAIJ α) (g : List Nat)
    (hg : A.garray = some g) (hm : A.m = A.B.mbs * A.bs) (hbs : 1 ≤ A.bs)
    (hbs2 : A.bs2 = A.bs * A.bs)
    (hmono : ∀ r, r < A.B.mbs → ∀ t2, t2 < A.B.ilen.getD r 0 → ∀ t1, t1 < t2 →
      g.getD (A.B.j.getD (A.B.i.getD r 0 + t1) 0) 0
        < g.getD (A.B.j.getD (A.B.i.getD r 0 + t2) 0) 0) :
    (DisAssemble_MPIBAIJ A).B.mbs = A.B.mbs ∧
    (DisAssemble_MPIBAIJ A).B.bs2 = A.bs2 ∧
    (∀ r, r ≤ A.B.mbs → (DisAssemble_MPIBAIJ A).B.i.getD r 0
      = rowOffset (fun q => A.B.ilen.getD q 0) r) ∧
    (DisAssemble_MPIBAIJ A).B.ilen.length = A.B.mbs ∧
    (∀ r, r < A.B.mbs → (DisAssemble_MPIBAIJ A).B.ilen.getD r 0 = A.B.ilen.getD r 0) ∧
    (∀ r, r < A.B.mbs → (DisAssemble_MPIBAIJ A).B.imax.getD r 0 = A.B.ilen.getD r 0) ∧
    (DisAssemble_MPIBAIJ A).B.j.length = rowOffset (fun q => A.B.ilen.getD q 0) A.B.mbs ∧
    (∀ k, k < rowOffset (fun q => A.B.ilen.getD q 0) A.B.mbs →
      (DisAssemble_MPIBAIJ A).B.j.getD k 0
        = g.getD ((MatAssemblyEnd_SeqBAIJ A.B).j.getD k 0) 0) ∧
    (∀ x, x < rowOffset (fun q => A.B.ilen.getD q 0) A.B.mbs * A.bs2 →
      (DisAssemble_MPIBAIJ A).B.a.getD x default
        = (MatAssemblyEnd_SeqBAIJ A.B).a.getD x default) ∧
    (DisAssemble_MPIBAIJ A).B.a.length
      = rowOffset (fun q => A.B.ilen.getD q 0) A.B.mbs * A.bs2 ∧
    (DisAssemble_MPIBAIJ A).B.i.length = A.B.mbs + 1 := by
  obtain ⟨_, o2, o3, _, o5⟩ := assembled_facts A.B
  have hnz : ∀ q, q < A.B.mbs →
      (forLoop A.B.mbs (fun i nz => nz.set i ((MatAssemblyEnd_SeqBAIJ A.B).i.getD (i + 1) 0
        - (MatAssemblyEnd_SeqBAIJ A.B).i.getD i 0)) (List.replicate A.B.mbs 0)).getD q 0
      = A.B.ilen.getD q 0 := by
    intro q hq
    rw [(forLoop_set_index (fun i => (MatAssemblyEnd_SeqBAIJ A.B).i.getD (i + 1) 0
        - (MatAssemblyEnd_SeqBAIJ A.B).i.getD i 0) A.B.mbs (List.replicate A.B.mbs 0)).2 q,
      if_pos ⟨hq, by simpa using hq⟩, o2 (q + 1) (by omega), o2 q (by omega), rowOffset_succ]
    omega
  have hmbs : A.m / A.bs = A.B.mbs := by
    rw [hm]; exact Nat.mul_div_cancel _ (by omega)
  have hoff : ∀ r, r ≤ A.B.mbs →
      rowOffset (fun q => (forLoop A.B.mbs (fun i nz => nz.set i
        ((MatAssemblyEnd_SeqBAIJ A.B).i.getD (i + 1) 0
          - (MatAssemblyEnd_SeqBAIJ A.B).i.getD i 0)) (List.replicate A.B.mbs 0)).getD q 0) r
      = rowOffset (fun q => A.B.ilen.getD q 0) r :=
    fun r hr => rowOffset_congr _ _ r (fun q hq => hnz q (by omega))
  have hctx : BuildCtx (fun q => A.B.ilen.getD q 0) A.B.mbs
      (fun k => g.getD ((MatAssemblyEnd_SeqBAIJ A.B).j.getD k 0) 0)
      (fun x => (MatAssemblyEnd_SeqBAIJ A.B).a.getD x default)
      (fun k => (List.range A.bs2).map
        (fun t => (MatAssemblyEnd_SeqBAIJ A.B).a.getD (k * A.bs2 + t) default))
      (MatSetOption (MatSeqBAIJSetPreallocation A.m A.N A.bs
        (forLoop A.B.mbs (fun i nz => nz.set i ((MatAssemblyEnd_SeqBAIJ A.B).i.getD (i + 1) 0
          - (MatAssemblyEnd_SeqBAIJ A.B).i.getD i 0)) (List.replicate A.B.mbs 0)))
        MatOption.MAT_COLUMN_ORIENTED) := by
    refine ⟨rfl, fun r hr => ?_, fun r hr => ?_, fun r hr k2 hk2 k1 hk1 hlo => ?_,
      fun k t ht => ?_⟩
    · show ((List.range (A.m / A.bs + 1)).map _).getD r 0 = _
      rw [getD_map_range _ _ _ _ (by rw [hmbs]; omega), hoff r hr]
    · show ((List.range (A.m / A.bs)).map _).getD r 0 = _
      rw [getD_map_range _ _ _ _ (by rw [hmbs]; omega), hnz r hr]
    · have hsucc := rowOffset_succ (fun q => A.B.ilen.getD q 0) r
      have e1 := o5 r hr (k1 - rowOffset (fun q => A.B.ilen.getD q 0) r) (by omega)
      have e2 := o5 r hr (k2 - rowOffset (fun q => A.B.ilen.getD q 0) r) (by omega)
      rw [Nat.add_sub_cancel' hlo] at e1
      rw [Nat.add_sub_cancel' (by omega)] at e2
      simp only [e1, e2]
      exact hmono r hr _ (by omega) _ (by omega)
    · have ht' : t < A.bs2 := by rw [hbs2]; exact ht
      rw [getD_map_range _ _ _ _ ht']
      show _ = (MatAssemblyEnd_SeqBAIJ A.B).a.getD (k * (A.bs * A.bs) + t) default
      rw [hbs2]
  have hinv0 : BuildInv (fun q => A.B.ilen.getD q 0) A.B.mbs
      (fun k => g.getD ((MatAssemblyEnd_SeqBAIJ A.B).j.getD k 0) 0)
      (fun x => (MatAssemblyEnd_SeqBAIJ A.B).a.getD x default)
      (MatSetOption (MatSeqBAIJSetPreallocation A.m A.N A.bs
        (forLoop A.B.mbs (fun i nz => nz.set i ((MatAssemblyEnd_SeqBAIJ A.B).i.getD (i + 1) 0
          - (MatAssemblyEnd_SeqBAIJ A.B).i.getD i 0)) (List.replicate A.B.mbs 0)))
        MatOption.MAT_COLUMN_ORIENTED)
      (MatSetOption (MatSeqBAIJSetPreallocation A.m A.N A.bs
        (forLoop A.B.mbs (fun i nz => nz.set i ((MatAssemblyEnd_SeqBAIJ A.B).i.getD (i + 1) 0
          - (MatAssemblyEnd_SeqBAIJ A.B).i.getD i 0)) (List.replicate A.B.mbs 0)))
        MatOption.MAT_COLUMN_ORIENTED) 0 := by
    refine ⟨rfl, ?_, fun q hq => ?_, ?_, fun k hk => by omega, ?_, fun x hx => by omega⟩
    · show (List.replicate (A.m / A.bs) 0).length = _
      rw [List.length_replicate, hmbs]
    · show (List.replicate (A.m / A.bs) 0).getD q 0 = _
      rw [List.getD_eq_getElem?_getD, List.getElem?_replicate, Nat.zero_sub, Nat.min_zero]
      split <;> rfl
    · show (List.replicate _ 0).length = _
      rw [List.length_replicate, hmbs, hoff _ (le_refl _)]
    · show (List.replicate _ default).length = _
      rw [List.length_replicate, hmbs, hoff _ (le_refl _)]
      rfl
  have hloop := build_rows _ _ _ _ _ _ (MatAssemblyEnd_SeqBAIJ A.B).insertmode hctx hinv0
  have hB : (DisAssemble_MPIBAIJ A).B = MatSetOption
      (forLoop A.B.mbs (fun i Bn =>
        forLoopFrom (rowOffset (fun q => A.B.ilen.getD q 0) i)
          (rowOffset (fun q => A.B.ilen.getD q 0) (i + 1))
          (fun j Bn => MatSetValuesBlocked_SeqBAIJ Bn i
            (g.getD ((MatAssemblyEnd_SeqBAIJ A.B).j.getD j 0) 0)
            ((List.range A.bs2).map
              (fun t => (MatAssemblyEnd_SeqBAIJ A.B).a.getD (j * A.bs2 + t) default))
            (MatAssemblyEnd_SeqBAIJ A.B).insertmode) Bn)
        (MatSetOption (MatSeqBAIJSetPreallocation A.m A.N A.bs
          (forLoop A.B.mbs (fun i nz => nz.set i ((MatAssemblyEnd_SeqBAIJ A.B).i.getD (i + 1) 0
            - (MatAssemblyEnd_SeqBAIJ A.B).i.getD i 0)) (List.replicate A.B.mbs 0)))
          MatOption.MAT_COLUMN_ORIENTED))
      MatOption.MAT_ROW_ORIENTED := by
    unfold DisAssemble_MPIBAIJ
    simp only [hg, Option.getD_some]
    congr 1
    apply forLoop_congr
    intro i hi s'
    rw [o2 i (by omega), o2 (i + 1) (by omega)]
  obtain ⟨e, v1, v2, v3, v4, v5, v6⟩ := hloop
  rw [hB]
  generalize forLoop A.B.mbs (fun i Bn =>
        forLoopFrom (rowOffset (fun q => A.B.ilen.getD q 0) i)
          (rowOffset (fun q => A.B.ilen.getD q 0) (i + 1))
          (fun j Bn => MatSetValuesBlocked_SeqBAIJ Bn i
            (g.getD ((MatAssemblyEnd_SeqBAIJ A.B).j.getD j 0) 0)
            ((List.range A.bs2).map
              (fun t => (MatAssemblyEnd_SeqBAIJ A.B).a.getD (j * A.bs2 + t) default))
            (MatAssemblyEnd_SeqBAIJ A.B).insertmode) Bn)
        (MatSetOption (MatSeqBAIJSetPreallocation A.m A.N A.bs
          (forLoop A.B.mbs (fun i nz => nz.set i ((MatAssemblyEnd_SeqBAIJ A.B).i.getD (i + 1) 0
            - (MatAssemblyEnd_SeqBAIJ A.B).i.getD i 0)) (List.replicate A.B.mbs 0)))
          MatOption.MAT_COLUMN_ORIENTED) = Bn at e v1 v2 v3 v4 v5 v6 ⊢
  have e_mbs : Bn.mbs = A.m / A.bs := by rw [e]; rfl
  have e_bs2 : Bn.bs2 = A.bs * A.bs := by rw [e]; rfl
  have e_i : ∀ r, r ≤ A.B.mbs → Bn.i.getD r 0 = rowOffset (fun q => A.B.ilen.getD q 0) r := by
    intro r hr; rw [e]; exact hctx.2.1 r hr
  have e_imax : ∀ r, r < A.B.mbs → Bn.imax.getD r 0 = A.B.ilen.getD r 0 := by
    intro r hr; rw [e]; exact hctx.2.2.1 r hr
  have e_ilen : Bn.i.length = A.m / A.bs + 1 := by
    rw [e]
    show ((List.range (A.m / A.bs + 1)).map _).length = _
    rw [List.length_map, List.length_range]
  have e_alen : Bn.a.length = rowOffset (fun q => A.B.ilen.getD q 0) A.B.mbs * (A.bs * A.bs) :=
    v5
  refine ⟨e_mbs.trans hmbs, e_bs2.trans hbs2.symm, e_i, v1, fun r hr => ?_, e_imax, v3, v4,
    fun x hx => ?_, by rw [hbs2]; exact e_alen, by rw [← hmbs]; exact e_ilen⟩
  · show Bn.ilen.getD r 0 = _
    rw [v2 r hr]
    have := rowOffset_end_le (fun q => A.B.ilen.getD q 0) r A.B.mbs hr
    simp only at this ⊢
    omega
  · have hx' : x < rowOffset (fun q => A.B.ilen.getD q 0) A.B.mbs * (A.bs * A.bs) := by
      rw [← hbs2]; exact hx
    exact v6 x hx'

/-- The part of `disassemble_facts_ext` that describes the cells of the rebuilt block. -/
theorem disassemble_facts {α : Type} [Inhabited α] [Add α] (A : Mat_MPIBAIJ α) (g : List Nat)
    (hg : A.garray = some g) (hm : A.m = A.B.mbs * A.bs) (hbs : 1 ≤ A.bs)
    (hbs2 : A.bs2 = A.bs * A.bs)
    (hmono : ∀ r, r < A.B.mbs → ∀ t2, t2 < A.B.ilen.getD r 0 → ∀ t1, t1 < t2 →
      g.getD (A.B.j.getD (A.B.i.getD r 0 + t1) 0) 0
        < g.getD (A.B.j.getD (A.B.i.getD r 0 + t2) 0) 0) :
    (DisAssemble_MPIBAIJ A).B.mbs = A.B.mbs ∧
    (DisAssemble_MPIBAIJ A).B.bs2 = A.bs2 ∧
    (∀ r, r ≤ A.B.mbs → (DisAssemble_MPIBAIJ A).B.i.getD r 0
      = rowOffset (fun q => A.B.ilen.getD q 0) r) ∧
    (DisAssemble_MPIBAIJ A).B.ilen.length = A.B.mbs ∧
    (∀ r, r < A.B.mbs → (DisAssemble_MPIBAIJ A).B.ilen.getD r 0 = A.B.ilen.getD r 0) ∧
    (∀ r, r < A.B.mbs → (DisAssemble_MPIBAIJ A).B.imax.getD r 0 = A.B.ilen.getD r 0) ∧
    (DisAssemble_MPIBAIJ A).B.j.length = rowOffset (fun q => A.B.ilen.getD q 0) A.B.mbs ∧
    (∀ k, k < rowOffset (fun q => A.B.ilen.getD q 0) A.B.mbs →
      (DisAssemble_MPIBAIJ A).B.j.getD k 0
        = g.getD ((MatAssemblyEnd_SeqBAIJ A.B).j.getD k 0) 0) ∧
    (∀ x, x < rowOffset (fun q => A.B.ilen.getD q 0) A.B.mbs * A.bs2 →
      (DisAssemble_MPIBAIJ A).B.a.getD x default
        = (MatAssemblyEnd_SeqBAIJ A.B).a.getD x default) := by
  obtain ⟨a1, a2, a3, a4, a5, a6, a7, a8, a9, _⟩ :=
    disassemble_facts_ext A g hg hm hbs hbs2 hmono
  exact ⟨a1, a2, a3, a4, a5, a6, a7, a8, a9⟩

theorem find_unique (l : List Nat) (p : Nat → Bool) (t0 : Nat) (h0 : t0 ∈ l)
    (hp : p t0 = true) (huniq : ∀ t, t ∈ l → p t = true → t = t0) : l.find? p = some t0 := by
  cases hf : l.find? p with
  | none =>
    have := List.find?_eq_none.1 hf t0 h0
    exact absurd hp this
  | some t =>
    rw [huniq t (List.mem_of_find?_eq_some hf) (List.find?_some hf)]

/-- The translated columns of a compacted, sorted block increase strictly inside every row. -/
theorem translated_sorted {α : Type} (B : Mat_SeqBAIJ α) (g : List Nat)
    (hsorted : RowsSorted B) (hgs : (g.take B.nbs).Sorted (· < ·)) (hnbs : B.nbs ≤ g.length)
    (hlt : ∀ c ∈ colRefs B, c < B.nbs) :
    ∀ r, r < B.mbs → ∀ t2, t2 < B.ilen.getD r 0 → ∀ t1, t1 < t2 →
      g.getD (B.j.getD (B.i.getD r 0 + t1) 0) 0 < g.getD (B.j.getD (B.i.getD r 0 + t2) 0) 0 := by
  intro r hr t2 ht2 t1 ht1
  exact sorted_take_getD_lt g B.nbs hgs hnbs _ _ (hsorted r hr t2 ht2 t1 ht1)
    (hlt _ (ref_mem_colRefs B r t2 hr ht2))

/-! ## Claim C9: the block rebuilt by `DisAssemble_MPIBAIJ` -/

/-- C9: `DisAssemble_MPIBAIJ` rebuilds the off-diagonal block so that, for every block row
`r` and every stored entry `k` of the (assembled) old block in that row, `i[r] <= k < i[r+1]`,
the new block holds at row `r`, global block column `garray[j[k]]`, exactly the `bs2` scalars
`a[k*bs2 .. k*bs2+bs2-1]` of the old entry, and it holds no other entry.  The matrix is an
assembled one: rows sorted by column, compacted column indices below `nbs`, `garray` strictly
increasing on its first `nbs` cells. -/
theorem C9_disassemble_rebuilds_block {α : Type} [Inhabited α] [Add α] (A : Mat_MPIBAIJ α)
    (g : List Nat) (hg : A.garray = some g) (hm : A.m = A.B.mbs * A.bs) (hbs : 1 ≤ A.bs)
    (hbs2 : A.bs2 = A.bs * A.bs) (hsorted : RowsSorted A.B)
    (hgs : (g.take A.B.nbs).Sorted (· < ·)) (hnbs : A.B.nbs ≤ g.length)
    (hlt : ∀ c ∈ colRefs A.B, c < A.B.nbs) :
    (∀ r k, r < A.B.mbs → (MatAssemblyEnd_SeqBAIJ A.B).i.getD r 0 ≤ k →
      k < (MatAssemblyEnd_SeqBAIJ A.B).i.getD (r + 1) 0 →
      blockAt (DisAssemble_MPIBAIJ A).B r (g.getD ((MatAssemblyEnd_SeqBAIJ A.B).j.getD k 0) 0)
        = some ((List.range A.bs2).map
            (fun t => (MatAssemblyEnd_SeqBAIJ A.B).a.getD (k * A.bs2 + t) default))) ∧
    (∀ r c, (blockAt (DisAssemble_MPIBAIJ A).B r c).isSome → r < A.B.mbs ∧
      ∃ k, (MatAssemblyEnd_SeqBAIJ A.B).i.getD r 0 ≤ k ∧
        k < (MatAssemblyEnd_SeqBAIJ A.B).i.getD (r + 1) 0 ∧
        c = g.getD ((MatAssemblyEnd_SeqBAIJ A.B).j.getD k 0) 0) := by
  have hmono := translated_sorted A.B g hsorted hgs hnbs hlt
  obtain ⟨_, d2, d3, d4, d5, _, _, d8, d9⟩ := disassemble_facts A g hg hm hbs hbs2 hmono
  obtain ⟨_, o2, _, _, o5⟩ := assembled_facts A.B
  constructor
  · intro r k hr hk1 hk2
    rw [o2 r (by omega)] at hk1
    have hsucc : rowOffset (fun q => A.B.ilen.getD q 0) (r + 1)
        = rowOffset (fun q => A.B.ilen.getD q 0) r + A.B.ilen.getD r 0 := rowOffset_succ _ r
    rw [o2 (r + 1) (by omega), hsucc] at hk2
    have hend : rowOffset (fun q => A.B.ilen.getD q 0) r + A.B.ilen.getD r 0
        ≤ rowOffset (fun q => A.B.ilen.getD q 0) A.B.mbs := rowOffset_end_le _ r A.B.mbs hr
    have hfind : (List.range ((DisAssemble_MPIBAIJ A).B.ilen.getD r 0)).find?
        (fun t => decide ((DisAssemble_MPIBAIJ A).B.j.getD
          ((DisAssemble_MPIBAIJ A).B.i.getD r 0 + t) 0
            = g.getD ((MatAssemblyEnd_SeqBAIJ A.B).j.getD k 0) 0))
        = some (k - rowOffset (fun q => A.B.ilen.getD q 0) r) := by
      apply find_unique
      · rw [d5 r hr]; exact List.mem_range.2 (by omega)
      · rw [d3 r (by omega), Nat.add_sub_cancel' hk1, d8 k (by omega)]
        simp
      · intro t ht hp
        rw [d5 r hr] at ht
        have ht' : t < A.B.ilen.getD r 0 := List.mem_range.1 ht
        rw [d3 r (by omega), d8 _ (by omega)] at hp
        have hp' := of_decide_eq_true hp
        have e1 := o5 r hr t ht'
        have e2 := o5 r hr (k - rowOffset (fun q => A.B.ilen.getD q 0) r)
          (by omega)
        rw [Nat.add_sub_cancel' hk1] at e2
        rw [e1, e2] at hp'
        rcases Nat.lt_trichotomy t (k - rowOffset (fun q => A.B.ilen.getD q 0) r) with
          h1 | h1 | h1
        · have := hmono r hr _ (by omega) t h1
          omega
        · exact h1
        · have := hmono r hr t ht' _ h1
          omega
    unfold blockAt
    rw [hfind]
    simp only [Option.some.injEq]
    rw [d3 r (by omega), Nat.add_sub_cancel' hk1, d2]
    apply List.map_congr_left
    intro t ht
    have ht' : t < A.bs2 := List.mem_range.1 ht
    apply d9
    calc k * A.bs2 + t < k * A.bs2 + A.bs2 := by omega
      _ = (k + 1) * A.bs2 := by rw [Nat.succ_mul]
      _ ≤ rowOffset (fun q => A.B.ilen.getD q 0) A.B.mbs * A.bs2 :=
          Nat.mul_le_mul_right _ (by omega)
  · intro r c hsome
    unfold blockAt at hsome
    cases hf : (List.range ((DisAssemble_MPIBAIJ A).B.ilen.getD r 0)).find?
        (fun t => decide ((DisAssemble_MPIBAIJ A).B.j.getD
          ((DisAssemble_MPIBAIJ A).B.i.getD r 0 + t) 0 = c)) with
    | none => rw [hf] at hsome; simp at hsome
    | some t =>
      have ht := List.mem_range.1 (List.mem_of_find?_eq_some hf)
      have hp := List.find?_some hf
      simp only [decide_eq_true_eq] at hp
      have hr : r < A.B.mbs := by
        by_contra hge
        have : (DisAssemble_MPIBAIJ A).B.ilen.getD r 0 = 0 := by
          rw [List.getD_eq_getElem?_getD, List.getElem?_eq_none (by rw [d4]; omega)]
          rfl
        omega
      rw [d5 r hr] at ht
      have hsucc : rowOffset (fun q => A.B.ilen.getD q 0) (r + 1)
          = rowOffset (fun q => A.B.ilen.getD q 0) r + A.B.ilen.getD r 0 := rowOffset_succ _ r
      have hend : rowOffset (fun q => A.B.ilen.getD q 0) r + A.B.ilen.getD r 0
          ≤ rowOffset (fun q => A.B.ilen.getD q 0) A.B.mbs := rowOffset_end_le _ r A.B.mbs hr
      rw [d3 r (by omega), d8 _ (by omega)] at hp
      refine ⟨hr, rowOffset (fun q => A.B.ilen.getD q 0) r + t, ?_, ?_, hp.symm⟩
      · rw [o2 r (by omega)]; omega
      · rw [o2 (r + 1) (by omega), hsucc]; omega

/-- C9 on the assembled sample matrix: the rebuilt block holds, at row 2 and global block
column 7, the four scalars of the second entry of row 2. -/
theorem C9_disassemble_rebuilds_block_witness :
    (sampleAssembled.garray = some [2, 5, 7, 0] ∧
      sampleAssembled.m = sampleAssembled.B.mbs * sampleAssembled.bs ∧ 1 ≤ sampleAssembled.bs ∧
      sampleAssembled.bs2 = sampleAssembled.bs * sampleAssembled.bs ∧
      RowsSorted sampleAssembled.B ∧
      ([2, 5, 7, 0].take sampleAssembled.B.nbs).Sorted (· < ·) ∧
      sampleAssembled.B.nbs ≤ [2, 5, 7, 0].length ∧
      (∀ c ∈ colRefs sampleAssembled.B, c < sampleAssembled.B.nbs)) ∧
    blockAt (DisAssemble_MPIBAIJ sampleAssembled).B 2 7 = some [116, 117, 118, 119] ∧
    ((∀ r k, r < sampleAssembled.B.mbs →
      (MatAssemblyEnd_SeqBAIJ sampleAssembled.B).i.getD r 0 ≤ k →
      k < (MatAssemblyEnd_SeqBAIJ sampleAssembled.B).i.getD (r + 1) 0 →
      blockAt (DisAssemble_MPIBAIJ sampleAssembled).B r
          ([2, 5, 7, 0].getD ((MatAssemblyEnd_SeqBAIJ sampleAssembled.B).j.getD k 0) 0)
        = some ((List.range sampleAssembled.bs2).map
            (fun t => (MatAssemblyEnd_SeqBAIJ sampleAssembled.B).a.getD
              (k * sampleAssembled.bs2 + t) default))) ∧
    (∀ r c, (blockAt (DisAssemble_MPIBAIJ sampleAssembled).B r c).isSome →
      r < sampleAssembled.B.mbs ∧
      ∃ k, (MatAssemblyEnd_SeqBAIJ sampleAssembled.B).i.getD r 0 ≤ k ∧
        k < (MatAssemblyEnd_SeqBAIJ sampleAssembled.B).i.getD (r + 1) 0 ∧
        c = [2, 5, 7, 0].getD ((MatAssemblyEnd_SeqBAIJ sampleAssembled.B).j.getD k 0) 0)) :=
  ⟨⟨by decide, by decide, by decide, by decide, by decide, by decide, by decide, by decide⟩,
    by decide,
    C9_disassemble_rebuilds_block sampleAssembled [2, 5, 7, 0] (by decide) (by decide)
      (by decide) (by decide) (by decide) (by decide) (by decide) (by decide)⟩

/-! ## Claim C10: compaction, disassembly and compaction again -/

theorem compactBlock_struct {α : Type} (useCTable : Bool) (Nbs : Nat) (B : Mat_SeqBAIJ α) :
    (compactBlock useCTable Nbs B).B.mbs = B.mbs ∧
    (compactBlock useCTable Nbs B).B.i = B.i ∧
    (compactBlock useCTable Nbs B).B.ilen = B.ilen := by
  cases useCTable <;> exact ⟨rfl, rfl, rfl⟩

/-- Position of a column in a Ghost Array is determined by the column. -/
theorem ghost_pos_unique (g1 g3 : List Nat) (n p q : Nat)
    (hs : (g1.take n).Sorted (· < ·)) (hn : n ≤ g1.length)
    (heq : ∀ x, x < n → g3.getD x 0 = g1.getD x 0) (hp : p < n) (hq : q < n)
    (h : g3.getD p 0 = g1.getD q 0) : p = q := by
  rw [heq p hp] at h
  rcases Nat.lt_trichotomy p q with h1 | h1 | h1
  · have := sorted_take_getD_lt g1 n hs hn p q h1 hq; omega
  · exact h1
  · have := sorted_take_getD_lt g1 n hs hn q p h1 hp; omega

/-- The chain compaction, disassembly, compaction, described on the three blocks. -/
theorem round_trip_facts {α : Type} [Inhabited α] [Add α] (useCTable : Bool)
    (mat : Mat_MPIBAIJ α) (h : ∀ c ∈ colRefs mat.B, c < mat.Nbs) (hrows : RowsOK mat.B)
    (hsorted : RowsSorted mat.B) (hN : mat.Nbs * mat.bs ≤ PETSC_MAX_INT) (hbs : 1 ≤ mat.bs)
    (hm : mat.m = mat.B.mbs * mat.bs) (hbs2 : mat.bs2 = mat.bs * mat.bs) :
    colRefs (DisAssemble_MPIBAIJ (MatSetUpMultiply_MPIBAIJ useCTable mat)).B = colRefs mat.B ∧
    (DisAssemble_MPIBAIJ (MatSetUpMultiply_MPIBAIJ useCTable mat)).B.mbs = mat.B.mbs ∧
    (∀ r, r < mat.B.mbs →
      (DisAssemble_MPIBAIJ (MatSetUpMultiply_MPIBAIJ useCTable mat)).B.ilen.getD r 0
        = mat.B.ilen.getD r 0) ∧
    RowsOK (DisAssemble_MPIBAIJ (MatSetUpMultiply_MPIBAIJ useCTable mat)).B ∧
    (MatSetUpMultiply_MPIBAIJ useCTable
      (DisAssemble_MPIBAIJ (MatSetUpMultiply_MPIBAIJ useCTable mat))).garray
        = some (compactBlock useCTable mat.Nbs
            (DisAssemble_MPIBAIJ (MatSetUpMultiply_MPIBAIJ useCTable mat)).B).garray ∧
    (compactBlock useCTable mat.Nbs
        (DisAssemble_MPIBAIJ (MatSetUpMultiply_MPIBAIJ useCTable mat)).B).ghost
      = (compactBlock useCTable mat.Nbs mat.B).ghost ∧
    (compactBlock useCTable mat.Nbs
        (DisAssemble_MPIBAIJ (MatSetUpMultiply_MPIBAIJ useCTable mat)).B).ec
      = (compactBlock useCTable mat.Nbs mat.B).ec ∧
    colRefs (compactBlock useCTable mat.Nbs
        (DisAssemble_MPIBAIJ (MatSetUpMultiply_MPIBAIJ useCTable mat)).B).B
      = colRefs (compactBlock useCTable mat.Nbs mat.B).B := by
  obtain ⟨f1, _, _, f4⟩ := setUp_facts useCTable mat h hN
  obtain ⟨b1, b2, b3, _, _⟩ := compactBlock_facts useCTable mat.Nbs mat.B h
  obtain ⟨r1, _, _⟩ := compactBlock_rewrite useCTable mat.Nbs mat.B h hrows
  obtain ⟨st1, st2, st3⟩ := compactBlock_struct useCTable mat.Nbs mat.B
  have hB1mbs : (MatSetUpMultiply_MPIBAIJ useCTable mat).B.mbs = mat.B.mbs := by rw [f1, st1]
  have hB1i : (MatSetUpMultiply_MPIBAIJ useCTable mat).B.i = mat.B.i := by rw [f1, st2]
  have hB1ilen : (MatSetUpMultiply_MPIBAIJ useCTable mat).B.ilen = mat.B.ilen := by
    rw [f1, st3]
  have hback : ∀ r, r < mat.B.mbs → ∀ t, t < mat.B.ilen.getD r 0 →
      (compactBlock useCTable mat.Nbs mat.B).garray.getD
        ((MatSetUpMultiply_MPIBAIJ useCTable mat).B.j.getD (mat.B.i.getD r 0 + t) 0) 0
        = mat.B.j.getD (mat.B.i.getD r 0 + t) 0 := by
    intro r hr t ht
    rw [f1]
    exact (r1 _ ((mem_slots mat.B _).2
      ⟨r, hr, Nat.le_add_right _ _, Nat.add_lt_add_left ht _⟩)).2
  have hmono : ∀ r, r < (MatSetUpMultiply_MPIBAIJ useCTable mat).B.mbs → ∀ t2,
      t2 < (MatSetUpMultiply_MPIBAIJ useCTable mat).B.ilen.getD r 0 → ∀ t1, t1 < t2 →
      (compactBlock useCTable mat.Nbs mat.B).garray.getD
        ((MatSetUpMultiply_MPIBAIJ useCTable mat).B.j.getD
          ((MatSetUpMultiply_MPIBAIJ useCTable mat).B.i.getD r 0 + t1) 0) 0
      < (compactBlock useCTable mat.Nbs mat.B).garray.getD
        ((MatSetUpMultiply_MPIBAIJ useCTable mat).B.j.getD
          ((MatSetUpMultiply_MPIBAIJ useCTable mat).B.i.getD r 0 + t2) 0) 0 := by
    intro r hr t2 ht2 t1 ht1
    rw [hB1mbs] at hr
    rw [hB1ilen] at ht2
    rw [hB1i, hback r hr t1 (Nat.lt_trans ht1 ht2), hback r hr t2 ht2]
    exact hsorted r hr t2 ht2 t1 ht1
  obtain ⟨d1, _, d3, _, d5, _, d7, d8, _⟩ := disassemble_facts
    (MatSetUpMultiply_MPIBAIJ useCTable mat) (compactBlock useCTable mat.Nbs mat.B).garray
    (f4 hbs) (by rw [hB1mbs]; exact hm) hbs hbs2 hmono
  obtain ⟨_, _, _, _, o5⟩ := assembled_facts (MatSetUpMultiply_MPIBAIJ useCTable mat).B
  rw [hB1mbs] at d1 d3 d5 d7 d8 o5
  rw [hB1ilen] at d3 d5 d7 d8 o5
  rw [hB1i] at o5
  have hcell : ∀ r, r < mat.B.mbs → ∀ t, t < mat.B.ilen.getD r 0 →
      (DisAssemble_MPIBAIJ (MatSetUpMultiply_MPIBAIJ useCTable mat)).B.j.getD
        ((DisAssemble_MPIBAIJ (MatSetUpMultiply_MPIBAIJ useCTable mat)).B.i.getD r 0 + t) 0
        = mat.B.j.getD (mat.B.i.getD r 0 + t) 0 := by
    intro r hr t ht
    have hend : rowOffset (fun q => mat.B.ilen.getD q 0) r + mat.B.ilen.getD r 0
        ≤ rowOffset (fun q => mat.B.ilen.getD q 0) mat.B.mbs := rowOffset_end_le _ r _ hr
    rw [d3 r (Nat.le_of_lt hr),
      d8 _ (Nat.lt_of_lt_of_le (Nat.add_lt_add_left ht _) hend), o5 r hr t ht]
    exact hback r hr t ht
  have hrefs2 : colRefs (DisAssemble_MPIBAIJ (MatSetUpMultiply_MPIBAIJ useCTable mat)).B
      = colRefs mat.B :=
    colRefs_congr _ _ d1 (fun r hr => d5 r (by rw [← d1]; exact hr))
      (fun r hr t ht => by
        rw [d1] at hr
        rw [d5 r hr] at ht
        exact hcell r hr t ht)
  have hrows2 : RowsOK (DisAssemble_MPIBAIJ (MatSetUpMultiply_MPIBAIJ useCTable mat)).B := by
    refine ⟨fun r hr => ?_, ?_⟩
    · rw [d1] at hr
      have hsucc : rowOffset (fun q => mat.B.ilen.getD q 0) (r + 1)
          = rowOffset (fun q => mat.B.ilen.getD q 0) r + mat.B.ilen.getD r 0 :=
        rowOffset_succ _ r
      rw [d3 r (Nat.le_of_lt hr), d3 (r + 1) hr, d5 r hr, hsucc]
    · rw [d1, d3 _ (le_refl _), d7]
  have h2 : ∀ c ∈ colRefs (DisAssemble_MPIBAIJ (MatSetUpMultiply_MPIBAIJ useCTable mat)).B,
      c < mat.Nbs := by rw [hrefs2]; exact h
  obtain ⟨g1, _, _, g4⟩ := setUp_facts useCTable
    (DisAssemble_MPIBAIJ (MatSetUpMultiply_MPIBAIJ useCTable mat)) h2 hN
  obtain ⟨c1, c2, _, _, _⟩ := compactBlock_facts useCTable mat.Nbs
    (DisAssemble_MPIBAIJ (MatSetUpMultiply_MPIBAIJ useCTable mat)).B h2
  obtain ⟨q1, _, _⟩ := compactBlock_rewrite useCTable mat.Nbs
    (DisAssemble_MPIBAIJ (MatSetUpMultiply_MPIBAIJ useCTable mat)).B h2 hrows2
  obtain ⟨su1, su2, su3⟩ := compactBlock_struct useCTable mat.Nbs
    (DisAssemble_MPIBAIJ (MatSetUpMultiply_MPIBAIJ useCTable mat)).B
  have hghost : (compactBlock useCTable mat.Nbs
      (DisAssemble_MPIBAIJ (MatSetUpMultiply_MPIBAIJ useCTable mat)).B).ghost
      = (compactBlock useCTable mat.Nbs mat.B).ghost := by rw [c1, b1, hrefs2]
  have hec : (compactBlock useCTable mat.Nbs
      (DisAssemble_MPIBAIJ (MatSetUpMultiply_MPIBAIJ useCTable mat)).B).ec
      = (compactBlock useCTable mat.Nbs mat.B).ec := by rw [c2, b2, hghost]
  have hgs : ((compactBlock useCTable mat.Nbs mat.B).garray.take
      (compactBlock useCTable mat.Nbs mat.B).ec).Sorted (· < ·) := by
    change (compactBlock useCTable mat.Nbs mat.B).ghost.Sorted (· < ·)
    rw [b1]; exact Finset.sort_sorted_lt _
  have hsame : ∀ x, x < (compactBlock useCTable mat.Nbs mat.B).ec →
      (compactBlock useCTable mat.Nbs
        (DisAssemble_MPIBAIJ (MatSetUpMultiply_MPIBAIJ useCTable mat)).B).garray.getD x 0
      = (compactBlock useCTable mat.Nbs mat.B).garray.getD x 0 := by
    intro x hx
    rw [← getD_take_lt _ (compactBlock useCTable mat.Nbs
        (DisAssemble_MPIBAIJ (MatSetUpMultiply_MPIBAIJ useCTable mat)).B).ec x
        (by rw [hec]; exact hx),
      ← getD_take_lt (compactBlock useCTable mat.Nbs mat.B).garray
        (compactBlock useCTable mat.Nbs mat.B).ec x hx]
    change (compactBlock useCTable mat.Nbs
        (DisAssemble_MPIBAIJ (MatSetUpMultiply_MPIBAIJ useCTable mat)).B).ghost.getD x 0
      = (compactBlock useCTable mat.Nbs mat.B).ghost.getD x 0
    rw [hghost]
  refine ⟨hrefs2, d1, d5, hrows2, g4 hbs, hghost, hec, ?_⟩
  apply colRefs_congr
  · rw [su1, st1, d1]
  · intro r hr
    rw [su1, d1] at hr
    rw [su3, st3, d5 r hr]
  · intro r hr t ht
    rw [su1, d1] at hr
    rw [su3, d5 r hr] at ht
    rw [su2, st2]
    have hend : rowOffset (fun q => mat.B.ilen.getD q 0) r + mat.B.ilen.getD r 0
        ≤ rowOffset (fun q => mat.B.ilen.getD q 0) mat.B.mbs := rowOffset_end_le _ r _ hr
    have hk3 : (DisAssemble_MPIBAIJ (MatSetUpMultiply_MPIBAIJ useCTable mat)).B.i.getD r 0 + t
        ∈ slots (DisAssemble_MPIBAIJ (MatSetUpMultiply_MPIBAIJ useCTable mat)).B :=
      (mem_slots _ _).2 ⟨r, by rw [d1]; exact hr, Nat.le_add_right _ _,
        by rw [d5 r hr]; exact Nat.add_lt_add_left ht _⟩
    have hk1 : mat.B.i.getD r 0 + t ∈ slots mat.B :=
      (mem_slots _ _).2 ⟨r, hr, Nat.le_add_right _ _, Nat.add_lt_add_left ht _⟩
    obtain ⟨p3lt, p3eq⟩ := q1 _ hk3
    obtain ⟨p1lt, p1eq⟩ := r1 _ hk1
    rw [hcell r hr t ht, ← p1eq] at p3eq
    exact ghost_pos_unique _ _ _ _ _ hgs (by rw [b3]; exact Nat.le_succ _) hsame
      (by rw [← hec]; exact p3lt) p1lt p3eq

/-- C10: round trip.  For a block with column references in `[0, Nbs)`, compacting it
(`MatSetUpMultiply_MPIBAIJ`), disassembling it (`DisAssemble_MPIBAIJ`) and compacting the
result again gives the same Ghost Array and the same rewritten column indices as the first
compaction, entry by entry; in particular the disassembled block holds, entry by entry and
row by row, the original global column ids. -/
theorem C10_round_trip {α : Type} [Inhabited α] [Add α] (useCTable : Bool)
    (mat : Mat_MPIBAIJ α) (h : ∀ c ∈ colRefs mat.B, c < mat.Nbs) (hrows : RowsOK mat.B)
    (hsorted : RowsSorted mat.B) (hN : mat.Nbs * mat.bs ≤ PETSC_MAX_INT) (hbs : 1 ≤ mat.bs)
    (hm : mat.m = mat.B.mbs * mat.bs) (hbs2 : mat.bs2 = mat.bs * mat.bs) :
    (colRefs (DisAssemble_MPIBAIJ (MatSetUpMultiply_MPIBAIJ useCTable mat)).B = colRefs mat.B ∧
      (DisAssemble_MPIBAIJ (MatSetUpMultiply_MPIBAIJ useCTable mat)).B.mbs = mat.B.mbs ∧
      ∀ r, r < mat.B.mbs →
        (DisAssemble_MPIBAIJ (MatSetUpMultiply_MPIBAIJ useCTable mat)).B.ilen.getD r 0
          = mat.B.ilen.getD r 0) ∧
    (∃ g1 g3, (MatSetUpMultiply_MPIBAIJ useCTable mat).garray = some g1 ∧
      (MatSetUpMultiply_MPIBAIJ useCTable
        (DisAssemble_MPIBAIJ (MatSetUpMultiply_MPIBAIJ useCTable mat))).garray = some g3 ∧
      (MatSetUpMultiply_MPIBAIJ useCTable
        (DisAssemble_MPIBAIJ (MatSetUpMultiply_MPIBAIJ useCTable mat))).B.nbs
        = (MatSetUpMultiply_MPIBAIJ useCTable mat).B.nbs ∧
      g3.take (MatSetUpMultiply_MPIBAIJ useCTable
          (DisAssemble_MPIBAIJ (MatSetUpMultiply_MPIBAIJ useCTable mat))).B.nbs
        = g1.take (MatSetUpMultiply_MPIBAIJ useCTable mat).B.nbs) ∧
    colRefs (MatSetUpMultiply_MPIBAIJ useCTable
        (DisAssemble_MPIBAIJ (MatSetUpMultiply_MPIBAIJ useCTable mat))).B
      = colRefs (MatSetUpMultiply_MPIBAIJ useCTable mat).B := by
  obtain ⟨t1, t2, t3, _, t5, t6, t7, t8⟩ :=
    round_trip_facts useCTable mat h hrows hsorted hN hbs hm hbs2
  obtain ⟨_, _, _, f4⟩ := setUp_facts useCTable mat h hN
  obtain ⟨n1, _⟩ := compactBlock_nbs useCTable mat.Nbs mat.B
  obtain ⟨n3, _⟩ := compactBlock_nbs useCTable mat.Nbs
    (DisAssemble_MPIBAIJ (MatSetUpMultiply_MPIBAIJ useCTable mat)).B
  have e1 : (MatSetUpMultiply_MPIBAIJ useCTable mat).B
      = (compactBlock useCTable mat.Nbs mat.B).B := rfl
  have e3 : (MatSetUpMultiply_MPIBAIJ useCTable
      (DisAssemble_MPIBAIJ (MatSetUpMultiply_MPIBAIJ useCTable mat))).B
      = (compactBlock useCTable mat.Nbs
          (DisAssemble_MPIBAIJ (MatSetUpMultiply_MPIBAIJ useCTable mat)).B).B := rfl
  refine ⟨⟨t1, t2, t3⟩, ⟨_, _, f4 hbs, t5, ?_, ?_⟩, ?_⟩
  · rw [e3, e1, n3, n1, t7]
  · rw [e3, e1, n3, n1]; exact t6
  · rw [e3, e1]; exact t8

/-- C10 on the sample matrix: Ghost Array 2, 5, 7 and column indices 1, 0, 0, 2 both times,
columns 5, 2, 2, 7 restored in between. -/
theorem C10_round_trip_witness :
    ((∀ c ∈ colRefs sampleMat.B, c < sampleMat.Nbs) ∧ RowsOK sampleMat.B ∧
      RowsSorted sampleMat.B ∧ sampleMat.Nbs * sampleMat.bs ≤ PETSC_MAX_INT ∧
      1 ≤ sampleMat.bs ∧ sampleMat.m = sampleMat.B.mbs * sampleMat.bs ∧
      sampleMat.bs2 = sampleMat.bs * sampleMat.bs) ∧
    (colRefs (DisAssemble_MPIBAIJ (MatSetUpMultiply_MPIBAIJ false sampleMat)).B = [5, 2, 2, 7] ∧
      colRefs (MatSetUpMultiply_MPIBAIJ false
        (DisAssemble_MPIBAIJ (MatSetUpMultiply_MPIBAIJ false sampleMat))).B = [1, 0, 0, 2]) ∧
    ((colRefs (DisAssemble_MPIBAIJ (MatSetUpMultiply_MPIBAIJ false sampleMat)).B
        = colRefs sampleMat.B ∧
      (DisAssemble_MPIBAIJ (MatSetUpMultiply_MPIBAIJ false sampleMat)).B.mbs = sampleMat.B.mbs ∧
      ∀ r, r < sampleMat.B.mbs →
        (DisAssemble_MPIBAIJ (MatSetUpMultiply_MPIBAIJ false sampleMat)).B.ilen.getD r 0
          = sampleMat.B.ilen.getD r 0) ∧
    (∃ g1 g3, (MatSetUpMultiply_MPIBAIJ false sampleMat).garray = some g1 ∧
      (MatSetUpMultiply_MPIBAIJ false
        (DisAssemble_MPIBAIJ (MatSetUpMultiply_MPIBAIJ false sampleMat))).garray = some g3 ∧
      (MatSetUpMultiply_MPIBAIJ false
        (DisAssemble_MPIBAIJ (MatSetUpMultiply_MPIBAIJ false sampleMat))).B.nbs
        = (MatSetUpMultiply_MPIBAIJ false sampleMat).B.nbs ∧
      g3.take (MatSetUpMultiply_MPIBAIJ false
          (DisAssemble_MPIBAIJ (MatSetUpMultiply_MPIBAIJ false sampleMat))).B.nbs
        = g1.take (MatSetUpMultiply_MPIBAIJ false sampleMat).B.nbs) ∧
    colRefs (MatSetUpMultiply_MPIBAIJ false
        (DisAssemble_MPIBAIJ (MatSetUpMultiply_MPIBAIJ false sampleMat))).B
      = colRefs (MatSetUpMultiply_MPIBAIJ false sampleMat).B) :=
  ⟨⟨by decide, by decide, by decide, by decide, by decide, by decide, by decide⟩,
    ⟨by decide, by decide⟩,
    C10_round_trip false sampleMat (by decide) (by decide) (by decide) (by decide) (by decide)
      (by decide) (by decide)⟩

/-! ## Claim C12: what `DisAssemble_MPIBAIJ` leaves in the matrix -/

theorem forLoop_inv {σ : Type} (P : σ → Prop) (n : Nat) (body : Nat → σ → σ) (s : σ)
    (hstep : ∀ i s, P s → P (body i s)) (h0 : P s) : P (forLoop n body s) := by
  unfold forLoop
  induction n with
  | zero => exact h0
  | succ n ih =>
    rw [List.range_succ, List.foldl_append]
    exact hstep n _ ih

theorem forLoopFrom_inv {σ : Type} (P : σ → Prop) (lo hi : Nat) (body : Nat → σ → σ) (s : σ)
    (hstep : ∀ i s, P s → P (body i s)) (h0 : P s) : P (forLoopFrom lo hi body s) := by
  unfold forLoopFrom
  generalize hi - lo = n
  induction n with
  | zero => exact h0
  | succ n ih =>
    rw [List.range_succ, List.map_append, List.foldl_append]
    exact hstep _ _ ih

/-- Storing a block never changes the dimensions of the matrix. -/
theorem setValues_header {α : Type} [Inhabited α] [Add α] (A : Mat_SeqBAIJ α)
    (row col : Nat) (v : List α) (is : InsertMode) :
    (MatSetValuesBlocked_SeqBAIJ A row col v is).bs = A.bs ∧
    (MatSetValuesBlocked_SeqBAIJ A row col v is).bs2 = A.bs2 ∧
    (MatSetValuesBlocked_SeqBAIJ A row col v is).mbs = A.mbs ∧
    (MatSetValuesBlocked_SeqBAIJ A row col v is).nbs = A.nbs ∧
    (MatSetValuesBlocked_SeqBAIJ A row col v is).m = A.m ∧
    (MatSetValuesBlocked_SeqBAIJ A row col v is).n = A.n := by
  unfold MatSetValuesBlocked_SeqBAIJ
  simp only
  split <;> exact ⟨rfl, rfl, rfl, rfl, rfl, rfl⟩

/-- C12: after `DisAssemble_MPIBAIJ` the matrix holds no compaction or communication artifact
and is marked unassembled: `lvec`, `Mvctx`, `colmap` and `garray` are null, `was_assembled` is
false, and the off-diagonal block is the newly built one, whose column space is the full
global column space of the matrix (`N` columns, `N/bs` block columns) and no longer the
`ec*bs` columns of the compacted block; the other fields of the matrix are untouched. -/
theorem C12_disassemble_releases_artifacts {α : Type} [Inhabited α] [Add α]
    (A : Mat_MPIBAIJ α) :
    (DisAssemble_MPIBAIJ A).lvec = none ∧
    (DisAssemble_MPIBAIJ A).Mvctx = none ∧
    (DisAssemble_MPIBAIJ A).colmap = none ∧
    (DisAssemble_MPIBAIJ A).garray = none ∧
    (DisAssemble_MPIBAIJ A).was_assembled = false ∧
    ((DisAssemble_MPIBAIJ A).B.n = A.N ∧ (DisAssemble_MPIBAIJ A).B.nbs = A.N / A.bs ∧
      (DisAssemble_MPIBAIJ A).B.m = A.m ∧ (DisAssemble_MPIBAIJ A).B.mbs = A.m / A.bs ∧
      (DisAssemble_MPIBAIJ A).B.bs = A.bs ∧ (DisAssemble_MPIBAIJ A).B.bs2 = A.bs * A.bs) ∧
    ((DisAssemble_MPIBAIJ A).bs = A.bs ∧ (DisAssemble_MPIBAIJ A).Nbs = A.Nbs ∧
      (DisAssemble_MPIBAIJ A).m = A.m ∧ (DisAssemble_MPIBAIJ A).N = A.N) := by
  refine ⟨rfl, rfl, rfl, rfl, rfl, ?_, ⟨rfl, rfl, rfl, rfl⟩⟩
  have hopt : ∀ (B : Mat_SeqBAIJ α) (o : MatOption),
      (B.n = A.N ∧ B.nbs = A.N / A.bs ∧ B.m = A.m ∧ B.mbs = A.m / A.bs ∧ B.bs = A.bs ∧
        B.bs2 = A.bs * A.bs) →
      ((MatSetOption B o).n = A.N ∧ (MatSetOption B o).nbs = A.N / A.bs ∧
        (MatSetOption B o).m = A.m ∧ (MatSetOption B o).mbs = A.m / A.bs ∧
        (MatSetOption B o).bs = A.bs ∧ (MatSetOption B o).bs2 = A.bs * A.bs) := by
    intro B o h
    cases o <;> exact h
  unfold DisAssemble_MPIBAIJ
  refine hopt _ _ ?_
  refine forLoop_inv (fun (Bn : Mat_SeqBAIJ α) => Bn.n = A.N ∧ Bn.nbs = A.N / A.bs ∧
    Bn.m = A.m ∧ Bn.mbs = A.m / A.bs ∧ Bn.bs = A.bs ∧ Bn.bs2 = A.bs * A.bs) _ _ _ ?_ ?_
  · intro i s hs
    refine forLoopFrom_inv (fun (Bn : Mat_SeqBAIJ α) => Bn.n = A.N ∧ Bn.nbs = A.N / A.bs ∧
      Bn.m = A.m ∧ Bn.mbs = A.m / A.bs ∧ Bn.bs = A.bs ∧ Bn.bs2 = A.bs * A.bs) _ _ _ _ ?_ hs
    intro j s1 hs1
    obtain ⟨k1, k2, k3, k4, k5, k6⟩ := setValues_header s1 i
      ((A.garray.getD []).getD ((MatAssemblyEnd_SeqBAIJ A.B).j.getD j 0) 0)
      ((List.range A.bs2).map
        (fun t => (MatAssemblyEnd_SeqBAIJ A.B).a.getD (j * A.bs2 + t) default))
      (MatAssemblyEnd_SeqBAIJ A.B).insertmode
    show _ = _ ∧ _ = _ ∧ _ = _ ∧ _ = _ ∧ _ = _ ∧ _ = _
    rw [k1, k2, k3, k4, k5, k6]
    exact hs1
  · exact hopt _ _ ⟨rfl, rfl, rfl, rfl, rfl, rfl⟩

/-! ## Claim C14: a block without stored entries -/

theorem slots_eq_nil {α : Type} (B : Mat_SeqBAIJ α)
    (h0 : ∀ r, r < B.mbs → B.ilen.getD r 0 = 0) : slots B = [] := by
  apply List.eq_nil_iff_forall_not_mem.2
  intro k hk
  obtain ⟨r, hr, h1, h2⟩ := (mem_slots B k).1 hk
  rw [h0 r hr] at h2
  omega

/-- Compaction of a block without stored entries, under either strategy. -/
theorem empty_block_facts {α : Type} (useCTable : Bool) (Nbs : Nat) (B : Mat_SeqBAIJ α)
    (h0 : ∀ r, r < B.mbs → B.ilen.getD r 0 = 0) :
    (compactBlock useCTable Nbs B).ec = 0 ∧ (compactBlock useCTable Nbs B).ghost = [] ∧
    (compactBlock useCTable Nbs B).B.j = B.j := by
  have hs := slots_eq_nil B h0
  have hc : colRefs B = [] := by unfold colRefs; rw [hs]; rfl
  obtain ⟨b1, b2, _⟩ := compactBlock_facts useCTable Nbs B (by rw [hc]; simp)
  have hg : (compactBlock useCTable Nbs B).ghost = [] := by
    rw [b1, hc]; simp
  refine ⟨by rw [b2, hg]; rfl, hg, ?_⟩
  cases useCTable with
  | false =>
    obtain ⟨_, _, _, _, _, f6⟩ := compactDense_facts Nbs B (by rw [hc]; simp)
    have e : compactColumns B (denseIndices Nbs B) B.j
        = (slots B).foldl
            (fun aj k => aj.set k ((denseIndices Nbs B).getD (aj.getD k 0) 0)) B.j :=
      rowLoop_eq_foldl B
        (fun (k : Nat) (aj : List Nat) => aj.set k ((denseIndices Nbs B).getD (aj.getD k 0) 0))
        B.j
    show (compactDense Nbs B).B.j = B.j
    rw [f6, e, hs]; rfl
  | true =>
    obtain ⟨_, _, _, _, f5⟩ := compactCTable_facts B
    have e : ∀ ta : PetscTable, tableCompactColumns B ta B.j
        = (slots B).foldl (fun aj k => aj.set k (PetscTableFind ta (aj.getD k 0 + 1) - 1)) B.j :=
      fun ta => rowLoop_eq_foldl B
        (fun (k : Nat) (aj : List Nat) => aj.set k (PetscTableFind ta (aj.getD k 0 + 1) - 1)) B.j
    show (compactCTable B).B.j = B.j
    rw [f5, e, hs]; rfl

/-- C14: for an off-diagonal block with no stored entry (every row length 0),
`MatSetUpMultiply_MPIBAIJ` (either strategy) yields `ec = 0`, an empty Ghost Array, a Local
Ghost Buffer of length 0 and empty source and destination index sets, so that a gather
through the plan changes nothing; and no column index is rewritten. -/
theorem C14_empty_block {α : Type} [Inhabited α] (useCTable : Bool) (mat : Mat_MPIBAIJ α)
    (h0 : ∀ r, r < mat.B.mbs → mat.B.ilen.getD r 0 = 0) :
    (compactBlock useCTable mat.Nbs mat.B).ec = 0 ∧
    (compactBlock useCTable mat.Nbs mat.B).ghost = [] ∧
    (MatSetUpMultiply_MPIBAIJ useCTable mat).B.nbs = 0 ∧
    (∃ lvec, (MatSetUpMultiply_MPIBAIJ useCTable mat).lvec = some lvec ∧ VecGetSize lvec = 0) ∧
    (∃ ctx, (MatSetUpMultiply_MPIBAIJ useCTable mat).Mvctx = some ctx ∧
      ctx.ix_from = [] ∧ ctx.ix_to = [] ∧
      ∀ (x : Nat → α) (y : Vec α), (VecScatterGather ctx x y).array = y.array) ∧
    (MatSetUpMultiply_MPIBAIJ useCTable mat).B.j = mat.B.j := by
  obtain ⟨e1, e2, e3⟩ := empty_block_facts useCTable mat.Nbs mat.B h0
  have hlv : (MatSetUpMultiply_MPIBAIJ useCTable mat).lvec
      = some (VecCreateSeq (PetscInt_mul (compactBlock useCTable mat.Nbs mat.B).ec mat.bs)) :=
    rfl
  have hmv : (MatSetUpMultiply_MPIBAIJ useCTable mat).Mvctx
      = some (VecScatterCreate
          (ISCreateBlock mat.bs (compactBlock useCTable mat.Nbs mat.B).ec
            (scaleGarray mat.bs (compactBlock useCTable mat.Nbs mat.B).ec
              (compactBlock useCTable mat.Nbs mat.B).garray))
          (ISCreateBlock mat.bs (compactBlock useCTable mat.Nbs mat.B).ec
            (fillStmp mat.bs (compactBlock useCTable mat.Nbs mat.B).ec))) := rfl
  rw [e1] at hlv hmv
  refine ⟨e1, e2, ?_, ⟨_, hlv, ?_⟩, ⟨_, hmv, ?_, ?_, fun x y => ?_⟩, e3⟩
  · show (compactBlock useCTable mat.Nbs mat.B).B.nbs = 0
    rw [(compactBlock_nbs useCTable mat.Nbs mat.B).1, e1]
  · simp [VecGetSize, VecCreateSeq, PetscInt_mul]
  · simp [VecScatterCreate, ISCreateBlock]
  · simp [VecScatterCreate, ISCreateBlock]
  · simp [VecScatterGather, VecScatterCreate, ISCreateBlock]

/-- C14 on a block of two rows with preallocated but unused slots, sparse-table strategy. -/
theorem C14_empty_block_witness :
    (∀ r, r < emptyBlockMat.B.mbs → emptyBlockMat.B.ilen.getD r 0 = 0) ∧
    ((compactBlock true emptyBlockMat.Nbs emptyBlockMat.B).ec = 0 ∧
    (compactBlock true emptyBlockMat.Nbs emptyBlockMat.B).ghost = [] ∧
    (MatSetUpMultiply_MPIBAIJ true emptyBlockMat).B.nbs = 0 ∧
    (∃ lvec, (MatSetUpMultiply_MPIBAIJ true emptyBlockMat).lvec = some lvec ∧
      VecGetSize lvec = 0) ∧
    (∃ ctx, (MatSetUpMultiply_MPIBAIJ true emptyBlockMat).Mvctx = some ctx ∧
      ctx.ix_from = [] ∧ ctx.ix_to = [] ∧
      ∀ (x : Nat → Int) (y : Vec Int), (VecScatterGather ctx x y).array = y.array) ∧
    (MatSetUpMultiply_MPIBAIJ true emptyBlockMat).B.j = emptyBlockMat.B.j) :=
  ⟨by decide, C14_empty_block true emptyBlockMat (by decide)⟩

/-! ## Claim C13: running the compaction again on the block it has just rewritten -/

theorem slots_congr {α β : Type} (B1 : Mat_SeqBAIJ α) (B2 : Mat_SeqBAIJ β)
    (h1 : B1.mbs = B2.mbs) (h2 : B1.i = B2.i) (h3 : B1.ilen = B2.ilen) :
    slots B1 = slots B2 := by
  unfold slots
  rw [h1, h2, h3]

theorem getD_range (n x : Nat) (h : x < n) : (List.range n).getD x 0 = x := by
  rw [List.getD_eq_getElem?_getD, List.getElem?_range h]
  rfl

/-- The column references of a compacted block are exactly the local ids `0 .. ec-1`. -/
theorem compacted_refs {α : Type} (useCTable : Bool) (Nbs : Nat) (B : Mat_SeqBAIJ α)
    (h : ∀ c ∈ colRefs B, c < Nbs) (hrows : RowsOK B) :
    (colRefs (compactBlock useCTable Nbs B).B).toFinset
      = Finset.range (compactBlock useCTable Nbs B).ec := by
  obtain ⟨b1, b2, _, _, _⟩ := compactBlock_facts useCTable Nbs B h
  obtain ⟨r1, _, _⟩ := compactBlock_rewrite useCTable Nbs B h hrows
  obtain ⟨s1, s2, s3⟩ := compactBlock_struct useCTable Nbs B
  have hsl : slots (compactBlock useCTable Nbs B).B = slots B := slots_congr _ _ s1 s2 s3
  have hmem : ∀ c, c ∈ colRefs (compactBlock useCTable Nbs B).B ↔
      ∃ k, k ∈ slots B ∧ (compactBlock useCTable Nbs B).B.j.getD k 0 = c := by
    intro c
    unfold colRefs
    rw [hsl, List.mem_map]
  apply Finset.eq_of_subset_of_card_le
  · intro c hc
    rw [List.mem_toFinset, hmem] at hc
    obtain ⟨k, hk, rfl⟩ := hc
    exact Finset.mem_range.2 (r1 k hk).1
  · have himg : (colRefs B).toFinset
        = (colRefs (compactBlock useCTable Nbs B).B).toFinset.image
            (fun q => (compactBlock useCTable Nbs B).garray.getD q 0) := by
      ext c
      rw [List.mem_toFinset, Finset.mem_image]
      constructor
      · intro hc
        obtain ⟨k, hk, rfl⟩ := List.mem_map.1 hc
        exact ⟨_, List.mem_toFinset.2 ((hmem _).2 ⟨k, hk, rfl⟩), (r1 k hk).2⟩
      · rintro ⟨q, hq, rfl⟩
        obtain ⟨k, hk, rfl⟩ := (hmem q).1 (List.mem_toFinset.1 hq)
        rw [(r1 k hk).2]
        exact List.mem_map.2 ⟨k, hk, rfl⟩
    have hcard : (compactBlock useCTable Nbs B).ec = (colRefs B).toFinset.card := by
      rw [b2, b1, Finset.length_sort]
    rw [Finset.card_range, hcard, himg]
    exact Finset.card_image_le

/-- Compacting an already compacted block: same count, identity Ghost Array, same column
indices.  The two runs may use different strategies. -/
theorem recompact_facts {α : Type} (u1 u2 : Bool) (Nbs : Nat) (B : Mat_SeqBAIJ α)
    (h : ∀ c ∈ colRefs B, c < Nbs) (hrows : RowsOK B) :
    (compactBlock u2 Nbs (compactBlock u1 Nbs B).B).ec = (compactBlock u1 Nbs B).ec ∧
    (compactBlock u2 Nbs (compactBlock u1 Nbs B).B).ghost
      = List.range (compactBlock u1 Nbs B).ec ∧
    (compactBlock u2 Nbs (compactBlock u1 Nbs B).B).B.j = (compactBlock u1 Nbs B).B.j := by
  obtain ⟨_, _, _, b4, _⟩ := compactBlock_facts u1 Nbs B h
  obtain ⟨_, _, r3⟩ := compactBlock_rewrite u1 Nbs B h hrows
  obtain ⟨s1, s2, s3⟩ := compactBlock_struct u1 Nbs B
  have hfin := compacted_refs u1 Nbs B h hrows
  generalize (compactBlock u1 Nbs B).ec = ec at hfin b4
  generalize (compactBlock u1 Nbs B).B = C1 at hfin r3 s1 s2 s3
  have h1 : ∀ c ∈ colRefs C1, c < Nbs := by
    intro c hc
    have : c ∈ Finset.range ec := by rw [← hfin]; exact List.mem_toFinset.2 hc
    exact lt_of_lt_of_le (Finset.mem_range.1 this) b4
  have hrows1 : RowsOK C1 := by
    unfold RowsOK at hrows ⊢
    rw [s1, s2, s3, r3]
    exact hrows
  obtain ⟨c1, c2, c3, _, _⟩ := compactBlock_facts u2 Nbs C1 h1
  obtain ⟨q1, q2, q3⟩ := compactBlock_rewrite u2 Nbs C1 h1 hrows1
  rw [hfin, Finset.sort_range] at c1
  have hec : (compactBlock u2 Nbs C1).ec = ec := by
    rw [c2, c1, List.length_range]
  refine ⟨hec, c1, list_ext_getD _ _ q3 (fun k => ?_)⟩
  by_cases hk : k ∈ slots C1
  · obtain ⟨k1, k2⟩ := q1 k hk
    have e : (compactBlock u2 Nbs C1).ghost.getD ((compactBlock u2 Nbs C1).B.j.getD k 0) 0
        = (compactBlock u2 Nbs C1).garray.getD ((compactBlock u2 Nbs C1).B.j.getD k 0) 0 :=
      getD_take_lt _ _ _ k1
    rw [c1, k2] at e
    rw [hec] at k1
    rw [← e]
    exact (getD_range ec _ k1).symm
  · exact q2 k hk

/-- C13 as stated fails: on the sample matrix the first run of `MatSetUpMultiply_MPIBAIJ`
yields the Ghost Array 2, 5, 7 and rewrites the column indices to local ids; the second run,
with no insert in between, reads those local ids and yields the Ghost Array 0, 1, 2. -/
theorem C13_repeated_compaction_counterexample :
    ((∀ c ∈ colRefs sampleMat.B, c < sampleMat.Nbs) ∧ RowsOK sampleMat.B) ∧
    (MatSetUpMultiply_MPIBAIJ false sampleMat).garray.map (List.take 3) = some [2, 5, 7] ∧
    (MatSetUpMultiply_MPIBAIJ false (MatSetUpMultiply_MPIBAIJ false sampleMat)).garray.map
      (List.take 3) = some [0, 1, 2] ∧
    (compactBlock false sampleMat.Nbs (compactBlock false sampleMat.Nbs sampleMat.B).B).ghost
      ≠ (compactBlock false sampleMat.Nbs sampleMat.B).ghost := by
  refine ⟨⟨by decide, by decide⟩, by decide, by decide, by decide⟩

/-- C13 (amended): invoking `MatSetUpMultiply_MPIBAIJ` twice in succession, with no
structural insert in between, yields the same count `ec` both times and leaves the column
indices as the first run rewrote them; the Ghost Array of the second run is `0, 1, ..., ec-1`
(the block it reads already holds local ids), so it equals the first Ghost Array exactly when
that one is `0, 1, ..., ec-1`. -/
theorem C13_repeated_compaction {α : Type} [Inhabited α] (useCTable : Bool)
    (mat : Mat_MPIBAIJ α) (h : ∀ c ∈ colRefs mat.B, c < mat.Nbs) (hrows : RowsOK mat.B)
    (hN : mat.Nbs * mat.bs ≤ PETSC_MAX_INT) (hbs : 1 ≤ mat.bs) :
    ∃ g1 g2 ec, (MatSetUpMultiply_MPIBAIJ useCTable mat).garray = some g1 ∧
      (MatSetUpMultiply_MPIBAIJ useCTable (MatSetUpMultiply_MPIBAIJ useCTable mat)).garray
        = some g2 ∧
      (MatSetUpMultiply_MPIBAIJ useCTable mat).B.nbs = ec ∧
      (MatSetUpMultiply_MPIBAIJ useCTable (MatSetUpMultiply_MPIBAIJ useCTable mat)).B.nbs
        = ec ∧
      g2.take ec = List.range ec ∧
      (g2.take ec = g1.take ec ↔ g1.take ec = List.range ec) ∧
      (MatSetUpMultiply_MPIBAIJ useCTable (MatSetUpMultiply_MPIBAIJ useCTable mat)).B.j
        = (MatSetUpMultiply_MPIBAIJ useCTable mat).B.j := by
  obtain ⟨_, _, _, b4, _⟩ := compactBlock_facts useCTable mat.Nbs mat.B h
  have hfin := compacted_refs useCTable mat.Nbs mat.B h hrows
  have h1 : ∀ c ∈ colRefs (MatSetUpMultiply_MPIBAIJ useCTable mat).B,
      c < (MatSetUpMultiply_MPIBAIJ useCTable mat).Nbs := by
    intro c hc
    have hc1 : c ∈ Finset.range (compactBlock useCTable mat.Nbs mat.B).ec := by
      rw [← hfin]; exact List.mem_toFinset.2 hc
    exact lt_of_lt_of_le (Finset.mem_range.1 hc1) b4
  obtain ⟨_, _, _, f4⟩ := setUp_facts useCTable mat h hN
  obtain ⟨_, _, _, g4⟩ := setUp_facts useCTable (MatSetUpMultiply_MPIBAIJ useCTable mat) h1 hN
  obtain ⟨e1, e2, e3⟩ := recompact_facts useCTable useCTable mat.Nbs mat.B h hrows
  have n1 := (compactBlock_nbs useCTable mat.Nbs mat.B).1
  have n2 := (compactBlock_nbs useCTable mat.Nbs (compactBlock useCTable mat.Nbs mat.B).B).1
  have hg2 : (compactBlock useCTable mat.Nbs (compactBlock useCTable mat.Nbs mat.B).B).garray.take
      (compactBlock useCTable mat.Nbs mat.B).ec
      = List.range (compactBlock useCTable mat.Nbs mat.B).ec := by
    rw [← e2]
    unfold Compaction.ghost
    rw [e1]
  refine ⟨_, _, (compactBlock useCTable mat.Nbs mat.B).ec, f4 hbs, g4 hbs, n1, n2.trans e1,
    hg2, ?_, e3⟩
  show List.take (compactBlock useCTable mat.Nbs mat.B).ec
      (compactBlock useCTable mat.Nbs (compactBlock useCTable mat.Nbs mat.B).B).garray = _ ↔ _
  rw [hg2]
  exact eq_comm

/-- C13 (amended) on the sample matrix, whose first Ghost Array 2, 5, 7 is not 0, 1, 2. -/
theorem C13_repeated_compaction_witness :
    ((∀ c ∈ colRefs sampleMat.B, c < sampleMat.Nbs) ∧ RowsOK sampleMat.B ∧
      sampleMat.Nbs * sampleMat.bs ≤ PETSC_MAX_INT ∧ 1 ≤ sampleMat.bs) ∧
    (∃ g1 g2 ec, (MatSetUpMultiply_MPIBAIJ false sampleMat).garray = some g1 ∧
      (MatSetUpMultiply_MPIBAIJ false (MatSetUpMultiply_MPIBAIJ false sampleMat)).garray
        = some g2 ∧
      (MatSetUpMultiply_MPIBAIJ false sampleMat).B.nbs = ec ∧
      (MatSetUpMultiply_MPIBAIJ false (MatSetUpMultiply_MPIBAIJ false sampleMat)).B.nbs
        = ec ∧
      g2.take ec = List.range ec ∧
      (g2.take ec = g1.take ec ↔ g1.take ec = List.range ec) ∧
      (MatSetUpMultiply_MPIBAIJ false (MatSetUpMultiply_MPIBAIJ false sampleMat)).B.j
        = (MatSetUpMultiply_MPIBAIJ false sampleMat).B.j) :=
  ⟨⟨by decide, by decide, by decide, by decide⟩,
    C13_repeated_compaction false sampleMat (by decide) (by decide) (by decide) (by decide)⟩

/-! ## The lazy set-up of the Diagonal Scale Cache -/

theorem fillWork_length {α : Type} [Inhabited α] (s : List α) (rmap : List Nat) (w : Vec α) :
    VecGetLocalSize (fillWork s rmap w) = VecGetLocalSize w := by
  unfold fillWork VecGetLocalSize
  exact forLoop_inv (fun (d : List α) => d.length = w.array.length) _ _ _
    (fun i d hd => by simp only [List.length_set]; exact hd) rfl

/-- The scaling part of `MatDiagonalScaleLocal_MPIBAIJ` never assigns the index maps and
keeps the lengths of the work vectors; it succeeds only when the set-up before it did. -/
theorem scaleBlocks_statics {α : Type} [Inhabited α] [Mul α] (A : Mat_MPIBAIJ α)
    (scale : Vec α) (r : Except PetscErrorCode Unit × UglyStatics α) :
    (scaleBlocks A scale r).2.2.uglyrmapd = r.2.uglyrmapd ∧
    (scaleBlocks A scale r).2.2.uglyrmapo = r.2.uglyrmapo ∧
    (scaleBlocks A scale r).2.2.uglydd.map VecGetLocalSize = r.2.uglydd.map VecGetLocalSize ∧
    (scaleBlocks A scale r).2.2.uglyoo.map VecGetLocalSize = r.2.uglyoo.map VecGetLocalSize ∧
    ((scaleBlocks A scale r).1 = Except.ok () → r.1 = Except.ok ()) := by
  unfold scaleBlocks
  dsimp only
  split
  · rename_i e he
    refine ⟨rfl, rfl, rfl, rfl, fun h => ?_⟩
    simp at h
  · rename_i u he
    split
    · exact ⟨rfl, rfl, rfl, rfl, fun _ => he⟩
    · rename_i dd hdd
      split
      · exact ⟨rfl, rfl, by simp [hdd, fillWork_length], rfl, fun _ => he⟩
      · split
        · exact ⟨rfl, rfl, by simp [hdd, fillWork_length], rfl, fun _ => he⟩
        · rename_i oo hoo
          split
          · exact ⟨rfl, rfl, by simp [hdd, fillWork_length], by simp [hoo, fillWork_length],
              fun _ => he⟩
          · exact ⟨rfl, rfl, by simp [hdd, fillWork_length], by simp [hoo, fillWork_length],
              fun _ => he⟩

/-- What a successful set-up leaves in the file-scope variables, and the two checks it
passed. -/
theorem setUp_ok_facts {α : Type} [Inhabited α] (inA : Mat_MPIBAIJ α) (scale : Vec α)
    (st : UglyStatics α)
    (hok : (MatMPIBAIJDiagonalScaleLocalSetUp inA scale st).1 = Except.ok ()) :
    PetscInt_mul (ownedPass inA.A.bs inA.rstart_bs inA.rend_bs inA.bmapping).1 inA.A.bs
      = inA.A.n ∧
    (ghostPass (ghostPositions inA.Nbs inA.B.nbs (inA.garray.getD [])) inA.bmapping).1
      ≤ inA.bmapping.n - (ownedPass inA.A.bs inA.rstart_bs inA.rend_bs inA.bmapping).1 ∧
    (MatMPIBAIJDiagonalScaleLocalSetUp inA scale st).2.uglyrmapd
      = some (fillRmapd inA.A.bs inA.rstart_bs inA.A.n inA.bmapping.n
          (ownedPass inA.A.bs inA.rstart_bs inA.rend_bs inA.bmapping).2) ∧
    (MatMPIBAIJDiagonalScaleLocalSetUp inA scale st).2.uglydd = some (VecCreateSeq inA.A.n) ∧
    (MatMPIBAIJDiagonalScaleLocalSetUp inA scale st).2.uglyrmapo
      = some (fillRmapo inA.A.bs
          (ghostPass (ghostPositions inA.Nbs inA.B.nbs (inA.garray.getD [])) inA.bmapping).1
          inA.bmapping.n
          (ghostPass (ghostPositions inA.Nbs inA.B.nbs (inA.garray.getD [])) inA.bmapping).2) ∧
    (MatMPIBAIJDiagonalScaleLocalSetUp inA scale st).2.uglyoo
      = some (VecCreateSeq (PetscInt_mul
          (ghostPass (ghostPositions inA.Nbs inA.B.nbs (inA.garray.getD [])) inA.bmapping).1
          inA.A.bs)) := by
  unfold MatMPIBAIJDiagonalScaleLocalSetUp at hok ⊢
  dsimp only [MatGetOwnershipRange, MatGetSize] at hok ⊢
  split at hok
  · simp at hok
  · rename_i hc1
    rw [if_neg hc1]
    split at hok
    · simp at hok
    · rename_i hc2
      rw [if_neg hc2]
      exact ⟨not_not.1 hc1, Nat.le_of_not_lt hc2, rfl, rfl, rfl, rfl⟩

/-- With a non-null `uglyrmapd` the scale call does not run the set-up. -/
theorem scale_keeps_cache {α : Type} [Inhabited α] [Mul α] (A : Mat_MPIBAIJ α)
    (scale : Vec α) (st : UglyStatics α) (h : st.uglyrmapd ≠ none) :
    MatDiagonalScaleLocal_MPIBAIJ A scale st = scaleBlocks A scale (Except.ok (), st) ∧
    (MatDiagonalScaleLocal_MPIBAIJ A scale st).2.2.uglyrmapd = st.uglyrmapd ∧
    (MatDiagonalScaleLocal_MPIBAIJ A scale st).2.2.uglyrmapo = st.uglyrmapo ∧
    (MatDiagonalScaleLocal_MPIBAIJ A scale st).2.2.uglydd.map VecGetLocalSize
      = st.uglydd.map VecGetLocalSize ∧
    (MatDiagonalScaleLocal_MPIBAIJ A scale st).2.2.uglyoo.map VecGetLocalSize
      = st.uglyoo.map VecGetLocalSize := by
  have hn : st.uglyrmapd.isNone = false := by
    cases hm : st.uglyrmapd with
    | none => exact absurd hm h
    | some l => rfl
  have e : MatDiagonalScaleLocal_MPIBAIJ A scale st = scaleBlocks A scale (Except.ok (), st) := by
    unfold MatDiagonalScaleLocal_MPIBAIJ
    rw [hn]
    rfl
  obtain ⟨s1, s2, s3, s4, _⟩ := scaleBlocks_statics A scale (Except.ok (), st)
  rw [e]
  exact ⟨rfl, s1, s2, s3, s4⟩

/-- With a null `uglyrmapd` the scale call runs the set-up first. -/
theorem scale_builds_cache {α : Type} [Inhabited α] [Mul α] (A : Mat_MPIBAIJ α)
    (scale : Vec α) (st : UglyStatics α) (h : st.uglyrmapd = none) :
    MatDiagonalScaleLocal_MPIBAIJ A scale st
      = scaleBlocks A scale (MatMPIBAIJDiagonalScaleLocalSetUp A scale st) ∧
    (MatDiagonalScaleLocal_MPIBAIJ A scale st).2.2.uglyrmapd
      = (MatMPIBAIJDiagonalScaleLocalSetUp A scale st).2.uglyrmapd ∧
    (MatDiagonalScaleLocal_MPIBAIJ A scale st).2.2.uglyrmapo
      = (MatMPIBAIJDiagonalScaleLocalSetUp A scale st).2.uglyrmapo ∧
    (MatDiagonalScaleLocal_MPIBAIJ A scale st).2.2.uglydd.map VecGetLocalSize
      = (MatMPIBAIJDiagonalScaleLocalSetUp A scale st).2.uglydd.map VecGetLocalSize ∧
    (MatDiagonalScaleLocal_MPIBAIJ A scale st).2.2.uglyoo.map VecGetLocalSize
      = (MatMPIBAIJDiagonalScaleLocalSetUp A scale st).2.uglyoo.map VecGetLocalSize ∧
    ((MatDiagonalScaleLocal_MPIBAIJ A scale st).1 = Except.ok () →
      (MatMPIBAIJDiagonalScaleLocalSetUp A scale st).1 = Except.ok ()) := by
  have e : MatDiagonalScaleLocal_MPIBAIJ A scale st
      = scaleBlocks A scale (MatMPIBAIJDiagonalScaleLocalSetUp A scale st) := by
    unfold MatDiagonalScaleLocal_MPIBAIJ
    rw [h]
    rfl
  obtain ⟨s1, s2, s3, s4, s5⟩ :=
    scaleBlocks_statics A scale (MatMPIBAIJDiagonalScaleLocalSetUp A scale st)
  rw [e]
  exact ⟨rfl, s1, s2, s3, s4, s5⟩

/-- A scale call that succeeded leaves a non-null `uglyrmapd`. -/
theorem scale_ok_nonnull {α : Type} [Inhabited α] [Mul α] (A : Mat_MPIBAIJ α)
    (scale : Vec α) (st : UglyStatics α)
    (hok : (MatDiagonalScaleLocal_MPIBAIJ A scale st).1 = Except.ok ()) :
    (MatDiagonalScaleLocal_MPIBAIJ A scale st).2.2.uglyrmapd ≠ none := by
  by_cases h : st.uglyrmapd = none
  · obtain ⟨_, b1, _, _, _, b5⟩ := scale_builds_cache A scale st h
    obtain ⟨_, _, f3, _⟩ := setUp_ok_facts A scale st (b5 hok)
    rw [b1, f3]
    exact Option.some_ne_none _
  · obtain ⟨_, k1, _⟩ := scale_keeps_cache A scale st h
    rw [k1]
    exact h

/-! ## Claims C18-C20: the life of the Diagonal Scale Cache -/

/-- C18: `MatDiagonalScaleLocal_MPIBAIJ` runs `MatMPIBAIJDiagonalScaleLocalSetUp` exactly
when `uglyrmapd` is null: with a null `uglyrmapd` the call is the scaling entered with the
result of the set-up, with a non-null one it is the scaling entered with the variables as
they are.  After a call that succeeded, a second call on the same matrix does not run the
set-up and leaves the index maps and the lengths of the two work vectors as the first call
left them. -/
theorem C18_cache_lazy_and_reused {α : Type} [Inhabited α] [Mul α] (A : Mat_MPIBAIJ α)
    (scale1 scale2 : Vec α) (st : UglyStatics α)
    (hok : (MatDiagonalScaleLocal_MPIBAIJ A scale1 st).1 = Except.ok ()) :
    (st.uglyrmapd = none → MatDiagonalScaleLocal_MPIBAIJ A scale1 st
      = scaleBlocks A scale1 (MatMPIBAIJDiagonalScaleLocalSetUp A scale1 st)) ∧
    (st.uglyrmapd ≠ none → MatDiagonalScaleLocal_MPIBAIJ A scale1 st
      = scaleBlocks A scale1 (Except.ok (), st)) ∧
    MatDiagonalScaleLocal_MPIBAIJ (MatDiagonalScaleLocal_MPIBAIJ A scale1 st).2.1 scale2
        (MatDiagonalScaleLocal_MPIBAIJ A scale1 st).2.2
      = scaleBlocks (MatDiagonalScaleLocal_MPIBAIJ A scale1 st).2.1 scale2
          (Except.ok (), (MatDiagonalScaleLocal_MPIBAIJ A scale1 st).2.2) ∧
    (MatDiagonalScaleLocal_MPIBAIJ (MatDiagonalScaleLocal_MPIBAIJ A scale1 st).2.1 scale2
        (MatDiagonalScaleLocal_MPIBAIJ A scale1 st).2.2).2.2.uglyrmapd
      = (MatDiagonalScaleLocal_MPIBAIJ A scale1 st).2.2.uglyrmapd ∧
    (MatDiagonalScaleLocal_MPIBAIJ (MatDiagonalScaleLocal_MPIBAIJ A scale1 st).2.1 scale2
        (MatDiagonalScaleLocal_MPIBAIJ A scale1 st).2.2).2.2.uglyrmapo
      = (MatDiagonalScaleLocal_MPIBAIJ A scale1 st).2.2.uglyrmapo ∧
    (MatDiagonalScaleLocal_MPIBAIJ (MatDiagonalScaleLocal_MPIBAIJ A scale1 st).2.1 scale2
        (MatDiagonalScaleLocal_MPIBAIJ A scale1 st).2.2).2.2.uglydd.map VecGetLocalSize
      = (MatDiagonalScaleLocal_MPIBAIJ A scale1 st).2.2.uglydd.map VecGetLocalSize ∧
    (MatDiagonalScaleLocal_MPIBAIJ (MatDiagonalScaleLocal_MPIBAIJ A scale1 st).2.1 scale2
        (MatDiagonalScaleLocal_MPIBAIJ A scale1 st).2.2).2.2.uglyoo.map VecGetLocalSize
      = (MatDiagonalScaleLocal_MPIBAIJ A scale1 st).2.2.uglyoo.map VecGetLocalSize :=
  ⟨fun h => (scale_builds_cache A scale1 st h).1, fun h => (scale_keeps_cache A scale1 st h).1,
    scale_keeps_cache _ scale2 _ (scale_ok_nonnull A scale1 st hok)⟩

/-- C18 on the sample matrix, first call from the null variables: both calls succeed and the
index maps stay `[0,1,2,3,_]` and `[4,5,6,7,_]`. -/
theorem C18_cache_lazy_and_reused_witness :
    (MatDiagonalScaleLocal_MPIBAIJ scaleAssembled scaleVec UglyStatics.initial).1
      = Except.ok () ∧
    (MatDiagonalScaleLocal_MPIBAIJ scaleAssembled scaleVec UglyStatics.initial).2.2.uglyrmapd
      = some [0, 1, 2, 3, 0] ∧
    (MatDiagonalScaleLocal_MPIBAIJ scaleAssembled scaleVec UglyStatics.initial).2.2.uglyrmapo
      = some [4, 5, 6, 7, 0] ∧
    (MatDiagonalScaleLocal_MPIBAIJ
        (MatDiagonalScaleLocal_MPIBAIJ scaleAssembled scaleVec UglyStatics.initial).2.1 scaleVec
        (MatDiagonalScaleLocal_MPIBAIJ scaleAssembled scaleVec UglyStatics.initial).2.2).2.2.uglyrmapd
      = (MatDiagonalScaleLocal_MPIBAIJ scaleAssembled scaleVec UglyStatics.initial).2.2.uglyrmapd :=
  ⟨rfl, by decide, by decide,
    (C18_cache_lazy_and_reused scaleAssembled scaleVec scaleVec UglyStatics.initial rfl).2.2.2.1⟩

/-- C19 as stated fails: the matrix `scaleAssembled` (Ghost Array 0, 5) is scaled, then
disassembled, given a block in global block column 1 and set up again (Ghost Array 0, 1, 5).
The next scale call does not rebuild the index maps: `uglyrmapo` stays `[4,5,6,7,_]`, built
from the old Ghost Array, where a set-up from the new Ghost Array gives `[4,5,8,9,6,7,_]`;
the call then stops with a length error after having scaled the diagonal block. -/
theorem C19_cache_invalidation_counterexample :
    (MatDiagonalScaleLocal_MPIBAIJ scaleAssembled scaleVec UglyStatics.initial).1
      = Except.ok () ∧
    scaleAssembled.garray.map (List.take 2) = some [0, 5] ∧
    scaleReassembled.garray.map (List.take 3) = some [0, 1, 5] ∧
    (MatDiagonalScaleLocal_MPIBAIJ scaleReassembled scaleVec
      (MatDiagonalScaleLocal_MPIBAIJ scaleAssembled scaleVec UglyStatics.initial).2.2).2.2.uglyrmapo
      = some [4, 5, 6, 7, 0] ∧
    (MatMPIBAIJDiagonalScaleLocalSetUp scaleReassembled scaleVec UglyStatics.initial).2.uglyrmapo
      = some [4, 5, 8, 9, 6, 7, 0] ∧
    (MatDiagonalScaleLocal_MPIBAIJ scaleReassembled scaleVec
      (MatDiagonalScaleLocal_MPIBAIJ scaleAssembled scaleVec UglyStatics.initial).2.2).1
      = Except.error PetscErrorCode.PETSC_ERR_ARG_SIZ :=
  ⟨rfl, by decide, by decide, by decide, by decide, rfl⟩

/-- C19 (amended): the Diagonal Scale Cache is not invalidated when the Ghost Array is
discarded and rebuilt: `DisAssemble_MPIBAIJ` and `MatSetUpMultiply_MPIBAIJ` have no access to
the file-scope variables, so after a scale call that succeeded, a disassembly, any change of
the uncompacted block and a new set-up of the multiply, the next
`MatDiagonalScaleLocal_MPIBAIJ` call does not run the cache set-up and keeps the index maps
and work-vector lengths built from the old Ghost Array. -/
theorem C19_cache_survives_reassembly {α : Type} [Inhabited α] [Add α] [Mul α]
    (useCTable : Bool) (change : Mat_SeqBAIJ α → Mat_SeqBAIJ α) (M : Mat_MPIBAIJ α)
    (scale1 scale2 : Vec α) (st : UglyStatics α)
    (hok : (MatDiagonalScaleLocal_MPIBAIJ M scale1 st).1 = Except.ok ()) :
    MatDiagonalScaleLocal_MPIBAIJ
        (reassemble useCTable change (MatDiagonalScaleLocal_MPIBAIJ M scale1 st).2.1) scale2
        (MatDiagonalScaleLocal_MPIBAIJ M scale1 st).2.2
      = scaleBlocks
          (reassemble useCTable change (MatDiagonalScaleLocal_MPIBAIJ M scale1 st).2.1) scale2
          (Except.ok (), (MatDiagonalScaleLocal_MPIBAIJ M scale1 st).2.2) ∧
    (MatDiagonalScaleLocal_MPIBAIJ
        (reassemble useCTable change (MatDiagonalScaleLocal_MPIBAIJ M scale1 st).2.1) scale2
        (MatDiagonalScaleLocal_MPIBAIJ M scale1 st).2.2).2.2.uglyrmapd
      = (MatDiagonalScaleLocal_MPIBAIJ M scale1 st).2.2.uglyrmapd ∧
    (MatDiagonalScaleLocal_MPIBAIJ
        (reassemble useCTable change (MatDiagonalScaleLocal_MPIBAIJ M scale1 st).2.1) scale2
        (MatDiagonalScaleLocal_MPIBAIJ M scale1 st).2.2).2.2.uglyrmapo
      = (MatDiagonalScaleLocal_MPIBAIJ M scale1 st).2.2.uglyrmapo ∧
    (MatDiagonalScaleLocal_MPIBAIJ
        (reassemble useCTable change (MatDiagonalScaleLocal_MPIBAIJ M scale1 st).2.1) scale2
        (MatDiagonalScaleLocal_MPIBAIJ M scale1 st).2.2).2.2.uglydd.map VecGetLocalSize
      = (MatDiagonalScaleLocal_MPIBAIJ M scale1 st).2.2.uglydd.map VecGetLocalSize ∧
    (MatDiagonalScaleLocal_MPIBAIJ
        (reassemble useCTable change (MatDiagonalScaleLocal_MPIBAIJ M scale1 st).2.1) scale2
        (MatDiagonalScaleLocal_MPIBAIJ M scale1 st).2.2).2.2.uglyoo.map VecGetLocalSize
      = (MatDiagonalScaleLocal_MPIBAIJ M scale1 st).2.2.uglyoo.map VecGetLocalSize :=
  scale_keeps_cache _ scale2 _ (scale_ok_nonnull M scale1 st hok)

/-- C19 (amended) on the sample matrix with one block stored in global block column 1
between the two scale calls. -/
theorem C19_cache_survives_reassembly_witness :
    (MatDiagonalScaleLocal_MPIBAIJ scaleAssembled scaleVec UglyStatics.initial).1
      = Except.ok () ∧
    (MatDiagonalScaleLocal_MPIBAIJ
        (reassemble false
          (fun B => MatSetValuesBlocked_SeqBAIJ B 1 1 [7, 7, 7, 7] InsertMode.INSERT_VALUES)
          (MatDiagonalScaleLocal_MPIBAIJ scaleAssembled scaleVec UglyStatics.initial).2.1)
        scaleVec
        (MatDiagonalScaleLocal_MPIBAIJ scaleAssembled scaleVec UglyStatics.initial).2.2).2.2.uglyrmapo
      = (MatDiagonalScaleLocal_MPIBAIJ scaleAssembled scaleVec UglyStatics.initial).2.2.uglyrmapo :=
  ⟨rfl, (C19_cache_survives_reassembly false
    (fun B => MatSetValuesBlocked_SeqBAIJ B 1 1 [7, 7, 7, 7] InsertMode.INSERT_VALUES)
    scaleAssembled scaleVec scaleVec UglyStatics.initial rfl).2.2.1⟩

/-- C20 as stated fails: after a scale call on `scaleAssembled`, a scale call on the
distinct matrix `scaleMatOther`, whose local-to-global mapping lists the owned block columns
in the other order, uses `uglyrmapd = [0,1,2,3,_]` built for the first matrix; the map
derived from its own mapping is `[2,3,0,1,_]`.  The call succeeds and scales the diagonal
block by other values than a call with its own map does. -/
theorem C20_cache_ownership_counterexample :
    (MatDiagonalScaleLocal_MPIBAIJ scaleAssembled scaleVec UglyStatics.initial).1
      = Except.ok () ∧
    (MatDiagonalScaleLocal_MPIBAIJ scaleMatOther scaleVec
      (MatDiagonalScaleLocal_MPIBAIJ scaleAssembled scaleVec UglyStatics.initial).2.2).2.2.uglyrmapd
      = some [0, 1, 2, 3, 0] ∧
    (MatMPIBAIJDiagonalScaleLocalSetUp scaleMatOther scaleVec UglyStatics.initial).2.uglyrmapd
      = some [2, 3, 0, 1, 0] ∧
    (MatDiagonalScaleLocal_MPIBAIJ scaleMatOther scaleVec
      (MatDiagonalScaleLocal_MPIBAIJ scaleAssembled scaleVec UglyStatics.initial).2.2).1
      = Except.ok () ∧
    (MatDiagonalScaleLocal_MPIBAIJ scaleMatOther scaleVec
      (MatDiagonalScaleLocal_MPIBAIJ scaleAssembled scaleVec UglyStatics.initial).2.2).2.1.A.a
      ≠ (MatDiagonalScaleLocal_MPIBAIJ scaleMatOther scaleVec UglyStatics.initial).2.1.A.a :=
  ⟨rfl, by decide, by decide, rfl, by decide⟩

/-- C20 (amended): the Diagonal Scale Cache is held in file-scope variables shared by all
matrices of the process: once a `MatDiagonalScaleLocal_MPIBAIJ` call on a matrix `M1` has
succeeded, a call on any matrix `M2` does not run the set-up and uses the index maps and
work-vector lengths left by the call on `M1`, whatever the local-to-global mapping and the
Ghost Array of `M2`; when the call on `M1` started from null variables these are the maps
that the set-up derived from `M1`. -/
theorem C20_cache_shared_by_matrices {α : Type} [Inhabited α] [Mul α]
    (M1 M2 : Mat_MPIBAIJ α) (scale1 scale2 : Vec α) (st : UglyStatics α)
    (hok : (MatDiagonalScaleLocal_MPIBAIJ M1 scale1 st).1 = Except.ok ()) :
    (MatDiagonalScaleLocal_MPIBAIJ M2 scale2 (MatDiagonalScaleLocal_MPIBAIJ M1 scale1 st).2.2
      = scaleBlocks M2 scale2 (Except.ok (), (MatDiagonalScaleLocal_MPIBAIJ M1 scale1 st).2.2) ∧
    (MatDiagonalScaleLocal_MPIBAIJ M2 scale2
        (MatDiagonalScaleLocal_MPIBAIJ M1 scale1 st).2.2).2.2.uglyrmapd
      = (MatDiagonalScaleLocal_MPIBAIJ M1 scale1 st).2.2.uglyrmapd ∧
    (MatDiagonalScaleLocal_MPIBAIJ M2 scale2
        (MatDiagonalScaleLocal_MPIBAIJ M1 scale1 st).2.2).2.2.uglyrmapo
      = (MatDiagonalScaleLocal_MPIBAIJ M1 scale1 st).2.2.uglyrmapo ∧
    (MatDiagonalScaleLocal_MPIBAIJ M2 scale2
        (MatDiagonalScaleLocal_MPIBAIJ M1 scale1 st).2.2).2.2.uglydd.map VecGetLocalSize
      = (MatDiagonalScaleLocal_MPIBAIJ M1 scale1 st).2.2.uglydd.map VecGetLocalSize ∧
    (MatDiagonalScaleLocal_MPIBAIJ M2 scale2
        (MatDiagonalScaleLocal_MPIBAIJ M1 scale1 st).2.2).2.2.uglyoo.map VecGetLocalSize
      = (MatDiagonalScaleLocal_MPIBAIJ M1 scale1 st).2.2.uglyoo.map VecGetLocalSize) ∧
    (st.uglyrmapd = none →
      (MatDiagonalScaleLocal_MPIBAIJ M2 scale2
          (MatDiagonalScaleLocal_MPIBAIJ M1 scale1 st).2.2).2.2.uglyrmapd
        = (MatMPIBAIJDiagonalScaleLocalSetUp M1 scale1 st).2.uglyrmapd ∧
      (MatDiagonalScaleLocal_MPIBAIJ M2 scale2
          (MatDiagonalScaleLocal_MPIBAIJ M1 scale1 st).2.2).2.2.uglyrmapo
        = (MatMPIBAIJDiagonalScaleLocalSetUp M1 scale1 st).2.uglyrmapo) := by
  have hk := scale_keeps_cache M2 scale2 _ (scale_ok_nonnull M1 scale1 st hok)
  refine ⟨hk, fun h => ?_⟩
  obtain ⟨_, b1, b2, _⟩ := scale_builds_cache M1 scale1 st h
  exact ⟨hk.2.1.trans b1, hk.2.2.1.trans b2⟩

/-- C20 (amended) on the two sample matrices: the call on the second uses the maps of the
first. -/
theorem C20_cache_shared_by_matrices_witness :
    (MatDiagonalScaleLocal_MPIBAIJ scaleAssembled scaleVec UglyStatics.initial).1
      = Except.ok () ∧
    (MatDiagonalScaleLocal_MPIBAIJ scaleMatOther scaleVec
        (MatDiagonalScaleLocal_MPIBAIJ scaleAssembled scaleVec UglyStatics.initial).2.2).2.2.uglyrmapd
      = (MatDiagonalScaleLocal_MPIBAIJ scaleAssembled scaleVec UglyStatics.initial).2.2.uglyrmapd :=
  ⟨rfl, (C20_cache_shared_by_matrices scaleAssembled scaleMatOther scaleVec scaleVec
    UglyStatics.initial rfl).1.2.1⟩

/-! ## The loops of `MatMPIBAIJDiagonalScaleLocalSetUp` -/

/-- A counting pass: `if (P i) { nt++; r[i] = v i; }` for `i < n`. -/
theorem countPass_spec (n : Nat) (P : Nat → Prop) [DecidablePred P] (v : Nat → Nat)
    (l0 : List Nat) :
    (forLoop n (fun i (s : Nat × List Nat) => if P i then (s.1 + 1, s.2.set i (v i)) else s)
        (0, l0)).1 = ((List.range n).filter (fun i => decide (P i))).length ∧
    (forLoop n (fun i (s : Nat × List Nat) => if P i then (s.1 + 1, s.2.set i (v i)) else s)
        (0, l0)).2.length = l0.length ∧
    ∀ x, (forLoop n (fun i (s : Nat × List Nat) => if P i then (s.1 + 1, s.2.set i (v i)) else s)
        (0, l0)).2.getD x 0 = if x < n ∧ x < l0.length ∧ P x then v x else l0.getD x 0 := by
  unfold forLoop
  induction n with
  | zero =>
    refine ⟨rfl, rfl, fun x => ?_⟩
    rw [if_neg (by omega)]
    rfl
  | succ n ih =>
    obtain ⟨h1, h2, h3⟩ := ih
    rw [List.range_succ, List.foldl_append, List.filter_append, List.length_append]
    simp only [List.foldl_cons, List.foldl_nil]
    by_cases hP : P n
    · rw [if_pos hP]
      refine ⟨?_, ?_, fun x => ?_⟩
      · show _ + 1 = _
        rw [h1]
        simp [hP]
      · show (List.set _ _ _).length = _
        rw [List.length_set, h2]
      · show (List.set _ _ _).getD x 0 = _
        rw [getD_set, h2]
        by_cases hx : n = x
        · subst hx
          by_cases hl : n < l0.length
          · rw [if_pos ⟨rfl, hl⟩, if_pos ⟨by omega, hl, hP⟩]
          · rw [if_neg (fun h => hl h.2), h3, if_neg (fun h => hl h.2.1),
              if_neg (fun h => hl h.2.1)]
        · rw [if_neg (fun h => hx h.1), h3]
          by_cases hc : x < n ∧ x < l0.length ∧ P x
          · rw [if_pos hc, if_pos ⟨by omega, hc.2⟩]
          · rw [if_neg hc, if_neg (fun h => hc ⟨by omega, h.2⟩)]
    · rw [if_neg hP]
      refine ⟨?_, h2, fun x => ?_⟩
      · rw [h1]
        simp [hP]
      · rw [h3]
        by_cases hc : x < n ∧ x < l0.length ∧ P x
        · rw [if_pos hc, if_pos ⟨by omega, hc.2⟩]
        · rw [if_neg hc]
          by_cases hx : x = n
          · subst hx
            rw [if_neg (fun h => hP h.2.2)]
          · rw [if_neg (fun h => hc ⟨by omega, h.2⟩)]

/-- A pass of writes `u[tgt j] = val j`, `j < n`, to pairwise distinct cells. -/
theorem writes_spec (n : Nat) (tgt val : Nat → Nat) (u0 : List Nat)
    (hinj : ∀ j k, j < n → k < n → tgt j = tgt k → j = k) :
    (forLoop n (fun j u => u.set (tgt j) (val j)) u0).length = u0.length ∧
    (∀ j, j < n → tgt j < u0.length →
      (forLoop n (fun j u => u.set (tgt j) (val j)) u0).getD (tgt j) 0 = val j) ∧
    (∀ q, (∀ j, j < n → tgt j ≠ q) →
      (forLoop n (fun j u => u.set (tgt j) (val j)) u0).getD q 0 = u0.getD q 0) := by
  unfold forLoop
  induction n with
  | zero => exact ⟨rfl, fun j hj => by omega, fun q _ => rfl⟩
  | succ n ih =>
    obtain ⟨h1, h2, h3⟩ := ih (fun j k hj hk => hinj j k (by omega) (by omega))
    rw [List.range_succ, List.foldl_append]
    simp only [List.foldl_cons, List.foldl_nil]
    refine ⟨by rw [List.length_set, h1], fun j hj hl => ?_, fun q hq => ?_⟩
    · rw [getD_set]
      by_cases hjn : j = n
      · subst hjn
        rw [if_pos ⟨rfl, by rw [h1]; exact hl⟩]
      · have hne : tgt n ≠ tgt j := fun h => hjn (hinj n j (by omega) hj h).symm
        rw [if_neg (fun h => hne h.1)]
        exact h2 j (by omega) hl
    · rw [getD_set, if_neg (fun h => hq n (by omega) h.1)]
      exact h3 q (fun j hj => hq j (by omega))

theorem forLoop_succ {σ : Type} (n : Nat) (body : Nat → σ → σ) (s : σ) :
    forLoop (n + 1) body s = body n (forLoop n body s) := by
  unfold forLoop
  rw [List.range_succ, List.foldl_append]
  rfl

/-- The nested filling loops: for every active `i < bn` and every `j < bs`, write
`u[tgt i j] = val i j`, the written cells being pairwise distinct. -/
theorem fillLoop_spec (bn bs : Nat) (act : Nat → Prop) [DecidablePred act]
    (tgt val : Nat → Nat → Nat) (u0 : List Nat)
    (hinj : ∀ i j k l, i < bn → j < bs → act i → k < bn → l < bs → act k →
      tgt i j = tgt k l → i = k ∧ j = l) :
    (forLoop bn (fun i u =>
      if act i then forLoop bs (fun j u => u.set (tgt i j) (val i j)) u else u) u0).length
      = u0.length ∧
    (∀ i j, i < bn → j < bs → act i → tgt i j < u0.length →
      (forLoop bn (fun i u =>
        if act i then forLoop bs (fun j u => u.set (tgt i j) (val i j)) u else u) u0).getD
          (tgt i j) 0 = val i j) ∧
    (∀ q, (∀ i j, i < bn → j < bs → act i → tgt i j ≠ q) →
      (forLoop bn (fun i u =>
        if act i then forLoop bs (fun j u => u.set (tgt i j) (val i j)) u else u) u0).getD q 0
        = u0.getD q 0) := by
  induction bn with
  | zero => exact ⟨rfl, fun i j hi => by omega, fun q _ => rfl⟩
  | succ n ih =>
    obtain ⟨h1, h2, h3⟩ := ih (fun i j k l hi hj ai hk hl ak =>
      hinj i j k l (by omega) hj ai (by omega) hl ak)
    rw [forLoop_succ]
    by_cases ha : act n
    · simp only [if_pos ha]
      obtain ⟨w1, w2, w3⟩ := writes_spec bs (tgt n) (val n)
        (forLoop n (fun i u =>
          if act i then forLoop bs (fun j u => u.set (tgt i j) (val i j)) u else u) u0)
        (fun j l hj hl h => (hinj n j n l (by omega) hj ha (by omega) hl ha h).2)
      refine ⟨w1.trans h1, fun i j hi hj ai hl => ?_, fun q hq => ?_⟩
      · by_cases hin : i = n
        · subst hin
          exact w2 j hj (by rw [h1]; exact hl)
        · rw [w3 (tgt i j) (fun l hl2 h =>
            hin (hinj n l i j (by omega) hl2 ha hi hj ai h).1.symm)]
          exact h2 i j (by omega) hj ai hl
      · rw [w3 q (fun j hj => hq n j (by omega) hj ha)]
        exact h3 q (fun i j hi hj ai => hq i j (by omega) hj ai)
    · simp only [if_neg ha]
      refine ⟨h1, fun i j hi hj ai hl => ?_, fun q hq => ?_⟩
      · have hin : i ≠ n := fun h => ha (h ▸ ai)
        exact h2 i j (by omega) hj ai hl
      · exact h3 q (fun i j hi hj ai => hq i j (by omega) hj ai)

/-- Element positions `a*bs + j`, `j < bs`, determine the block `a` and the offset `j`. -/
theorem block_pos_inj (bs a j b l : Nat) (hj : j < bs) (hl : l < bs)
    (h : a * bs + j = b * bs + l) : a = b ∧ j = l := by
  have hpos : 0 < bs := by omega
  have ha : (a * bs + j) / bs = a := by
    rw [Nat.mul_comm, Nat.mul_add_div hpos, Nat.div_eq_of_lt hj, Nat.add_zero]
  have hb : (b * bs + l) / bs = b := by
    rw [Nat.mul_comm, Nat.mul_add_div hpos, Nat.div_eq_of_lt hl, Nat.add_zero]
  have hab : a = b := by rw [← ha, ← hb, h]
  subst hab
  exact ⟨rfl, Nat.add_left_cancel h⟩

theorem getD_replicate_zero (n x : Nat) : (List.replicate n 0).getD x 0 = 0 := by
  rw [List.getD_eq_getElem?_getD, List.getElem?_replicate]
  split <;> rfl

/-- The first pass of the set-up (lines 259-265): `nt` counts the local block indices in the
ownership range and `r_rmapd` holds `indices[i] + 1` exactly for them. -/
theorem ownedPass_spec (bs cstart cend : Nat) (bm : ISLocalToGlobalMapping) :
    (ownedPass bs cstart cend bm).1
      = ((List.range bm.n).filter (fun i =>
          decide (cstart ≤ PetscInt_mul (bm.indices.getD i 0) bs ∧
            PetscInt_mul (bm.indices.getD i 0) bs < cend))).length ∧
    ∀ x, (ownedPass bs cstart cend bm).2.getD x 0
      = if x < bm.n ∧ cstart ≤ PetscInt_mul (bm.indices.getD x 0) bs ∧
          PetscInt_mul (bm.indices.getD x 0) bs < cend
        then bm.indices.getD x 0 + 1 else 0 := by
  obtain ⟨c1, _, c3⟩ := countPass_spec bm.n
    (fun i => cstart ≤ PetscInt_mul (bm.indices.getD i 0) bs ∧
      PetscInt_mul (bm.indices.getD i 0) bs < cend)
    (fun i => bm.indices.getD i 0 + 1) (List.replicate (bm.n + 1) 0)
  refine ⟨c1, fun x => ?_⟩
  have h := c3 x
  rw [getD_replicate_zero, List.length_replicate] at h
  unfold ownedPass
  rw [h]
  by_cases hx : x < bm.n
  · by_cases ho : cstart ≤ PetscInt_mul (bm.indices.getD x 0) bs ∧
        PetscInt_mul (bm.indices.getD x 0) bs < cend
    · rw [if_pos ⟨hx, by omega, ho⟩, if_pos ⟨hx, ho⟩]
    · rw [if_neg (fun h => ho h.2.2), if_neg (fun h => ho h.2)]
  · rw [if_neg (fun h => hx h.1), if_neg (fun h => hx h.1)]

/-- The number of counted indices is at most the number of indices. -/
theorem filter_range_length_le (n : Nat) (P : Nat → Bool) :
    ((List.range n).filter P).length ≤ n := by
  have h := List.length_filter_le P (List.range n)
  rw [List.length_range] at h
  exact h

/-- The filling of `uglyrmapd` (lines 268-274): when the owned local block indices have
pairwise distinct global indices, every write that lands in the array is still there at the
end: the cell of global element `indices[i]*bs + j` relative to `cstart` holds the local
position `i*bs + j`. -/
theorem fillRmapd_spec (bs cstart cend n : Nat) (bm : ISLocalToGlobalMapping)
    (hovf : ∀ i, i < bm.n → bm.indices.getD i 0 * bs ≤ PETSC_MAX_INT)
    (hbn : bm.n * bs ≤ PETSC_MAX_INT)
    (hdist : ∀ i k, i < bm.n → k < bm.n →
      (cstart ≤ bm.indices.getD i 0 * bs ∧ bm.indices.getD i 0 * bs < cend) →
      (cstart ≤ bm.indices.getD k 0 * bs ∧ bm.indices.getD k 0 * bs < cend) →
      bm.indices.getD i 0 = bm.indices.getD k 0 → i = k) :
    (fillRmapd bs cstart n bm.n (ownedPass bs cstart cend bm).2).length = n + 1 ∧
    ∀ i j, i < bm.n → j < bs →
      cstart ≤ bm.indices.getD i 0 * bs → bm.indices.getD i 0 * bs < cend →
      bm.indices.getD i 0 * bs + j - cstart < n + 1 →
      (fillRmapd bs cstart n bm.n (ownedPass bs cstart cend bm).2).getD
        (bm.indices.getD i 0 * bs + j - cstart) 0 = i * bs + j := by
  obtain ⟨_, o2⟩ := ownedPass_spec bs cstart cend bm
  have hact : ∀ i, i < bm.n → (ownedPass bs cstart cend bm).2.getD i 0 ≠ 0 →
      (cstart ≤ bm.indices.getD i 0 * bs ∧ bm.indices.getD i 0 * bs < cend) ∧
      (ownedPass bs cstart cend bm).2.getD i 0 - 1 = bm.indices.getD i 0 := by
    intro i hi ha
    rw [o2 i] at ha ⊢
    by_cases hc : i < bm.n ∧ cstart ≤ PetscInt_mul (bm.indices.getD i 0) bs ∧
        PetscInt_mul (bm.indices.getD i 0) bs < cend
    · rw [if_pos hc]
      have hw := hc.2
      rw [PetscInt_mul_eq _ _ (hovf i hi)] at hw
      exact ⟨hw, rfl⟩
    · rw [if_neg hc] at ha
      exact absurd rfl ha
  have hact2 : ∀ i, i < bm.n →
      cstart ≤ bm.indices.getD i 0 * bs → bm.indices.getD i 0 * bs < cend →
      (ownedPass bs cstart cend bm).2.getD i 0 ≠ 0 := by
    intro i hi h1 h2
    rw [o2 i, if_pos ⟨hi, by rw [PetscInt_mul_eq _ _ (hovf i hi)]; exact ⟨h1, h2⟩⟩]
    exact Nat.succ_ne_zero _
  have htgt : ∀ i j, i < bm.n → (ownedPass bs cstart cend bm).2.getD i 0 ≠ 0 →
      PetscInt_mul ((ownedPass bs cstart cend bm).2.getD i 0 - 1) bs + j - cstart
        = bm.indices.getD i 0 * bs + j - cstart := by
    intro i j hi ha
    rw [(hact i hi ha).2, PetscInt_mul_eq _ _ (hovf i hi)]
  obtain ⟨k1, k2, _⟩ := fillLoop_spec bm.n bs
    (fun i => (ownedPass bs cstart cend bm).2.getD i 0 ≠ 0)
    (fun i j => PetscInt_mul ((ownedPass bs cstart cend bm).2.getD i 0 - 1) bs + j - cstart)
    (fun i j => PetscInt_mul i bs + j) (List.replicate (n + 1) 0)
    (fun i j k l hi hj ai hk hl ak h => by
      simp only at h
      rw [htgt i j hi ai, htgt k l hk ak] at h
      obtain ⟨⟨a1, a2⟩, _⟩ := hact i hi ai
      obtain ⟨⟨b1, b2⟩, _⟩ := hact k hk ak
      have hsum : bm.indices.getD i 0 * bs + j = bm.indices.getD k 0 * bs + l := by omega
      obtain ⟨e1, e2⟩ := block_pos_inj bs _ j _ l hj hl hsum
      exact ⟨hdist i k hi hk ⟨a1, a2⟩ ⟨b1, b2⟩ e1, e2⟩)
  rw [List.length_replicate] at k1 k2
  refine ⟨k1, fun i j hi hj h1 h2 hb => ?_⟩
  have ha := hact2 i hi h1 h2
  have hk := k2 i j hi hj ha (by rw [htgt i j hi ha]; exact hb)
  simp only at hk
  rw [htgt i j hi ha, PetscInt_mul_eq i bs
    (le_trans (Nat.mul_le_mul_right bs (Nat.le_of_lt hi)) hbn)] at hk
  exact hk

/-- Counting argument for the diagonal map: `nt` local block indices with pairwise distinct
global indices inside a range of `nt` blocks hit every block of the range. -/
theorem owned_cover (bs rs nt : Nat) (bm : ISLocalToGlobalMapping) (hbs : 0 < bs)
    (hcount : ((List.range bm.n).filter (fun i =>
      decide (rs * bs ≤ bm.indices.getD i 0 * bs ∧
        bm.indices.getD i 0 * bs < rs * bs + nt * bs))).length = nt)
    (hdist : ∀ i k, i < bm.n → k < bm.n →
      (rs * bs ≤ bm.indices.getD i 0 * bs ∧ bm.indices.getD i 0 * bs < rs * bs + nt * bs) →
      (rs * bs ≤ bm.indices.getD k 0 * bs ∧ bm.indices.getD k 0 * bs < rs * bs + nt * bs) →
      bm.indices.getD i 0 = bm.indices.getD k 0 → i = k) :
    ∀ q, q < nt → ∃ i, i < bm.n ∧ bm.indices.getD i 0 = rs + q := by
  have hmem : ∀ i, i ∈ (List.range bm.n).filter (fun i =>
      decide (rs * bs ≤ bm.indices.getD i 0 * bs ∧
        bm.indices.getD i 0 * bs < rs * bs + nt * bs)) →
      i < bm.n ∧ (rs * bs ≤ bm.indices.getD i 0 * bs ∧
        bm.indices.getD i 0 * bs < rs * bs + nt * bs) ∧
      rs ≤ bm.indices.getD i 0 ∧ bm.indices.getD i 0 < rs + nt := by
    intro i hi
    rw [List.mem_filter, List.mem_range, decide_eq_true_eq] at hi
    refine ⟨hi.1, hi.2, Nat.le_of_mul_le_mul_right hi.2.1 hbs, ?_⟩
    have h2 := hi.2.2
    rw [← Nat.add_mul] at h2
    exact Nat.lt_of_mul_lt_mul_right h2
  have hnd : (((List.range bm.n).filter (fun i =>
      decide (rs * bs ≤ bm.indices.getD i 0 * bs ∧
        bm.indices.getD i 0 * bs < rs * bs + nt * bs))).map
      (fun i => bm.indices.getD i 0 - rs)).Nodup := by
    apply List.Nodup.map_on
    · intro x hx y hy hxy
      obtain ⟨x1, x2, x3, _⟩ := hmem x hx
      obtain ⟨y1, y2, y3, _⟩ := hmem y hy
      exact hdist x y x1 y1 x2 y2 (by omega)
    · exact (List.nodup_range bm.n).filter _
  have hperm := perm_range_of_nodup _ nt hnd
    (fun p hp => by
      obtain ⟨i, hi, rfl⟩ := List.mem_map.1 hp
      obtain ⟨_, _, i3, i4⟩ := hmem i hi
      omega)
    (by rw [List.length_map]; exact hcount)
  intro q hq
  have hqm := (hperm.mem_iff).2 (List.mem_range.2 hq)
  obtain ⟨i, hi, hiq⟩ := List.mem_map.1 hqm
  obtain ⟨i1, _, i3, _⟩ := hmem i hi
  exact ⟨i, i1, by omega⟩

/-! ## Filling the work vectors and scaling the two blocks -/

theorem forLoop_set_index_gen {β : Type} (f : Nat → β) (n : Nat) (g : List β) (d : β) :
    (forLoop n (fun i g => g.set i (f i)) g).length = g.length ∧
    ∀ x, (forLoop n (fun i g => g.set i (f i)) g).getD x d
      = if x < n ∧ x < g.length then f x else g.getD x d := by
  unfold forLoop
  induction n with
  | zero => simp
  | succ n ih =>
    obtain ⟨h1, h2⟩ := ih
    rw [List.range_succ, List.foldl_append]
    simp only [List.foldl_cons, List.foldl_nil]
    refine ⟨by rw [List.length_set, h1], fun x => ?_⟩
    rw [getD_set_gen, h1, h2 x]
    by_cases hx : n = x
    · subst hx
      by_cases hl : n < g.length
      · simp [hl]
      · simp [hl]
    · by_cases hl : x < g.length
      · by_cases hn : x < n
        · simp [hx, hl, hn, Nat.lt_succ_of_lt hn]
        · have : ¬ x < n + 1 := by omega
          simp [hx, hl, hn, this]
      · simp [hx, hl]

/-- Every cell of a filled work vector holds the scale value its index map points to. -/
theorem fillWork_getD {α : Type} [Inhabited α] (s : List α) (rmap : List Nat) (w : Vec α)
    (x : Nat) (hx : x < VecGetLocalSize w) :
    (fillWork s rmap w).array.getD x default = s.getD (rmap.getD x 0) default := by
  obtain ⟨_, h2⟩ := forLoop_set_index_gen (fun i => s.getD (rmap.getD i 0) default)
    (VecGetLocalSize w) w.array default
  unfold fillWork
  show List.getD (forLoop _ _ _) x default = _
  rw [h2 x, if_pos ⟨hx, hx⟩]

/-- A right vector of the length of the column count is accepted by `MatDiagonalScale`. -/
theorem MatDiagonalScale_ok {α : Type} [Inhabited α] [Mul α] (M : Mat_SeqBAIJ α) (rr : Vec α)
    (h : VecGetLocalSize rr = M.n) : ∃ M1, MatDiagonalScale M rr = Except.ok M1 := by
  unfold MatDiagonalScale
  rw [if_neg (not_not.2 h)]
  exact ⟨_, rfl⟩

/-- The work vectors after the scaling part, entered with both vectors installed and
`uglydd` of the length of the diagonal block's column count. -/
theorem scaleBlocks_buffers {α : Type} [Inhabited α] [Mul α] (A : Mat_MPIBAIJ α)
    (scale : Vec α) (r : Except PetscErrorCode Unit × UglyStatics α) (dd oo : Vec α)
    (hok : r.1 = Except.ok ()) (hdd : r.2.uglydd = some dd) (hoo : r.2.uglyoo = some oo)
    (hlen : VecGetLocalSize dd = A.A.n) :
    (scaleBlocks A scale r).2.2.uglydd
      = some (fillWork scale.array (r.2.uglyrmapd.getD []) dd) ∧
    (scaleBlocks A scale r).2.2.uglyoo
      = some (fillWork scale.array (r.2.uglyrmapo.getD []) oo) := by
  obtain ⟨A1, hA1⟩ := MatDiagonalScale_ok A.A
    (fillWork scale.array (r.2.uglyrmapd.getD []) dd) (by rw [fillWork_length]; exact hlen)
  unfold scaleBlocks
  dsimp only
  split
  · rename_i e he
    rw [hok] at he
    cases he
  · split
    · rename_i hn
      rw [hdd] at hn
      cases hn
    · rename_i dd1 hd1
      rw [hdd] at hd1
      cases hd1
      split
      · rename_i e he
        rw [hA1] at he
        cases he
      · split
        · rename_i hn
          rw [hoo] at hn
          cases hn
        · rename_i oo1 ho1
          rw [hoo] at ho1
          cases ho1
          split
          · exact ⟨rfl, rfl⟩
          · exact ⟨rfl, rfl⟩

/-! ## Claim C15: the diagonal index map -/

/-- The diagonal index map under the ownership range `[rs*bs, rs*bs + n)`: totality and
correctness of `uglyrmapd`. -/
theorem rmapd_total (bs rs n : Nat) (bm : ISLocalToGlobalMapping)
    (hovf : ∀ i, i < bm.n → bm.indices.getD i 0 * bs ≤ PETSC_MAX_INT)
    (hbn : bm.n * bs ≤ PETSC_MAX_INT)
    (hdist : ∀ i k, i < bm.n → k < bm.n →
      (rs * bs ≤ bm.indices.getD i 0 * bs ∧ bm.indices.getD i 0 * bs < rs * bs + n) →
      (rs * bs ≤ bm.indices.getD k 0 * bs ∧ bm.indices.getD k 0 * bs < rs * bs + n) →
      bm.indices.getD i 0 = bm.indices.getD k 0 → i = k)
    (hcheck : PetscInt_mul (ownedPass bs (rs * bs) (rs * bs + n) bm).1 bs = n) :
    ∀ p, p < n → ∃ i j, i < bm.n ∧ j < bs ∧
      bm.indices.getD i 0 * bs + j = rs * bs + p ∧
      (fillRmapd bs (rs * bs) n bm.n (ownedPass bs (rs * bs) (rs * bs + n) bm).2).getD p 0
        = i * bs + j ∧
      ∀ k l, k < bm.n → l < bs → bm.indices.getD k 0 * bs + l = rs * bs + p →
        k = i ∧ l = j := by
  obtain ⟨o1, _⟩ := ownedPass_spec bs (rs * bs) (rs * bs + n) bm
  have hfil : (List.range bm.n).filter (fun i =>
        decide (rs * bs ≤ PetscInt_mul (bm.indices.getD i 0) bs ∧
          PetscInt_mul (bm.indices.getD i 0) bs < rs * bs + n))
      = (List.range bm.n).filter (fun i =>
        decide (rs * bs ≤ bm.indices.getD i 0 * bs ∧
          bm.indices.getD i 0 * bs < rs * bs + n)) := by
    apply List.filter_congr
    intro i hi
    rw [PetscInt_mul_eq _ _ (hovf i (List.mem_range.1 hi))]
  rw [hfil] at o1
  have hle : (ownedPass bs (rs * bs) (rs * bs + n) bm).1 ≤ bm.n := by
    rw [o1]; exact filter_range_length_le _ _
  rw [PetscInt_mul_eq _ _ (le_trans (Nat.mul_le_mul_right bs hle) hbn)] at hcheck
  generalize (ownedPass bs (rs * bs) (rs * bs + n) bm).1 = nt at o1 hcheck
  subst hcheck
  obtain ⟨_, w2⟩ := fillRmapd_spec bs (rs * bs) (rs * bs + nt * bs) (nt * bs) bm hovf hbn hdist
  intro p hp
  have hbs : 0 < bs := by
    rcases Nat.eq_zero_or_pos bs with h0 | h0
    · subst h0; simp at hp
    · exact h0
  have hq : p / bs < nt := by
    apply Nat.div_lt_of_lt_mul
    rw [Nat.mul_comm]; exact hp
  obtain ⟨i, hi, hind⟩ := owned_cover bs rs nt bm hbs o1.symm hdist (p / bs) hq
  have hj : p % bs < bs := Nat.mod_lt p hbs
  have hsum : bm.indices.getD i 0 * bs + p % bs = rs * bs + p := by
    rw [hind, Nat.add_mul, Nat.add_assoc, Nat.mul_comm (p / bs) bs, Nat.div_add_mod]
  have hlo : rs * bs ≤ bm.indices.getD i 0 * bs := by
    rw [hind]; exact Nat.mul_le_mul_right bs (Nat.le_add_right rs _)
  have hhi : bm.indices.getD i 0 * bs < rs * bs + nt * bs := by omega
  have hw := w2 i (p % bs) hi hj hlo hhi (by omega)
  have htgt : bm.indices.getD i 0 * bs + p % bs - rs * bs = p := by omega
  rw [htgt] at hw
  refine ⟨i, p % bs, hi, hj, hsum, hw, fun k l hk hl hkl => ?_⟩
  obtain ⟨e1, e2⟩ := block_pos_inj bs _ l _ (p % bs) hl hj (hkl.trans hsum.symm)
  refine ⟨hdist k i hk hi ?_ ⟨hlo, hhi⟩ e1, e2⟩
  rw [e1]
  exact ⟨hlo, hhi⟩

/-- C15 as stated fails: on `rectMat` (block size 1, row ownership range `[0, 3)`, diagonal
block of `n = 2` columns, local indices mapped to the global columns 0 and 2) the set-up
succeeds and the owned indices are pairwise distinct, but no local position has the global id
`cstart + 1`: cell 1 of `uglyrmapd` is never written, the second write goes to cell 2. -/
theorem C15_diagonal_map_counterexample :
    (MatMPIBAIJDiagonalScaleLocalSetUp rectMat scaleVec UglyStatics.initial).1
      = Except.ok () ∧
    (∀ i, i < rectMat.bmapping.n → ∀ k, k < rectMat.bmapping.n →
      (rectMat.rstart_bs ≤ rectMat.bmapping.indices.getD i 0 * rectMat.A.bs ∧
        rectMat.bmapping.indices.getD i 0 * rectMat.A.bs < rectMat.rend_bs) →
      (rectMat.rstart_bs ≤ rectMat.bmapping.indices.getD k 0 * rectMat.A.bs ∧
        rectMat.bmapping.indices.getD k 0 * rectMat.A.bs < rectMat.rend_bs) →
      rectMat.bmapping.indices.getD i 0 = rectMat.bmapping.indices.getD k 0 → i = k) ∧
    1 < rectMat.A.n ∧
    (∀ i, i < rectMat.bmapping.n → ∀ j, j < rectMat.A.bs →
      rectMat.bmapping.indices.getD i 0 * rectMat.A.bs + j ≠ rectMat.rstart_bs + 1) ∧
    (fillRmapd rectMat.A.bs rectMat.rstart_bs rectMat.A.n rectMat.bmapping.n
      (ownedPass rectMat.A.bs rectMat.rstart_bs rectMat.rend_bs rectMat.bmapping).2)
      = List.set (List.set [0, 0, 0] 0 0) 2 1 :=
  ⟨rfl, by decide, by decide, by decide, by decide⟩

/-- C15 (amended): when `MatMPIBAIJDiagonalScaleLocalSetUp` succeeds, the local block indices
whose global index falls in the ownership range `[cstart, cend)` have pairwise distinct
global indices, and the ownership range is block aligned and spans exactly the `n` columns of
the diagonal block (`cstart = rs*bs`, `cend = cstart + n`; the products stay in the range of
`PetscInt`), the diagonal index map is total and correct: for every `p < n` there is exactly
one local block index `i` and `j < bs` with `indices[i]*bs + j = cstart + p`, and
`uglyrmapd[p] = i*bs + j`; a scale call that builds the cache then leaves in cell `p` of the
diagonal work buffer the scale value of that local position. -/
theorem C15_diagonal_index_map {α : Type} [Inhabited α] [Mul α] (inA : Mat_MPIBAIJ α)
    (scale : Vec α) (st : UglyStatics α) (rs : Nat)
    (hok : (MatMPIBAIJDiagonalScaleLocalSetUp inA scale st).1 = Except.ok ())
    (hdist : ∀ i, i < inA.bmapping.n → ∀ k, k < inA.bmapping.n →
      (inA.rstart_bs ≤ inA.bmapping.indices.getD i 0 * inA.A.bs ∧
        inA.bmapping.indices.getD i 0 * inA.A.bs < inA.rend_bs) →
      (inA.rstart_bs ≤ inA.bmapping.indices.getD k 0 * inA.A.bs ∧
        inA.bmapping.indices.getD k 0 * inA.A.bs < inA.rend_bs) →
      inA.bmapping.indices.getD i 0 = inA.bmapping.indices.getD k 0 → i = k)
    (halign : inA.rstart_bs = rs * inA.A.bs) (hlen : inA.rend_bs = inA.rstart_bs + inA.A.n)
    (hovf : ∀ i, i < inA.bmapping.n → inA.bmapping.indices.getD i 0 * inA.A.bs ≤ PETSC_MAX_INT)
    (hbn : inA.bmapping.n * inA.A.bs ≤ PETSC_MAX_INT) :
    ∃ rmapd, (MatMPIBAIJDiagonalScaleLocalSetUp inA scale st).2.uglyrmapd = some rmapd ∧
      ∀ p, p < inA.A.n → ∃ i j, i < inA.bmapping.n ∧ j < inA.A.bs ∧
        inA.bmapping.indices.getD i 0 * inA.A.bs + j = inA.rstart_bs + p ∧
        rmapd.getD p 0 = i * inA.A.bs + j ∧
        (∀ k l, k < inA.bmapping.n → l < inA.A.bs →
          inA.bmapping.indices.getD k 0 * inA.A.bs + l = inA.rstart_bs + p → k = i ∧ l = j) ∧
        (st.uglyrmapd = none →
          ∃ d, (MatDiagonalScaleLocal_MPIBAIJ inA scale st).2.2.uglydd = some d ∧
            d.array.getD p default = scale.array.getD (i * inA.A.bs + j) default) := by
  obtain ⟨f1, _, f3, f4, _, f6⟩ := setUp_ok_facts inA scale st hok
  rw [hlen, halign] at hdist f1
  rw [hlen, halign] at f3
  have htot := rmapd_total inA.A.bs rs inA.A.n inA.bmapping hovf hbn
    (fun i k hi hk => hdist i hi k hk) f1
  refine ⟨_, f3, fun p hp => ?_⟩
  obtain ⟨i, j, hi, hj, hsum, hval, huniq⟩ := htot p hp
  rw [halign]
  refine ⟨i, j, hi, hj, hsum, hval, huniq, fun hnone => ?_⟩
  obtain ⟨b0, _⟩ := scale_builds_cache inA scale st hnone
  obtain ⟨d1, _⟩ := scaleBlocks_buffers inA scale
    (MatMPIBAIJDiagonalScaleLocalSetUp inA scale st) _ _ hok f4 f6
    (by simp [VecGetLocalSize, VecCreateSeq])
  rw [b0]
  refine ⟨_, d1, ?_⟩
  rw [fillWork_getD _ _ _ p (by simpa [VecGetLocalSize, VecCreateSeq] using hp), f3,
    Option.getD_some, hval]

/-- C15 (amended) on the sample matrix `scaleAssembled`: ownership range `[4, 8)`, block size
2, diagonal block of 4 columns. -/
theorem C15_diagonal_index_map_witness :
    ((MatMPIBAIJDiagonalScaleLocalSetUp scaleAssembled scaleVec UglyStatics.initial).1
      = Except.ok () ∧
    scaleAssembled.rstart_bs = 2 * scaleAssembled.A.bs ∧
    scaleAssembled.rend_bs = scaleAssembled.rstart_bs + scaleAssembled.A.n) ∧
    ∃ rmapd, (MatMPIBAIJDiagonalScaleLocalSetUp scaleAssembled scaleVec
        UglyStatics.initial).2.uglyrmapd = some rmapd ∧
      ∀ p, p < scaleAssembled.A.n → ∃ i j, i < scaleAssembled.bmapping.n ∧
        j < scaleAssembled.A.bs ∧
        scaleAssembled.bmapping.indices.getD i 0 * scaleAssembled.A.bs + j
          = scaleAssembled.rstart_bs + p ∧
        rmapd.getD p 0 = i * scaleAssembled.A.bs + j ∧
        (∀ k l, k < scaleAssembled.bmapping.n → l < scaleAssembled.A.bs →
          scaleAssembled.bmapping.indices.getD k 0 * scaleAssembled.A.bs + l
            = scaleAssembled.rstart_bs + p → k = i ∧ l = j) ∧
        ((UglyStatics.initial : UglyStatics Int).uglyrmapd = none →
          ∃ d, (MatDiagonalScaleLocal_MPIBAIJ scaleAssembled scaleVec
              UglyStatics.initial).2.2.uglydd = some d ∧
            d.array.getD p default
              = scaleVec.array.getD (i * scaleAssembled.A.bs + j) default) :=
  ⟨⟨rfl, by decide, by decide⟩,
    C15_diagonal_index_map scaleAssembled scaleVec UglyStatics.initial 2 rfl (by decide)
      (by decide) (by decide) (by decide) (by decide)⟩

/-! ## Claim C16: the off-diagonal index map -/

/-- Lines 278-282: `lindices` holds the one-based position of every ghost column and 0
elsewhere. -/
theorem ghostPositions_spec (Nbs nbs : Nat) (garray : List Nat)
    (hinj : ∀ p q, p < nbs → q < nbs → garray.getD p 0 = garray.getD q 0 → p = q)
    (hlt : ∀ p, p < nbs → garray.getD p 0 ≤ Nbs) :
    (∀ p, p < nbs → (ghostPositions Nbs nbs garray).getD (garray.getD p 0) 0 = p + 1) ∧
    (∀ c, (∀ p, p < nbs → garray.getD p 0 ≠ c) →
      (ghostPositions Nbs nbs garray).getD c 0 = 0) := by
  obtain ⟨_, w2, w3⟩ := writes_spec nbs (fun i => garray.getD i 0) (fun i => i + 1)
    (List.replicate (Nbs + 1) 0) hinj
  unfold ghostPositions
  refine ⟨fun p hp => w2 p hp ?_, fun c hc => ?_⟩
  · rw [List.length_replicate]
    exact Nat.lt_succ_of_le (hlt p hp)
  · rw [w3 c hc]
    exact getD_replicate_zero _ _

/-- Lines 286-292: `nt` counts the local block indices that `lindices` knows and `r_rmapo`
holds their one-based ghost position. -/
theorem ghostPass_spec (lindices : List Nat) (bm : ISLocalToGlobalMapping) :
    (ghostPass lindices bm).1
      = ((List.range bm.n).filter (fun i =>
          decide (lindices.getD (bm.indices.getD i 0) 0 ≠ 0))).length ∧
    ∀ x, (ghostPass lindices bm).2.getD x 0
      = if x < bm.n ∧ lindices.getD (bm.indices.getD x 0) 0 ≠ 0
        then lindices.getD (bm.indices.getD x 0) 0 else 0 := by
  obtain ⟨c1, _, c3⟩ := countPass_spec bm.n
    (fun i => lindices.getD (bm.indices.getD i 0) 0 ≠ 0)
    (fun i => lindices.getD (bm.indices.getD i 0) 0) (List.replicate (bm.n + 1) 0)
  refine ⟨c1, fun x => ?_⟩
  have h := c3 x
  rw [getD_replicate_zero, List.length_replicate] at h
  unfold ghostPass
  rw [h]
  by_cases hx : x < bm.n
  · by_cases ho : lindices.getD (bm.indices.getD x 0) 0 ≠ 0
    · rw [if_pos ⟨hx, by omega, ho⟩, if_pos ⟨hx, ho⟩]
    · rw [if_neg (fun h => ho h.2.2), if_neg (fun h => ho h.2)]
  · rw [if_neg (fun h => hx h.1), if_neg (fun h => hx h.1)]

/-- The filling of `uglyrmapo` (lines 295-302) for a Ghost Array of pairwise distinct
columns, when the local block indices mapped to ghost columns have pairwise distinct global
indices: the count `nt`, the length of the map, and the content of every cell that a write
reaches inside the map. -/
theorem fillRmapo_spec (bs Nbs nbs : Nat) (garray : List Nat) (bm : ISLocalToGlobalMapping)
    (hinj : ∀ p q, p < nbs → q < nbs → garray.getD p 0 = garray.getD q 0 → p = q)
    (hlt : ∀ p, p < nbs → garray.getD p 0 ≤ Nbs)
    (hnb : nbs * bs ≤ PETSC_MAX_INT) (hbn : bm.n * bs ≤ PETSC_MAX_INT)
    (hdist : ∀ i k, i < bm.n → k < bm.n →
      (∃ q, q < nbs ∧ garray.getD q 0 = bm.indices.getD i 0) →
      bm.indices.getD i 0 = bm.indices.getD k 0 → i = k) :
    (ghostPass (ghostPositions Nbs nbs garray) bm).1
      = ((List.range bm.n).filter (fun i =>
          decide (∃ q, q < nbs ∧ garray.getD q 0 = bm.indices.getD i 0))).length ∧
    (fillRmapo bs (ghostPass (ghostPositions Nbs nbs garray) bm).1 bm.n
      (ghostPass (ghostPositions Nbs nbs garray) bm).2).length
      = (ghostPass (ghostPositions Nbs nbs garray) bm).1 * bs + 1 ∧
    ∀ p i j, p < nbs → i < bm.n → j < bs → bm.indices.getD i 0 = garray.getD p 0 →
      p * bs + j < (ghostPass (ghostPositions Nbs nbs garray) bm).1 * bs + 1 →
      (fillRmapo bs (ghostPass (ghostPositions Nbs nbs garray) bm).1 bm.n
        (ghostPass (ghostPositions Nbs nbs garray) bm).2).getD (p * bs + j) 0 = i * bs + j := by
  obtain ⟨g1, g2⟩ := ghostPositions_spec Nbs nbs garray hinj hlt
  obtain ⟨p1, p2⟩ := ghostPass_spec (ghostPositions Nbs nbs garray) bm
  have hghost : ∀ c, (ghostPositions Nbs nbs garray).getD c 0 ≠ 0 ↔
      ∃ q, q < nbs ∧ garray.getD q 0 = c := by
    intro c
    constructor
    · intro hc
      by_contra hno
      exact hc (g2 c (fun q hq h => hno ⟨q, hq, h⟩))
    · rintro ⟨q, hq, rfl⟩
      rw [g1 q hq]
      exact Nat.succ_ne_zero q
  have hcount : (ghostPass (ghostPositions Nbs nbs garray) bm).1
      = ((List.range bm.n).filter (fun i =>
          decide (∃ q, q < nbs ∧ garray.getD q 0 = bm.indices.getD i 0))).length := by
    rw [p1]
    congr 1
    apply List.filter_congr
    intro i _
    exact decide_eq_decide.2 (hghost _)
  have hle : (ghostPass (ghostPositions Nbs nbs garray) bm).1 ≤ bm.n := by
    rw [hcount]; exact filter_range_length_le _ _
  have hlen0 : PetscInt_mul (ghostPass (ghostPositions Nbs nbs garray) bm).1 bs
      = (ghostPass (ghostPositions Nbs nbs garray) bm).1 * bs :=
    PetscInt_mul_eq _ _ (le_trans (Nat.mul_le_mul_right bs hle) hbn)
  have hact : ∀ i, i < bm.n → (ghostPass (ghostPositions Nbs nbs garray) bm).2.getD i 0 ≠ 0 →
      ∃ q, q < nbs ∧ garray.getD q 0 = bm.indices.getD i 0 ∧
        PetscInt_mul ((ghostPass (ghostPositions Nbs nbs garray) bm).2.getD i 0 - 1) bs
          = q * bs := by
    intro i hi ha
    rw [p2 i] at ha ⊢
    by_cases hc : i < bm.n ∧ (ghostPositions Nbs nbs garray).getD (bm.indices.getD i 0) 0 ≠ 0
    · rw [if_pos hc]
      obtain ⟨q, hq, hqc⟩ := (hghost _).1 hc.2
      refine ⟨q, hq, hqc, ?_⟩
      rw [← hqc, g1 q hq, Nat.add_sub_cancel]
      exact PetscInt_mul_eq _ _ (le_trans (Nat.mul_le_mul_right bs (Nat.le_of_lt hq)) hnb)
    · rw [if_neg hc] at ha
      exact absurd rfl ha
  obtain ⟨k1, k2, _⟩ := fillLoop_spec bm.n bs
    (fun i => (ghostPass (ghostPositions Nbs nbs garray) bm).2.getD i 0 ≠ 0)
    (fun i j => PetscInt_mul ((ghostPass (ghostPositions Nbs nbs garray) bm).2.getD i 0 - 1) bs
      + j)
    (fun i j => PetscInt_mul i bs + j)
    (List.replicate (PetscInt_mul (ghostPass (ghostPositions Nbs nbs garray) bm).1 bs + 1) 0)
    (fun i j k l hi hj ai hk hl ak h => by
      simp only at h
      obtain ⟨q1, hq1, hc1, e1⟩ := hact i hi ai
      obtain ⟨q2, hq2, hc2, e2⟩ := hact k hk ak
      rw [e1, e2] at h
      obtain ⟨e3, e4⟩ := block_pos_inj bs q1 j q2 l hj hl h
      subst e3
      exact ⟨hdist i k hi hk ⟨q1, hq1, hc1⟩ (hc1.symm.trans hc2), e4⟩)
  rw [List.length_replicate, hlen0] at k1 k2
  unfold fillRmapo
  rw [hlen0]
  refine ⟨hcount, k1, fun p i j hp hi hj hip hb => ?_⟩
  have hpos : (ghostPass (ghostPositions Nbs nbs garray) bm).2.getD i 0 = p + 1 := by
    rw [p2 i, hip, g1 p hp, if_pos ⟨hi, Nat.succ_ne_zero p⟩]
  have ha : (ghostPass (ghostPositions Nbs nbs garray) bm).2.getD i 0 ≠ 0 := by
    rw [hpos]; exact Nat.succ_ne_zero p
  have htgt : PetscInt_mul ((ghostPass (ghostPositions Nbs nbs garray) bm).2.getD i 0 - 1) bs
      = p * bs := by
    rw [hpos, Nat.add_sub_cancel]
    exact PetscInt_mul_eq _ _ (le_trans (Nat.mul_le_mul_right bs (Nat.le_of_lt hp)) hnb)
  have hk := k2 i j hi hj ha (by rw [htgt]; exact hb)
  simp only at hk
  rw [htgt, PetscInt_mul_eq i bs
    (le_trans (Nat.mul_le_mul_right bs (Nat.le_of_lt hi)) hbn)] at hk
  exact hk

theorem set_getD_self {β : Type} (l : List β) (k : Nat) (d : β) : l.set k (l.getD k d) = l := by
  by_cases hk : k < l.length
  · apply List.ext_getElem (List.length_set _ _ _)
    intro n h1 h2
    rw [List.getElem_set]
    split
    · rename_i hkn
      subst hkn
      rw [List.getD_eq_getElem _ _ hk]
    · rfl
  · exact List.set_eq_of_length_le (Nat.le_of_not_lt hk)

theorem foldl_mem_inv {σ β : Type} (P : σ → Prop) (f : σ → β → σ) (l : List β) (s : σ)
    (hstep : ∀ s x, x ∈ l → P s → P (f s x)) (h0 : P s) : P (l.foldl f s) := by
  induction l generalizing s with
  | nil => exact h0
  | cons x xs ih =>
    rw [List.foldl_cons]
    exact ih _ (fun s y hy hs => hstep s y (List.mem_cons_of_mem _ hy) hs)
      (hstep s x (List.mem_cons_self _ _) h0)

theorem forLoop_inv_lt {σ : Type} (P : σ → Prop) (n : Nat) (body : Nat → σ → σ) (s : σ)
    (hstep : ∀ i s, i < n → P s → P (body i s)) (h0 : P s) : P (forLoop n body s) := by
  unfold forLoop
  exact foldl_mem_inv P (fun s i => body i s) (List.range n) s
    (fun s i hi hs => hstep i s (List.mem_range.1 hi) hs) h0

/-- Column scaling by a vector that holds 1 at every column of the block leaves the block
as it is. -/
theorem MatDiagonalScale_ones {α : Type} [Inhabited α] [MulOneClass α] (M : Mat_SeqBAIJ α)
    (rr : Vec α) (hlen : VecGetLocalSize rr = M.n) (hbs2 : M.bs2 = M.bs * M.bs)
    (hn : M.n = M.nbs * M.bs) (hrefs : ∀ k, k ∈ slots M → M.j.getD k 0 < M.nbs)
    (hone : ∀ x, x < M.n → rr.array.getD x default = 1) :
    MatDiagonalScale M rr = Except.ok M := by
  unfold MatDiagonalScale
  rw [if_neg (not_not.2 hlen)]
  have hfix : (slots M).foldl (fun a p =>
      forLoop M.bs2 (fun t a =>
        a.set (p * M.bs2 + t)
          (a.getD (p * M.bs2 + t) default * rr.array.getD (M.bs * M.j.getD p 0 + t / M.bs) default))
        a) M.a = M.a := by
    apply foldl_mem_inv (fun (a : List α) => a = M.a)
    · intro a p hp ha
      apply forLoop_inv_lt (fun (a : List α) => a = M.a)
      · intro t a1 ht ha1
        have hcol : M.bs * M.j.getD p 0 + t / M.bs < M.n := by
          rw [hbs2] at ht
          have hbs : 0 < M.bs := by
            rcases Nat.eq_zero_or_pos M.bs with h0 | h0
            · rw [h0] at ht; simp at ht
            · exact h0
          have h1 : t / M.bs < M.bs := Nat.div_lt_of_lt_mul ht
          have h2 := hrefs p hp
          calc M.bs * M.j.getD p 0 + t / M.bs < M.bs * M.j.getD p 0 + M.bs :=
                Nat.add_lt_add_left h1 _
            _ = (M.j.getD p 0 + 1) * M.bs := by rw [Nat.succ_mul, Nat.mul_comm]
            _ ≤ M.nbs * M.bs := Nat.mul_le_mul_right _ h2
            _ = M.n := hn.symm
        show List.set a1 _ _ = M.a
        rw [hone _ hcol, mul_one, set_getD_self, ha1]
      · exact ha
    · rfl
  simp only [hfix]

/-- The scaling part when both blocks accept their work vector. -/
theorem scaleBlocks_ok {α : Type} [Inhabited α] [Mul α] (A : Mat_MPIBAIJ α)
    (scale : Vec α) (r : Except PetscErrorCode Unit × UglyStatics α) (dd oo : Vec α)
    (A1 B1 : Mat_SeqBAIJ α)
    (hok : r.1 = Except.ok ()) (hdd : r.2.uglydd = some dd) (hoo : r.2.uglyoo = some oo)
    (hA : MatDiagonalScale A.A (fillWork scale.array (r.2.uglyrmapd.getD []) dd)
      = Except.ok A1)
    (hB : MatDiagonalScale A.B (fillWork scale.array (r.2.uglyrmapo.getD []) oo)
      = Except.ok B1) :
    (scaleBlocks A scale r).1 = Except.ok () ∧
    (scaleBlocks A scale r).2.1.A = A1 ∧ (scaleBlocks A scale r).2.1.B = B1 := by
  unfold scaleBlocks
  dsimp only
  split
  · rename_i e he
    rw [hok] at he
    cases he
  · split
    · rename_i hn
      rw [hdd] at hn
      cases hn
    · rename_i dd1 hd1
      rw [hdd] at hd1
      cases hd1
      split
      · rename_i e he
        rw [hA] at he
        cases he
      · rename_i A2 hA2
        rw [hA] at hA2
        cases hA2
        split
        · rename_i hn
          rw [hoo] at hn
          cases hn
        · rename_i oo1 ho1
          rw [hoo] at ho1
          cases ho1
          split
          · rename_i e he
            rw [hB] at he
            cases he
          · rename_i B2 hB2
            rw [hB] at hB2
            cases hB2
            exact ⟨rfl, rfl, rfl⟩

/-- Counting argument for the off-diagonal map: when every ghost column is the image of a
local block index and ghost-mapped local indices have distinct images, the number of
ghost-mapped local indices is the number of ghost columns. -/
theorem ghost_count (nbs : Nat) (garray : List Nat) (bm : ISLocalToGlobalMapping)
    (hinj : ∀ p q, p < nbs → q < nbs → garray.getD p 0 = garray.getD q 0 → p = q)
    (hdist : ∀ i k, i < bm.n → k < bm.n →
      (∃ q, q < nbs ∧ garray.getD q 0 = bm.indices.getD i 0) →
      bm.indices.getD i 0 = bm.indices.getD k 0 → i = k)
    (hcover : ∀ p, p < nbs → ∃ i, i < bm.n ∧ bm.indices.getD i 0 = garray.getD p 0) :
    ((List.range bm.n).filter (fun i =>
      decide (∃ q, q < nbs ∧ garray.getD q 0 = bm.indices.getD i 0))).length = nbs := by
  classical
  have hnd : ((List.range bm.n).filter (fun i =>
      decide (∃ q, q < nbs ∧ garray.getD q 0 = bm.indices.getD i 0))).Nodup :=
    (List.nodup_range bm.n).filter _
  have hmem : ∀ i, i ∈ ((List.range bm.n).filter (fun i =>
      decide (∃ q, q < nbs ∧ garray.getD q 0 = bm.indices.getD i 0))).toFinset ↔
      i < bm.n ∧ ∃ q, q < nbs ∧ garray.getD q 0 = bm.indices.getD i 0 := by
    intro i
    rw [List.mem_toFinset, List.mem_filter, List.mem_range, decide_eq_true_eq]
  have hchoose : ∀ i, ∃ v, ∀ q, q < nbs → garray.getD q 0 = bm.indices.getD i 0 → v = q := by
    intro i
    by_cases h : ∃ q, q < nbs ∧ garray.getD q 0 = bm.indices.getD i 0
    · obtain ⟨q, hq, hqc⟩ := h
      exact ⟨q, fun q2 hq2 h2 => hinj q q2 hq hq2 (hqc.trans h2.symm)⟩
    · exact ⟨0, fun q hq hqc => absurd ⟨q, hq, hqc⟩ h⟩
  obtain ⟨f, hf⟩ := Classical.axiomOfChoice hchoose
  rw [← List.toFinset_card_of_nodup hnd]
  apply Nat.le_antisymm
  · have h := Finset.card_le_card_of_injOn f
      (fun i hi => by
        obtain ⟨_, q, hq, hqc⟩ := (hmem i).1 (Finset.mem_coe.1 hi)
        rw [hf i q hq hqc]
        exact Finset.mem_range.2 hq)
      (fun i hi k hk hik => by
        obtain ⟨i1, q, hq, hqc⟩ := (hmem i).1 (Finset.mem_coe.1 hi)
        obtain ⟨k1, q2, hq2, hqc2⟩ := (hmem k).1 (Finset.mem_coe.1 hk)
        rw [hf i q hq hqc, hf k q2 hq2 hqc2] at hik
        subst hik
        exact hdist i k i1 k1 ⟨q, hq, hqc⟩ (hqc.symm.trans hqc2))
    rw [Finset.card_range] at h
    exact h
  · have h := Finset.card_le_card_of_surjOn f
      (fun p hp => by
        have hp1 : p < nbs := Finset.mem_range.1 (Finset.mem_coe.1 hp)
        obtain ⟨i, hi, hip⟩ := hcover p hp1
        exact ⟨i, Finset.mem_coe.2 ((hmem i).2 ⟨hi, p, hp1, hip.symm⟩), hf i p hp1 hip.symm⟩)
    rw [Finset.card_range] at h
    exact h

theorem pos_lt (bs bn i j : Nat) (hi : i < bn) (hj : j < bs) : i * bs + j < bn * bs := by
  calc i * bs + j < i * bs + bs := Nat.add_lt_add_left hj _
    _ = (i + 1) * bs := by rw [Nat.succ_mul]
    _ ≤ bn * bs := Nat.mul_le_mul_right _ hi

/-- Under the layout conditions every cell of the two index maps that a scale call reads
holds a local position `< bmapping.n * bs`, and the off-diagonal work buffer has the length
of the off-diagonal block's column count. -/
theorem maps_in_range {α : Type} [Inhabited α] (inA : Mat_MPIBAIJ α) (scale : Vec α)
    (st : UglyStatics α) (rs : Nat)
    (hok : (MatMPIBAIJDiagonalScaleLocalSetUp inA scale st).1 = Except.ok ())
    (hown : OwnershipOK inA rs) (hghost : GhostMappingOK inA) :
    ∃ rmapd rmapo,
      (MatMPIBAIJDiagonalScaleLocalSetUp inA scale st).2.uglyrmapd = some rmapd ∧
      (MatMPIBAIJDiagonalScaleLocalSetUp inA scale st).2.uglyrmapo = some rmapo ∧
      (MatMPIBAIJDiagonalScaleLocalSetUp inA scale st).2.uglydd
        = some (VecCreateSeq inA.A.n) ∧
      (MatMPIBAIJDiagonalScaleLocalSetUp inA scale st).2.uglyoo
        = some (VecCreateSeq (inA.B.nbs * inA.A.bs)) ∧
      (∀ p, p < inA.A.n → rmapd.getD p 0 < inA.bmapping.n * inA.A.bs) ∧
      (∀ x, x < inA.B.nbs * inA.A.bs → rmapo.getD x 0 < inA.bmapping.n * inA.A.bs) := by
  obtain ⟨⟨halign, hlen⟩, ⟨hovf, hbn, hnb⟩, hdist⟩ := hown
  obtain ⟨⟨hginj, hglt⟩, hgd, hcov⟩ := hghost
  obtain ⟨f1, _, f3, f4, f5, f6⟩ := setUp_ok_facts inA scale st hok
  unfold OwnedDistinct at hdist
  rw [hlen, halign] at hdist f1
  rw [hlen, halign] at f3
  have htot := rmapd_total inA.A.bs rs inA.A.n inA.bmapping hovf hbn
    (fun i k hi hk => hdist i hi k hk) f1
  obtain ⟨r1, _, r3⟩ := fillRmapo_spec inA.A.bs inA.Nbs inA.B.nbs (inA.garray.getD [])
    inA.bmapping (fun p q hp hq => hginj p hp q hq) hglt hnb hbn
    (fun i k hi hk => hgd i hi k hk)
  have hcnt := ghost_count inA.B.nbs (inA.garray.getD []) inA.bmapping
    (fun p q hp hq => hginj p hp q hq) (fun i k hi hk => hgd i hi k hk) hcov
  rw [hcnt] at r1
  rw [r1] at r3 f5 f6
  rw [PetscInt_mul_eq _ _ hnb] at f6
  refine ⟨_, _, f3, f5, f4, f6, fun p hp => ?_, fun x hx => ?_⟩
  · obtain ⟨i, j, hi, hj, _, hval, _⟩ := htot p hp
    rw [hval]
    exact pos_lt _ _ i j hi hj
  · have hbs : 0 < inA.A.bs := by
      rcases Nat.eq_zero_or_pos inA.A.bs with h0 | h0
      · rw [h0] at hx; simp at hx
      · exact h0
    have hq : x / inA.A.bs < inA.B.nbs := Nat.div_lt_of_lt_mul (by rw [Nat.mul_comm]; exact hx)
    have hj : x % inA.A.bs < inA.A.bs := Nat.mod_lt x hbs
    have hx2 : x / inA.A.bs * inA.A.bs + x % inA.A.bs = x := by
      rw [Nat.mul_comm]; exact Nat.div_add_mod x inA.A.bs
    obtain ⟨i, hi, hip⟩ := hcov (x / inA.A.bs) hq
    have hval := r3 (x / inA.A.bs) i (x % inA.A.bs) hq hi hj hip
      (by rw [hx2]; exact Nat.lt_succ_of_lt hx)
    rw [hx2] at hval
    rw [hval]
    exact pos_lt _ _ i _ hi hj

/-- The scaling part of a call that works with index maps whose cells point inside the
scale vector and with work buffers of the blocks' column counts: for a scale vector of ones
both buffers are filled with ones and both blocks stay as they are. -/
theorem scale_ones_core {α : Type} [Inhabited α] [MulOneClass α] (inA : Mat_MPIBAIJ α)
    (scale : Vec α) (r : Except PetscErrorCode Unit × UglyStatics α) (rmapd rmapo : List Nat)
    (dd oo : Vec α) (hok : r.1 = Except.ok ())
    (h1 : r.2.uglyrmapd = some rmapd) (h2 : r.2.uglyrmapo = some rmapo)
    (h3 : r.2.uglydd = some dd) (h4 : r.2.uglyoo = some oo)
    (hld : VecGetLocalSize dd = inA.A.n) (hlo : VecGetLocalSize oo = inA.B.nbs * inA.A.bs)
    (m5 : ∀ p, p < inA.A.n → rmapd.getD p 0 < inA.bmapping.n * inA.A.bs)
    (m6 : ∀ x, x < inA.B.nbs * inA.A.bs → rmapo.getD x 0 < inA.bmapping.n * inA.A.bs)
    (hcA : ColumnsOK inA.A) (hcB : ColumnsOK inA.B) (hbsB : inA.B.bs = inA.A.bs)
    (hones : ∀ x, x < inA.bmapping.n * inA.A.bs → scale.array.getD x default = 1) :
    (scaleBlocks inA scale r).1 = Except.ok () ∧
    (∃ d o, (scaleBlocks inA scale r).2.2.uglydd = some d ∧
      (scaleBlocks inA scale r).2.2.uglyoo = some o ∧
      VecGetLocalSize d = inA.A.n ∧ VecGetLocalSize o = inA.B.n ∧
      (∀ x, x < inA.A.n → d.array.getD x default = 1) ∧
      (∀ x, x < inA.B.n → o.array.getD x default = 1)) ∧
    (scaleBlocks inA scale r).2.1.A = inA.A ∧
    (scaleBlocks inA scale r).2.1.B = inA.B := by
  have hBn : inA.B.n = inA.B.nbs * inA.A.bs := by rw [hcB.2.1, hbsB]
  have hlenA : VecGetLocalSize (fillWork scale.array rmapd dd) = inA.A.n := by
    rw [fillWork_length, hld]
  have hlenB : VecGetLocalSize (fillWork scale.array rmapo oo) = inA.B.n := by
    rw [fillWork_length, hlo, hBn]
  have hd : ∀ x, x < inA.A.n → (fillWork scale.array rmapd dd).array.getD x default = 1 := by
    intro x hx
    rw [fillWork_getD _ _ _ x (by rw [hld]; exact hx)]
    exact hones _ (m5 x hx)
  have ho : ∀ x, x < inA.B.n → (fillWork scale.array rmapo oo).array.getD x default = 1 := by
    intro x hx
    rw [hBn] at hx
    rw [fillWork_getD _ _ _ x (by rw [hlo]; exact hx)]
    exact hones _ (m6 x hx)
  have hA := MatDiagonalScale_ones inA.A _ hlenA hcA.1 hcA.2.1 hcA.2.2 hd
  have hB := MatDiagonalScale_ones inA.B _ hlenB hcB.1 hcB.2.1 hcB.2.2 ho
  obtain ⟨k1, k2, k3⟩ := scaleBlocks_ok inA scale r _ _ inA.A inA.B hok h3 h4
    (by rw [h1, Option.getD_some]; exact hA) (by rw [h2, Option.getD_some]; exact hB)
  obtain ⟨d1, d2⟩ := scaleBlocks_buffers inA scale r _ _ hok h3 h4 hld
  rw [h1, Option.getD_some] at d1
  rw [h2, Option.getD_some] at d2
  exact ⟨k1, ⟨_, _, d1, d2, hlenA, hlenB, hd, ho⟩, k2, k3⟩

/-- A work buffer whose length is known is a non-null vector of that length. -/
theorem map_size_some {α : Type} (w : Option (Vec α)) (n : Nat)
    (h : w.map VecGetLocalSize = some n) : ∃ dd, w = some dd ∧ VecGetLocalSize dd = n := by
  cases w with
  | none => cases h
  | some dd => exact ⟨dd, rfl, Option.some.inj h⟩

theorem getD_append_left_gen {β : Type} (l1 l2 : List β) (x : Nat) (d : β)
    (h : x < l1.length) : (l1 ++ l2).getD x d = l1.getD x d := by
  simp only [List.getD_eq_getElem?_getD, List.getElem?_append_left h]

theorem getD_append_right_gen {β : Type} (l1 l2 : List β) (x : Nat) (d : β)
    (h : l1.length ≤ x) : (l1 ++ l2).getD x d = l2.getD (x - l1.length) d := by
  simp only [List.getD_eq_getElem?_getD, List.getElem?_append_right h]

/-- Scalar `q` of the `p`-th block of a value array laid out block after block. -/
theorem blocks_getD {β : Type} (bs2 : Nat) (f : Nat → Nat → β) (d : β) (L : List Nat)
    (p q : Nat) (hp : p < L.length) (hq : q < bs2) :
    (L.flatMap (fun k => (List.range bs2).map (f k))).getD (p * bs2 + q) d
      = f (L.getD p 0) q := by
  induction L generalizing p with
  | nil => simp at hp
  | cons b L ih =>
    rw [List.flatMap_cons]
    cases p with
    | zero =>
      rw [getD_append_left_gen _ _ _ _ (by simpa using hq)]
      simp only [Nat.zero_mul, Nat.zero_add]
      rw [getD_map_range _ _ _ _ hq]
      rfl
    | succ p =>
      have hge : ((List.range bs2).map (f b)).length ≤ (p + 1) * bs2 + q := by
        simp only [List.length_map, List.length_range, Nat.succ_mul]; omega
      rw [getD_append_right_gen _ _ _ _ hge]
      have hidx : (p + 1) * bs2 + q - ((List.range bs2).map (f b)).length = p * bs2 + q := by
        simp only [List.length_map, List.length_range, Nat.succ_mul]; omega
      rw [hidx, ih p (by simpa using hp)]
      rfl

/-- The scalars of the block after `MatAssemblyEnd_SeqBAIJ`: entry `t` of row `r` keeps its
`bs2` scalars. -/
theorem assembled_values {α : Type} [Inhabited α] (B : Mat_SeqBAIJ α) (r t q : Nat)
    (hr : r < B.mbs) (ht : t < B.ilen.getD r 0) (hq : q < B.bs2) :
    (MatAssemblyEnd_SeqBAIJ B).a.getD
        ((rowOffset (fun q => B.ilen.getD q 0) r + t) * B.bs2 + q) default
      = B.a.getD ((B.i.getD r 0 + t) * B.bs2 + q) default := by
  have hend := rowOffset_end_le (fun q => B.ilen.getD q 0) r B.mbs hr
  have hlen : (slots B).length = rowOffset (fun q => B.ilen.getD q 0) B.mbs := by
    rw [slots_eq_flatRows, flatRows_length]
  have hslot : (slots B).getD (rowOffset (fun q => B.ilen.getD q 0) r + t) 0
      = B.i.getD r 0 + t := by
    rw [slots_eq_flatRows]
    exact flatRows_getD (fun q => B.ilen.getD q 0) (fun r t => B.i.getD r 0 + t) 0 B.mbs r t hr ht
  show ((slots B).flatMap _).getD _ default = _
  rw [blocks_getD B.bs2 (fun k t => B.a.getD (k * B.bs2 + t) default) default (slots B) _ q
    (by rw [hlen]; simp only at hend; omega) hq, hslot]

/-- The shifting loop of an insertion on the column array: after `m` steps the cells
`E-m+1 .. E` hold what their left neighbour held. -/
theorem shift_spec (E : Nat) (l : List Nat) (m : Nat) (hm : m ≤ E) (hlen : E < l.length) :
    (forLoop m (fun d j => j.set (E - d) (j.getD (E - 1 - d) 0)) l).length = l.length ∧
    ∀ x, (forLoop m (fun d j => j.set (E - d) (j.getD (E - 1 - d) 0)) l).getD x 0
      = if E - m < x ∧ x ≤ E then l.getD (x - 1) 0 else l.getD x 0 := by
  induction m with
  | zero =>
    refine ⟨rfl, fun x => ?_⟩
    rw [if_neg (by omega)]
    rfl
  | succ m ih =>
    obtain ⟨h1, h2⟩ := ih (by omega)
    rw [forLoop_succ]
    refine ⟨by rw [List.length_set, h1], fun x => ?_⟩
    have hsrc : (forLoop m (fun d j => j.set (E - d) (j.getD (E - 1 - d) 0)) l).getD
        (E - 1 - m) 0 = l.getD (E - 1 - m) 0 := by
      rw [h2 (E - 1 - m), if_neg (by omega)]
    show List.getD (List.set _ _ _) x 0 = _
    rw [getD_set, h1, hsrc]
    by_cases hx : E - m = x
    · rw [if_pos ⟨hx, by omega⟩, if_pos (by omega)]
      have : E - 1 - m = x - 1 := by omega
      rw [this]
    · rw [if_neg (fun h => hx h.1), h2 x]
      by_cases hc : E - m < x ∧ x ≤ E
      · rw [if_pos hc, if_pos (by omega)]
      · rw [if_neg hc, if_neg (by omega)]

/-- The shifting loop of an insertion on the value array: after `m` steps the blocks
`E-m+1 .. E` hold what the block to their left held. -/
theorem shiftBlocks_spec {β : Type} [Inhabited β] (bs2 E : Nat) (a : List β) (m : Nat)
    (hm : m ≤ E) (hlen : (E + 1) * bs2 ≤ a.length) :
    (forLoop m (fun d a =>
      writeBlock bs2 (E - d) (fun t => a.getD ((E - 1 - d) * bs2 + t) default) a) a).length
      = a.length ∧
    ∀ x, (forLoop m (fun d a =>
      writeBlock bs2 (E - d) (fun t => a.getD ((E - 1 - d) * bs2 + t) default) a) a).getD x default
      = if (E - m + 1) * bs2 ≤ x ∧ x < (E + 1) * bs2 then a.getD (x - bs2) default
        else a.getD x default := by
  induction m with
  | zero =>
    refine ⟨rfl, fun x => ?_⟩
    rw [Nat.sub_zero, if_neg (by omega)]
    rfl
  | succ m ih =>
    obtain ⟨h1, h2⟩ := ih (by omega)
    rw [forLoop_succ]
    obtain ⟨w1, w2⟩ := writeBlock_spec bs2 (E - m)
      (fun t => (forLoop m (fun d a =>
        writeBlock bs2 (E - d) (fun t => a.getD ((E - 1 - d) * bs2 + t) default) a) a).getD
          ((E - 1 - m) * bs2 + t) default)
      (forLoop m (fun d a =>
        writeBlock bs2 (E - d) (fun t => a.getD ((E - 1 - d) * bs2 + t) default) a) a) default
    refine ⟨w1.trans h1, fun x => ?_⟩
    have hK : E - m = (E - 1 - m) + 1 := by omega
    have hK2 : E - (m + 1) = E - 1 - m := by omega
    have e1 : (E - m) * bs2 = (E - 1 - m) * bs2 + bs2 := by rw [hK, Nat.succ_mul]
    have e2 : (E - m + 1) * bs2 = (E - m) * bs2 + bs2 := Nat.succ_mul _ _
    have e3 : (E - (m + 1) + 1) * bs2 = (E - m) * bs2 := by rw [hK2, ← hK]
    have e4 : (E - m) * bs2 + bs2 ≤ (E + 1) * bs2 := by
      rw [← Nat.succ_mul]
      exact Nat.mul_le_mul_right _ (by omega)
    show List.getD (writeBlock _ _ _ _) x default = _
    rw [w2 x, h1, e3]
    by_cases hx : (E - m) * bs2 ≤ x ∧ x < (E - m) * bs2 + bs2 ∧ x < a.length
    · rw [if_pos hx, if_pos ⟨hx.1, by omega⟩]
      have hidx : (E - 1 - m) * bs2 + (x - (E - m) * bs2) = x - bs2 := by omega
      have hsrc := h2 (x - bs2)
      rw [if_neg (by omega)] at hsrc
      show List.getD _ ((E - 1 - m) * bs2 + (x - (E - m) * bs2)) default = _
      rw [hidx, hsrc]
    · rw [if_neg hx, h2 x, e2]
      by_cases hc : (E - m) * bs2 + bs2 ≤ x ∧ x < (E + 1) * bs2
      · rw [if_pos hc, if_pos ⟨by omega, hc.2⟩]
      · rw [if_neg hc, if_neg (by omega)]

/-- The enlarged array of a full row: the cells before `E` stay, `c` free cells `z` follow,
the cells from `E` on move up by `c`. -/
theorem realloc_getD {β : Type} (l : List β) (E c : Nat) (z d : β) (hE : E ≤ l.length) :
    (l.take E ++ List.replicate c z ++ l.drop E).length = l.length + c ∧
    ∀ x, (l.take E ++ List.replicate c z ++ l.drop E).getD x d
      = if x < E then l.getD x d else if x < E + c then z else l.getD (x - c) d := by
  have hlt : (l.take E).length = E := by rw [List.length_take]; exact Nat.min_eq_left hE
  have hlen2 : (l.take E ++ List.replicate c z).length = E + c := by
    rw [List.length_append, hlt, List.length_replicate]
  refine ⟨?_, fun x => ?_⟩
  · rw [List.length_append, hlen2, List.length_drop]; omega
  · by_cases h1 : x < E
    · rw [if_pos h1, getD_append_left_gen _ _ _ _ (by rw [hlen2]; omega),
        getD_append_left_gen _ _ _ _ (by rw [hlt]; exact h1)]
      simp only [List.getD_eq_getElem?_getD, List.getElem?_take_of_lt h1]
    · rw [if_neg h1]
      by_cases h2 : x < E + c
      · rw [if_pos h2, getD_append_left_gen _ _ _ _ (by rw [hlen2]; exact h2),
          getD_append_right_gen _ _ _ _ (by rw [hlt]; omega), hlt]
        simp only [List.getD_eq_getElem?_getD]
        rw [List.getElem?_replicate, if_pos (by omega)]
        rfl
      · rw [if_neg h2, getD_append_right_gen _ _ _ _ (by rw [hlen2]; omega), hlen2]
        simp only [List.getD_eq_getElem?_getD, List.getElem?_drop]
        have : E + (x - (E + c)) = x - c := by omega
        rw [this]

/-- Storing a block at a column the row does not hold yet, in a row without a free slot:
the row is enlarged by `CHUNKSIZE` slots, the entries from position `pos` on move one slot
up and the new column takes slot `pos`; the later rows move up by `CHUNKSIZE` slots. -/
theorem insert_full_row {α : Type} [Inhabited α] [Add α] (D : Mat_SeqBAIJ α)
    (row col : Nat) (v : List α) (is : InsertMode)
    (hnew : ∀ t, t < D.ilen.getD row 0 → D.j.getD (D.i.getD row 0 + t) 0 ≠ col)
    (hfull : D.imax.getD row 0 ≤ D.ilen.getD row 0)
    (hE : D.i.getD row 0 + D.ilen.getD row 0 ≤ D.j.length)
    (haE : (D.i.getD row 0 + D.ilen.getD row 0) * D.bs2 ≤ D.a.length) :
    ∃ pos, pos ≤ D.ilen.getD row 0 ∧
      (MatSetValuesBlocked_SeqBAIJ D row col v is).mbs = D.mbs ∧
      (MatSetValuesBlocked_SeqBAIJ D row col v is).bs2 = D.bs2 ∧
      (MatSetValuesBlocked_SeqBAIJ D row col v is).i
        = (List.range D.i.length).map
            (fun r => if row < r then D.i.getD r 0 + CHUNKSIZE else D.i.getD r 0) ∧
      (MatSetValuesBlocked_SeqBAIJ D row col v is).ilen
        = D.ilen.set row (D.ilen.getD row 0 + 1) ∧
      (MatSetValuesBlocked_SeqBAIJ D row col v is).j.length = D.j.length + CHUNKSIZE ∧
      (∀ x, (MatSetValuesBlocked_SeqBAIJ D row col v is).j.getD x 0
        = if x < D.i.getD row 0 + pos then D.j.getD x 0
          else if x = D.i.getD row 0 + pos then col
          else if x ≤ D.i.getD row 0 + D.ilen.getD row 0 then D.j.getD (x - 1) 0
          else if x < D.i.getD row 0 + D.ilen.getD row 0 + CHUNKSIZE then 0
          else D.j.getD (x - CHUNKSIZE) 0) ∧
      (∀ y, y < (D.i.getD row 0 + pos) * D.bs2 →
        (MatSetValuesBlocked_SeqBAIJ D row col v is).a.getD y default = D.a.getD y default) ∧
      (∀ y, (D.i.getD row 0 + pos + 1) * D.bs2 ≤ y →
        y < (D.i.getD row 0 + D.ilen.getD row 0 + 1) * D.bs2 →
        (MatSetValuesBlocked_SeqBAIJ D row col v is).a.getD y default
          = D.a.getD (y - D.bs2) default) ∧
      (∀ y, (D.i.getD row 0 + D.ilen.getD row 0 + CHUNKSIZE) * D.bs2 ≤ y →
        (MatSetValuesBlocked_SeqBAIJ D row col v is).a.getD y default
          = D.a.getD (y - CHUNKSIZE * D.bs2) default) := by
  have hposle : ((List.range (D.ilen.getD row 0)).map
      (fun t => D.j.getD (D.i.getD row 0 + t) 0)).findIdx (fun c => decide (col ≤ c))
      ≤ D.ilen.getD row 0 := by
    have : ((List.range (D.ilen.getD row 0)).map
        (fun t => D.j.getD (D.i.getD row 0 + t) 0)).findIdx (fun c => decide (col ≤ c))
        ≤ ((List.range (D.ilen.getD row 0)).map
          (fun t => D.j.getD (D.i.getD row 0 + t) 0)).length := List.findIdx_le_length _
    simpa using this
  generalize hpos : ((List.range (D.ilen.getD row 0)).map
      (fun t => D.j.getD (D.i.getD row 0 + t) 0)).findIdx (fun c => decide (col ≤ c)) = pos
    at hposle
  have hbranch : ¬ (pos < D.ilen.getD row 0 ∧ D.j.getD (D.i.getD row 0 + pos) 0 = col) :=
    fun h => hnew pos h.1 h.2
  have hdec : decide (D.imax.getD row 0 ≤ D.ilen.getD row 0) = true := decide_eq_true hfull
  obtain ⟨j1len, j1get⟩ := realloc_getD D.j (D.i.getD row 0 + D.ilen.getD row 0) CHUNKSIZE 0 0 hE
  obtain ⟨a1len, a1get⟩ := realloc_getD D.a ((D.i.getD row 0 + D.ilen.getD row 0) * D.bs2)
    (CHUNKSIZE * D.bs2) default default haE
  obtain ⟨j2len, j2get⟩ := shift_spec (D.i.getD row 0 + D.ilen.getD row 0)
    (D.j.take (D.i.getD row 0 + D.ilen.getD row 0) ++ List.replicate CHUNKSIZE 0
      ++ D.j.drop (D.i.getD row 0 + D.ilen.getD row 0))
    (D.ilen.getD row 0 - pos) (by omega) (by rw [j1len]; unfold CHUNKSIZE; omega)
  have hchunk : (D.i.getD row 0 + D.ilen.getD row 0 + 1) * D.bs2
      ≤ (D.i.getD row 0 + D.ilen.getD row 0) * D.bs2 + CHUNKSIZE * D.bs2 := by
    rw [← Nat.add_mul]
    exact Nat.mul_le_mul_right _ (by unfold CHUNKSIZE; omega)
  obtain ⟨a2len, a2get⟩ := shiftBlocks_spec D.bs2 (D.i.getD row 0 + D.ilen.getD row 0)
    (D.a.take ((D.i.getD row 0 + D.ilen.getD row 0) * D.bs2)
      ++ List.replicate (CHUNKSIZE * D.bs2) default
      ++ D.a.drop ((D.i.getD row 0 + D.ilen.getD row 0) * D.bs2))
    (D.ilen.getD row 0 - pos) (by omega) (by rw [a1len]; omega)
  have hres : MatSetValuesBlocked_SeqBAIJ D row col v is
      = { D with
          i := (List.range D.i.length).map
            (fun r => if row < r then D.i.getD r 0 + CHUNKSIZE else D.i.getD r 0)
          imax := D.imax.set row (D.imax.getD row 0 + CHUNKSIZE)
          ilen := D.ilen.set row (D.ilen.getD row 0 + 1)
          j := (forLoop (D.ilen.getD row 0 - pos) (fun (d : Nat) (j : List Nat) =>
              j.set (D.i.getD row 0 + D.ilen.getD row 0 - d)
                (j.getD (D.i.getD row 0 + D.ilen.getD row 0 - 1 - d) 0))
              (D.j.take (D.i.getD row 0 + D.ilen.getD row 0) ++ List.replicate CHUNKSIZE 0
                ++ D.j.drop (D.i.getD row 0 + D.ilen.getD row 0))).set
            (D.i.getD row 0 + pos) col
          a := writeBlock D.bs2 (D.i.getD row 0 + pos)
            (fun t => if D.roworiented then v.getD ((t % D.bs) * D.bs + t / D.bs) default
              else v.getD t default)
            (forLoop (D.ilen.getD row 0 - pos) (fun (d : Nat) (a : List α) =>
              writeBlock D.bs2 (D.i.getD row 0 + D.ilen.getD row 0 - d)
                (fun t => a.getD ((D.i.getD row 0 + D.ilen.getD row 0 - 1 - d) * D.bs2 + t)
                  default) a)
              (D.a.take ((D.i.getD row 0 + D.ilen.getD row 0) * D.bs2)
                ++ List.replicate (CHUNKSIZE * D.bs2) default
                ++ D.a.drop ((D.i.getD row 0 + D.ilen.getD row 0) * D.bs2))) } := by
    unfold MatSetValuesBlocked_SeqBAIJ
    simp only [hpos, if_neg hbranch, hdec, if_true]
  have hKE : D.i.getD row 0 + D.ilen.getD row 0 - (D.ilen.getD row 0 - pos)
      = D.i.getD row 0 + pos := by omega
  have m1 : (D.i.getD row 0 + pos) * D.bs2 ≤ (D.i.getD row 0 + D.ilen.getD row 0) * D.bs2 :=
    Nat.mul_le_mul_right _ (by omega)
  have m2 : (D.i.getD row 0 + pos + 1) * D.bs2 = (D.i.getD row 0 + pos) * D.bs2 + D.bs2 :=
    Nat.succ_mul _ _
  have m3 : (D.i.getD row 0 + D.ilen.getD row 0 + 1) * D.bs2
      = (D.i.getD row 0 + D.ilen.getD row 0) * D.bs2 + D.bs2 := Nat.succ_mul _ _
  have m4 : (D.i.getD row 0 + D.ilen.getD row 0 + CHUNKSIZE) * D.bs2
      = (D.i.getD row 0 + D.ilen.getD row 0) * D.bs2 + CHUNKSIZE * D.bs2 := Nat.add_mul _ _ _
  rw [hres]
  refine ⟨pos, hposle, rfl, rfl, rfl, rfl, ?_, fun x => ?_, fun y hy => ?_, fun y hy1 hy2 => ?_,
    fun y hy => ?_⟩
  · show (List.set _ _ _).length = _
    rw [List.length_set, j2len, j1len]
  · show (List.set _ _ _).getD x 0 = _
    rw [getD_set, j2len, j2get x, j1get x, j1get (x - 1)]
    by_cases h1 : x < D.i.getD row 0 + pos
    · rw [if_neg (by omega), if_neg (by omega), if_pos (by omega), if_pos h1]
    · rw [if_neg h1]
      by_cases h2 : x = D.i.getD row 0 + pos
      · rw [if_pos ⟨h2.symm, by rw [j1len]; unfold CHUNKSIZE; omega⟩, if_pos h2]
      · rw [if_neg (fun h => h2 h.1.symm), if_neg h2]
        by_cases h3 : x ≤ D.i.getD row 0 + D.ilen.getD row 0
        · rw [if_pos ⟨by omega, h3⟩, if_pos (by omega), if_pos h3]
        · rw [if_neg (fun h => h3 h.2), if_neg (by omega), if_neg h3]
  · obtain ⟨_, w2⟩ := writeBlock_spec D.bs2 (D.i.getD row 0 + pos)
      (fun t => if D.roworiented then v.getD ((t % D.bs) * D.bs + t / D.bs) default
        else v.getD t default)
      (forLoop (D.ilen.getD row 0 - pos) (fun (d : Nat) (a : List α) =>
        writeBlock D.bs2 (D.i.getD row 0 + D.ilen.getD row 0 - d)
          (fun t => a.getD ((D.i.getD row 0 + D.ilen.getD row 0 - 1 - d) * D.bs2 + t)
            default) a)
        (D.a.take ((D.i.getD row 0 + D.ilen.getD row 0) * D.bs2)
          ++ List.replicate (CHUNKSIZE * D.bs2) default
          ++ D.a.drop ((D.i.getD row 0 + D.ilen.getD row 0) * D.bs2))) default
    show List.getD (writeBlock _ _ _ _) y default = _
    rw [w2 y, if_neg (by omega), a2get y, hKE, if_neg (by omega), a1get y, if_pos (by omega)]
  · obtain ⟨_, w2⟩ := writeBlock_spec D.bs2 (D.i.getD row 0 + pos)
      (fun t => if D.roworiented then v.getD ((t % D.bs) * D.bs + t / D.bs) default
        else v.getD t default)
      (forLoop (D.ilen.getD row 0 - pos) (fun (d : Nat) (a : List α) =>
        writeBlock D.bs2 (D.i.getD row 0 + D.ilen.getD row 0 - d)
          (fun t => a.getD ((D.i.getD row 0 + D.ilen.getD row 0 - 1 - d) * D.bs2 + t)
            default) a)
        (D.a.take ((D.i.getD row 0 + D.ilen.getD row 0) * D.bs2)
          ++ List.replicate (CHUNKSIZE * D.bs2) default
          ++ D.a.drop ((D.i.getD row 0 + D.ilen.getD row 0) * D.bs2))) default
    show List.getD (writeBlock _ _ _ _) y default = _
    rw [w2 y, if_neg (by omega), a2get y, hKE, if_pos ⟨hy1, hy2⟩, a1get (y - D.bs2),
      if_pos (by omega)]
  · obtain ⟨_, w2⟩ := writeBlock_spec D.bs2 (D.i.getD row 0 + pos)
      (fun t => if D.roworiented then v.getD ((t % D.bs) * D.bs + t / D.bs) default
        else v.getD t default)
      (forLoop (D.ilen.getD row 0 - pos) (fun (d : Nat) (a : List α) =>
        writeBlock D.bs2 (D.i.getD row 0 + D.ilen.getD row 0 - d)
          (fun t => a.getD ((D.i.getD row 0 + D.ilen.getD row 0 - 1 - d) * D.bs2 + t)
            default) a)
        (D.a.take ((D.i.getD row 0 + D.ilen.getD row 0) * D.bs2)
          ++ List.replicate (CHUNKSIZE * D.bs2) default
          ++ D.a.drop ((D.i.getD row 0 + D.ilen.getD row 0) * D.bs2))) default
    show List.getD (writeBlock _ _ _ _) y default = _
    rw [w2 y, if_neg (by omega), a2get y, hKE, if_neg (by omega), a1get y, if_neg (by omega),
      if_neg (by omega)]

/-- A block whose rows are stored one after the other without free slots. -/
theorem packed_insert_layout {α : Type} [Inhabited α] [Add α] (D : Mat_SeqBAIJ α)
    (row col : Nat) (v : List α) (is : InsertMode)
    (hpk : ∀ r, r ≤ D.mbs → D.i.getD r 0 = rowOffset (fun q => D.ilen.getD q 0) r)
    (hil : D.ilen.length = D.mbs) (hii : D.i.length = D.mbs + 1)
    (hjl : D.j.length = rowOffset (fun q => D.ilen.getD q 0) D.mbs)
    (hal : D.a.length = rowOffset (fun q => D.ilen.getD q 0) D.mbs * D.bs2)
    (hrow : row < D.mbs) (hfull : D.imax.getD row 0 ≤ D.ilen.getD row 0)
    (hnew : ∀ t, t < D.ilen.getD row 0 → D.j.getD (D.i.getD row 0 + t) 0 ≠ col) :
    ∃ pos, pos ≤ D.ilen.getD row 0 ∧
      (MatSetValuesBlocked_SeqBAIJ D row col v is).mbs = D.mbs ∧
      (MatSetValuesBlocked_SeqBAIJ D row col v is).bs2 = D.bs2 ∧
      (∀ r, r ≤ D.mbs → (MatSetValuesBlocked_SeqBAIJ D row col v is).i.getD r 0
        = if row < r then D.i.getD r 0 + CHUNKSIZE else D.i.getD r 0) ∧
      (∀ r, r < D.mbs → (MatSetValuesBlocked_SeqBAIJ D row col v is).ilen.getD r 0
        = if r = row then D.ilen.getD r 0 + 1 else D.ilen.getD r 0) ∧
      (MatSetValuesBlocked_SeqBAIJ D row col v is).j.length = D.j.length + CHUNKSIZE ∧
      (∀ x, (MatSetValuesBlocked_SeqBAIJ D row col v is).j.getD x 0
        = if x < D.i.getD row 0 + pos then D.j.getD x 0
          else if x = D.i.getD row 0 + pos then col
          else if x ≤ D.i.getD row 0 + D.ilen.getD row 0 then D.j.getD (x - 1) 0
          else if x < D.i.getD row 0 + D.ilen.getD row 0 + CHUNKSIZE then 0
          else D.j.getD (x - CHUNKSIZE) 0) ∧
      (∀ y, y < (D.i.getD row 0 + pos) * D.bs2 →
        (MatSetValuesBlocked_SeqBAIJ D row col v is).a.getD y default = D.a.getD y default) ∧
      (∀ y, (D.i.getD row 0 + pos + 1) * D.bs2 ≤ y →
        y < (D.i.getD row 0 + D.ilen.getD row 0 + 1) * D.bs2 →
        (MatSetValuesBlocked_SeqBAIJ D row col v is).a.getD y default
          = D.a.getD (y - D.bs2) default) ∧
      (∀ y, (D.i.getD row 0 + D.ilen.getD row 0 + CHUNKSIZE) * D.bs2 ≤ y →
        (MatSetValuesBlocked_SeqBAIJ D row col v is).a.getD y default
          = D.a.getD (y - CHUNKSIZE * D.bs2) default) := by
  have hend := rowOffset_end_le (fun q => D.ilen.getD q 0) row D.mbs hrow
  have hend2 : rowOffset (fun q => D.ilen.getD q 0) row + D.ilen.getD row 0
      ≤ rowOffset (fun q => D.ilen.getD q 0) D.mbs := hend
  have hs := hpk row (Nat.le_of_lt hrow)
  obtain ⟨pos, p0, p1, p2, p3, p4, p5, p6, p7, p8, p9⟩ := insert_full_row D row col v is hnew
    hfull (by rw [hs, hjl]; exact hend2)
    (by rw [hs, hal]; exact Nat.mul_le_mul_right _ hend2)
  refine ⟨pos, p0, p1, p2, fun r hr => ?_, fun r hr => ?_, p5, p6, p7, p8, p9⟩
  · rw [p3, getD_map_range _ _ _ _ (by rw [hii]; omega)]
  · rw [p4, getD_set, hil]
    by_cases h : row = r
    · subst h
      rw [if_pos ⟨rfl, hrow⟩, if_pos rfl]
    · rw [if_neg (fun hh => h hh.1), if_neg (fun hh => h hh.symm)]

/-- The entries of a packed block after one block was stored at a new column of a row: the
layout invariant holds, every old entry is found in its row with its column and scalars, the
new column is found in its row, and the rows hold nothing else. -/
theorem packed_insert_entries {α : Type} [Inhabited α] [Add α] (D : Mat_SeqBAIJ α)
    (row col : Nat) (v : List α) (is : InsertMode)
    (hpk : ∀ r, r ≤ D.mbs → D.i.getD r 0 = rowOffset (fun q => D.ilen.getD q 0) r)
    (hil : D.ilen.length = D.mbs) (hii : D.i.length = D.mbs + 1)
    (hjl : D.j.length = rowOffset (fun q => D.ilen.getD q 0) D.mbs)
    (hal : D.a.length = rowOffset (fun q => D.ilen.getD q 0) D.mbs * D.bs2)
    (hrow : row < D.mbs) (hfull : D.imax.getD row 0 ≤ D.ilen.getD row 0)
    (hnew : ∀ t, t < D.ilen.getD row 0 → D.j.getD (D.i.getD row 0 + t) 0 ≠ col) :
    (MatSetValuesBlocked_SeqBAIJ D row col v is).mbs = D.mbs ∧
    (MatSetValuesBlocked_SeqBAIJ D row col v is).bs2 = D.bs2 ∧
    RowsOK (MatSetValuesBlocked_SeqBAIJ D row col v is) ∧
    (∀ r, r < D.mbs → ∀ t, t < D.ilen.getD r 0 →
      ∃ t', t' < (MatSetValuesBlocked_SeqBAIJ D row col v is).ilen.getD r 0 ∧
        (MatSetValuesBlocked_SeqBAIJ D row col v is).j.getD
          ((MatSetValuesBlocked_SeqBAIJ D row col v is).i.getD r 0 + t') 0
          = D.j.getD (D.i.getD r 0 + t) 0 ∧
        ∀ q, q < D.bs2 →
          (MatSetValuesBlocked_SeqBAIJ D row col v is).a.getD
            (((MatSetValuesBlocked_SeqBAIJ D row col v is).i.getD r 0 + t') * D.bs2 + q) default
            = D.a.getD ((D.i.getD r 0 + t) * D.bs2 + q) default) ∧
    (∃ t', t' < (MatSetValuesBlocked_SeqBAIJ D row col v is).ilen.getD row 0 ∧
      (MatSetValuesBlocked_SeqBAIJ D row col v is).j.getD
        ((MatSetValuesBlocked_SeqBAIJ D row col v is).i.getD row 0 + t') 0 = col) ∧
    (∀ r, r < D.mbs → ∀ t', t' < (MatSetValuesBlocked_SeqBAIJ D row col v is).ilen.getD r 0 →
      (MatSetValuesBlocked_SeqBAIJ D row col v is).j.getD
        ((MatSetValuesBlocked_SeqBAIJ D row col v is).i.getD r 0 + t') 0 = col ∨
      ∃ t, t < D.ilen.getD r 0 ∧
        (MatSetValuesBlocked_SeqBAIJ D row col v is).j.getD
          ((MatSetValuesBlocked_SeqBAIJ D row col v is).i.getD r 0 + t') 0
          = D.j.getD (D.i.getD r 0 + t) 0) := by
  obtain ⟨pos, p0, p1, p2, p3, p4, p5, p6, p7, p8, p9⟩ :=
    packed_insert_layout D row col v is hpk hil hii hjl hal hrow hfull hnew
  generalize MatSetValuesBlocked_SeqBAIJ D row col v is = Bp at p1 p2 p3 p4 p5 p6 p7 p8 p9 ⊢
  have hC : CHUNKSIZE = 10 := rfl
  rw [hC] at p3 p5 p6 p9
  have hsucc : ∀ r, D.i.getD (r + 1) 0 = D.i.getD r 0 + D.ilen.getD r 0 ∨ ¬ r < D.mbs := by
    intro r
    by_cases hr : r < D.mbs
    · left
      rw [hpk r (Nat.le_of_lt hr), hpk (r + 1) hr]
      exact rowOffset_succ _ r
    · right; exact hr
  have hmono : ∀ r s, r ≤ s → s ≤ D.mbs → D.i.getD r 0 ≤ D.i.getD s 0 := by
    intro r s hrs hs
    rw [hpk r (Nat.le_trans hrs hs), hpk s hs]
    exact rowOffset_mono _ r s hrs
  have hjlen : D.i.getD D.mbs 0 = D.j.length := by rw [hpk _ (le_refl _), hjl]
  have hrowE : D.i.getD (row + 1) 0 = D.i.getD row 0 + D.ilen.getD row 0 :=
    (hsucc row).resolve_right (not_not.2 hrow)
  refine ⟨p1, p2, ⟨fun r hr => ?_, ?_⟩, fun r hr t ht => ?_, ⟨pos, ?_, ?_⟩, fun r hr t' ht' => ?_⟩
  · rw [p1] at hr
    have h1 := (hsucc r).resolve_right (not_not.2 hr)
    rw [p3 r (Nat.le_of_lt hr), p3 (r + 1) hr, p4 r hr]
    by_cases hc : row < r
    · rw [if_pos hc, if_pos (show row < r + 1 by omega), if_neg (show ¬ r = row by omega)]
      omega
    · rw [if_neg hc]
      by_cases hc2 : r = row
      · rw [if_pos hc2, if_pos (show row < r + 1 by omega)]; omega
      · rw [if_neg hc2, if_neg (show ¬ row < r + 1 by omega)]; omega
  · rw [p1, p3 _ (le_refl _), p5, if_pos hrow]; omega
  · rcases Nat.lt_trichotomy r row with hlt | heq | hgt
    · refine ⟨t, ?_, ?_, fun q hq => ?_⟩
      · rw [p4 r hr, if_neg (by omega)]; exact ht
      · have h1 := (hsucc r).resolve_right (not_not.2 hr)
        have h2 := hmono (r + 1) row hlt (Nat.le_of_lt hrow)
        rw [p3 r (Nat.le_of_lt hr), if_neg (by omega), p6, if_pos (by omega)]
      · have h1 := (hsucc r).resolve_right (not_not.2 hr)
        have h2 := hmono (r + 1) row hlt (Nat.le_of_lt hrow)
        rw [p3 r (Nat.le_of_lt hr), if_neg (by omega)]
        apply p7
        calc (D.i.getD r 0 + t) * D.bs2 + q < (D.i.getD r 0 + t) * D.bs2 + D.bs2 :=
              Nat.add_lt_add_left hq _
          _ = (D.i.getD r 0 + t + 1) * D.bs2 := (Nat.succ_mul _ _).symm
          _ ≤ (D.i.getD row 0 + pos) * D.bs2 := Nat.mul_le_mul_right _ (by omega)
    · subst heq
      by_cases htp : t < pos
      · refine ⟨t, ?_, ?_, fun q hq => ?_⟩
        · rw [p4 r hr, if_pos rfl]; omega
        · rw [p3 r (Nat.le_of_lt hr), if_neg (by omega), p6, if_pos (by omega)]
        · rw [p3 r (Nat.le_of_lt hr), if_neg (by omega)]
          apply p7
          calc (D.i.getD r 0 + t) * D.bs2 + q < (D.i.getD r 0 + t) * D.bs2 + D.bs2 :=
                Nat.add_lt_add_left hq _
            _ = (D.i.getD r 0 + t + 1) * D.bs2 := (Nat.succ_mul _ _).symm
            _ ≤ (D.i.getD r 0 + pos) * D.bs2 := Nat.mul_le_mul_right _ (by omega)
      · refine ⟨t + 1, ?_, ?_, fun q hq => ?_⟩
        · rw [p4 r hr, if_pos rfl]; omega
        · rw [p3 r (Nat.le_of_lt hr), if_neg (by omega), p6, if_neg (by omega),
            if_neg (by omega), if_pos (by omega)]
          have : D.i.getD r 0 + (t + 1) - 1 = D.i.getD r 0 + t := by omega
          rw [this]
        · rw [p3 r (Nat.le_of_lt hr), if_neg (by omega)]
          have e1 : (D.i.getD r 0 + (t + 1)) * D.bs2 = (D.i.getD r 0 + t) * D.bs2 + D.bs2 := by
            ring
          have e2 : (D.i.getD r 0 + pos + 1) * D.bs2 ≤ (D.i.getD r 0 + (t + 1)) * D.bs2 :=
            Nat.mul_le_mul_right _ (by omega)
          have e3 : (D.i.getD r 0 + (t + 1)) * D.bs2 + D.bs2
              ≤ (D.i.getD r 0 + D.ilen.getD r 0 + 1) * D.bs2 := by
            rw [← Nat.succ_mul]
            exact Nat.mul_le_mul_right _ (by omega)
          rw [p8 _ (by omega) (by omega)]
          have : (D.i.getD r 0 + (t + 1)) * D.bs2 + q - D.bs2
              = (D.i.getD r 0 + t) * D.bs2 + q := by omega
          rw [this]
    · have h2 := hmono (row + 1) r hgt (Nat.le_of_lt hr)
      refine ⟨t, ?_, ?_, fun q hq => ?_⟩
      · rw [p4 r hr, if_neg (by omega)]; exact ht
      · rw [p3 r (Nat.le_of_lt hr), if_pos hgt, p6, if_neg (by omega), if_neg (by omega),
          if_neg (by omega), if_neg (by omega)]
        have : D.i.getD r 0 + 10 + t - 10 = D.i.getD r 0 + t := by omega
        rw [this]
      · rw [p3 r (Nat.le_of_lt hr), if_pos hgt]
        have e1 : (D.i.getD r 0 + 10 + t) * D.bs2 = (D.i.getD r 0 + t) * D.bs2 + 10 * D.bs2 := by
          ring
        have e2 : (D.i.getD row 0 + D.ilen.getD row 0 + 10) * D.bs2
            ≤ (D.i.getD r 0 + 10 + t) * D.bs2 := Nat.mul_le_mul_right _ (by omega)
        rw [p9 _ (by omega)]
        have : (D.i.getD r 0 + 10 + t) * D.bs2 + q - 10 * D.bs2
            = (D.i.getD r 0 + t) * D.bs2 + q := by omega
        rw [this]
  · rw [p4 row hrow, if_pos rfl]; omega
  · rw [p3 row (Nat.le_of_lt hrow), if_neg (Nat.lt_irrefl row), p6,
      if_neg (Nat.lt_irrefl _), if_pos rfl]
  · rcases Nat.lt_trichotomy r row with hlt | heq | hgt
    · right
      rw [p4 r hr, if_neg (by omega)] at ht'
      have h1 := (hsucc r).resolve_right (not_not.2 hr)
      have h2 := hmono (r + 1) row hlt (Nat.le_of_lt hrow)
      refine ⟨t', ht', ?_⟩
      rw [p3 r (Nat.le_of_lt hr), if_neg (by omega), p6, if_pos (by omega)]
    · subst heq
      rw [p4 r hr, if_pos rfl] at ht'
      rw [p3 r (Nat.le_of_lt hr), if_neg (by omega), p6]
      by_cases h1 : t' < pos
      · right
        exact ⟨t', by omega, by rw [if_pos (by omega)]⟩
      · by_cases h2 : t' = pos
        · left
          rw [if_neg (by omega), if_pos (by omega)]
        · right
          refine ⟨t' - 1, by omega, ?_⟩
          rw [if_neg (by omega), if_neg (by omega), if_pos (by omega)]
          have : D.i.getD r 0 + t' - 1 = D.i.getD r 0 + (t' - 1) := by omega
          rw [this]
    · right
      rw [p4 r hr, if_neg (by omega)] at ht'
      have h2 := hmono (row + 1) r hgt (Nat.le_of_lt hr)
      refine ⟨t', ht', ?_⟩
      rw [p3 r (Nat.le_of_lt hr), if_pos hgt, p6, if_neg (by omega), if_neg (by omega),
        if_neg (by omega), if_neg (by omega)]
      have : D.i.getD r 0 + 10 + t' - 10 = D.i.getD r 0 + t' := by omega
      rw [this]

theorem compactBlock_values {α : Type} (useCTable : Bool) (Nbs : Nat) (B : Mat_SeqBAIJ α) :
    (compactBlock useCTable Nbs B).B.a = B.a ∧ (compactBlock useCTable Nbs B).B.bs2 = B.bs2 := by
  cases useCTable <;> exact ⟨rfl, rfl⟩

/-- The block that `DisAssemble_MPIBAIJ` rebuilds from a freshly set-up matrix, described on
the block before the set-up: the rows are stored one after the other without free slots and
every entry has its global column and its scalars back. -/
theorem rebuilt_block_facts {α : Type} [Inhabited α] [Add α] (useCTable : Bool)
    (mat : Mat_MPIBAIJ α) (h : ∀ c ∈ colRefs mat.B, c < mat.Nbs) (hrows : RowsOK mat.B)
    (hsorted : RowsSorted mat.B) (hN : mat.Nbs * mat.bs ≤ PETSC_MAX_INT) (hbs : 1 ≤ mat.bs)
    (hm : mat.m = mat.B.mbs * mat.bs) (hbs2 : mat.bs2 = mat.bs * mat.bs)
    (hB2 : mat.B.bs2 = mat.bs2) :
    (DisAssemble_MPIBAIJ (MatSetUpMultiply_MPIBAIJ useCTable mat)).B.mbs = mat.B.mbs ∧
    (DisAssemble_MPIBAIJ (MatSetUpMultiply_MPIBAIJ useCTable mat)).B.bs2 = mat.bs2 ∧
    (∀ r, r ≤ mat.B.mbs →
      (DisAssemble_MPIBAIJ (MatSetUpMultiply_MPIBAIJ useCTable mat)).B.i.getD r 0
        = rowOffset (fun q => mat.B.ilen.getD q 0) r) ∧
    (DisAssemble_MPIBAIJ (MatSetUpMultiply_MPIBAIJ useCTable mat)).B.ilen.length
      = mat.B.mbs ∧
    (∀ r, r < mat.B.mbs →
      (DisAssemble_MPIBAIJ (MatSetUpMultiply_MPIBAIJ useCTable mat)).B.ilen.getD r 0
        = mat.B.ilen.getD r 0) ∧
    (∀ r, r < mat.B.mbs →
      (DisAssemble_MPIBAIJ (MatSetUpMultiply_MPIBAIJ useCTable mat)).B.imax.getD r 0
        = mat.B.ilen.getD r 0) ∧
    (DisAssemble_MPIBAIJ (MatSetUpMultiply_MPIBAIJ useCTable mat)).B.j.length
      = rowOffset (fun q => mat.B.ilen.getD q 0) mat.B.mbs ∧
    (DisAssemble_MPIBAIJ (MatSetUpMultiply_MPIBAIJ useCTable mat)).B.a.length
      = rowOffset (fun q => mat.B.ilen.getD q 0) mat.B.mbs * mat.bs2 ∧
    (DisAssemble_MPIBAIJ (MatSetUpMultiply_MPIBAIJ useCTable mat)).B.i.length
      = mat.B.mbs + 1 ∧
    (∀ r, r < mat.B.mbs → ∀ t, t < mat.B.ilen.getD r 0 →
      (DisAssemble_MPIBAIJ (MatSetUpMultiply_MPIBAIJ useCTable mat)).B.j.getD
        (rowOffset (fun q => mat.B.ilen.getD q 0) r + t) 0
        = mat.B.j.getD (mat.B.i.getD r 0 + t) 0 ∧
      ∀ q, q < mat.bs2 →
        (DisAssemble_MPIBAIJ (MatSetUpMultiply_MPIBAIJ useCTable mat)).B.a.getD
          ((rowOffset (fun q => mat.B.ilen.getD q 0) r + t) * mat.bs2 + q) default
          = mat.B.a.getD ((mat.B.i.getD r 0 + t) * mat.bs2 + q) default) := by
  obtain ⟨f1, _, _, f4⟩ := setUp_facts useCTable mat h hN
  obtain ⟨r1, _, _⟩ := compactBlock_rewrite useCTable mat.Nbs mat.B h hrows
  obtain ⟨st1, st2, st3⟩ := compactBlock_struct useCTable mat.Nbs mat.B
  obtain ⟨va, vb⟩ := compactBlock_values useCTable mat.Nbs mat.B
  have hB1mbs : (MatSetUpMultiply_MPIBAIJ useCTable mat).B.mbs = mat.B.mbs := by rw [f1, st1]
  have hB1i : (MatSetUpMultiply_MPIBAIJ useCTable mat).B.i = mat.B.i := by rw [f1, st2]
  have hB1ilen : (MatSetUpMultiply_MPIBAIJ useCTable mat).B.ilen = mat.B.ilen := by
    rw [f1, st3]
  have hB1a : (MatSetUpMultiply_MPIBAIJ useCTable mat).B.a = mat.B.a := by rw [f1, va]
  have hB1bs2 : (MatSetUpMultiply_MPIBAIJ useCTable mat).B.bs2 = mat.bs2 := by
    rw [f1, vb, hB2]
  have hback : ∀ r, r < mat.B.mbs → ∀ t, t < mat.B.ilen.getD r 0 →
      (compactBlock useCTable mat.Nbs mat.B).garray.getD
        ((MatSetUpMultiply_MPIBAIJ useCTable mat).B.j.getD (mat.B.i.getD r 0 + t) 0) 0
        = mat.B.j.getD (mat.B.i.getD r 0 + t) 0 := by
    intro r hr t ht
    rw [f1]
    exact (r1 _ ((mem_slots mat.B _).2
      ⟨r, hr, Nat.le_add_right _ _, Nat.add_lt_add_left ht _⟩)).2
  have hmono : ∀ r, r < (MatSetUpMultiply_MPIBAIJ useCTable mat).B.mbs → ∀ t2,
      t2 < (MatSetUpMultiply_MPIBAIJ useCTable mat).B.ilen.getD r 0 → ∀ t1, t1 < t2 →
      (compactBlock useCTable mat.Nbs mat.B).garray.getD
        ((MatSetUpMultiply_MPIBAIJ useCTable mat).B.j.getD
          ((MatSetUpMultiply_MPIBAIJ useCTable mat).B.i.getD r 0 + t1) 0) 0
      < (compactBlock useCTable mat.Nbs mat.B).garray.getD
        ((MatSetUpMultiply_MPIBAIJ useCTable mat).B.j.getD
          ((MatSetUpMultiply_MPIBAIJ useCTable mat).B.i.getD r 0 + t2) 0) 0 := by
    intro r hr t2 ht2 t1 ht1
    rw [hB1mbs] at hr
    rw [hB1ilen] at ht2
    rw [hB1i, hback r hr t1 (Nat.lt_trans ht1 ht2), hback r hr t2 ht2]
    exact hsorted r hr t2 ht2 t1 ht1
  obtain ⟨d1, d2, d3, d4, d5, d6, d7, d8, d9, d10, d11⟩ := disassemble_facts_ext
    (MatSetUpMultiply_MPIBAIJ useCTable mat) (compactBlock useCTable mat.Nbs mat.B).garray
    (f4 hbs) (by rw [hB1mbs]; exact hm) hbs hbs2 hmono
  obtain ⟨_, _, _, _, o5⟩ := assembled_facts (MatSetUpMultiply_MPIBAIJ useCTable mat).B
  have hval := assembled_values (MatSetUpMultiply_MPIBAIJ useCTable mat).B
  rw [hB1mbs] at d1 d3 d4 d5 d6 d7 d8 d9 d10 d11 o5 hval
  rw [hB1ilen] at d3 d5 d6 d7 d8 d9 d10 o5 hval
  rw [hB1i] at o5 hval
  rw [hB1a, hB1bs2] at hval
  have e2 : (MatSetUpMultiply_MPIBAIJ useCTable mat).bs2 = mat.bs2 := rfl
  rw [e2] at d2 d9 d10
  refine ⟨d1, d2, d3, d4, d5, d6, d7, d10, d11, fun r hr t ht => ⟨?_, fun q hq => ?_⟩⟩
  · have hend : rowOffset (fun q => mat.B.ilen.getD q 0) r + mat.B.ilen.getD r 0
        ≤ rowOffset (fun q => mat.B.ilen.getD q 0) mat.B.mbs := rowOffset_end_le _ r _ hr
    rw [d8 _ (Nat.lt_of_lt_of_le (Nat.add_lt_add_left ht _) hend), o5 r hr t ht]
    exact hback r hr t ht
  · have hend : rowOffset (fun q => mat.B.ilen.getD q 0) r + mat.B.ilen.getD r 0
        ≤ rowOffset (fun q => mat.B.ilen.getD q 0) mat.B.mbs := rowOffset_end_le _ r _ hr
    have hx : (rowOffset (fun q => mat.B.ilen.getD q 0) r + t) * mat.bs2 + q
        < rowOffset (fun q => mat.B.ilen.getD q 0) mat.B.mbs * mat.bs2 := by
      calc (rowOffset (fun q => mat.B.ilen.getD q 0) r + t) * mat.bs2 + q
          < (rowOffset (fun q => mat.B.ilen.getD q 0) r + t) * mat.bs2 + mat.bs2 :=
            Nat.add_lt_add_left hq _
        _ = (rowOffset (fun q => mat.B.ilen.getD q 0) r + t + 1) * mat.bs2 :=
            (Nat.succ_mul _ _).symm
        _ ≤ _ := Nat.mul_le_mul_right _
            (Nat.le_trans (Nat.succ_le_of_lt (Nat.add_lt_add_left ht _)) hend)
    rw [d9 _ hx]
    exact hval r t q hr ht hq

theorem sort_insert_eq (s : Finset Nat) (c : Nat) (hc : c ∉ s) :
    (insert c s).sort (· ≤ ·) = List.orderedInsert (· ≤ ·) c (s.sort (· ≤ ·)) := by
  apply List.eq_of_perm_of_sorted (r := (· ≤ ·))
  · have hnd : (c :: s.sort (· ≤ ·)).Nodup :=
      List.nodup_cons.2 ⟨fun h => hc ((Finset.mem_sort _).1 h), Finset.sort_nodup _ _⟩
    have hp : ((insert c s).sort (· ≤ ·)).Perm (c :: s.sort (· ≤ ·)) := by
      apply List.perm_of_nodup_nodup_toFinset_eq (Finset.sort_nodup _ _) hnd
      ext x
      simp
    exact hp.trans (List.perm_orderedInsert _ _ _).symm
  · exact Finset.sort_sorted _ _
  · exact (Finset.sort_sorted _ _).orderedInsert c _

/-- Compaction of a packed block after one block was stored at a column it did not
reference: the Ghost Array gains exactly that column, at its place in the order, and every
old entry is found in its row, pointing through the new Ghost Array at its column, with its
scalars. -/
theorem recompact_after_insert {α : Type} [Inhabited α] [Add α] (useCTable : Bool)
    (Nbs : Nat) (D : Mat_SeqBAIJ α) (row col : Nat) (v : List α) (is : InsertMode)
    (hpk : ∀ r, r ≤ D.mbs → D.i.getD r 0 = rowOffset (fun q => D.ilen.getD q 0) r)
    (hil : D.ilen.length = D.mbs) (hii : D.i.length = D.mbs + 1)
    (hjl : D.j.length = rowOffset (fun q => D.ilen.getD q 0) D.mbs)
    (hal : D.a.length = rowOffset (fun q => D.ilen.getD q 0) D.mbs * D.bs2)
    (hrow : row < D.mbs) (hfull : D.imax.getD row 0 ≤ D.ilen.getD row 0)
    (hD : ∀ c ∈ colRefs D, c < Nbs) (hc : col < Nbs) (hnew : col ∉ colRefs D) :
    (∀ c ∈ colRefs (MatSetValuesBlocked_SeqBAIJ D row col v is), c < Nbs) ∧
    (compactBlock useCTable Nbs (MatSetValuesBlocked_SeqBAIJ D row col v is)).ghost
      = List.orderedInsert (· ≤ ·) col ((colRefs D).toFinset.sort (· ≤ ·)) ∧
    (compactBlock useCTable Nbs (MatSetValuesBlocked_SeqBAIJ D row col v is)).ec
      = ((colRefs D).toFinset.sort (· ≤ ·)).length + 1 ∧
    (∀ r, r < D.mbs → ∀ t, t < D.ilen.getD r 0 →
      ∃ t', t' < (compactBlock useCTable Nbs
          (MatSetValuesBlocked_SeqBAIJ D row col v is)).B.ilen.getD r 0 ∧
        (compactBlock useCTable Nbs (MatSetValuesBlocked_SeqBAIJ D row col v is)).garray.getD
          ((compactBlock useCTable Nbs (MatSetValuesBlocked_SeqBAIJ D row col v is)).B.j.getD
            ((compactBlock useCTable Nbs
              (MatSetValuesBlocked_SeqBAIJ D row col v is)).B.i.getD r 0 + t') 0) 0
          = D.j.getD (D.i.getD r 0 + t) 0 ∧
        ∀ q, q < D.bs2 →
          (compactBlock useCTable Nbs (MatSetValuesBlocked_SeqBAIJ D row col v is)).B.a.getD
            (((compactBlock useCTable Nbs
              (MatSetValuesBlocked_SeqBAIJ D row col v is)).B.i.getD r 0 + t') * D.bs2 + q)
            default
            = D.a.getD ((D.i.getD r 0 + t) * D.bs2 + q) default) := by
  obtain ⟨e1, _, e3, e4, e5, e6⟩ := packed_insert_entries D row col v is hpk hil hii hjl hal
    hrow hfull (fun t ht heq => hnew (heq ▸ ref_mem_colRefs D row t hrow ht))
  generalize MatSetValuesBlocked_SeqBAIJ D row col v is = Bp at e1 e3 e4 e5 e6 ⊢
  have hmemBp : ∀ c, c ∈ colRefs Bp ↔
      ∃ r, r < D.mbs ∧ ∃ t', t' < Bp.ilen.getD r 0 ∧ Bp.j.getD (Bp.i.getD r 0 + t') 0 = c := by
    intro c
    unfold colRefs
    rw [List.mem_map]
    constructor
    · rintro ⟨k, hk, rfl⟩
      obtain ⟨r, hr, h1, h2⟩ := (mem_slots Bp k).1 hk
      rw [e1] at hr
      refine ⟨r, hr, k - Bp.i.getD r 0, by omega, ?_⟩
      rw [Nat.add_sub_cancel' h1]
    · rintro ⟨r, hr, t', ht', rfl⟩
      exact ⟨_, (mem_slots Bp _).2 ⟨r, by rw [e1]; exact hr, Nat.le_add_right _ _,
        Nat.add_lt_add_left ht' _⟩, rfl⟩
  have hmemD : ∀ c, c ∈ colRefs D ↔
      ∃ r, r < D.mbs ∧ ∃ t, t < D.ilen.getD r 0 ∧ D.j.getD (D.i.getD r 0 + t) 0 = c := by
    intro c
    unfold colRefs
    rw [List.mem_map]
    constructor
    · rintro ⟨k, hk, rfl⟩
      obtain ⟨r, hr, h1, h2⟩ := (mem_slots D k).1 hk
      refine ⟨r, hr, k - D.i.getD r 0, by omega, ?_⟩
      rw [Nat.add_sub_cancel' h1]
    · rintro ⟨r, hr, t, ht, rfl⟩
      exact ⟨_, (mem_slots D _).2 ⟨r, hr, Nat.le_add_right _ _, Nat.add_lt_add_left ht _⟩, rfl⟩
  have hset : ∀ c, c ∈ colRefs Bp ↔ c = col ∨ c ∈ colRefs D := by
    intro c
    rw [hmemBp, hmemD]
    constructor
    · rintro ⟨r, hr, t', ht', rfl⟩
      rcases e6 r hr t' ht' with h1 | ⟨t, ht, h2⟩
      · left; exact h1
      · right; exact ⟨r, hr, t, ht, h2.symm⟩
    · rintro (rfl | ⟨r, hr, t, ht, rfl⟩)
      · obtain ⟨t', ht', h1⟩ := e5
        exact ⟨row, hrow, t', ht', h1⟩
      · obtain ⟨t', ht', h1, _⟩ := e4 r hr t ht
        exact ⟨r, hr, t', ht', h1⟩
  have h3 : ∀ c ∈ colRefs Bp, c < Nbs := by
    intro c hcm
    rcases (hset c).1 hcm with rfl | h1
    · exact hc
    · exact hD c h1
  have hfin : (colRefs Bp).toFinset = insert col (colRefs D).toFinset := by
    ext c
    rw [List.mem_toFinset, Finset.mem_insert, List.mem_toFinset]
    exact hset c
  obtain ⟨b1, b2, _, _, _⟩ := compactBlock_facts useCTable Nbs Bp h3
  obtain ⟨q1, _, _⟩ := compactBlock_rewrite useCTable Nbs Bp h3 e3
  obtain ⟨s1, s2, s3⟩ := compactBlock_struct useCTable Nbs Bp
  obtain ⟨va, _⟩ := compactBlock_values useCTable Nbs Bp
  have hghost : (compactBlock useCTable Nbs Bp).ghost
      = List.orderedInsert (· ≤ ·) col ((colRefs D).toFinset.sort (· ≤ ·)) := by
    rw [b1, hfin]
    exact sort_insert_eq _ _ (fun h => hnew (List.mem_toFinset.1 h))
  refine ⟨h3, hghost, ?_, fun r hr t ht => ?_⟩
  · rw [b2, hghost, List.orderedInsert_length]
  · obtain ⟨t', ht', h1, h2⟩ := e4 r hr t ht
    rw [s2, s3, va]
    refine ⟨t', ht', ?_, h2⟩
    rw [(q1 _ ((mem_slots Bp _).2 ⟨r, by rw [e1]; exact hr, Nat.le_add_right _ _,
      Nat.add_lt_add_left ht' _⟩)).2]
    exact h1

/-! ## A new column stored after disassembly -/

/-- C11: a matrix is set up, disassembled, one block is stored in the uncompacted
off-diagonal block at block row `row` and at a global block column `c_new` that the old Ghost
Array does not hold, and the matrix is set up again.  Then the new Ghost Array is the old one
with `c_new` inserted at its place in the order (strictly increasing, of length `ec + 1`,
holding `c_new` and every old column), and every entry of the old compacted block is found
in its row of the new block, pointing through the new Ghost Array at the global column it
pointed at through the old one, with its `bs2` scalars unchanged. -/
theorem C11_new_column_after_disassembly {α : Type} [Inhabited α] [Add α] (useCTable : Bool)
    (mat : Mat_MPIBAIJ α) (row c_new : Nat) (v : List α) (is : InsertMode)
    (h : ∀ c ∈ colRefs mat.B, c < mat.Nbs) (hrows : RowsOK mat.B)
    (hsorted : RowsSorted mat.B) (hN : mat.Nbs * mat.bs ≤ PETSC_MAX_INT) (hbs : 1 ≤ mat.bs)
    (hm : mat.m = mat.B.mbs * mat.bs) (hbs2 : mat.bs2 = mat.bs * mat.bs)
    (hB2 : mat.B.bs2 = mat.bs2) (hrow : row < mat.B.mbs) (hc : c_new < mat.Nbs)
    (hnew : c_new ∉ ((MatSetUpMultiply_MPIBAIJ useCTable mat).garray.getD []).take
      (MatSetUpMultiply_MPIBAIJ useCTable mat).B.nbs) :
    ∃ g1 g3 ec,
      (MatSetUpMultiply_MPIBAIJ useCTable mat).garray = some g1 ∧
      (MatSetUpMultiply_MPIBAIJ useCTable mat).B.nbs = ec ∧
      (reassemble useCTable (fun B => MatSetValuesBlocked_SeqBAIJ B row c_new v is)
        (MatSetUpMultiply_MPIBAIJ useCTable mat)).garray = some g3 ∧
      (reassemble useCTable (fun B => MatSetValuesBlocked_SeqBAIJ B row c_new v is)
        (MatSetUpMultiply_MPIBAIJ useCTable mat)).B.nbs = ec + 1 ∧
      g3.take (ec + 1) = List.orderedInsert (· ≤ ·) c_new (g1.take ec) ∧
      (g3.take (ec + 1)).Sorted (· < ·) ∧
      c_new ∈ g3.take (ec + 1) ∧ (∀ c ∈ g1.take ec, c ∈ g3.take (ec + 1)) ∧
      (∀ r, r < mat.B.mbs → ∀ t,
        t < (MatSetUpMultiply_MPIBAIJ useCTable mat).B.ilen.getD r 0 →
        ∃ t', t' < (reassemble useCTable
            (fun B => MatSetValuesBlocked_SeqBAIJ B row c_new v is)
            (MatSetUpMultiply_MPIBAIJ useCTable mat)).B.ilen.getD r 0 ∧
          g3.getD ((reassemble useCTable
              (fun B => MatSetValuesBlocked_SeqBAIJ B row c_new v is)
              (MatSetUpMultiply_MPIBAIJ useCTable mat)).B.j.getD
            ((reassemble useCTable (fun B => MatSetValuesBlocked_SeqBAIJ B row c_new v is)
              (MatSetUpMultiply_MPIBAIJ useCTable mat)).B.i.getD r 0 + t') 0) 0
            = g1.getD ((MatSetUpMultiply_MPIBAIJ useCTable mat).B.j.getD
              ((MatSetUpMultiply_MPIBAIJ useCTable mat).B.i.getD r 0 + t) 0) 0 ∧
          ∀ q, q < mat.bs2 →
            (reassemble useCTable (fun B => MatSetValuesBlocked_SeqBAIJ B row c_new v is)
              (MatSetUpMultiply_MPIBAIJ useCTable mat)).B.a.getD
              (((reassemble useCTable (fun B => MatSetValuesBlocked_SeqBAIJ B row c_new v is)
                (MatSetUpMultiply_MPIBAIJ useCTable mat)).B.i.getD r 0 + t') * mat.bs2 + q)
              default
              = (MatSetUpMultiply_MPIBAIJ useCTable mat).B.a.getD
                (((MatSetUpMultiply_MPIBAIJ useCTable mat).B.i.getD r 0 + t) * mat.bs2 + q)
                default) := by
  obtain ⟨f1, _, _, f4⟩ := setUp_facts useCTable mat h hN
  obtain ⟨b1, b2, _, _, _⟩ := compactBlock_facts useCTable mat.Nbs mat.B h
  obtain ⟨r1, _, _⟩ := compactBlock_rewrite useCTable mat.Nbs mat.B h hrows
  obtain ⟨st1, st2, st3⟩ := compactBlock_struct useCTable mat.Nbs mat.B
  obtain ⟨va, _⟩ := compactBlock_values useCTable mat.Nbs mat.B
  obtain ⟨n1, _⟩ := compactBlock_nbs useCTable mat.Nbs mat.B
  obtain ⟨t1, _⟩ := round_trip_facts useCTable mat h hrows hsorted hN hbs hm hbs2
  obtain ⟨k1, k2, k3, k4, k5, k6, k7, k8, k9, k10⟩ :=
    rebuilt_block_facts useCTable mat h hrows hsorted hN hbs hm hbs2 hB2
  have hghost1 : (compactBlock useCTable mat.Nbs mat.B).garray.take
      (compactBlock useCTable mat.Nbs mat.B).ec = (colRefs mat.B).toFinset.sort (· ≤ ·) := b1
  have hnew1 : c_new ∉ colRefs mat.B := by
    intro hmem
    apply hnew
    rw [f4 hbs, Option.getD_some, f1, n1, hghost1, Finset.mem_sort, List.mem_toFinset]
    exact hmem
  have hoff : ∀ r, r ≤ mat.B.mbs →
      rowOffset (fun q => (DisAssemble_MPIBAIJ
        (MatSetUpMultiply_MPIBAIJ useCTable mat)).B.ilen.getD q 0) r
      = rowOffset (fun q => mat.B.ilen.getD q 0) r :=
    fun r hr => rowOffset_congr _ _ r (fun q hq => k5 q (by omega))
  obtain ⟨a1, a2, a3, a4⟩ := recompact_after_insert useCTable mat.Nbs
    (DisAssemble_MPIBAIJ (MatSetUpMultiply_MPIBAIJ useCTable mat)).B row c_new v is
    (fun r hr => by rw [k1] at hr; rw [k3 r hr, hoff r hr])
    (by rw [k4, k1]) (by rw [k9, k1])
    (by rw [k7, k1, hoff _ (le_refl _)])
    (by rw [k8, k1, k2, hoff _ (le_refl _)])
    (by rw [k1]; exact hrow)
    (by rw [k6 row hrow, k5 row hrow])
    (by rw [t1]; exact h) hc (by rw [t1]; exact hnew1)
  rw [t1] at a2 a3
  rw [k1, k2] at a4
  obtain ⟨_, _, _, g4⟩ := setUp_facts useCTable
    { DisAssemble_MPIBAIJ (MatSetUpMultiply_MPIBAIJ useCTable mat) with
      B := MatSetValuesBlocked_SeqBAIJ
        (DisAssemble_MPIBAIJ (MatSetUpMultiply_MPIBAIJ useCTable mat)).B row c_new v is }
    a1 hN
  obtain ⟨n3, _⟩ := compactBlock_nbs useCTable mat.Nbs (MatSetValuesBlocked_SeqBAIJ
    (DisAssemble_MPIBAIJ (MatSetUpMultiply_MPIBAIJ useCTable mat)).B row c_new v is)
  have hec : (compactBlock useCTable mat.Nbs mat.B).ec
      = ((colRefs mat.B).toFinset.sort (· ≤ ·)).length := by
    rw [b2]; exact congrArg List.length b1
  have hg3 : (compactBlock useCTable mat.Nbs (MatSetValuesBlocked_SeqBAIJ
        (DisAssemble_MPIBAIJ (MatSetUpMultiply_MPIBAIJ useCTable mat)).B row c_new v is)).garray.take
        ((compactBlock useCTable mat.Nbs mat.B).ec + 1)
      = List.orderedInsert (· ≤ ·) c_new ((compactBlock useCTable mat.Nbs mat.B).garray.take
          (compactBlock useCTable mat.Nbs mat.B).ec) := by
    rw [hghost1, ← a2, hec, ← a3]
    rfl
  refine ⟨(compactBlock useCTable mat.Nbs mat.B).garray,
    (compactBlock useCTable mat.Nbs (MatSetValuesBlocked_SeqBAIJ
      (DisAssemble_MPIBAIJ (MatSetUpMultiply_MPIBAIJ useCTable mat)).B row c_new v is)).garray,
    (compactBlock useCTable mat.Nbs mat.B).ec, f4 hbs, by rw [f1, n1], g4 hbs, ?_, hg3, ?_, ?_,
    ?_, fun r hr t ht => ?_⟩
  · show (compactBlock useCTable mat.Nbs (MatSetValuesBlocked_SeqBAIJ
      (DisAssemble_MPIBAIJ (MatSetUpMultiply_MPIBAIJ useCTable mat)).B row c_new v is)).B.nbs
      = _
    rw [n3, a3, hec]
  · rw [hg3, hghost1, ← sort_insert_eq _ _ (fun hh => hnew1 (List.mem_toFinset.1 hh))]
    exact Finset.sort_sorted_lt _
  · rw [hg3, List.mem_orderedInsert]
    exact Or.inl rfl
  · intro c hcm
    rw [hg3, List.mem_orderedInsert]
    exact Or.inr hcm
  · rw [f1, st3] at ht
    obtain ⟨t', ht', h1, h2⟩ := a4 r hr t (by rw [k5 r hr]; exact ht)
    rw [k3 r (Nat.le_of_lt hr)] at h1 h2
    obtain ⟨j1, j2⟩ := k10 r hr t ht
    refine ⟨t', ht', ?_, fun q hq => ?_⟩
    · rw [f1, st2]
      exact h1.trans (j1.trans (r1 _ ((mem_slots mat.B _).2
        ⟨r, hr, Nat.le_add_right _ _, Nat.add_lt_add_left ht _⟩)).2.symm)
    · rw [f1, st2, va]
      exact (h2 q hq).trans (j2 q hq)

theorem C11_new_column_after_disassembly_witness :
    ((∀ c ∈ colRefs sampleMat.B, c < sampleMat.Nbs) ∧ RowsOK sampleMat.B ∧
      RowsSorted sampleMat.B ∧ sampleMat.Nbs * sampleMat.bs ≤ PETSC_MAX_INT ∧
      1 ≤ sampleMat.bs ∧ sampleMat.m = sampleMat.B.mbs * sampleMat.bs ∧
      sampleMat.bs2 = sampleMat.bs * sampleMat.bs ∧ sampleMat.B.bs2 = sampleMat.bs2 ∧
      1 < sampleMat.B.mbs ∧ 4 < sampleMat.Nbs ∧
      4 ∉ ((MatSetUpMultiply_MPIBAIJ false sampleMat).garray.getD []).take
        (MatSetUpMultiply_MPIBAIJ false sampleMat).B.nbs) ∧
    ((MatSetUpMultiply_MPIBAIJ false sampleMat).garray = some [2, 5, 7, 0] ∧
      (reassemble false
        (fun B => MatSetValuesBlocked_SeqBAIJ B 1 4 [7, 7, 7, 7] InsertMode.INSERT_VALUES)
        (MatSetUpMultiply_MPIBAIJ false sampleMat)).garray = some [2, 4, 5, 7, 0]) ∧
    (∃ g1 g3 ec,
      (MatSetUpMultiply_MPIBAIJ false sampleMat).garray = some g1 ∧
      (MatSetUpMultiply_MPIBAIJ false sampleMat).B.nbs = ec ∧
      (reassemble false
        (fun B => MatSetValuesBlocked_SeqBAIJ B 1 4 [7, 7, 7, 7] InsertMode.INSERT_VALUES)
        (MatSetUpMultiply_MPIBAIJ false sampleMat)).garray = some g3 ∧
      (reassemble false
        (fun B => MatSetValuesBlocked_SeqBAIJ B 1 4 [7, 7, 7, 7] InsertMode.INSERT_VALUES)
        (MatSetUpMultiply_MPIBAIJ false sampleMat)).B.nbs = ec + 1 ∧
      g3.take (ec + 1) = List.orderedInsert (· ≤ ·) 4 (g1.take ec) ∧
      (g3.take (ec + 1)).Sorted (· < ·) ∧
      4 ∈ g3.take (ec + 1) ∧ (∀ c ∈ g1.take ec, c ∈ g3.take (ec + 1)) ∧
      (∀ r, r < sampleMat.B.mbs → ∀ t,
        t < (MatSetUpMultiply_MPIBAIJ false sampleMat).B.ilen.getD r 0 →
        ∃ t', t' < (reassemble false
            (fun B => MatSetValuesBlocked_SeqBAIJ B 1 4 [7, 7, 7, 7] InsertMode.INSERT_VALUES)
            (MatSetUpMultiply_MPIBAIJ false sampleMat)).B.ilen.getD r 0 ∧
          g3.getD ((reassemble false
              (fun B => MatSetValuesBlocked_SeqBAIJ B 1 4 [7, 7, 7, 7] InsertMode.INSERT_VALUES)
              (MatSetUpMultiply_MPIBAIJ false sampleMat)).B.j.getD
            ((reassemble false
              (fun B => MatSetValuesBlocked_SeqBAIJ B 1 4 [7, 7, 7, 7] InsertMode.INSERT_VALUES)
              (MatSetUpMultiply_MPIBAIJ false sampleMat)).B.i.getD r 0 + t') 0) 0
            = g1.getD ((MatSetUpMultiply_MPIBAIJ false sampleMat).B.j.getD
              ((MatSetUpMultiply_MPIBAIJ false sampleMat).B.i.getD r 0 + t) 0) 0 ∧
          ∀ q, q < sampleMat.bs2 →
            (reassemble false
              (fun B => MatSetValuesBlocked_SeqBAIJ B 1 4 [7, 7, 7, 7] InsertMode.INSERT_VALUES)
              (MatSetUpMultiply_MPIBAIJ false sampleMat)).B.a.getD
              (((reassemble false
                (fun B =>
                  MatSetValuesBlocked_SeqBAIJ B 1 4 [7, 7, 7, 7] InsertMode.INSERT_VALUES)
                (MatSetUpMultiply_MPIBAIJ false sampleMat)).B.i.getD r 0 + t') * sampleMat.bs2
                + q) default
              = (MatSetUpMultiply_MPIBAIJ false sampleMat).B.a.getD
                (((MatSetUpMultiply_MPIBAIJ false sampleMat).B.i.getD r 0 + t) * sampleMat.bs2
                  + q) default)) :=
  ⟨⟨by decide, by decide, by decide, by decide, by decide, by decide, by decide, by decide,
      by decide, by decide, by decide⟩,
    ⟨by decide, by decide⟩,
    C11_new_column_after_disassembly false sampleMat 1 4 [7, 7, 7, 7] InsertMode.INSERT_VALUES
      (by decide) (by decide) (by decide) (by decide) (by decide) (by decide) (by decide)
      (by decide) (by decide) (by decide) (by decide)⟩

/-! ## The scaling of the Ghost Array is undone -/

/-- Scaling the first `ec` cells by `bs` and dividing them by `bs` again gives the array
back, when the products fit a `PetscInt`. -/
theorem unscale_scale_id (bs ec : Nat) (g : List Nat) (hbs : 1 ≤ bs) (hbs' : bs ≤ PETSC_MAX_INT)
    (hprod : ∀ i, i < ec → bs * g.getD i 0 ≤ PETSC_MAX_INT) :
    unscaleGarray bs ec (scaleGarray bs ec g) = g := by
  obtain ⟨s1, s2⟩ := forLoop_set_content (fun x => PetscInt_mul bs x) ec g
  obtain ⟨u1, u2⟩ := forLoop_set_content (fun x => PetscInt_div x bs) ec (scaleGarray bs ec g)
  have hlen : (scaleGarray bs ec g).length = g.length := by unfold scaleGarray; exact s1
  apply list_ext_getD
  · unfold unscaleGarray; rw [u1, hlen]
  · intro x
    unfold unscaleGarray
    rw [u2 x]
    by_cases hx : x < ec ∧ x < g.length
    · rw [if_pos ⟨hx.1, by rw [hlen]; exact hx.2⟩]
      unfold scaleGarray
      rw [s2 x, if_pos hx]
      exact PetscInt_div_mul _ _ hbs hbs' (hprod x hx.1)
    · rw [if_neg (by rw [hlen]; exact hx)]
      unfold scaleGarray
      rw [s2 x, if_neg hx]

/-- C30: for a block size `bs >= 1` (a `PetscInt`) and a Ghost Array whose products
`bs*garray[i]`, `i < ec`, fit a `PetscInt`, the division of lines 113-115 undoes the
multiplication of lines 109-111 on every array, and the array `MatSetUpMultiply_MPIBAIJ`
stores in `baij->garray` is the Ghost Array the compaction computed. -/
theorem C30_ghost_array_scaling_undone {α : Type} [Inhabited α] (useCTable : Bool)
    (mat : Mat_MPIBAIJ α) (hbs : 1 ≤ mat.bs) (hbs' : mat.bs ≤ PETSC_MAX_INT)
    (hprod : ∀ i, i < (compactBlock useCTable mat.Nbs mat.B).ec →
      mat.bs * (compactBlock useCTable mat.Nbs mat.B).garray.getD i 0 ≤ PETSC_MAX_INT) :
    (MatSetUpMultiply_MPIBAIJ useCTable mat).garray
        = some (compactBlock useCTable mat.Nbs mat.B).garray ∧
    ∀ (g : List Nat) (ec : Nat), (∀ i, i < ec → mat.bs * g.getD i 0 ≤ PETSC_MAX_INT) →
      unscaleGarray mat.bs ec (scaleGarray mat.bs ec g) = g := by
  refine ⟨?_, fun g ec hg => unscale_scale_id mat.bs ec g hbs hbs' hg⟩
  show some (unscaleGarray _ _ (scaleGarray _ _ _)) = _
  rw [unscale_scale_id mat.bs _ _ hbs hbs' hprod]

theorem C30_ghost_array_scaling_undone_witness :
    (1 ≤ sampleMat.bs ∧ sampleMat.bs ≤ PETSC_MAX_INT ∧
      ∀ i, i < (compactBlock false sampleMat.Nbs sampleMat.B).ec →
        sampleMat.bs * (compactBlock false sampleMat.Nbs sampleMat.B).garray.getD i 0
          ≤ PETSC_MAX_INT) ∧
    (compactBlock false sampleMat.Nbs sampleMat.B).garray = [2, 5, 7, 0] ∧
    scaleGarray sampleMat.bs 3 [2, 5, 7, 0] = [4, 10, 14, 0] ∧
    ((MatSetUpMultiply_MPIBAIJ false sampleMat).garray
        = some (compactBlock false sampleMat.Nbs sampleMat.B).garray ∧
      ∀ (g : List Nat) (ec : Nat),
        (∀ i, i < ec → sampleMat.bs * g.getD i 0 ≤ PETSC_MAX_INT) →
        unscaleGarray sampleMat.bs ec (scaleGarray sampleMat.bs ec g) = g) :=
  ⟨⟨by decide, by decide, by decide⟩, by decide, by decide,
    C30_ghost_array_scaling_undone false sampleMat (by decide) (by decide) (by decide)⟩

/-! ## Bounds of the lookups of the disassembly -/

/-- A position between the start of the first row and the end of the last row of a block
whose rows are stored one after the other lies in a row. -/
theorem row_of_position (i len : Nat → Nat) (mbs : Nat)
    (hfull : ∀ r, r < mbs → i (r + 1) = i r + len r) (k : Nat) (h0 : i 0 ≤ k)
    (hk : k < i mbs) : ∃ r, r < mbs ∧ i r ≤ k ∧ k < i r + len r := by
  induction mbs with
  | zero => omega
  | succ n ih =>
    by_cases hc : k < i n
    · obtain ⟨r, hr, h1, h2⟩ := ih (fun r hr => hfull r (by omega)) hc
      exact ⟨r, by omega, h1, h2⟩
    · exact ⟨n, by omega, by omega, by rw [← hfull n (by omega)]; exact hk⟩

/-- The rows the disassembly walks: position `k` of row `r` of the assembled block is a used
slot of the compacted block. -/
theorem assembled_slot {α : Type} [Inhabited α] (B : Mat_SeqBAIJ α) (r k : Nat) (hr : r < B.mbs)
    (h1 : (MatAssemblyEnd_SeqBAIJ B).i.getD r 0 ≤ k)
    (h2 : k < (MatAssemblyEnd_SeqBAIJ B).i.getD (r + 1) 0) :
    ∃ t, t < B.ilen.getD r 0 ∧
      (MatAssemblyEnd_SeqBAIJ B).j.getD k 0 = B.j.getD (B.i.getD r 0 + t) 0 := by
  obtain ⟨_, o2, _, _, o5⟩ := assembled_facts B
  rw [o2 r (by omega)] at h1
  rw [o2 (r + 1) (by omega), rowOffset_succ] at h2
  refine ⟨k - rowOffset (fun q => B.ilen.getD q 0) r, by omega, ?_⟩
  have := o5 r hr (k - rowOffset (fun q => B.ilen.getD q 0) r) (by omega)
  rw [Nat.add_sub_cancel' h1] at this
  exact this

/-- C27: when every row of the off-diagonal block is fully used (`i[r+1] = i[r] + ilen[r]`),
the rows lie inside the column array and all column references are below `Nbs`, then after
`MatSetUpMultiply_MPIBAIJ` every stored column index `j[k]`, `i[0] <= k < i[mbs]`, is below
`ec = B->nbs` and below the length `ec+1` of the Ghost Array, and so is every index that
`DisAssemble_MPIBAIJ` looks up in the Ghost Array. -/
theorem C27_compacted_indices_below_ec {α : Type} [Inhabited α] (useCTable : Bool)
    (mat : Mat_MPIBAIJ α)
    (hfull : ∀ r, r < mat.B.mbs →
      mat.B.i.getD (r + 1) 0 = mat.B.i.getD r 0 + mat.B.ilen.getD r 0)
    (hlen : mat.B.i.getD mat.B.mbs 0 ≤ mat.B.j.length)
    (h : ∀ c ∈ colRefs mat.B, c < mat.Nbs) :
    ∃ g, (MatSetUpMultiply_MPIBAIJ useCTable mat).garray = some g ∧
      g.length = (MatSetUpMultiply_MPIBAIJ useCTable mat).B.nbs + 1 ∧
      (∀ k, (MatSetUpMultiply_MPIBAIJ useCTable mat).B.i.getD 0 0 ≤ k →
        k < (MatSetUpMultiply_MPIBAIJ useCTable mat).B.i.getD
          (MatSetUpMultiply_MPIBAIJ useCTable mat).B.mbs 0 →
        (MatSetUpMultiply_MPIBAIJ useCTable mat).B.j.getD k 0
          < (MatSetUpMultiply_MPIBAIJ useCTable mat).B.nbs) ∧
      (∀ r, r < mat.B.mbs → ∀ k,
        (MatAssemblyEnd_SeqBAIJ (MatSetUpMultiply_MPIBAIJ useCTable mat).B).i.getD r 0 ≤ k →
        k < (MatAssemblyEnd_SeqBAIJ (MatSetUpMultiply_MPIBAIJ useCTable mat).B).i.getD (r + 1) 0 →
        (MatAssemblyEnd_SeqBAIJ (MatSetUpMultiply_MPIBAIJ useCTable mat).B).j.getD k 0
          < g.length) := by
  have hrows : RowsOK mat.B := ⟨fun r hr => by rw [hfull r hr], hlen⟩
  obtain ⟨_, _, b3, _, _⟩ := compactBlock_facts useCTable mat.Nbs mat.B h
  obtain ⟨r1, _, _⟩ := compactBlock_rewrite useCTable mat.Nbs mat.B h hrows
  obtain ⟨st1, st2, st3⟩ := compactBlock_struct useCTable mat.Nbs mat.B
  obtain ⟨n1, _⟩ := compactBlock_nbs useCTable mat.Nbs mat.B
  obtain ⟨s1, _⟩ := forLoop_set_content (fun x => PetscInt_mul mat.bs x)
    (compactBlock useCTable mat.Nbs mat.B).ec (compactBlock useCTable mat.Nbs mat.B).garray
  obtain ⟨u1, _⟩ := forLoop_set_content (fun x => PetscInt_div x mat.bs)
    (compactBlock useCTable mat.Nbs mat.B).ec
    (scaleGarray mat.bs (compactBlock useCTable mat.Nbs mat.B).ec
      (compactBlock useCTable mat.Nbs mat.B).garray)
  have hB : (MatSetUpMultiply_MPIBAIJ useCTable mat).B
      = (compactBlock useCTable mat.Nbs mat.B).B := rfl
  have hglen : (unscaleGarray mat.bs (compactBlock useCTable mat.Nbs mat.B).ec
      (scaleGarray mat.bs (compactBlock useCTable mat.Nbs mat.B).ec
        (compactBlock useCTable mat.Nbs mat.B).garray)).length
      = (compactBlock useCTable mat.Nbs mat.B).ec + 1 := by
    unfold unscaleGarray
    rw [u1]
    unfold scaleGarray
    rw [s1, b3]
  refine ⟨_, rfl, ?_, fun k hk0 hk1 => ?_, fun r hr k hk0 hk1 => ?_⟩
  · rw [hglen, hB, n1]
  · rw [hB] at hk0 hk1 ⊢
    rw [st2] at hk0
    rw [st1, st2] at hk1
    rw [n1]
    obtain ⟨r, hr, h1, h2⟩ := row_of_position (fun r => mat.B.i.getD r 0)
      (fun r => mat.B.ilen.getD r 0) mat.B.mbs hfull k hk0 hk1
    exact (r1 k ((mem_slots mat.B k).2 ⟨r, hr, h1, h2⟩)).1
  · rw [hB] at hk0 hk1 ⊢
    obtain ⟨t, ht, e⟩ := assembled_slot (compactBlock useCTable mat.Nbs mat.B).B r k
      (by rw [st1]; exact hr) hk0 hk1
    rw [st3] at ht
    rw [e, st2, hglen]
    exact Nat.lt_succ_of_lt (r1 _ ((mem_slots mat.B _).2
      ⟨r, hr, Nat.le_add_right _ _, Nat.add_lt_add_left ht _⟩)).1

theorem C27_compacted_indices_below_ec_witness :
    ((∀ r, r < scaleMat.B.mbs →
        scaleMat.B.i.getD (r + 1) 0 = scaleMat.B.i.getD r 0 + scaleMat.B.ilen.getD r 0) ∧
      scaleMat.B.i.getD scaleMat.B.mbs 0 ≤ scaleMat.B.j.length ∧
      (∀ c ∈ colRefs scaleMat.B, c < scaleMat.Nbs)) ∧
    ((MatSetUpMultiply_MPIBAIJ false scaleMat).B.j.take 3 = [0, 1, 1] ∧
      (MatSetUpMultiply_MPIBAIJ false scaleMat).B.nbs = 2) ∧
    (∃ g, (MatSetUpMultiply_MPIBAIJ false scaleMat).garray = some g ∧
      g.length = (MatSetUpMultiply_MPIBAIJ false scaleMat).B.nbs + 1 ∧
      (∀ k, (MatSetUpMultiply_MPIBAIJ false scaleMat).B.i.getD 0 0 ≤ k →
        k < (MatSetUpMultiply_MPIBAIJ false scaleMat).B.i.getD
          (MatSetUpMultiply_MPIBAIJ false scaleMat).B.mbs 0 →
        (MatSetUpMultiply_MPIBAIJ false scaleMat).B.j.getD k 0
          < (MatSetUpMultiply_MPIBAIJ false scaleMat).B.nbs) ∧
      (∀ r, r < scaleMat.B.mbs → ∀ k,
        (MatAssemblyEnd_SeqBAIJ (MatSetUpMultiply_MPIBAIJ false scaleMat).B).i.getD r 0 ≤ k →
        k < (MatAssemblyEnd_SeqBAIJ (MatSetUpMultiply_MPIBAIJ false scaleMat).B).i.getD (r + 1) 0 →
        (MatAssemblyEnd_SeqBAIJ (MatSetUpMultiply_MPIBAIJ false scaleMat).B).j.getD k 0
          < g.length)) :=
  ⟨⟨by decide, by decide, by decide⟩, ⟨by decide, by decide⟩,
    C27_compacted_indices_below_ec false scaleMat (by decide) (by decide) (by decide)⟩

/-- The column count of a block is not changed by the rebuilding loop of the disassembly. -/
theorem disassemble_n {α : Type} [Inhabited α] [Add α] (A : Mat_MPIBAIJ α) :
    (DisAssemble_MPIBAIJ A).B.n = A.N := by
  have hopt : ∀ (B : Mat_SeqBAIJ α) (o : MatOption), B.n = A.N → (MatSetOption B o).n = A.N := by
    intro B o h
    cases o <;> exact h
  unfold DisAssemble_MPIBAIJ
  refine hopt _ _ ?_
  refine forLoop_inv (fun (Bn : Mat_SeqBAIJ α) => Bn.n = A.N) _ _ _ ?_ ?_
  · intro i s hs
    refine forLoopFrom_inv (fun (Bn : Mat_SeqBAIJ α) => Bn.n = A.N) _ _ _ _ ?_ hs
    intro j s1 hs1
    have k6 := (setValues_header s1 i
      ((A.garray.getD []).getD ((MatAssemblyEnd_SeqBAIJ A.B).j.getD j 0) 0)
      ((List.range A.bs2).map
        (fun t => (MatAssemblyEnd_SeqBAIJ A.B).a.getD (j * A.bs2 + t) default))
      (MatAssemblyEnd_SeqBAIJ A.B).insertmode).2.2.2.2.2
    show _ = _
    rw [k6]
    exact hs1
  · exact hopt _ _ rfl

/-- C29: for the Ghost Array of the dense-marker compaction of a block whose column
references are below `Nbs`, with `N = Nbs*bs`: every global block column `garray[j[k]]` that
`DisAssemble_MPIBAIJ` hands to the rebuilt block is below `Nbs`, so the `bs` element columns
of the block lie inside the `N` columns of the rebuilt block. -/
theorem C29_rebuilt_columns_in_range {α : Type} [Inhabited α] [Add α] (mat : Mat_MPIBAIJ α)
    (h : ∀ c ∈ colRefs mat.B, c < mat.Nbs) (hrows : RowsOK mat.B)
    (hN : mat.Nbs * mat.bs ≤ PETSC_MAX_INT) (hbs : 1 ≤ mat.bs)
    (hNN : mat.N = mat.Nbs * mat.bs) :
    ∃ g, (MatSetUpMultiply_MPIBAIJ false mat).garray = some g ∧
      (DisAssemble_MPIBAIJ (MatSetUpMultiply_MPIBAIJ false mat)).B.n = mat.N ∧
      ∀ r, r < mat.B.mbs → ∀ k,
        (MatAssemblyEnd_SeqBAIJ (MatSetUpMultiply_MPIBAIJ false mat).B).i.getD r 0 ≤ k →
        k < (MatAssemblyEnd_SeqBAIJ (MatSetUpMultiply_MPIBAIJ false mat).B).i.getD (r + 1) 0 →
        g.getD ((MatAssemblyEnd_SeqBAIJ (MatSetUpMultiply_MPIBAIJ false mat).B).j.getD k 0) 0
          < mat.Nbs ∧
        ∀ t, t < mat.bs →
          g.getD ((MatAssemblyEnd_SeqBAIJ (MatSetUpMultiply_MPIBAIJ false mat).B).j.getD k 0) 0
            * mat.bs + t < (DisAssemble_MPIBAIJ (MatSetUpMultiply_MPIBAIJ false mat)).B.n := by
  obtain ⟨f1, _, _, f4⟩ := setUp_facts false mat h hN
  obtain ⟨r1, _, _⟩ := compactBlock_rewrite false mat.Nbs mat.B h hrows
  obtain ⟨st1, st2, st3⟩ := compactBlock_struct false mat.Nbs mat.B
  have hn := disassemble_n (MatSetUpMultiply_MPIBAIJ false mat)
  have hNeq : (MatSetUpMultiply_MPIBAIJ false mat).N = mat.N := rfl
  refine ⟨_, f4 hbs, hn.trans hNeq, fun r hr k hk0 hk1 => ?_⟩
  rw [f1] at hk0 hk1 ⊢
  obtain ⟨t, ht, e⟩ := assembled_slot (compactBlock false mat.Nbs mat.B).B r k
    (by rw [st1]; exact hr) hk0 hk1
  rw [st3] at ht
  rw [e, st2]
  have hslot : mat.B.i.getD r 0 + t ∈ slots mat.B :=
    (mem_slots mat.B _).2 ⟨r, hr, Nat.le_add_right _ _, Nat.add_lt_add_left ht _⟩
  have hcol : (compactBlock false mat.Nbs mat.B).garray.getD
      ((compactBlock false mat.Nbs mat.B).B.j.getD (mat.B.i.getD r 0 + t) 0) 0 < mat.Nbs := by
    rw [(r1 _ hslot).2]
    exact h _ (ref_mem_colRefs mat.B r t hr ht)
  refine ⟨hcol, fun t' ht' => ?_⟩
  rw [hn, hNeq, hNN]
  generalize (compactBlock false mat.Nbs mat.B).garray.getD
      ((compactBlock false mat.Nbs mat.B).B.j.getD (mat.B.i.getD r 0 + t) 0) 0 = c at hcol ⊢
  calc c * mat.bs + t' < c * mat.bs + mat.bs := Nat.add_lt_add_left ht' _
    _ = (c + 1) * mat.bs := (Nat.succ_mul _ _).symm
    _ ≤ mat.Nbs * mat.bs := Nat.mul_le_mul_right _ hcol

theorem C29_rebuilt_columns_in_range_witness :
    ((∀ c ∈ colRefs sampleMat.B, c < sampleMat.Nbs) ∧ RowsOK sampleMat.B ∧
      sampleMat.Nbs * sampleMat.bs ≤ PETSC_MAX_INT ∧ 1 ≤ sampleMat.bs ∧
      sampleMat.N = sampleMat.Nbs * sampleMat.bs) ∧
    (colRefs (DisAssemble_MPIBAIJ (MatSetUpMultiply_MPIBAIJ false sampleMat)).B = [5, 2, 2, 7] ∧
      sampleMat.Nbs = 8) ∧
    (∃ g, (MatSetUpMultiply_MPIBAIJ false sampleMat).garray = some g ∧
      (DisAssemble_MPIBAIJ (MatSetUpMultiply_MPIBAIJ false sampleMat)).B.n = sampleMat.N ∧
      ∀ r, r < sampleMat.B.mbs → ∀ k,
        (MatAssemblyEnd_SeqBAIJ (MatSetUpMultiply_MPIBAIJ false sampleMat).B).i.getD r 0 ≤ k →
        k < (MatAssemblyEnd_SeqBAIJ (MatSetUpMultiply_MPIBAIJ false sampleMat).B).i.getD
          (r + 1) 0 →
        g.getD ((MatAssemblyEnd_SeqBAIJ (MatSetUpMultiply_MPIBAIJ false sampleMat).B).j.getD
            k 0) 0 < sampleMat.Nbs ∧
        ∀ t, t < sampleMat.bs →
          g.getD ((MatAssemblyEnd_SeqBAIJ (MatSetUpMultiply_MPIBAIJ false sampleMat).B).j.getD
              k 0) 0 * sampleMat.bs + t
            < (DisAssemble_MPIBAIJ (MatSetUpMultiply_MPIBAIJ false sampleMat)).B.n) :=
  ⟨⟨by decide, by decide, by decide, by decide, by decide⟩, ⟨by decide, by decide⟩,
    C29_rebuilt_columns_in_range sampleMat (by decide) (by decide) (by decide) (by decide)
      (by decide)⟩

/-! ## The three ways out of the cache set-up -/

/-- The result of `MatMPIBAIJDiagonalScaleLocalSetUp` by the outcome of its two checks. -/
theorem setUp_cases {α : Type} [Inhabited α] (inA : Mat_MPIBAIJ α) (scale : Vec α)
    (st : UglyStatics α) :
    (PetscInt_mul (ownedPass inA.A.bs inA.rstart_bs inA.rend_bs inA.bmapping).1 inA.A.bs
        ≠ inA.A.n →
      MatMPIBAIJDiagonalScaleLocalSetUp inA scale st
        = (Except.error PetscErrorCode.PETSC_ERR_PLIB, st)) ∧
    (PetscInt_mul (ownedPass inA.A.bs inA.rstart_bs inA.rend_bs inA.bmapping).1 inA.A.bs
        = inA.A.n →
      inA.bmapping.n - (ownedPass inA.A.bs inA.rstart_bs inA.rend_bs inA.bmapping).1
        < setUpGhostCount inA →
      MatMPIBAIJDiagonalScaleLocalSetUp inA scale st
        = (Except.error PetscErrorCode.PETSC_ERR_PLIB,
            { st with
              uglyrmapd := some (fillRmapd inA.A.bs inA.rstart_bs inA.A.n inA.bmapping.n
                (ownedPass inA.A.bs inA.rstart_bs inA.rend_bs inA.bmapping).2)
              uglydd := some (VecCreateSeq inA.A.n) })) ∧
    (PetscInt_mul (ownedPass inA.A.bs inA.rstart_bs inA.rend_bs inA.bmapping).1 inA.A.bs
        = inA.A.n →
      setUpGhostCount inA
        ≤ inA.bmapping.n - (ownedPass inA.A.bs inA.rstart_bs inA.rend_bs inA.bmapping).1 →
      (MatMPIBAIJDiagonalScaleLocalSetUp inA scale st).1 = Except.ok ()) := by
  unfold setUpGhostCount
  refine ⟨fun h1 => ?_, fun h1 h2 => ?_, fun h1 h2 => ?_⟩
  · unfold MatMPIBAIJDiagonalScaleLocalSetUp
    dsimp only [MatGetOwnershipRange, MatGetSize]
    rw [if_pos h1]
  · unfold MatMPIBAIJDiagonalScaleLocalSetUp
    dsimp only [MatGetOwnershipRange, MatGetSize]
    rw [if_neg (not_not.2 h1), if_pos h2]
  · unfold MatMPIBAIJDiagonalScaleLocalSetUp
    dsimp only [MatGetOwnershipRange, MatGetSize]
    rw [if_neg (not_not.2 h1), if_neg (Nat.not_lt.2 h2)]

/-- C21 as stated fails: on the matrix `partialMat` the first check passes and the second
fails.  The set-up returns `PETSC_ERR_PLIB` and leaves `uglyrmapd` and `uglydd` installed
while `uglyrmapo` and `uglyoo` are null; the next scale call does not run the set-up, scales
the diagonal block with the partial cache and stops at the null `uglyoo`. -/
theorem C21_setup_all_or_nothing_counterexample :
    (MatMPIBAIJDiagonalScaleLocalSetUp partialMat scaleVec UglyStatics.initial).1
      = Except.error PetscErrorCode.PETSC_ERR_PLIB ∧
    (MatMPIBAIJDiagonalScaleLocalSetUp partialMat scaleVec UglyStatics.initial).2.uglyrmapd
      = some [0, 1, 2, 3, 0] ∧
    (MatMPIBAIJDiagonalScaleLocalSetUp partialMat scaleVec
      UglyStatics.initial).2.uglydd.map VecGetLocalSize = some 4 ∧
    (MatMPIBAIJDiagonalScaleLocalSetUp partialMat scaleVec UglyStatics.initial).2.uglyrmapo
      = none ∧
    (MatMPIBAIJDiagonalScaleLocalSetUp partialMat scaleVec
      UglyStatics.initial).2.uglyoo.map VecGetLocalSize = none ∧
    MatDiagonalScaleLocal_MPIBAIJ partialMat scaleVec
        (MatMPIBAIJDiagonalScaleLocalSetUp partialMat scaleVec UglyStatics.initial).2
      = scaleBlocks partialMat scaleVec (Except.ok (),
          (MatMPIBAIJDiagonalScaleLocalSetUp partialMat scaleVec UglyStatics.initial).2) ∧
    (MatDiagonalScaleLocal_MPIBAIJ partialMat scaleVec
        (MatMPIBAIJDiagonalScaleLocalSetUp partialMat scaleVec UglyStatics.initial).2).1
      = Except.error PetscErrorCode.PETSC_ERR_ARG_NULL :=
  ⟨rfl, by decide, by decide, by decide, by decide, rfl, rfl⟩

/-- C21 (amended): the cache set-up is all-or-nothing for its first check only.  When
`MatMPIBAIJDiagonalScaleLocalSetUp` returns an error and the first check (`nt*bs != n`)
failed, the four file-scope variables are as they were before the call, and with
`uglyrmapd` null the next `MatDiagonalScaleLocal_MPIBAIJ` call runs the set-up again.  When
the first check passed (so the second failed), `uglyrmapd` and `uglydd` are installed,
`uglyrmapo` and `uglyoo` are as before the call, and the next
`MatDiagonalScaleLocal_MPIBAIJ` call does not run the set-up. -/
theorem C21_setup_failure_states {α : Type} [Inhabited α] [Mul α] (inA : Mat_MPIBAIJ α)
    (scale : Vec α) (st : UglyStatics α)
    (herr : ∃ e, (MatMPIBAIJDiagonalScaleLocalSetUp inA scale st).1 = Except.error e) :
    (PetscInt_mul (ownedPass inA.A.bs inA.rstart_bs inA.rend_bs inA.bmapping).1 inA.A.bs
        ≠ inA.A.n →
      (MatMPIBAIJDiagonalScaleLocalSetUp inA scale st).2 = st ∧
      (st.uglyrmapd = none → ∀ (A : Mat_MPIBAIJ α) (scale2 : Vec α),
        MatDiagonalScaleLocal_MPIBAIJ A scale2 (MatMPIBAIJDiagonalScaleLocalSetUp inA scale st).2
          = scaleBlocks A scale2 (MatMPIBAIJDiagonalScaleLocalSetUp A scale2
              (MatMPIBAIJDiagonalScaleLocalSetUp inA scale st).2))) ∧
    (PetscInt_mul (ownedPass inA.A.bs inA.rstart_bs inA.rend_bs inA.bmapping).1 inA.A.bs
        = inA.A.n →
      (MatMPIBAIJDiagonalScaleLocalSetUp inA scale st).2.uglyrmapd
        = some (fillRmapd inA.A.bs inA.rstart_bs inA.A.n inA.bmapping.n
            (ownedPass inA.A.bs inA.rstart_bs inA.rend_bs inA.bmapping).2) ∧
      (MatMPIBAIJDiagonalScaleLocalSetUp inA scale st).2.uglydd
        = some (VecCreateSeq inA.A.n) ∧
      (MatMPIBAIJDiagonalScaleLocalSetUp inA scale st).2.uglyrmapo = st.uglyrmapo ∧
      (MatMPIBAIJDiagonalScaleLocalSetUp inA scale st).2.uglyoo = st.uglyoo ∧
      ∀ (A : Mat_MPIBAIJ α) (scale2 : Vec α),
        MatDiagonalScaleLocal_MPIBAIJ A scale2 (MatMPIBAIJDiagonalScaleLocalSetUp inA scale st).2
          = scaleBlocks A scale2
              (Except.ok (), (MatMPIBAIJDiagonalScaleLocalSetUp inA scale st).2)) := by
  obtain ⟨c1, c2, c3⟩ := setUp_cases inA scale st
  obtain ⟨e, he⟩ := herr
  refine ⟨fun h1 => ?_, fun h1 => ?_⟩
  · rw [c1 h1]
    exact ⟨rfl, fun hn A scale2 => (scale_builds_cache A scale2 st hn).1⟩
  · have h2 : inA.bmapping.n - (ownedPass inA.A.bs inA.rstart_bs inA.rend_bs inA.bmapping).1
        < setUpGhostCount inA := by
      by_contra hc
      rw [c3 h1 (Nat.le_of_not_lt hc)] at he
      cases he
    rw [c2 h1 h2]
    exact ⟨rfl, rfl, rfl, rfl, fun A scale2 =>
      (scale_keeps_cache A scale2 _ (fun hh => by cases hh)).1⟩

/-- C21 (amended) on `partialMat`, whose second check fails, and on `shortMapMat`, whose
first check fails. -/
theorem C21_setup_failure_states_witness :
    ((∃ e, (MatMPIBAIJDiagonalScaleLocalSetUp partialMat scaleVec UglyStatics.initial).1
        = Except.error e) ∧
      PetscInt_mul (ownedPass partialMat.A.bs partialMat.rstart_bs partialMat.rend_bs
        partialMat.bmapping).1 partialMat.A.bs = partialMat.A.n ∧
      (MatMPIBAIJDiagonalScaleLocalSetUp partialMat scaleVec UglyStatics.initial).2.uglyrmapd
        = some (fillRmapd partialMat.A.bs partialMat.rstart_bs partialMat.A.n
            partialMat.bmapping.n
            (ownedPass partialMat.A.bs partialMat.rstart_bs partialMat.rend_bs
              partialMat.bmapping).2)) ∧
    ((∃ e, (MatMPIBAIJDiagonalScaleLocalSetUp shortMapMat scaleVec UglyStatics.initial).1
        = Except.error e) ∧
      PetscInt_mul (ownedPass shortMapMat.A.bs shortMapMat.rstart_bs shortMapMat.rend_bs
        shortMapMat.bmapping).1 shortMapMat.A.bs ≠ shortMapMat.A.n ∧
      (MatMPIBAIJDiagonalScaleLocalSetUp shortMapMat scaleVec UglyStatics.initial).2
        = UglyStatics.initial) :=
  ⟨⟨⟨_, rfl⟩, by decide,
      ((C21_setup_failure_states partialMat scaleVec UglyStatics.initial ⟨_, rfl⟩).2
        (by decide)).1⟩,
    ⟨⟨_, rfl⟩, by decide,
      ((C21_setup_failure_states shortMapMat scaleVec UglyStatics.initial ⟨_, rfl⟩).1
        (by decide)).1⟩⟩

/-! ## The set-up fails exactly when a dimension check fails -/

/-- Lines 280-282 leave a nonzero mark at exactly the cells named by `garray[0..nbs)`. -/
theorem ghostPositions_known (Nbs nbs : Nat) (garray : List Nat)
    (hlt : ∀ p, p < nbs → garray.getD p 0 ≤ Nbs) (c : Nat) :
    (ghostPositions Nbs nbs garray).getD c 0 ≠ 0 ↔ ∃ p, p < nbs ∧ garray.getD p 0 = c := by
  unfold ghostPositions
  have key : ∀ n, n ≤ nbs →
      (forLoop n (fun i l => l.set (garray.getD i 0) (i + 1)) (List.replicate (Nbs + 1) 0)).length
        = Nbs + 1 ∧
      ((forLoop n (fun i l => l.set (garray.getD i 0) (i + 1))
          (List.replicate (Nbs + 1) 0)).getD c 0 ≠ 0 ↔ ∃ p, p < n ∧ garray.getD p 0 = c) := by
    intro n
    induction n with
    | zero =>
      intro _
      refine ⟨List.length_replicate _ _, ?_⟩
      rw [forLoop_zero, getD_replicate_zero]
      exact ⟨fun h => absurd rfl h, fun ⟨p, hp, _⟩ => absurd hp (Nat.not_lt_zero p)⟩
    | succ n ih =>
      intro hn
      obtain ⟨h1, h2⟩ := ih (by omega)
      rw [forLoop_succ]
      refine ⟨by rw [List.length_set, h1], ?_⟩
      show List.getD (List.set _ _ _) c 0 ≠ 0 ↔ _
      rw [getD_set, h1]
      by_cases hc : garray.getD n 0 = c
      · rw [if_pos ⟨hc, by have := hlt n (by omega); omega⟩]
        exact ⟨fun _ => ⟨n, by omega, hc⟩, fun _ => Nat.succ_ne_zero n⟩
      · rw [if_neg (fun h => hc h.1), h2]
        constructor
        · rintro ⟨p, hp, hpc⟩
          exact ⟨p, by omega, hpc⟩
        · rintro ⟨p, hp, hpc⟩
          have hpn : p ≠ n := fun h => hc (h ▸ hpc)
          exact ⟨p, by omega, hpc⟩
  exact (key nbs (le_refl _)).2

/-- The two counters of the set-up are the two counts of the specification. -/
theorem setUp_counts {α : Type} (inA : Mat_MPIBAIJ α) (hin : SetUpInputOK inA) :
    (ownedPass inA.A.bs inA.rstart_bs inA.rend_bs inA.bmapping).1 = specOwnedCount inA ∧
    PetscInt_mul (specOwnedCount inA) inA.A.bs = specOwnedCount inA * inA.A.bs ∧
    setUpGhostCount inA = specGhostCount inA := by
  obtain ⟨h1, h2, h3, _⟩ := hin
  have e1 : (ownedPass inA.A.bs inA.rstart_bs inA.rend_bs inA.bmapping).1
      = specOwnedCount inA := by
    rw [(ownedPass_spec _ _ _ _).1]
    unfold specOwnedCount
    congr 1
    apply List.filter_congr
    intro i hi
    rw [PetscInt_mul_eq _ _ (h1 i (List.mem_range.1 hi))]
  refine ⟨e1, ?_, ?_⟩
  · apply PetscInt_mul_eq
    have hle : specOwnedCount inA ≤ inA.bmapping.n := filter_range_length_le _ _
    exact Nat.le_trans (Nat.mul_le_mul_right _ hle) h2
  · unfold setUpGhostCount specGhostCount
    rw [(ghostPass_spec _ _).1]
    congr 1
    apply List.filter_congr
    intro i _
    rw [decide_eq_decide]
    exact ghostPositions_known inA.Nbs inA.B.nbs (inA.garray.getD [])
      (fun p hp => Nat.le_of_lt (h3 p hp)) _

/-- C22: for a matrix whose Ghost Array cells and mapped global indices are block columns
below `Nbs` and whose products fit a `PetscInt`, `MatMPIBAIJDiagonalScaleLocalSetUp` returns
`PETSC_ERR_PLIB` if and only if a dimension check fails as the specification words it
(`nt*bs != n`, or more ghost columns among the local block indices than local block indices
outside the ownership range); it returns no other error, and succeeds otherwise. -/
theorem C22_setup_fails_iff_dimension_check {α : Type} [Inhabited α] (inA : Mat_MPIBAIJ α)
    (scale : Vec α) (st : UglyStatics α) (hin : SetUpInputOK inA) :
    ((MatMPIBAIJDiagonalScaleLocalSetUp inA scale st).1
        = Except.error PetscErrorCode.PETSC_ERR_PLIB ↔ specDimensionCheckFails inA) ∧
    (¬ specDimensionCheckFails inA →
      (MatMPIBAIJDiagonalScaleLocalSetUp inA scale st).1 = Except.ok ()) ∧
    (∀ e, (MatMPIBAIJDiagonalScaleLocalSetUp inA scale st).1 = Except.error e →
      e = PetscErrorCode.PETSC_ERR_PLIB) := by
  obtain ⟨e1, e2, e3⟩ := setUp_counts inA hin
  obtain ⟨c1, c2, c3⟩ := setUp_cases inA scale st
  rw [e1, e2] at c1
  rw [e1, e2, e3] at c2 c3
  unfold specDimensionCheckFails
  by_cases h1 : specOwnedCount inA * inA.A.bs = inA.A.n
  · by_cases h2 : inA.bmapping.n - specOwnedCount inA < specGhostCount inA
    · rw [c2 h1 h2]
      exact ⟨⟨fun _ => Or.inr h2, fun _ => rfl⟩, fun hn => absurd (Or.inr h2) hn,
        fun e he => by cases he; rfl⟩
    · have hok := c3 h1 (Nat.le_of_not_lt h2)
      rw [hok]
      refine ⟨⟨fun h => (by cases h), fun h => ?_⟩, fun _ => rfl, fun e he => (by cases he)⟩
      rcases h with h | h
      · exact absurd h1 h
      · exact absurd h h2
  · rw [c1 h1]
    exact ⟨⟨fun _ => Or.inl h1, fun _ => rfl⟩, fun hn => absurd (Or.inl h1) hn,
      fun e he => by cases he; rfl⟩

/-- C22 on three matrices: `scaleAssembled` passes both checks, `shortMapMat` fails the
first and `partialMat` the second. -/
theorem C22_setup_fails_iff_dimension_check_witness :
    (SetUpInputOK scaleAssembled ∧ ¬ specDimensionCheckFails scaleAssembled ∧
      (MatMPIBAIJDiagonalScaleLocalSetUp scaleAssembled scaleVec UglyStatics.initial).1
        = Except.ok ()) ∧
    (SetUpInputOK shortMapMat ∧ specOwnedCount shortMapMat * shortMapMat.A.bs = 2 ∧
      shortMapMat.A.n = 4 ∧
      (MatMPIBAIJDiagonalScaleLocalSetUp shortMapMat scaleVec UglyStatics.initial).1
        = Except.error PetscErrorCode.PETSC_ERR_PLIB) ∧
    (SetUpInputOK partialMat ∧ specOwnedCount partialMat * partialMat.A.bs = partialMat.A.n ∧
      specGhostCount partialMat = 2 ∧ partialMat.bmapping.n - specOwnedCount partialMat = 1 ∧
      (MatMPIBAIJDiagonalScaleLocalSetUp partialMat scaleVec UglyStatics.initial).1
        = Except.error PetscErrorCode.PETSC_ERR_PLIB) :=
  ⟨⟨by decide, by decide,
      (C22_setup_fails_iff_dimension_check scaleAssembled scaleVec UglyStatics.initial
        (by decide)).2.1 (by decide)⟩,
    ⟨by decide, by decide, by decide,
      (C22_setup_fails_iff_dimension_check shortMapMat scaleVec UglyStatics.initial
        (by decide)).1.2 (by decide)⟩,
    ⟨by decide, by decide, by decide, by decide,
      (C22_setup_fails_iff_dimension_check partialMat scaleVec UglyStatics.initial
        (by decide)).1.2 (by decide)⟩⟩

/-! ## The writes into the off-diagonal index map -/

/-- The loops of lines 296-302 perform the writes of `rmapoWrites`, in that order, on a fresh
array of `nt*bs+1` cells. -/
theorem fillRmapo_eq_writes (bs nt bn : Nat) (r_rmapo : List Nat) :
    fillRmapo bs nt bn r_rmapo
      = (rmapoWrites bs bn r_rmapo).foldl (fun u w => u.set w.1 w.2)
          (List.replicate (PetscInt_mul nt bs + 1) 0) := by
  unfold fillRmapo rmapoWrites forLoop
  rw [foldl_flatMap_eq]
  congr 1
  funext u i
  show (if r_rmapo.getD i 0 ≠ 0 then _ else u) = _
  by_cases h : r_rmapo.getD i 0 ≠ 0
  · rw [if_pos h, if_pos h, List.foldl_map]
  · rw [if_neg h, if_neg h]
    rfl

/-- Every covered cell of an injective Ghost Array is the image of a local block index, so
the local block indices that are ghost columns are at least `nbs`. -/
theorem ghost_count_ge (nbs : Nat) (garray : List Nat) (bm : ISLocalToGlobalMapping)
    (hinj : ∀ p q, p < nbs → q < nbs → garray.getD p 0 = garray.getD q 0 → p = q)
    (hcover : ∀ p, p < nbs → ∃ i, i < bm.n ∧ bm.indices.getD i 0 = garray.getD p 0) :
    nbs ≤ ((List.range bm.n).filter (fun i =>
      decide (∃ q, q < nbs ∧ garray.getD q 0 = bm.indices.getD i 0))).length := by
  classical
  have hnd : ((List.range bm.n).filter (fun i =>
      decide (∃ q, q < nbs ∧ garray.getD q 0 = bm.indices.getD i 0))).Nodup :=
    (List.nodup_range bm.n).filter _
  have hmem : ∀ i, i ∈ ((List.range bm.n).filter (fun i =>
      decide (∃ q, q < nbs ∧ garray.getD q 0 = bm.indices.getD i 0))).toFinset ↔
      i < bm.n ∧ ∃ q, q < nbs ∧ garray.getD q 0 = bm.indices.getD i 0 := by
    intro i
    rw [List.mem_toFinset, List.mem_filter, List.mem_range, decide_eq_true_eq]
  have hchoose : ∀ i, ∃ v, ∀ q, q < nbs → garray.getD q 0 = bm.indices.getD i 0 → v = q := by
    intro i
    by_cases h : ∃ q, q < nbs ∧ garray.getD q 0 = bm.indices.getD i 0
    · obtain ⟨q, hq, hqc⟩ := h
      exact ⟨q, fun q2 hq2 h2 => hinj q q2 hq hq2 (hqc.trans h2.symm)⟩
    · exact ⟨0, fun q hq hqc => absurd ⟨q, hq, hqc⟩ h⟩
  obtain ⟨f, hf⟩ := Classical.axiomOfChoice hchoose
  rw [← List.toFinset_card_of_nodup hnd]
  have h := Finset.card_le_card_of_surjOn f
    (fun p hp => by
      have hp1 : p < nbs := Finset.mem_range.1 (Finset.mem_coe.1 hp)
      obtain ⟨i, hi, hip⟩ := hcover p hp1
      exact ⟨i, Finset.mem_coe.2 ((hmem i).2 ⟨hi, p, hp1, hip.symm⟩), hf i p hp1 hip.symm⟩)
  rw [Finset.card_range] at h
  exact h

/-- Where the writes of lines 296-302 land, for an injective Ghost Array below `Nbs`: a
write comes from a local block index `i` mapped to the Ghost Array cell `p` and goes to
`p*bs + j`. -/
theorem rmapoWrites_targets {α : Type} (inA : Mat_MPIBAIJ α) (hg : GhostArrayOK inA)
    (w : Nat × Nat) (hw : w ∈ setUpRmapoWrites inA) :
    ∃ p i j, p < inA.B.nbs ∧ i < inA.bmapping.n ∧ j < inA.A.bs ∧
      (inA.garray.getD []).getD p 0 = inA.bmapping.indices.getD i 0 ∧
      w.1 = PetscInt_mul p inA.A.bs + j ∧ w.2 = PetscInt_mul i inA.A.bs + j := by
  obtain ⟨hinj, hlt⟩ := hg
  unfold setUpRmapoWrites rmapoWrites at hw
  obtain ⟨i, hi, hwi⟩ := List.mem_flatMap.1 hw
  have hi' : i < inA.bmapping.n := List.mem_range.1 hi
  by_cases hr : (ghostPass (ghostPositions inA.Nbs inA.B.nbs (inA.garray.getD []))
      inA.bmapping).2.getD i 0 ≠ 0
  · rw [if_pos hr] at hwi
    obtain ⟨j, hj, hwj⟩ := List.mem_map.1 hwi
    have hval := (ghostPass_spec (ghostPositions inA.Nbs inA.B.nbs (inA.garray.getD []))
      inA.bmapping).2 i
    by_cases hk : (ghostPositions inA.Nbs inA.B.nbs (inA.garray.getD [])).getD
        (inA.bmapping.indices.getD i 0) 0 ≠ 0
    · rw [if_pos ⟨hi', hk⟩] at hval
      obtain ⟨p, hp, hpc⟩ := (ghostPositions_known inA.Nbs inA.B.nbs (inA.garray.getD [])
        hlt _).1 hk
      have hpos := (ghostPositions_spec inA.Nbs inA.B.nbs (inA.garray.getD [])
        (fun p q hp hq => hinj p hp q hq) hlt).1 p hp
      rw [hpc] at hpos
      rw [hval, hpos, Nat.add_sub_cancel] at hwj
      exact ⟨p, i, j, hp, hi', List.mem_range.1 hj, hpc, by rw [← hwj], by rw [← hwj]⟩
    · rw [if_neg (fun h => hk h.2)] at hval
      exact absurd hval hr
  · rw [if_neg hr] at hwi
    cases hwi

/-- C26 as stated fails: on the matrix `gapMat` (block size 2, Ghost Array 0, 5, local block
indices 2, 3, 5) both checks pass with `nt = 1`, the work buffer `uglyoo` has `nt*bs = 2`
cells and `uglyrmapo` has 3, and the two writes of lines 296-302 go to the offsets 2 and 3,
which are not in `[0, 2)`. -/
theorem C26_offdiagonal_writes_in_bounds_counterexample :
    (MatMPIBAIJDiagonalScaleLocalSetUp gapMat scaleVec UglyStatics.initial).1 = Except.ok () ∧
    setUpGhostCount gapMat = 1 ∧ gapMat.A.bs = 2 ∧
    (MatMPIBAIJDiagonalScaleLocalSetUp gapMat scaleVec
      UglyStatics.initial).2.uglyoo.map VecGetLocalSize = some 2 ∧
    (MatMPIBAIJDiagonalScaleLocalSetUp gapMat scaleVec
      UglyStatics.initial).2.uglyrmapo.map List.length = some 3 ∧
    setUpRmapoWrites gapMat = [(2, 4), (3, 5)] ∧
    ¬ (∀ w, w ∈ setUpRmapoWrites gapMat → w.1 < setUpGhostCount gapMat * gapMat.A.bs) :=
  ⟨rfl, by decide, by decide, by decide, by decide, by decide, by decide⟩

/-- C26 (amended): when `MatMPIBAIJDiagonalScaleLocalSetUp` passes both checks, the Ghost
Array cells `garray[0..B->nbs)` are pairwise distinct block columns below `Nbs`, the products
fit a `PetscInt`, and every ghost column is the global index of some local block index, then
`uglyrmapo` is the result of the writes of lines 296-302 on a fresh array of `nt*bs+1` cells,
the work buffer `uglyoo` has `nt*bs` cells, and every write targets an offset in
`[0, nt*bs)`. -/
theorem C26_offdiagonal_writes_in_bounds {α : Type} [Inhabited α] (inA : Mat_MPIBAIJ α)
    (scale : Vec α) (st : UglyStatics α)
    (hok : (MatMPIBAIJDiagonalScaleLocalSetUp inA scale st).1 = Except.ok ())
    (hin : SetUpInputOK inA) (hg : GhostArrayOK inA) (hcover : GhostCovered inA) :
    (MatMPIBAIJDiagonalScaleLocalSetUp inA scale st).2.uglyrmapo
      = some ((setUpRmapoWrites inA).foldl (fun u w => u.set w.1 w.2)
          (List.replicate (setUpGhostCount inA * inA.A.bs + 1) 0)) ∧
    (MatMPIBAIJDiagonalScaleLocalSetUp inA scale st).2.uglyoo.map VecGetLocalSize
      = some (setUpGhostCount inA * inA.A.bs) ∧
    ∀ w, w ∈ setUpRmapoWrites inA → w.1 < setUpGhostCount inA * inA.A.bs := by
  obtain ⟨_, _, _, _, f5, f6⟩ := setUp_ok_facts inA scale st hok
  obtain ⟨_, _, e3⟩ := setUp_counts inA hin
  have hge : inA.B.nbs ≤ setUpGhostCount inA := by
    rw [e3]
    exact ghost_count_ge inA.B.nbs (inA.garray.getD []) inA.bmapping
      (fun p q hp hq => hg.1 p hp q hq) hcover
  have hle : setUpGhostCount inA ≤ inA.bmapping.n := by
    rw [e3]
    exact filter_range_length_le _ _
  have hmul : PetscInt_mul (setUpGhostCount inA) inA.A.bs = setUpGhostCount inA * inA.A.bs :=
    PetscInt_mul_eq _ _ (Nat.le_trans (Nat.mul_le_mul_right _ hle) hin.2.1)
  refine ⟨?_, ?_, fun w hw => ?_⟩
  · rw [f5, fillRmapo_eq_writes]
    show some (List.foldl _ (List.replicate (PetscInt_mul (setUpGhostCount inA) inA.A.bs + 1) 0)
      (setUpRmapoWrites inA)) = _
    rw [hmul]
  · rw [f6]
    show some (List.replicate (PetscInt_mul (setUpGhostCount inA) inA.A.bs) default).length = _
    rw [List.length_replicate, hmul]
  · obtain ⟨p, i, j, hp, _, hj, _, hw1, _⟩ := rmapoWrites_targets inA hg w hw
    have hpb : p * inA.A.bs ≤ PETSC_MAX_INT :=
      Nat.le_trans (Nat.mul_le_mul_right _ (Nat.le_trans (Nat.le_of_lt hp)
        (Nat.le_trans hge hle))) hin.2.1
    rw [hw1, PetscInt_mul_eq _ _ hpb]
    exact Nat.lt_of_lt_of_le (pos_lt inA.A.bs inA.B.nbs p j hp hj) (Nat.mul_le_mul_right _ hge)

/-- C26 (amended) on `scaleAssembled`: four writes, to the offsets 0, 1, 2, 3 of the five
cells of `uglyrmapo`. -/
theorem C26_offdiagonal_writes_in_bounds_witness :
    ((MatMPIBAIJDiagonalScaleLocalSetUp scaleAssembled scaleVec UglyStatics.initial).1
        = Except.ok () ∧
      SetUpInputOK scaleAssembled ∧ GhostArrayOK scaleAssembled ∧
      GhostCovered scaleAssembled) ∧
    (setUpRmapoWrites scaleAssembled = [(0, 4), (1, 5), (2, 6), (3, 7)] ∧
      setUpGhostCount scaleAssembled * scaleAssembled.A.bs = 4) ∧
    ∀ w, w ∈ setUpRmapoWrites scaleAssembled →
      w.1 < setUpGhostCount scaleAssembled * scaleAssembled.A.bs :=
  ⟨⟨rfl, by decide, by decide, by decide⟩, ⟨by decide, by decide⟩,
    (C26_offdiagonal_writes_in_bounds scaleAssembled scaleVec UglyStatics.initial rfl
      (by decide) (by decide) (by decide)).2.2⟩

/-! ## The vector interface -/

/-- The header check passes on a valid vector. -/
theorem valid_header {σ : Type} (v : _p_Vec σ) (hv : VecValid v = true) :
    PetscValidHeaderSpecific v.cookie Cookie.VEC_COOKIE = Except.ok () := by
  unfold VecValid at hv
  unfold PetscValidHeaderSpecific
  rw [if_pos (of_decide_eq_true hv)]

/-- C25: for a valid vector `v` and a nonzero `bs` (for `bs = 0` the remainder of C is
undefined), `VecSetBlockSize` returns `PETSC_ERR_ARG_OUTOFRANGE` if and only if `bs` does not
divide the global length `N` or does not divide the local length `n`, and then it leaves the
vector, its block size included, as it was; otherwise it returns success and the vector with
block size `bs`. -/
theorem C25_block_size_divisibility {σ : Type} (v : _p_Vec σ) (bs : Int)
    (hv : VecValid v = true) (_hbs : bs ≠ 0) :
    ((VecSetBlockSize v bs).1 = Except.error PetscErrorCode.PETSC_ERR_ARG_OUTOFRANGE ↔
      (¬ bs ∣ v.N ∨ ¬ bs ∣ v.n)) ∧
    ((¬ bs ∣ v.N ∨ ¬ bs ∣ v.n) →
      (VecSetBlockSize v bs).2 = v ∧ (VecSetBlockSize v bs).2.bs = v.bs) ∧
    (bs ∣ v.N → bs ∣ v.n →
      (VecSetBlockSize v bs).1 = Except.ok () ∧
      (VecSetBlockSize v bs).2 = { v with bs := bs } ∧ (VecSetBlockSize v bs).2.bs = bs) := by
  have hdef : VecSetBlockSize v bs
      = if Int.tmod v.N bs ≠ 0 then (Except.error PetscErrorCode.PETSC_ERR_ARG_OUTOFRANGE, v)
        else if Int.tmod v.n bs ≠ 0 then
          (Except.error PetscErrorCode.PETSC_ERR_ARG_OUTOFRANGE, v)
        else (Except.ok (), { v with bs := bs }) := by
    unfold VecSetBlockSize
    rw [valid_header v hv]
  rw [hdef]
  by_cases h1 : bs ∣ v.N
  · by_cases h2 : bs ∣ v.n
    · rw [if_neg (not_not.2 (Int.tmod_eq_zero_of_dvd h1)),
        if_neg (not_not.2 (Int.tmod_eq_zero_of_dvd h2))]
      refine ⟨⟨fun h => (by cases h), fun h => ?_⟩, fun h => ?_, fun _ _ => ⟨rfl, rfl, rfl⟩⟩
      · rcases h with h | h
        · exact absurd h1 h
        · exact absurd h2 h
      · rcases h with h | h
        · exact absurd h1 h
        · exact absurd h2 h
    · rw [if_neg (not_not.2 (Int.tmod_eq_zero_of_dvd h1)),
        if_pos (fun h => h2 (Int.dvd_of_tmod_eq_zero h))]
      exact ⟨⟨fun _ => Or.inr h2, fun _ => rfl⟩, fun _ => ⟨rfl, rfl⟩,
        fun _ h => absurd h h2⟩
  · rw [if_pos (fun h => h1 (Int.dvd_of_tmod_eq_zero h))]
    exact ⟨⟨fun _ => Or.inl h1, fun _ => rfl⟩, fun _ => ⟨rfl, rfl⟩, fun h _ => absurd h h1⟩

/-- C25 on the sample vector of lengths 8: block size 4 is accepted, block size 3 refused. -/
theorem C25_block_size_divisibility_witness :
    (VecValid sampleVector = true ∧ (4 : Int) ≠ 0 ∧ (4 : Int) ∣ sampleVector.N ∧
      (4 : Int) ∣ sampleVector.n ∧ (3 : Int) ≠ 0 ∧ ¬ (3 : Int) ∣ sampleVector.N) ∧
    ((VecSetBlockSize sampleVector 4).1 = Except.ok () ∧
      (VecSetBlockSize sampleVector 4).2.bs = 4) ∧
    ((VecSetBlockSize sampleVector 3).1
        = Except.error PetscErrorCode.PETSC_ERR_ARG_OUTOFRANGE ∧
      (VecSetBlockSize sampleVector 3).2.bs = sampleVector.bs) :=
  ⟨⟨by decide, by decide, by decide, by decide, by decide, by decide⟩,
    ⟨((C25_block_size_divisibility sampleVector 4 (by decide) (by decide)).2.2
        (by decide) (by decide)).1,
      ((C25_block_size_divisibility sampleVector 4 (by decide) (by decide)).2.2
        (by decide) (by decide)).2.2⟩,
    ⟨(C25_block_size_divisibility sampleVector 3 (by decide) (by decide)).1.2
        (Or.inl (by decide)),
      ((C25_block_size_divisibility sampleVector 3 (by decide) (by decide)).2.1
        (Or.inl (by decide))).2⟩⟩

/-- On a valid vector with a blocked mapping, `VecSetValuesBlockedLocal` hands the
implementation the indices translated through `x->mapping`. -/
theorem blocked_local_translation {σ α : Type} (ops : VecOps σ α) (x : _p_Vec σ) (ni : Nat)
    (ix : List Nat) (y : List α) (iora : InsertMode) (hv : VecValid x = true)
    (hb : x.bmapping.isSome = true) :
    VecSetValuesBlockedLocal ops x ni ix y iora
      = ops.setvaluesblocked x ni (ISLocalToGlobalMappingApply x.mapping ni ix) y iora := by
  unfold VecSetValuesBlockedLocal
  rw [valid_header x hv]
  have hn : x.bmapping.isNone = false := by
    cases hm : x.bmapping with
    | none => rw [hm] at hb; cases hb
    | some m => rfl
  simp only [hn, Bool.false_eq_true, if_false]

/-- C23, evaluated: the vector `mappedVector` has the element mapping `4, 5, 6, 7` in
`mapping` and the block mapping `3, 1` in `bmapping`.  `VecSetValuesBlockedLocal` for the local
blocks 0 and 1 hands the implementation the block indices 4 and 5, the translation through
`mapping`, where the translation through `bmapping` is 3 and 1.  Without a blocked mapping
the call returns `PETSC_ERR_ARG_WRONGSTATE`. -/
theorem C23_blocked_local_uses_element_mapping :
    mappedVector.mapping.map (fun m => m.indices) = some [4, 5, 6, 7] ∧
    mappedVector.bmapping.map (fun m => m.indices) = some [3, 1] ∧
    (VecSetValuesBlockedLocal sampleOps mappedVector 2 [0, 1] [1, 2, 3, 4]
      InsertMode.INSERT_VALUES).toOption.map (fun x => x.data.received)
      = some [(4, [1, 2]), (5, [3, 4])] ∧
    ISLocalToGlobalMappingApply mappedVector.mapping 2 [0, 1] = [4, 5] ∧
    ISLocalToGlobalMappingApply mappedVector.bmapping 2 [0, 1] = [3, 1] ∧
    (VecSetValuesBlockedLocal sampleOps sampleVector 2 [0, 1] [1, 2, 3, 4]
      InsertMode.INSERT_VALUES).toOption.map (fun x => x.data.received) = none ∧
    (∀ (ops : VecOps SampleVecData Int) (ni : Nat) (ix : List Nat) (y : List Int)
        (iora : InsertMode),
      VecSetValuesBlockedLocal ops mappedVector ni ix y iora
        = ops.setvaluesblocked mappedVector ni
            (ISLocalToGlobalMappingApply mappedVector.mapping ni ix) y iora) ∧
    (∀ (ops : VecOps SampleVecData Int) (ni : Nat) (ix : List Nat) (y : List Int)
        (iora : InsertMode),
      VecSetValuesBlockedLocal ops sampleVector ni ix y iora
        = Except.error PetscErrorCode.PETSC_ERR_ARG_WRONGSTATE) :=
  ⟨by decide, by decide, by decide, by decide, by decide, by decide,
    fun _ _ _ _ _ => rfl, fun _ _ _ _ _ => rfl⟩

/-- On a valid vector whose implementation provides `restorearray`, `VecRestoreArray` is
the `getarray` operation; without the entry it returns the vector and the array as given. -/
theorem restore_array_call {σ α : Type} (ops : VecOps σ α) (x : _p_Vec σ) (a : List α)
    (hv : VecValid x = true) :
    (ops.restorearray.isSome = true → VecRestoreArray ops x a = ops.getarray x) ∧
    (ops.restorearray.isSome = false → VecRestoreArray ops x a = Except.ok (x, a)) := by
  unfold VecRestoreArray
  rw [valid_header x hv]
  exact ⟨fun h => by simp only [h, if_true],
    fun h => by simp only [h, Bool.false_eq_true, if_false]⟩

/-- C24, evaluated: the sample implementation counts the array accesses it handed out.
After `VecGetArray` on `sampleVector` one access is outstanding and the caller holds the
values; `VecRestoreArray` then runs `getarray` once more, so that two accesses are
outstanding and the caller still holds the values, where the `restorearray` operation leaves
none outstanding and clears the pointer.  With an implementation without `restorearray` the
call changes nothing. -/
theorem C24_restore_array_runs_getarray :
    sampleOps.restorearray.isSome = true ∧
    (VecGetArray sampleOps sampleVector).toOption.map
        (fun r => (r.1.data.outstanding, r.2))
      = some (1, [10, 11, 12, 13, 14, 15, 16, 17]) ∧
    ((VecGetArray sampleOps sampleVector).toOption.bind
        (fun r => (VecRestoreArray sampleOps r.1 r.2).toOption)).map
        (fun r => (r.1.data.outstanding, r.2))
      = some (2, [10, 11, 12, 13, 14, 15, 16, 17]) ∧
    ((VecGetArray sampleOps sampleVector).toOption.bind
        (fun r => (sampleOps.restorearray.bind (fun f => (f r.1 r.2).toOption)))).map
        (fun r => (r.1.data.outstanding, r.2))
      = some (0, []) ∧
    (∀ (a : List Int),
      VecRestoreArray sampleOps sampleVector a = sampleOps.getarray sampleVector) ∧
    sampleOpsNoRestore.restorearray.isSome = false ∧
    ((VecGetArray sampleOpsNoRestore sampleVector).toOption.bind
        (fun r => (VecRestoreArray sampleOpsNoRestore r.1 r.2).toOption)).map
        (fun r => (r.1.data.outstanding, r.2))
      = some (1, [10, 11, 12, 13, 14, 15, 16, 17]) ∧
    (∀ (a : List Int),
      VecRestoreArray sampleOpsNoRestore sampleVector a = Except.ok (sampleVector, a)) :=
  ⟨rfl, by decide, by decide, by decide, fun _ => rfl, rfl, by decide, fun _ => rfl⟩

/-! ## Rebuilding rows whose columns are distinct -/

/-- Storing a block at a column the row does not hold yet, in a row with a free slot: the
entries from position `pos` on move one slot up inside the row and the new column takes slot
`pos`; the row offsets and the row capacities stay. -/
theorem insert_room_row {α : Type} [Inhabited α] [Add α] (D : Mat_SeqBAIJ α)
    (row col : Nat) (v : List α) (is : InsertMode)
    (hnew : ∀ t, t < D.ilen.getD row 0 → D.j.getD (D.i.getD row 0 + t) 0 ≠ col)
    (hroom : D.ilen.getD row 0 < D.imax.getD row 0)
    (hE : D.i.getD row 0 + D.ilen.getD row 0 < D.j.length) :
    ∃ pos, pos ≤ D.ilen.getD row 0 ∧
      (MatSetValuesBlocked_SeqBAIJ D row col v is).i = D.i ∧
      (MatSetValuesBlocked_SeqBAIJ D row col v is).imax = D.imax ∧
      (MatSetValuesBlocked_SeqBAIJ D row col v is).ilen
        = D.ilen.set row (D.ilen.getD row 0 + 1) ∧
      (MatSetValuesBlocked_SeqBAIJ D row col v is).j.length = D.j.length ∧
      (∀ x, (MatSetValuesBlocked_SeqBAIJ D row col v is).j.getD x 0
        = if x < D.i.getD row 0 + pos then D.j.getD x 0
          else if x = D.i.getD row 0 + pos then col
          else if x ≤ D.i.getD row 0 + D.ilen.getD row 0 then D.j.getD (x - 1) 0
          else D.j.getD x 0) := by
  have hposle : ((List.range (D.ilen.getD row 0)).map
      (fun t => D.j.getD (D.i.getD row 0 + t) 0)).findIdx (fun c => decide (col ≤ c))
      ≤ D.ilen.getD row 0 := by
    have : ((List.range (D.ilen.getD row 0)).map
        (fun t => D.j.getD (D.i.getD row 0 + t) 0)).findIdx (fun c => decide (col ≤ c))
        ≤ ((List.range (D.ilen.getD row 0)).map
          (fun t => D.j.getD (D.i.getD row 0 + t) 0)).length := List.findIdx_le_length _
    simpa using this
  generalize hpos : ((List.range (D.ilen.getD row 0)).map
      (fun t => D.j.getD (D.i.getD row 0 + t) 0)).findIdx (fun c => decide (col ≤ c)) = pos
    at hposle
  have hbranch : ¬ (pos < D.ilen.getD row 0 ∧ D.j.getD (D.i.getD row 0 + pos) 0 = col) :=
    fun h => hnew pos h.1 h.2
  have hdec : decide (D.imax.getD row 0 ≤ D.ilen.getD row 0) = false :=
    decide_eq_false (Nat.not_le.2 hroom)
  obtain ⟨j2len, j2get⟩ := shift_spec (D.i.getD row 0 + D.ilen.getD row 0) D.j
    (D.ilen.getD row 0 - pos) (by omega) hE
  have hi : (MatSetValuesBlocked_SeqBAIJ D row col v is).i = D.i := by
    unfold MatSetValuesBlocked_SeqBAIJ
    simp only [hpos, if_neg hbranch, hdec, Bool.false_eq_true, if_false]
  have himax : (MatSetValuesBlocked_SeqBAIJ D row col v is).imax = D.imax := by
    unfold MatSetValuesBlocked_SeqBAIJ
    simp only [hpos, if_neg hbranch, hdec, Bool.false_eq_true, if_false]
  have hilen : (MatSetValuesBlocked_SeqBAIJ D row col v is).ilen
      = D.ilen.set row (D.ilen.getD row 0 + 1) := by
    unfold MatSetValuesBlocked_SeqBAIJ
    simp only [hpos, if_neg hbranch, hdec, Bool.false_eq_true, if_false]
  have hj : (MatSetValuesBlocked_SeqBAIJ D row col v is).j
      = (forLoop (D.ilen.getD row 0 - pos) (fun (d : Nat) (j : List Nat) =>
          j.set (D.i.getD row 0 + D.ilen.getD row 0 - d)
            (j.getD (D.i.getD row 0 + D.ilen.getD row 0 - 1 - d) 0)) D.j).set
          (D.i.getD row 0 + pos) col := by
    unfold MatSetValuesBlocked_SeqBAIJ
    simp only [hpos, if_neg hbranch, hdec, Bool.false_eq_true, if_false]
  refine ⟨pos, hposle, hi, himax, hilen, ?_, fun x => ?_⟩
  · rw [hj, List.length_set, j2len]
  · rw [hj, getD_set, j2len, j2get x]
    by_cases h1 : x < D.i.getD row 0 + pos
    · rw [if_neg (by omega), if_neg (by omega), if_pos h1]
    · rw [if_neg h1]
      by_cases h2 : x = D.i.getD row 0 + pos
      · rw [if_pos ⟨h2.symm, by omega⟩, if_pos h2]
      · rw [if_neg (fun h => h2 h.1.symm), if_neg h2]
        by_cases h3 : x ≤ D.i.getD row 0 + D.ilen.getD row 0
        · rw [if_pos ⟨by omega, h3⟩, if_pos h3]
        · rw [if_neg (fun h => h3 h.2), if_neg h3]

/-- One pass of the body of the rebuilding loop when the columns of a row are distinct:
entry `K` of row `r` finds a free slot and the row holds one entry more. -/
theorem fill_step {α : Type} [Inhabited α] [Add α] (len : Nat → Nat) (mbs : Nat)
    (col : Nat → Nat) (vf : Nat → List α) (Bn : Mat_SeqBAIJ α) (is : InsertMode)
    (hinj : ∀ r, r < mbs → ∀ k1, rowOffset len r ≤ k1 → k1 < rowOffset len (r + 1) →
      ∀ k2, rowOffset len r ≤ k2 → k2 < rowOffset len (r + 1) → col k1 = col k2 → k1 = k2)
    (r K : Nat) (hr : r < mbs) (hK1 : rowOffset len r ≤ K) (hK2 : K < rowOffset len (r + 1))
    (hinv : FillInv len mbs col Bn K) :
    FillInv len mbs col (MatSetValuesBlocked_SeqBAIJ Bn r (col K) (vf K) is) (K + 1) := by
  obtain ⟨v1, v2, v3, v4, v5, v6⟩ := hinv
  have hsucc := rowOffset_succ len r
  have hstart : Bn.i.getD r 0 = rowOffset len r := v1 r (by omega)
  have hnrow : Bn.ilen.getD r 0 = K - rowOffset len r := by
    rw [v4 r hr]; omega
  have hend := rowOffset_mono len (r + 1) mbs hr
  obtain ⟨pos, hpos, a1, a2, a3, a4, a5⟩ := insert_room_row Bn r (col K) (vf K) is
    (fun t ht heq => by
      obtain ⟨k, k1, k2, k3, k4⟩ := v6 r hr t ht
      rw [hstart, k4] at heq
      have := hinj r hr k k1 k3 K hK1 hK2 heq
      omega)
    (by rw [v2 r hr, hnrow]; omega)
    (by rw [hstart, hnrow, v5]; omega)
  rw [hstart, hnrow] at a5
  rw [hnrow] at hpos a3
  refine ⟨fun q hq => by rw [a1]; exact v1 q hq, fun q hq => by rw [a2]; exact v2 q hq,
    by rw [a3, List.length_set, v3], fun q hq => ?_, by rw [a4, v5], fun q hq t ht => ?_⟩
  · rw [a3, getD_set, v3]
    by_cases hqr : r = q
    · subst hqr
      rw [if_pos ⟨rfl, hr⟩]; omega
    · rw [if_neg (fun hh => hqr hh.1), v4 q hq]
      rcases Nat.lt_or_gt_of_ne hqr with hlt | hgt
      · have := rowOffset_mono len (r + 1) q hlt
        omega
      · have := rowOffset_end_le len q r hgt
        omega
  · rw [a3, getD_set, v3] at ht
    rw [a5 (rowOffset len q + t)]
    by_cases hqr : r = q
    · subst hqr
      rw [if_pos ⟨rfl, hr⟩] at ht
      by_cases h1 : rowOffset len r + t < rowOffset len r + pos
      · rw [if_pos h1]
        obtain ⟨k, k1, k2, k3, k4⟩ := v6 r hr t (by rw [hnrow]; omega)
        exact ⟨k, k1, by omega, k3, k4⟩
      · rw [if_neg h1]
        by_cases h2 : rowOffset len r + t = rowOffset len r + pos
        · rw [if_pos h2]
          exact ⟨K, hK1, by omega, hK2, rfl⟩
        · rw [if_neg h2, if_pos (by omega)]
          obtain ⟨k, k1, k2, k3, k4⟩ := v6 r hr (t - 1) (by rw [hnrow]; omega)
          have hidx : rowOffset len r + t - 1 = rowOffset len r + (t - 1) := by omega
          rw [hidx]
          exact ⟨k, k1, by omega, k3, k4⟩
    · rw [if_neg (fun hh => hqr hh.1)] at ht
      have hsq := rowOffset_succ len q
      have hlenq : t < len q := by rw [v4 q hq] at ht; omega
      obtain ⟨k, k1, k2, k3, k4⟩ := v6 q hq t ht
      rcases Nat.lt_or_gt_of_ne hqr with hlt | hgt
      · have := rowOffset_mono len (r + 1) q hlt
        rw [if_neg (by omega), if_neg (by omega), if_neg (by omega)]
        exact ⟨k, k1, by omega, k3, k4⟩
      · have := rowOffset_mono len (q + 1) r hgt
        rw [if_pos (by omega)]
        exact ⟨k, k1, by omega, k3, k4⟩

theorem fill_row {α : Type} [Inhabited α] [Add α] (len : Nat → Nat) (mbs : Nat)
    (col : Nat → Nat) (vf : Nat → List α) (Bn : Mat_SeqBAIJ α) (is : InsertMode)
    (hinj : ∀ r, r < mbs → ∀ k1, rowOffset len r ≤ k1 → k1 < rowOffset len (r + 1) →
      ∀ k2, rowOffset len r ≤ k2 → k2 < rowOffset len (r + 1) → col k1 = col k2 → k1 = k2)
    (r : Nat) (hr : r < mbs) (hinv : FillInv len mbs col Bn (rowOffset len r)) :
    FillInv len mbs col
      (forLoopFrom (rowOffset len r) (rowOffset len (r + 1))
        (fun j Bn => MatSetValuesBlocked_SeqBAIJ Bn r (col j) (vf j) is) Bn)
      (rowOffset len (r + 1)) := by
  have hsucc := rowOffset_succ len r
  have key : ∀ n, n ≤ len r → FillInv len mbs col
      (((List.range n).map (fun d => rowOffset len r + d)).foldl
        (fun s j => MatSetValuesBlocked_SeqBAIJ s r (col j) (vf j) is) Bn)
      (rowOffset len r + n) := by
    intro n
    induction n with
    | zero => intro _; exact hinv
    | succ n ih =>
      intro hn
      rw [List.range_succ, List.map_append, List.foldl_append]
      simp only [List.map_cons, List.map_nil, List.foldl_cons, List.foldl_nil]
      exact fill_step len mbs col vf _ is hinj r (rowOffset len r + n) hr (by omega)
        (by omega) (ih (by omega))
  unfold forLoopFrom
  have hd : rowOffset len (r + 1) - rowOffset len r = len r := by omega
  rw [hd, hsucc]
  exact key (len r) (le_refl _)

theorem fill_rows {α : Type} [Inhabited α] [Add α] (len : Nat → Nat) (mbs : Nat)
    (col : Nat → Nat) (vf : Nat → List α) (B0 : Mat_SeqBAIJ α) (is : InsertMode)
    (hinj : ∀ r, r < mbs → ∀ k1, rowOffset len r ≤ k1 → k1 < rowOffset len (r + 1) →
      ∀ k2, rowOffset len r ≤ k2 → k2 < rowOffset len (r + 1) → col k1 = col k2 → k1 = k2)
    (hinv : FillInv len mbs col B0 0) :
    FillInv len mbs col
      (forLoop mbs (fun i Bn =>
        forLoopFrom (rowOffset len i) (rowOffset len (i + 1))
          (fun j Bn => MatSetValuesBlocked_SeqBAIJ Bn i (col j) (vf j) is) Bn) B0)
      (rowOffset len mbs) := by
  have key : ∀ n, n ≤ mbs → FillInv len mbs col
      ((List.range n).foldl (fun s i =>
        forLoopFrom (rowOffset len i) (rowOffset len (i + 1))
          (fun j Bn => MatSetValuesBlocked_SeqBAIJ Bn i (col j) (vf j) is) s) B0)
      (rowOffset len n) := by
    intro n
    induction n with
    | zero => intro _; exact hinv
    | succ n ih =>
      intro hn
      rw [List.range_succ, List.foldl_append]
      simp only [List.foldl_cons, List.foldl_nil]
      exact fill_row len mbs col vf _ is hinj n (by omega) (ih (by omega))
  exact key mbs (le_refl _)

/-- The block `DisAssemble_MPIBAIJ` builds, for a matrix whose translated columns are
distinct inside every row: row `r` holds as many entries as the old row, its capacity, and
each of them is the translated column of an entry of the old row. -/
theorem disassemble_row_counts {α : Type} [Inhabited α] [Add α] (A : Mat_MPIBAIJ α)
    (g : List Nat) (hg : A.garray = some g) (hm : A.m = A.B.mbs * A.bs) (hbs : 1 ≤ A.bs)
    (hinj : ∀ r, r < A.B.mbs → ∀ t1, t1 < A.B.ilen.getD r 0 → ∀ t2, t2 < A.B.ilen.getD r 0 →
      g.getD (A.B.j.getD (A.B.i.getD r 0 + t1) 0) 0
        = g.getD (A.B.j.getD (A.B.i.getD r 0 + t2) 0) 0 → t1 = t2) :
    (∀ r, r < A.B.mbs → (DisAssemble_MPIBAIJ A).B.ilen.getD r 0 = A.B.ilen.getD r 0) ∧
    (∀ r, r < A.B.mbs → (DisAssemble_MPIBAIJ A).B.imax.getD r 0 = A.B.ilen.getD r 0) ∧
    (∀ r, r ≤ A.B.mbs → (DisAssemble_MPIBAIJ A).B.i.getD r 0
      = rowOffset (fun q => A.B.ilen.getD q 0) r) ∧
    (∀ r, r < A.B.mbs → ∀ t, t < (DisAssemble_MPIBAIJ A).B.ilen.getD r 0 →
      ∃ t', t' < A.B.ilen.getD r 0 ∧
        (DisAssemble_MPIBAIJ A).B.j.getD ((DisAssemble_MPIBAIJ A).B.i.getD r 0 + t) 0
          = g.getD (A.B.j.getD (A.B.i.getD r 0 + t') 0) 0) := by
  obtain ⟨_, o2, o3, _, o5⟩ := assembled_facts A.B
  have hnz : ∀ q, q < A.B.mbs →
      (forLoop A.B.mbs (fun i nz => nz.set i ((MatAssemblyEnd_SeqBAIJ A.B).i.getD (i + 1) 0
        - (MatAssemblyEnd_SeqBAIJ A.B).i.getD i 0)) (List.replicate A.B.mbs 0)).getD q 0
      = A.B.ilen.getD q 0 := by
    intro q hq
    rw [(forLoop_set_index (fun i => (MatAssemblyEnd_SeqBAIJ A.B).i.getD (i + 1) 0
        - (MatAssemblyEnd_SeqBAIJ A.B).i.getD i 0) A.B.mbs (List.replicate A.B.mbs 0)).2 q,
      if_pos ⟨hq, by simpa using hq⟩, o2 (q + 1) (by omega), o2 q (by omega), rowOffset_succ]
    omega
  have hmbs : A.m / A.bs = A.B.mbs := by
    rw [hm]; exact Nat.mul_div_cancel _ (by omega)
  have hoff : ∀ r, r ≤ A.B.mbs →
      rowOffset (fun q => (forLoop A.B.mbs (fun i nz => nz.set i
        ((MatAssemblyEnd_SeqBAIJ A.B).i.getD (i + 1) 0
          - (MatAssemblyEnd_SeqBAIJ A.B).i.getD i 0)) (List.replicate A.B.mbs 0)).getD q 0) r
      = rowOffset (fun q => A.B.ilen.getD q 0) r :=
    fun r hr => rowOffset_congr _ _ r (fun q hq => hnz q (by omega))
  have hcolinj : ∀ r, r < A.B.mbs →
      ∀ k1, rowOffset (fun q => A.B.ilen.getD q 0) r ≤ k1 →
      k1 < rowOffset (fun q => A.B.ilen.getD q 0) (r + 1) →
      ∀ k2, rowOffset (fun q => A.B.ilen.getD q 0) r ≤ k2 →
      k2 < rowOffset (fun q => A.B.ilen.getD q 0) (r + 1) →
      (fun k => g.getD ((MatAssemblyEnd_SeqBAIJ A.B).j.getD k 0) 0) k1
        = (fun k => g.getD ((MatAssemblyEnd_SeqBAIJ A.B).j.getD k 0) 0) k2 → k1 = k2 := by
    intro r hr k1 h1 h1' k2 h2 h2' heq
    have hsucc := rowOffset_succ (fun q => A.B.ilen.getD q 0) r
    have e1 := o5 r hr (k1 - rowOffset (fun q => A.B.ilen.getD q 0) r) (by omega)
    have e2 := o5 r hr (k2 - rowOffset (fun q => A.B.ilen.getD q 0) r) (by omega)
    rw [Nat.add_sub_cancel' h1] at e1
    rw [Nat.add_sub_cancel' h2] at e2
    simp only [e1, e2] at heq
    have := hinj r hr _ (by omega) _ (by omega) heq
    omega
  have hinv0 : FillInv (fun q => A.B.ilen.getD q 0) A.B.mbs
      (fun k => g.getD ((MatAssemblyEnd_SeqBAIJ A.B).j.getD k 0) 0)
      (MatSetOption (MatSeqBAIJSetPreallocation A.m A.N A.bs
        (forLoop A.B.mbs (fun i nz => nz.set i ((MatAssemblyEnd_SeqBAIJ A.B).i.getD (i + 1) 0
          - (MatAssemblyEnd_SeqBAIJ A.B).i.getD i 0)) (List.replicate A.B.mbs 0)) :
          Mat_SeqBAIJ α)
        MatOption.MAT_COLUMN_ORIENTED) 0 := by
    refine ⟨fun r hr => ?_, fun r hr => ?_, ?_, fun q hq => ?_, ?_, fun q hq t ht => ?_⟩
    · show ((List.range (A.m / A.bs + 1)).map _).getD r 0 = _
      rw [getD_map_range _ _ _ _ (by rw [hmbs]; omega), hoff r hr]
    · show ((List.range (A.m / A.bs)).map _).getD r 0 = _
      rw [getD_map_range _ _ _ _ (by rw [hmbs]; omega), hnz r hr]
    · show (List.replicate (A.m / A.bs) 0).length = _
      rw [List.length_replicate, hmbs]
    · show (List.replicate (A.m / A.bs) 0).getD q 0 = _
      rw [getD_replicate_zero, Nat.zero_sub, Nat.min_zero]
    · show (List.replicate _ 0).length = _
      rw [List.length_replicate, hmbs, hoff _ (le_refl _)]
    · have h0 : (List.replicate (A.m / A.bs) 0).getD q 0 = 0 := getD_replicate_zero _ _
      have ht' : t < (List.replicate (A.m / A.bs) 0).getD q 0 := ht
      rw [h0] at ht'
      exact absurd ht' (Nat.not_lt_zero t)
  have hloop := fill_rows (fun q => A.B.ilen.getD q 0) A.B.mbs
    (fun k => g.getD ((MatAssemblyEnd_SeqBAIJ A.B).j.getD k 0) 0)
    (fun k => (List.range A.bs2).map
      (fun t => (MatAssemblyEnd_SeqBAIJ A.B).a.getD (k * A.bs2 + t) default))
    _ (MatAssemblyEnd_SeqBAIJ A.B).insertmode hcolinj hinv0
  have hB : (DisAssemble_MPIBAIJ A).B = MatSetOption
      (forLoop A.B.mbs (fun i Bn =>
        forLoopFrom (rowOffset (fun q => A.B.ilen.getD q 0) i)
          (rowOffset (fun q => A.B.ilen.getD q 0) (i + 1))
          (fun j Bn => MatSetValuesBlocked_SeqBAIJ Bn i
            (g.getD ((MatAssemblyEnd_SeqBAIJ A.B).j.getD j 0) 0)
            ((List.range A.bs2).map
              (fun t => (MatAssemblyEnd_SeqBAIJ A.B).a.getD (j * A.bs2 + t) default))
            (MatAssemblyEnd_SeqBAIJ A.B).insertmode) Bn)
        (MatSetOption (MatSeqBAIJSetPreallocation A.m A.N A.bs
          (forLoop A.B.mbs (fun i nz => nz.set i ((MatAssemblyEnd_SeqBAIJ A.B).i.getD (i + 1) 0
            - (MatAssemblyEnd_SeqBAIJ A.B).i.getD i 0)) (List.replicate A.B.mbs 0)))
          MatOption.MAT_COLUMN_ORIENTED))
      MatOption.MAT_ROW_ORIENTED := by
    unfold DisAssemble_MPIBAIJ
    simp only [hg, Option.getD_some]
    congr 1
    apply forLoop_congr
    intro i hi s'
    rw [o2 i (by omega), o2 (i + 1) (by omega)]
  obtain ⟨v1, v2, v3, v4, v5, v6⟩ := hloop
  rw [hB]
  generalize forLoop A.B.mbs (fun i Bn =>
        forLoopFrom (rowOffset (fun q => A.B.ilen.getD q 0) i)
          (rowOffset (fun q => A.B.ilen.getD q 0) (i + 1))
          (fun j Bn => MatSetValuesBlocked_SeqBAIJ Bn i
            (g.getD ((MatAssemblyEnd_SeqBAIJ A.B).j.getD j 0) 0)
            ((List.range A.bs2).map
              (fun t => (MatAssemblyEnd_SeqBAIJ A.B).a.getD (j * A.bs2 + t) default))
            (MatAssemblyEnd_SeqBAIJ A.B).insertmode) Bn)
        (MatSetOption (MatSeqBAIJSetPreallocation A.m A.N A.bs
          (forLoop A.B.mbs (fun i nz => nz.set i ((MatAssemblyEnd_SeqBAIJ A.B).i.getD (i + 1) 0
            - (MatAssemblyEnd_SeqBAIJ A.B).i.getD i 0)) (List.replicate A.B.mbs 0)))
          MatOption.MAT_COLUMN_ORIENTED) = Bn at v1 v2 v3 v4 v5 v6 ⊢
  have hlen : ∀ r, r < A.B.mbs → Bn.ilen.getD r 0 = A.B.ilen.getD r 0 := by
    intro r hr
    rw [v4 r hr]
    have := rowOffset_end_le (fun q => A.B.ilen.getD q 0) r A.B.mbs hr
    simp only at this ⊢
    omega
  refine ⟨hlen, v2, v1, fun r hr t ht => ?_⟩
  have ht' : t < Bn.ilen.getD r 0 := ht
  obtain ⟨k, k1, _, k3, k4⟩ := v6 r hr t ht'
  have hsucc := rowOffset_succ (fun q => A.B.ilen.getD q 0) r
  have e1 := o5 r hr (k - rowOffset (fun q => A.B.ilen.getD q 0) r) (by omega)
  rw [Nat.add_sub_cancel' k1] at e1
  refine ⟨k - rowOffset (fun q => A.B.ilen.getD q 0) r, by omega, ?_⟩
  show Bn.j.getD (Bn.i.getD r 0 + t) 0 = _
  rw [v1 r (Nat.le_of_lt hr), k4, ← e1]

/-- C28: for a compacted block whose column indices are distinct inside every row and below
`nbs`, and a Ghost Array that increases strictly on its `nbs` cells, the translation through
the Ghost Array is injective inside every row, and no two entries of a row are merged by
`DisAssemble_MPIBAIJ`: the rebuilt row `r` holds exactly `nz[r] = i[r+1] - i[r]` entries (rows
of the assembled old block), which is its preallocated capacity, and each of them is the
translated column of an entry of the old row. -/
theorem C28_rebuilt_rows_keep_their_entries {α : Type} [Inhabited α] [Add α]
    (A : Mat_MPIBAIJ α) (g : List Nat) (hg : A.garray = some g)
    (hm : A.m = A.B.mbs * A.bs) (hbs : 1 ≤ A.bs)
    (hgs : (g.take A.B.nbs).Sorted (· < ·)) (hnbs : A.B.nbs ≤ g.length)
    (hlt : ∀ c ∈ colRefs A.B, c < A.B.nbs)
    (hdist : ∀ r, r < A.B.mbs → ∀ t1, t1 < A.B.ilen.getD r 0 → ∀ t2, t2 < A.B.ilen.getD r 0 →
      A.B.j.getD (A.B.i.getD r 0 + t1) 0 = A.B.j.getD (A.B.i.getD r 0 + t2) 0 → t1 = t2) :
    (∀ r, r < A.B.mbs → ∀ t1, t1 < A.B.ilen.getD r 0 → ∀ t2, t2 < A.B.ilen.getD r 0 →
      g.getD (A.B.j.getD (A.B.i.getD r 0 + t1) 0) 0
        = g.getD (A.B.j.getD (A.B.i.getD r 0 + t2) 0) 0 → t1 = t2) ∧
    (∀ r, r < A.B.mbs →
      (DisAssemble_MPIBAIJ A).B.ilen.getD r 0
        = (MatAssemblyEnd_SeqBAIJ A.B).i.getD (r + 1) 0
          - (MatAssemblyEnd_SeqBAIJ A.B).i.getD r 0 ∧
      (DisAssemble_MPIBAIJ A).B.imax.getD r 0 = (DisAssemble_MPIBAIJ A).B.ilen.getD r 0 ∧
      (DisAssemble_MPIBAIJ A).B.i.getD (r + 1) 0 - (DisAssemble_MPIBAIJ A).B.i.getD r 0
        = (DisAssemble_MPIBAIJ A).B.ilen.getD r 0) ∧
    (∀ r, r < A.B.mbs → ∀ t, t < (DisAssemble_MPIBAIJ A).B.ilen.getD r 0 →
      ∃ t', t' < A.B.ilen.getD r 0 ∧
        (DisAssemble_MPIBAIJ A).B.j.getD ((DisAssemble_MPIBAIJ A).B.i.getD r 0 + t) 0
          = g.getD (A.B.j.getD (A.B.i.getD r 0 + t') 0) 0) := by
  have hinj : ∀ r, r < A.B.mbs → ∀ t1, t1 < A.B.ilen.getD r 0 →
      ∀ t2, t2 < A.B.ilen.getD r 0 →
      g.getD (A.B.j.getD (A.B.i.getD r 0 + t1) 0) 0
        = g.getD (A.B.j.getD (A.B.i.getD r 0 + t2) 0) 0 → t1 = t2 := by
    intro r hr t1 h1 t2 h2 heq
    exact hdist r hr t1 h1 t2 h2
      (ghost_pos_unique g g A.B.nbs _ _ hgs hnbs (fun _ _ => rfl)
        (hlt _ (ref_mem_colRefs A.B r t1 hr h1)) (hlt _ (ref_mem_colRefs A.B r t2 hr h2)) heq)
  obtain ⟨d1, d2, d3, d4⟩ := disassemble_row_counts A g hg hm hbs hinj
  obtain ⟨_, o2, _, _, _⟩ := assembled_facts A.B
  refine ⟨hinj, fun r hr => ⟨?_, ?_, ?_⟩, d4⟩
  · rw [d1 r hr, o2 (r + 1) (by omega), o2 r (by omega), rowOffset_succ]
    omega
  · rw [d1 r hr, d2 r hr]
  · rw [d1 r hr, d3 (r + 1) (by omega), d3 r (by omega), rowOffset_succ]
    omega

/-- C28 on `unsortedRowMat`, whose last row holds the local columns 2, 0 in this order: the
rebuilt row holds the two global columns 2, 7. -/
theorem C28_rebuilt_rows_keep_their_entries_witness :
    (unsortedRowMat.garray = some [2, 5, 7, 0] ∧
      unsortedRowMat.m = unsortedRowMat.B.mbs * unsortedRowMat.bs ∧ 1 ≤ unsortedRowMat.bs ∧
      ([2, 5, 7, 0].take unsortedRowMat.B.nbs).Sorted (· < ·) ∧
      unsortedRowMat.B.nbs ≤ [2, 5, 7, 0].length ∧
      (∀ c ∈ colRefs unsortedRowMat.B, c < unsortedRowMat.B.nbs) ∧
      (∀ r, r < unsortedRowMat.B.mbs → ∀ t1, t1 < unsortedRowMat.B.ilen.getD r 0 →
        ∀ t2, t2 < unsortedRowMat.B.ilen.getD r 0 →
        unsortedRowMat.B.j.getD (unsortedRowMat.B.i.getD r 0 + t1) 0
          = unsortedRowMat.B.j.getD (unsortedRowMat.B.i.getD r 0 + t2) 0 → t1 = t2)) ∧
    (colRefs unsortedRowMat.B = [1, 0, 2, 0] ∧
      colRefs (DisAssemble_MPIBAIJ unsortedRowMat).B = [5, 2, 2, 7] ∧
      (DisAssemble_MPIBAIJ unsortedRowMat).B.ilen = [1, 1, 2]) ∧
    (∀ r, r < unsortedRowMat.B.mbs →
      (DisAssemble_MPIBAIJ unsortedRowMat).B.ilen.getD r 0
        = (MatAssemblyEnd_SeqBAIJ unsortedRowMat.B).i.getD (r + 1) 0
          - (MatAssemblyEnd_SeqBAIJ unsortedRowMat.B).i.getD r 0 ∧
      (DisAssemble_MPIBAIJ unsortedRowMat).B.imax.getD r 0
        = (DisAssemble_MPIBAIJ unsortedRowMat).B.ilen.getD r 0 ∧
      (DisAssemble_MPIBAIJ unsortedRowMat).B.i.getD (r + 1) 0
          - (DisAssemble_MPIBAIJ unsortedRowMat).B.i.getD r 0
        = (DisAssemble_MPIBAIJ unsortedRowMat).B.ilen.getD r 0) :=
  ⟨⟨by decide, by decide, by decide, by decide, by decide, by decide, by decide⟩,
    ⟨by decide, by decide, by decide⟩,
    (C28_rebuilt_rows_keep_their_entries unsortedRowMat [2, 5, 7, 0] (by decide) (by decide)
      (by decide) (by decide) (by decide) (by decide) (by decide)).2.1⟩

end MMBAIJ
